import Mathlib

/-!
# kodb: a key-object layer over an ordered key-value store

A shallow embedding of the Go package `github.com/bvkgo/kodb` (files `db.go`,
`internal/keys.go`, `internal/value.go`, `internal/util.go`,
`internal/data_type.go`, `internal/index_field.go`,
`internal/field_stringer_map.go`, `internal/data_type_map.go`) together with
theorems about its store / delete / find protocol.

Conventions of the embedding:

* a Go `string` is a list of bytes (`Str`), compared bytewise;
* a Go `error` is a value of `Err`; a function returning `(T, error)` returns
  `Except Err T`;
* an index returned as `-1` for "absent" is `none`;
* the process-wide registries and the key-value transaction are passed
  explicitly;
* a Go `panic` is an explicit outcome.
-/

namespace Kodb

/-! ## Strings and errors -/

/-- One byte of a Go string. -/
abbrev Byte := Fin 256

/-- A Go string: a finite sequence of bytes. The order on `Str` is the bytewise
lexicographic order, which is the order of Go's `<` on strings. -/
abbrev Str := List Byte

/-- The Go string written by an ASCII literal. -/
def lit (s : String) : Str := s.toList.map (fun c => Fin.ofNat c.toNat)

/-- The byte of the slash character. -/
abbrev slash : Byte := 47

/-- The error values the package returns: `os.ErrInvalid`, `os.ErrNotExist`,
`os.ErrExist`, a `url.EscapeError`, and an error of `encoding/gob`. Wrapping
with `fmt.Errorf("...: %w", err)` keeps the kind. -/
inductive Err
  | invalid
  | notExist
  | exist
  | escape
  | gob
  deriving DecidableEq, Repr

deriving instance DecidableEq for Except

/-- How a call ends: it returns `nil`, it returns an error, or it panics. -/
inductive Outcome
  | ok
  | error (e : Err)
  | panic
  deriving DecidableEq, Repr

/-- Go slice expression `s[a:b]`. -/
def slice (s : Str) (a b : Nat) : Str := (s.take b).drop a

/-! ## Models of the Go standard library functions the package calls -/

/-- The function `strings.IndexRune(s, r)` for an ASCII rune `r`: the index of
the first occurrence of `r` in `s`, `none` standing for `-1`. -/
def indexRune : Str → Byte → Option Nat
  | [], _ => none
  | c :: cs, r => if c = r then some 0 else (indexRune cs r).map (· + 1)

/-- The function `strings.HasPrefix(s, p)`. -/
def HasPrefix (s p : Str) : Bool := p.isPrefixOf s

/-- The function `path.IsAbs`. -/
def IsAbs (p : Str) : Bool :=
  match p with
  | [] => false
  | c :: _ => decide (c = slash)

/-- One step of `path.Clean` on a path element `c`, the elements kept so far
being `stack` (the last kept element first): an empty element and `.` are
dropped, `..` removes the element before it (at the root of a rooted path it
is dropped, at the start of an unrooted path it is kept), any other element is
kept. -/
def cleanStep (rooted : Bool) (stack : List Str) (c : Str) : List Str :=
  if c = [] ∨ c = lit "." then stack
  else if c = lit ".." then
    match stack with
    | [] => if rooted then [] else [lit ".."]
    | top :: rest => if top = lit ".." then lit ".." :: top :: rest else rest
  else c :: stack

/-- The function `path.Clean`: the shortest path equivalent to `p` by purely
lexical processing (multiple slashes become one, `.` elements are eliminated,
an inner `..` is eliminated with the element before it, a `..` that begins a
rooted path is eliminated; the result ends in a slash only if it is the
root, and the empty result is `.`). -/
def Clean (p : Str) : Str :=
  if p = [] then lit "."
  else
    let rooted := IsAbs p
    let out := [slash].intercalate ((p.splitOn slash).foldl (cleanStep rooted) []).reverse
    if rooted then slash :: out
    else if out = [] then lit "." else out

/-- The function `path.Join`: the elements from the first non-empty one on,
joined by slashes and cleaned; the empty string when every element is
empty. -/
def Join (elem : List Str) : Str :=
  match elem.dropWhile (fun e => decide (e = [])) with
  | [] => []
  | e :: es => Clean ([slash].intercalate (e :: es))

/-- The function `shouldEscape(c, encodePathSegment)` of `net/url`: letters,
digits, the marks `-_.~` and the reserved characters `$&+:=@` are kept; every
other byte (the reserved `/;,?` among them) is escaped. -/
def shouldEscape (c : Byte) : Bool :=
  if (97 ≤ c.val ∧ c.val ≤ 122) ∨ (65 ≤ c.val ∧ c.val ≤ 90) ∨ (48 ≤ c.val ∧ c.val ≤ 57) then false
  else if c.val = 45 ∨ c.val = 95 ∨ c.val = 46 ∨ c.val = 126 then false
  else if c.val = 36 ∨ c.val = 38 ∨ c.val = 43 ∨ c.val = 58 ∨ c.val = 61 ∨ c.val = 64 then false
  else true

/-- The digit `"0123456789ABCDEF"[n]`. -/
def upperhex (n : Nat) : Byte :=
  if n < 10 then Fin.ofNat (48 + n) else Fin.ofNat (55 + n)

/-- The bytes `url.PathEscape` writes for one byte. -/
def escapeByte (c : Byte) : Str :=
  if shouldEscape c then [37, upperhex (c.val / 16), upperhex (c.val % 16)] else [c]

/-- The function `url.PathEscape`. -/
def PathEscape (s : Str) : Str := s.flatMap escapeByte

/-- The function `ishex` of `net/url`. -/
def ishex (c : Byte) : Bool :=
  decide ((48 ≤ c.val ∧ c.val ≤ 57) ∨ (97 ≤ c.val ∧ c.val ≤ 102) ∨ (65 ≤ c.val ∧ c.val ≤ 70))

/-- The function `unhex` of `net/url`. -/
def unhex (c : Byte) : Nat :=
  if 48 ≤ c.val ∧ c.val ≤ 57 then c.val - 48
  else if 97 ≤ c.val ∧ c.val ≤ 102 then c.val - 97 + 10
  else if 65 ≤ c.val ∧ c.val ≤ 70 then c.val - 65 + 10
  else 0

/-- The function `url.PathUnescape`: every `%XX` becomes the byte it names; a
`%` not followed by two hexadecimal digits is an `EscapeError`. -/
def PathUnescape : Str → Except Err Str
  | [] => .ok []
  | c :: cs =>
    if c = 37 then
      match cs with
      | h1 :: h2 :: rest =>
        if ishex h1 && ishex h2 then
          match PathUnescape rest with
          | .ok t => .ok (Fin.ofNat (unhex h1 * 16 + unhex h2) :: t)
          | .error e => .error e
        else .error .escape
      | _ => .error .escape
    else
      match PathUnescape cs with
      | .ok t => .ok (c :: t)
      | .error e => .error e

/-- The loop of `sort.Search`: `i` and `j` close in on the smallest index at
which `f` holds; `fuel` bounds the number of iterations. -/
def searchLoop (f : Nat → Bool) : Nat → Nat → Nat → Nat
  | 0, i, _ => i
  | fuel + 1, i, j =>
    if i < j then
      let h := (i + j) / 2
      if !f h then searchLoop f fuel (h + 1) j else searchLoop f fuel i h
    else i

/-- The function `sort.Search(n, f)`. The interval `[i, j)` shrinks at every
iteration, so `n` iterations are enough (`searchLoop_fuel`). -/
def Search (n : Nat) (f : Nat → Bool) : Nat := searchLoop f n 0 n

/-! ## `internal/util.go`: `indexRuneN` -/

/-- The loop of `indexRuneN`: `n` more occurrences are looked for from
`offset` on. -/
def indexRuneNLoop (s : Str) (r : Byte) : Nat → Nat → Option Nat
  | 0, offset => if offset = 0 then none else some (offset - 1)
  | n + 1, offset =>
    match indexRune (s.drop offset) r with
    | none => none
    | some p => indexRuneNLoop s r n (offset + p + 1)

/-- The function `indexRuneN(s, r, n)`: the index of the `n`-th occurrence of
`r` in `s`, `none` standing for `-1` (also returned when `n = 0`). -/
def indexRuneN (s : Str) (r : Byte) (n : Nat) : Option Nat := indexRuneNLoop s r n 0

/-! ## `internal/keys.go` -/

/-- The constant `ObjectKeyspace`. -/
def ObjectKeyspace : Str := lit "ob"

/-- The constant `IndexKeyspace`. -/
def IndexKeyspace : Str := lit "ix"

/-- The type `ObjectKey`, a string. -/
abbrev ObjectKey := Str

/-- The type `IndexKey`, a string. -/
abbrev IndexKey := Str

/-- The function `NewObjectKey`. -/
def NewObjectKey (key : Str) : Except Err ObjectKey :=
  if !IsAbs key then .error .invalid
  else if Clean key ≠ key then .error .invalid
  else .ok (Join [lit "/", ObjectKeyspace, key])

/-- The function `ParseObjectKey`. -/
def ParseObjectKey (s : Str) : Except Err ObjectKey :=
  if !HasPrefix s (lit "/" ++ ObjectKeyspace) then .error .invalid
  else .ok s

/-- The method `ObjectKey.UserKey`: `ok[len(ObjectKeyspace)+1:]`. (Go panics
when the key is shorter than three bytes; no key accepted by `ParseObjectKey`
or built by `NewObjectKey` is.) -/
def UserKey (ok : ObjectKey) : Str := ok.drop (ObjectKeyspace.length + 1)

/-- The function `NewIndexKey`. -/
def NewIndexKey (okey : ObjectKey) (typeName fieldName fieldValue : Str) : Except Err IndexKey :=
  if okey.length = 0 then .error .invalid
  else if typeName.length = 0 ∨ fieldName.length = 0 ∨ fieldValue.length = 0 then .error .invalid
  else .ok (Join [lit "/", IndexKeyspace, PathEscape typeName, PathEscape fieldName,
                  PathEscape fieldValue, okey])

/-- The function `ParseIndexKey`. -/
def ParseIndexKey (s : Str) : Except Err IndexKey :=
  match indexRuneN s slash 1, indexRuneN s slash 2, indexRuneN s slash 3,
        indexRuneN s slash 4, indexRuneN s slash 5 with
  | some keyspacePos, some typeNamePos, some fieldNamePos, some fieldValuePos, some objectKeyPos =>
    if keyspacePos ≠ 0 then .error .invalid
    else
      let keyspace := slice s (keyspacePos + 1) typeNamePos
      let typeName := slice s (typeNamePos + 1) fieldNamePos
      let fieldName := slice s (fieldNamePos + 1) fieldValuePos
      let fieldValue := slice s (fieldValuePos + 1) objectKeyPos
      let objectKey := s.drop objectKeyPos
      if keyspace.length = 0 ∨ typeName.length = 0 ∨ fieldName.length = 0 ∨
          fieldValue.length = 0 ∨ objectKey.length = 0 then .error .invalid
      else
        match PathUnescape typeName with
        | .error e => .error e
        | .ok _ =>
          match PathUnescape fieldName with
          | .error e => .error e
          | .ok _ =>
            match PathUnescape fieldValue with
            | .error e => .error e
            | .ok _ =>
              match ParseObjectKey objectKey with
              | .error e => .error e
              | .ok _ => .ok s
  | _, _, _, _, _ => .error .invalid

/-- The segment getter shared by `GetTypeName`, `GetFieldName` and
`GetFieldValue`: the unescaped text between the `m`-th and the `(m+1)`-th
slash, when it is not empty. -/
def getSegment (ik : IndexKey) (m : Nat) : Except Err Str :=
  match indexRuneN ik slash m, indexRuneN ik slash (m + 1) with
  | some p, some q => if p + 1 < q then PathUnescape (slice ik (p + 1) q) else .error .invalid
  | _, _ => .error .invalid

/-- The method `IndexKey.GetTypeName`. -/
def GetTypeName (ik : IndexKey) : Except Err Str := getSegment ik 2

/-- The method `IndexKey.GetFieldName`. -/
def GetFieldName (ik : IndexKey) : Except Err Str := getSegment ik 3

/-- The method `IndexKey.GetFieldValue`. -/
def GetFieldValue (ik : IndexKey) : Except Err Str := getSegment ik 4

/-- The method `IndexKey.GetObjectKey`. -/
def GetObjectKey (ik : IndexKey) : Except Err ObjectKey :=
  match indexRuneN ik slash 5 with
  | some p => if p + 1 < ik.length then .ok (ik.drop p) else .error .invalid
  | none => .error .invalid

/-- The method `IndexKey.WithObjectKey`. -/
def WithObjectKey (ik : IndexKey) (okey : ObjectKey) : Except Err IndexKey :=
  match indexRuneN ik slash 5 with
  | some p => .ok (ik.take p ++ okey)
  | none => .error .invalid

/-- The method `IndexKey.IndexKeyRange`: the pair `(begin, end)`. -/
def IndexKeyRange (ik : IndexKey) : Except Err (Str × Str) :=
  match indexRuneN ik slash 5 with
  | none => .error .invalid
  | some p => .ok (ik.take (p + 1), ik.take p ++ [slash + 1])

/-- The function `SortIndexKeys`: `sort.Slice` with the order `<` of strings.
Equal strings cannot be told apart, so the sorted slice is the same whatever
algorithm sorts it. -/
def SortIndexKeys (iks : List IndexKey) : List IndexKey := iks.insertionSort (· ≤ ·)

/-- The function `SearchIndexKeys`. -/
def SearchIndexKeys (iks : List IndexKey) (ik : IndexKey) : Nat :=
  Search iks.length (fun i => match iks.get? i with
    | some x => decide (ik ≤ x)
    | none => false)

/-- The test `i := SearchIndexKeys(iks, k); i < len(iks) && iks[i] == k` that
`DiffIndexKeys` and `HasAllIndexKeys` make. -/
def searchHit (iks : List IndexKey) (k : IndexKey) : Bool :=
  let i := SearchIndexKeys iks k
  decide (i < iks.length) && decide (iks.get? i = some k)

/-! ## `internal/util.go`: `DiffIndexKeys` -/

/-- The function `DiffIndexKeys`: the pair `(deletions, additions)`. -/
def DiffIndexKeys (old cur : List IndexKey) : List IndexKey × List IndexKey :=
  let additions := cur.filter (fun k => !searchHit old k)
  let deletions := old.filter (fun k => !searchHit cur k)
  (deletions, additions)

/-! ## Reflection: objects as the package sees them -/

/-- The predeclared signed integer types. -/
inductive IntKind
  | int | int8 | int16 | int32 | int64
  deriving DecidableEq, Repr

/-- The predeclared unsigned integer types. -/
inductive UintKind
  | uint | uint8 | uint16 | uint32 | uint64
  deriving DecidableEq, Repr

/-- The values of `reflect.Kind` the package tells apart. -/
inductive Kind
  | bool
  | int (k : IntKind)
  | uint (k : UintKind)
  | string
  | slice
  | struct
  | ptr
  | other
  deriving DecidableEq, Repr

/-- The identity of a Go type (`reflect.Type`): a predeclared scalar type, the
type `[]byte`, the type `net.IP`, or any other type, given by an identifier
and its kind (a defined type such as `type Age int` is `named _ (.int .int)`). -/
inductive GoType
  | bool
  | int (k : IntKind)
  | uint (k : UintKind)
  | string
  | bytes
  | ip
  | named (id : Nat) (kind : Kind)
  deriving DecidableEq, Repr

/-- The value of a struct field as reflection shows it (`reflect.Value`): its
dynamic type and its content. A value of a type other than the predeclared
scalars, `[]byte` and `net.IP` carries its type and its content as bytes. -/
inductive FieldValue
  | bool (b : Bool)
  | int (k : IntKind) (i : Int)
  | uint (k : UintKind) (n : Nat)
  | string (s : Str)
  | bytes (b : Str)
  | ip (text : Str)
  | named (id : Nat) (kind : Kind) (content : Str)
  deriving DecidableEq, Repr

/-- The method `reflect.Value.Type`. -/
def FieldValue.typ : FieldValue → GoType
  | .bool _ => .bool
  | .int k _ => .int k
  | .uint k _ => .uint k
  | .string _ => .string
  | .bytes _ => .bytes
  | .ip _ => .ip
  | .named id kind _ => .named id kind

/-- The method `reflect.Value.Kind`. -/
def FieldValue.kind : FieldValue → Kind
  | .bool _ => .bool
  | .int k _ => .int k
  | .uint k _ => .uint k
  | .string _ => .string
  | .bytes _ => .slice
  | .ip _ => .slice
  | .named _ kind _ => kind

/-- A struct value seen through reflection: the identity of its struct type
and the accessor `FieldByIndex`. -/
structure StructValue where
  gotype : Nat
  field : List Nat → FieldValue

/-- The argument `ob interface{}` of the public operations when it is not the
nil interface: a struct, a non-nil pointer to a struct, a nil pointer to a
struct type, or a value of any other type. (The nil interface is the `none` of
`RegisterAny`.) -/
inductive Object
  | structVal (v : StructValue)
  | structPtr (v : StructValue)
  | nilPtr (gotype : Nat)
  | other

/-- The function `getStructType` on an argument that is not the nil interface:
the struct type of a struct or of a pointer to struct. -/
def getStructType : Object → Option Nat
  | .structVal v => some v.gotype
  | .structPtr v => some v.gotype
  | .nilPtr t => some t
  | .other => none

/-! ## `internal/value.go`: the envelope -/

/-- The struct `Value`: the envelope stored under an object key (the field
`Type` is `TypeName` here). -/
structure Value where
  Data : Str
  TypeName : Str
  ObjectKey : ObjectKey
  IndexKeys : List IndexKey
  deriving DecidableEq, Repr

/-- The package `encoding/gob` as the package uses it: `encode` is
`Value.String`, `decode` is the gob decoding of `ParseValue` (`none` for a
decoding error), `marshal` is `gobMarshalString` and `unmarshal` is
`gobUnmarshalString` (the object decoded into the target). The pair
`encode`/`decode` is a lossless codec, and the empty input does not decode. -/
structure Gob where
  encode : Value → Str
  decode : Str → Option Value
  marshal : Object → Except Err Str
  unmarshal : Str → Object → Except Err Object
  decode_encode : ∀ v, decode (encode v) = some v
  decode_nil : decode [] = none

/-! ## `internal/index_field.go`, `internal/field_stringer_map.go` -/

/-- The struct `IndexField`. -/
structure IndexField where
  name : Str
  position : List Nat
  stringer : Option (StructValue → Except Err Str)

/-- The struct `DataType` (its `marshaler` and `unmarshaler` are always the
gob functions, its `cloner` is never set). -/
structure DataType where
  gotype : Nat
  name : Str
  indexFields : List IndexField

/-- The process-wide tables: `nameMap` and `typeMap` of `data_type_map.go` and
`userDefinedTypesMap` of `field_stringer_map.go`. -/
structure Registry where
  nameMap : List (Str × DataType)
  typeMap : List (Nat × DataType)
  userDefinedTypesMap : List (GoType × (FieldValue → Except Err Str))

/-- The list `SupportedKinds`. -/
def SupportedKinds : List Kind :=
  [.bool, .int .int, .int .int8, .int .int16, .int .int32, .int .int64,
   .uint .uint, .uint .uint8, .uint .uint16, .uint .uint32, .uint .uint64, .string]

/-- The list `SupportedTypes`. -/
def SupportedTypes : List GoType := [.bytes, .ip]

/-- The decimal numeral of a natural number (`fmt.Sprintf("%d", n)`). -/
def decimal (n : Nat) : Str := (Nat.toDigits 10 n).map (fun c => Fin.ofNat c.toNat)

/-- The lower-case hexadecimal digit of `n < 16`. -/
def lowerhex (n : Nat) : Byte :=
  if n < 10 then Fin.ofNat (48 + n) else Fin.ofNat (87 + n)

/-- The function `toStringNative`, a type switch on the dynamic type of the
value: only the predeclared types match a case. -/
def toStringNative : FieldValue → Str
  | .bool b => if b then lit "true" else lit "false"
  | .int _ i => if i < 0 then 45 :: decimal i.natAbs else decimal i.natAbs
  | .uint _ n => decimal n
  | .string s => s
  | _ => lit "unsupported-index-field-kind"

/-- The function `toStringStandard`. -/
def toStringStandard : FieldValue → Except Err Str
  | .bytes b => .ok (b.flatMap (fun c => [lowerhex (c.val / 16), lowerhex (c.val % 16)]))
  | .ip text => .ok text
  | _ => .error .invalid

/-- The function `FormatIndexFieldValue`. -/
def FormatIndexFieldValue (g : Registry) (v : FieldValue) : Except Err Str :=
  match g.userDefinedTypesMap.find? (fun e => decide (e.1 = v.typ)) with
  | none => .error .notExist
  | some e => e.2 v

/-- The method `IndexField.ToString` on a struct value, for an exported field
(on an unexported field the call `fvalue.Interface()` panics; the objects here
have none). -/
def IndexField.ToString (g : Registry) (f : IndexField) (ovalue : StructValue) : Except Err Str :=
  let fvalue := ovalue.field f.position
  match f.stringer with
  | some stringer => stringer ovalue
  | none =>
    if fvalue.kind ∈ SupportedKinds then .ok (toStringNative fvalue)
    else if fvalue.typ ∈ SupportedTypes then toStringStandard fvalue
    else FormatIndexFieldValue g fvalue

/-! ## `internal/data_type.go`, `internal/data_type_map.go` -/

/-- The function `GetDataType`. -/
def GetDataType (g : Registry) (object : Object) : Except Err DataType :=
  match getStructType object with
  | none => .error .invalid
  | some stype =>
    match g.typeMap.find? (fun e => decide (e.1 = stype)) with
    | none => .error .invalid
    | some e => .ok e.2

/-- The method `DataType.goodValue`: the struct value behind the object when
it is a struct, or a non-nil pointer to a struct, of the type `t.gotype`. -/
def DataType.goodValue (t : DataType) : Object → Option StructValue
  | .structVal v => if v.gotype = t.gotype then some v else none
  | .structPtr v => if v.gotype = t.gotype then some v else none
  | .nilPtr _ => none
  | .other => none

/-- A Go map from field names to index keys, as the list of its entries in the
order in which the keys were first inserted. (Go leaves the iteration order of
a map unspecified; nothing proved below depends on it.) -/
abbrev IndexKeyMapping := List (Str × IndexKey)

/-- The assignment `m[k] = v`. -/
def mapSet {β : Type} (m : List (Str × β)) (k : Str) (v : β) : List (Str × β) :=
  match m with
  | [] => [(k, v)]
  | (k0, v0) :: rest => if k0 = k then (k, v) :: rest else (k0, v0) :: mapSet rest k v

/-- The loop of `DataType.IndexKeyMap` over the index fields. -/
def indexKeyMapLoop (g : Registry) (t : DataType) (ovalue : StructValue) (okey : ObjectKey) :
    List IndexField → IndexKeyMapping → Except Err IndexKeyMapping
  | [], ikMap => .ok ikMap
  | ifield :: rest, ikMap =>
    match ifield.ToString g ovalue with
    | .error e => .error e
    | .ok fstring =>
      if fstring.length = 0 then .ok []
      else
        match NewIndexKey okey t.name ifield.name fstring with
        | .error e => .error e
        | .ok ik => indexKeyMapLoop g t ovalue okey rest (mapSet ikMap ifield.name ik)

/-- The method `DataType.IndexKeyMap`. -/
def DataType.IndexKeyMap (g : Registry) (t : DataType) (ob : Object) : Except Err IndexKeyMapping :=
  match t.goodValue ob with
  | none => .error .invalid
  | some ovalue =>
    match NewObjectKey (lit "/x") with
    | .error e => .error e
    | .ok okey => indexKeyMapLoop g t ovalue okey t.indexFields []

/-- The method `DataType.Marshal`. -/
def DataType.Marshal (c : Gob) (t : DataType) (ob : Object) : Except Err Str :=
  match t.goodValue ob with
  | none => .error .invalid
  | some _ => c.marshal ob

/-- The method `DataType.Unmarshal`: the target after decoding into it. -/
def DataType.Unmarshal (c : Gob) (t : DataType) (s : Str) (ob : Object) : Except Err Object :=
  match t.goodValue ob with
  | none => .error .invalid
  | some _ => c.unmarshal s ob

/-! ## Registration: `NewIndexFields`, `NewDataType`, `Register` -/

/-- What the package reads of a `reflect.StructField`: its name, the value of
its `kodb` tag (`Tag.Lookup`, `none` when the tag is absent), the kind of its
type, the kind of the element type when its type is a pointer, and its index
in the struct. -/
structure StructField where
  Name : Str
  kodbTag : Option Str
  kind : Kind
  elemKind : Option Kind
  Index : List Nat
  deriving DecidableEq, Repr

/-- The struct types of the program: the fields `stype.Field(0)`, ...,
`stype.Field(stype.NumField()-1)` of the struct type with a given identity. -/
abbrev TypeEnv := Nat → List StructField

/-- The functions `isStruct` and `isStructPtr` on the type of a field. -/
def StructField.isStructOrPtr (sfield : StructField) : Bool :=
  decide (sfield.kind = Kind.struct) ||
    (decide (sfield.kind = Kind.ptr) && decide (sfield.elemKind = some Kind.struct))

/-- The function `NewIndexFields`: a field is indexed when its `kodb` tag has
the comma-separated part `index`; an indexed field of struct or
pointer-to-struct type is an error. -/
def NewIndexFields (sfield : StructField) : Except Err (List IndexField) :=
  match sfield.kodbTag with
  | none => .ok []
  | some tag =>
    let indexed := (tag.splitOn 44).any (fun t => decide (t = lit "index"))
    if !indexed then .ok []
    else if sfield.isStructOrPtr then .error .invalid
    else .ok [{ name := sfield.Name, position := sfield.Index, stringer := none }]

/-- The loop of `NewDataType` over the fields of the struct type. -/
def newDataTypeLoop : List StructField → List IndexField → Except Err (List IndexField)
  | [], indexFields => .ok indexFields
  | sfield :: rest, indexFields =>
    match NewIndexFields sfield with
    | .error e => .error e
    | .ok ifields => newDataTypeLoop rest (indexFields ++ ifields)

/-- The function `NewDataType`. -/
def NewDataType (env : TypeEnv) (name : Str) (sample : Object) : Except Err DataType :=
  match getStructType sample with
  | none => .error .invalid
  | some stype =>
    match newDataTypeLoop (env stype) [] with
    | .error e => .error e
    | .ok indexFields => .ok { gotype := stype, name := name, indexFields := indexFields }

/-- The assignment `typeMap[k] = v`. -/
def typeMapSet (m : List (Nat × DataType)) (k : Nat) (v : DataType) : List (Nat × DataType) :=
  match m with
  | [] => [(k, v)]
  | (k0, v0) :: rest => if k0 = k then (k, v) :: rest else (k0, v0) :: typeMapSet rest k v

/-- The function `Register`: the registry after the call, or the error. -/
def Register (env : TypeEnv) (g : Registry) (datatype : Str) (object : Object) :
    Except Err Registry :=
  if (g.nameMap.find? (fun e => decide (e.1 = datatype))).isSome then .error .exist
  else
    match getStructType object with
    | none => .error .invalid
    | some stype =>
      if (g.typeMap.find? (fun e => decide (e.1 = stype))).isSome then .error .invalid
      else
        match NewDataType env datatype object with
        | .error e => .error e
        | .ok t =>
          .ok { nameMap := mapSet g.nameMap datatype t,
                typeMap := typeMapSet g.typeMap stype t,
                userDefinedTypesMap := g.userDefinedTypesMap }

/-- The function `Register` on any argument of type `interface{}`, `none`
being the nil interface: how the call ends and the maps after it. The name is
looked up first. For the nil interface `reflect.TypeOf` returns the nil
`reflect.Type`, and `getStructType` passes it to `isStruct`, whose call
`t.Kind()` panics on it. -/
def RegisterAny (env : TypeEnv) (g : Registry) (datatype : Str) (object : Option Object) :
    Outcome × Registry :=
  if (g.nameMap.find? (fun e => decide (e.1 = datatype))).isSome then (.error .exist, g)
  else
    match object with
    | none => (.panic, g)
    | some ob =>
      match Register env g datatype ob with
      | .ok g1 => (.ok, g1)
      | .error e => (.error e, g)

/-- A `Register` call on the process-wide maps: the error it returns, if any,
and the maps after the call. The maps are assigned on the success path only;
every error is returned before. -/
def registerCall (env : TypeEnv) (g : Registry) (call : Str × Object) : Option Err × Registry :=
  match Register env g call.1 call.2 with
  | .ok g1 => (none, g1)
  | .error e => (some e, g)

/-- The maps after a sequence of `Register` calls. -/
def registerAll (env : TypeEnv) (g : Registry) : List (Str × Object) → Registry
  | [] => g
  | call :: rest => registerAll env (registerCall env g call).2 rest

/-- The name map and the type map hold the same data types in one-to-one
correspondence: no name and no struct type is listed twice, every data type of
the name map is listed under its own name and is the entry of the type map at
its own struct type, and every data type of the type map is listed under its
own struct type and is the entry of the name map at its own name. -/
def Registry.consistent (g : Registry) : Prop :=
  (g.nameMap.map Prod.fst).Nodup ∧ (g.typeMap.map Prod.fst).Nodup ∧
  (∀ e ∈ g.nameMap, e.2.name = e.1 ∧ (e.2.gotype, e.2) ∈ g.typeMap) ∧
  (∀ e ∈ g.typeMap, e.2.gotype = e.1 ∧ (e.2.name, e.2) ∈ g.nameMap)

/-! ## `internal/value.go`: operations on the envelope -/

/-- The loop of `NewValue` that rewrites the owner of every extracted key. -/
def withObjectKeyAll (okey : ObjectKey) : List IndexKey → Except Err (List IndexKey)
  | [] => .ok []
  | ik :: rest =>
    match WithObjectKey ik okey with
    | .error e => .error e
    | .ok x =>
      match withObjectKeyAll okey rest with
      | .error e => .error e
      | .ok xs => .ok (x :: xs)

/-- The function `NewValue`. -/
def NewValue (c : Gob) (g : Registry) (okey : ObjectKey) (object : Object) (datatype : DataType) :
    Except Err Value :=
  match datatype.Marshal c object with
  | .error e => .error e
  | .ok s =>
    match datatype.IndexKeyMap g object with
    | .error e => .error e
    | .ok ikMap =>
      match withObjectKeyAll okey (ikMap.map Prod.snd) with
      | .error e => .error e
      | .ok iks =>
        .ok { Data := s, TypeName := datatype.name, ObjectKey := okey, IndexKeys := SortIndexKeys iks }

/-- The function `NewStringValue`. -/
def NewStringValue (okey : ObjectKey) (value : Str) : Value :=
  { Data := value, TypeName := lit "string", ObjectKey := okey, IndexKeys := [] }

/-- The loop of `ParseValue` over the index keys of the decoded envelope. -/
def parseIndexKeysAll : List IndexKey → Except Err Unit
  | [] => .ok ()
  | x :: rest =>
    match ParseIndexKey x with
    | .error e => .error e
    | .ok _ => parseIndexKeysAll rest

/-- The function `ParseValue`. -/
def ParseValue (c : Gob) (s : Str) : Except Err Value :=
  match c.decode s with
  | none => .error .gob
  | some v =>
    match ParseObjectKey v.ObjectKey with
    | .error e => .error e
    | .ok _ =>
      match parseIndexKeysAll v.IndexKeys with
      | .error e => .error e
      | .ok _ => .ok v

/-- The method `Value.HasAllIndexKeys`. -/
def Value.HasAllIndexKeys (v : Value) : List IndexKey → Bool
  | [] => true
  | ik :: rest => if searchHit v.IndexKeys ik then v.HasAllIndexKeys rest else false

/-! ## The underlying key-value transaction

The package consumes an ordered key-value transaction (`kv.Transaction`) that
is not part of it. Its content is a finite map from keys to values, `Get` and
`Delete` fail only with `os.ErrNotExist`, `Set` does not fail, and `Ascend`
with the cursor's `GetNext` enumerates the keys of a half-open range in
ascending order. The section on backend errors further below lifts the
restriction on the mutating calls: there `Set` and `Delete` may be answered
with any error, and `Store` and `Delete` of `db.go` return it. -/

/-- The content of the key-value transaction: the list of its entries. -/
abbrev KV := List (Str × Str)

/-- The call `tx.Get(ctx, k)`; `none` is `os.ErrNotExist`. -/
def kvGet : KV → Str → Option Str
  | [], _ => none
  | (k, v) :: rest, q => if k = q then some v else kvGet rest q

/-- The content without the key `k`. -/
def kvErase (kv : KV) (k : Str) : KV := kv.filter (fun e => decide (e.1 ≠ k))

/-- The call `tx.Set(ctx, k, v)`. -/
def kvSet (kv : KV) (k v : Str) : KV := (k, v) :: kvErase kv k

/-- The call `tx.Delete(ctx, k)`; `none` is `os.ErrNotExist`. -/
def kvDelete (kv : KV) (k : Str) : Option KV :=
  match kvGet kv k with
  | none => none
  | some _ => some (kvErase kv k)

/-- The keys that `tx.Ascend(ctx, b, e, it)` followed by `it.GetNext` until
`os.ErrNotExist` returns: the keys `k` with `b ≤ k < e`, in ascending order. -/
def kvAscend (kv : KV) (b e : Str) : List Str :=
  (((kv.map Prod.fst).filter (fun k => decide (b ≤ k ∧ k < e))).dedup).insertionSort (· ≤ ·)

/-- A mutating call issued on the key-value transaction. -/
inductive Op
  | set (k v : Str)
  | delete (k : Str)
  deriving DecidableEq, Repr

/-- The key a mutating call is issued on. -/
def Op.key : Op → Str
  | .set k _ => k
  | .delete k => k

/-- The state of a transaction `Tx`: the content of the key-value transaction
`t.tx` and, as a record for the proofs, the mutating calls issued on it so far,
in order. -/
structure Tx where
  kv : KV
  log : List Op

/-- The call `t.tx.Set(ctx, k, v)`. -/
def Tx.set (t : Tx) (k v : Str) : Tx :=
  { kv := kvSet t.kv k v, log := t.log ++ [Op.set k v] }

/-- The call `t.tx.Delete(ctx, k)`: the flag tells whether it returned `nil`
(otherwise `os.ErrNotExist`, and the content is unchanged). -/
def Tx.delete (t : Tx) (k : Str) : Bool × Tx :=
  match kvDelete t.kv k with
  | none => (false, { kv := t.kv, log := t.log ++ [Op.delete k] })
  | some kv1 => (true, { kv := kv1, log := t.log ++ [Op.delete k] })

/-- The effect of one logged call on the content (a `Delete` of an absent key
changes nothing). -/
def applyOp (kv : KV) : Op → KV
  | .set k v => kvSet kv k v
  | .delete k => (kvDelete kv k).getD kv

/-- The content after a sequence of calls. -/
def replay (kv : KV) (ops : List Op) : KV := ops.foldl applyOp kv

/-! ## `db.go`: the transaction engine -/

/-- The method `Tx.Get`. -/
def Tx.Get (c : Gob) (t : Tx) (key : Str) : Except Err Str :=
  match NewObjectKey key with
  | .error e => .error e
  | .ok okey =>
    match kvGet t.kv okey with
    | none => .error .notExist
    | some s =>
      match ParseValue c s with
      | .error e => .error e
      | .ok v => .ok v.Data

/-- The method `Tx.Set`. -/
def Tx.Set (c : Gob) (t : Tx) (key value : Str) : Outcome × Tx :=
  match NewObjectKey key with
  | .error e => (.error e, t)
  | .ok okey => (.ok, t.set okey (c.encode (NewStringValue okey value)))

/-- The loop `for _, k := range keys { t.tx.Delete(ctx, k) ... }` of
`Tx.Delete` and `Tx.Store`: a key that is absent ends it with the panic
`index consistency bug`. -/
def deleteIndexKeys (t : Tx) : List IndexKey → Outcome × Tx
  | [] => (.ok, t)
  | k :: rest =>
    match t.delete k with
    | (false, t1) => (.panic, t1)
    | (true, t1) => deleteIndexKeys t1 rest

/-- The method `Tx.Delete`. -/
def Tx.Delete (c : Gob) (t : Tx) (key : Str) : Outcome × Tx :=
  match NewObjectKey key with
  | .error e => (.error e, t)
  | .ok okey =>
    match kvGet t.kv okey with
    | none => (.error .notExist, t)
    | some s =>
      match ParseValue c s with
      | .error e => (.error e, t)
      | .ok v =>
        match t.delete okey with
        | (false, t1) => (.error .notExist, t1)
        | (true, t1) => deleteIndexKeys t1 v.IndexKeys

/-- The method `Tx.Load`: the target after decoding into it. -/
def Tx.Load (c : Gob) (g : Registry) (t : Tx) (key : Str) (ob : Object) : Except Err Object :=
  match NewObjectKey key with
  | .error e => .error e
  | .ok okey =>
    match GetDataType g ob with
    | .error e => .error e
    | .ok datatype =>
      match kvGet t.kv okey with
      | none => .error .notExist
      | some s =>
        match ParseValue c s with
        | .error e => .error e
        | .ok v => datatype.Unmarshal c v.Data ob

/-- The loop of `Tx.Store` over the additions. -/
def setIndexKeys (t : Tx) : List IndexKey → Tx
  | [] => t
  | i :: rest => setIndexKeys (t.set i []) rest

/-- The old envelope `Tx.Store` works with: the empty `Value` when nothing, or
the empty string, is stored at the key, the parsed envelope otherwise. -/
def oldValue (c : Gob) (t : Tx) (okey : ObjectKey) : Except Err Value :=
  let s := (kvGet t.kv okey).getD []
  if s.length > 0 then ParseValue c s
  else .ok { Data := [], TypeName := [], ObjectKey := [], IndexKeys := [] }

/-- The method `Tx.Store`. -/
def Tx.Store (c : Gob) (g : Registry) (t : Tx) (key : Str) (ob : Object) : Outcome × Tx :=
  match NewObjectKey key with
  | .error e => (.error e, t)
  | .ok okey =>
    match GetDataType g ob with
    | .error e => (.error e, t)
    | .ok datatype =>
      match oldValue c t okey with
      | .error e => (.error e, t)
      | .ok old =>
        match NewValue c g okey ob datatype with
        | .error e => (.error e, t)
        | .ok cur =>
          let diff := DiffIndexKeys old.IndexKeys cur.IndexKeys
          let t1 := setIndexKeys t diff.2
          let t2 := t1.set okey (c.encode cur)
          deleteIndexKeys t2 diff.1

/-! ## `db.go` over a backend whose mutating calls may fail

`Tx.Store` and `Tx.Delete` return the error of a `t.tx.Set` or `t.tx.Delete`
call that fails, and panic when the `Delete` of an index key is answered with
`os.ErrNotExist`. The definitions of this section are those of `Tx.Store` and
`Tx.Delete` above with the errors of the backend as a parameter; with a backend
that answers no call with an error they are the definitions above. -/

/-- The errors of the backend: `f n` is the error, if any, with which the
key-value transaction answers the mutating call issued on it when `n` mutating
calls were issued on it before. A call answered with an error changes
nothing. -/
abbrev Faults := Nat → Option Err

/-- The call `t.tx.Set(ctx, k, v)`: the error it returns, if any, and the
transaction after it. -/
def Tx.setF (f : Faults) (t : Tx) (k v : Str) : Option Err × Tx :=
  match f t.log.length with
  | some e => (some e, { kv := t.kv, log := t.log ++ [Op.set k v] })
  | none => (none, t.set k v)

/-- The call `t.tx.Delete(ctx, k)`: the error it returns, if any
(`os.ErrNotExist` for an absent key), and the transaction after it. -/
def Tx.deleteF (f : Faults) (t : Tx) (k : Str) : Option Err × Tx :=
  match f t.log.length with
  | some e => (some e, { kv := t.kv, log := t.log ++ [Op.delete k] })
  | none =>
    match t.delete k with
    | (false, t1) => (some .notExist, t1)
    | (true, t1) => (none, t1)

/-- The loop of `Tx.Store` over the additions: the first `Set` that fails ends
it with its error. -/
def setIndexKeysF (f : Faults) (t : Tx) : List IndexKey → Option Err × Tx
  | [] => (none, t)
  | i :: rest =>
    match t.setF f i [] with
    | (some e, t1) => (some e, t1)
    | (none, t1) => setIndexKeysF f t1 rest

/-- The loop `for _, k := range keys { t.tx.Delete(ctx, k) ... }` of
`Tx.Delete` and `Tx.Store`: the first `Delete` that fails ends it, with the
panic `index consistency bug` when its error is `os.ErrNotExist` and with its
error otherwise. -/
def deleteIndexKeysF (f : Faults) (t : Tx) : List IndexKey → Outcome × Tx
  | [] => (.ok, t)
  | k :: rest =>
    match t.deleteF f k with
    | (some e, t1) => if e = .notExist then (.panic, t1) else (.error e, t1)
    | (none, t1) => deleteIndexKeysF f t1 rest

/-- The method `Tx.Set`, with the errors of the backend. -/
def Tx.SetF (c : Gob) (f : Faults) (t : Tx) (key value : Str) : Outcome × Tx :=
  match NewObjectKey key with
  | .error e => (.error e, t)
  | .ok okey =>
    match t.setF f okey (c.encode (NewStringValue okey value)) with
    | (some e, t1) => (.error e, t1)
    | (none, t1) => (.ok, t1)

/-- The method `Tx.Store`, with the errors of the backend. -/
def Tx.StoreF (c : Gob) (g : Registry) (f : Faults) (t : Tx) (key : Str) (ob : Object) :
    Outcome × Tx :=
  match NewObjectKey key with
  | .error e => (.error e, t)
  | .ok okey =>
    match GetDataType g ob with
    | .error e => (.error e, t)
    | .ok datatype =>
      match oldValue c t okey with
      | .error e => (.error e, t)
      | .ok old =>
        match NewValue c g okey ob datatype with
        | .error e => (.error e, t)
        | .ok cur =>
          let diff := DiffIndexKeys old.IndexKeys cur.IndexKeys
          match setIndexKeysF f t diff.2 with
          | (some e, t1) => (.error e, t1)
          | (none, t1) =>
            match t1.setF f okey (c.encode cur) with
            | (some e, t2) => (.error e, t2)
            | (none, t2) => deleteIndexKeysF f t2 diff.1

/-- The method `Tx.Delete`, with the errors of the backend. -/
def Tx.DeleteF (c : Gob) (f : Faults) (t : Tx) (key : Str) : Outcome × Tx :=
  match NewObjectKey key with
  | .error e => (.error e, t)
  | .ok okey =>
    match kvGet t.kv okey with
    | none => (.error .notExist, t)
    | some s =>
      match ParseValue c s with
      | .error e => (.error e, t)
      | .ok v =>
        match t.deleteF f okey with
        | (some e, t1) => (.error e, t1)
        | (none, t1) => deleteIndexKeysF f t1 v.IndexKeys

/-- The backend that answers no mutating call with an error of its own. -/
def reliable : Faults := fun _ => none

/-! ## The write protocol in the words of the specification -/

/-- The mutating calls `Store` makes once validation has passed, when none of
them fails: one `Set` with the empty value for each addition, the `Set` of the
object key to the new envelope, one `Delete` for each deletion. -/
def storeOps (c : Gob) (okey : ObjectKey) (cur : Value) (additions deletions : List IndexKey) :
    List Op :=
  additions.map (fun i => Op.set i []) ++ [Op.set okey (c.encode cur)] ++ deletions.map Op.delete

/-- One mutating call issued on the key-value transaction: the error it is
answered with, if any, and the transaction after it. -/
def Tx.issue (f : Faults) (t : Tx) : Op → Option Err × Tx
  | .set k v => t.setF f k v
  | .delete k => t.deleteF f k

/-- The calls of a list issued one after the other, up to and including the
first that is answered with an error: that call and its error, if there is
one, and the transaction after the calls issued. -/
def issueAll (f : Faults) (t : Tx) : List Op → Option (Op × Err) × Tx
  | [] => (none, t)
  | op :: rest =>
    match t.issue f op with
    | (some e, t1) => (some (op, e), t1)
    | (none, t1) => issueAll f t1 rest

/-- How `Store` ends after its mutating calls: it returns `nil` when none of
them failed, it panics when a `Delete` was answered with `os.ErrNotExist`, and
it returns the error of the call that failed otherwise. -/
def storeEnd : Option (Op × Err) → Outcome
  | none => .ok
  | some (.set _ _, e) => .error e
  | some (.delete _, e) => if e = .notExist then .panic else .error e

/-- The struct `Iter` (its field `tx` is passed to the methods). -/
structure Iter where
  next : Nat
  keys : List ObjectKey
  refs : List (List IndexKey)
  deriving DecidableEq, Repr

/-- The value `m[k]` of a Go map of slices: the empty slice when `k` is
absent. -/
def mapGet {β : Type} (m : List (Str × List β)) (k : Str) : List β :=
  match m with
  | [] => []
  | (k0, v0) :: rest => if k0 = k then v0 else mapGet rest k

/-- The first loop of `Tx.FindByIndex`: the keys scanned in the range of each
extracted index key are appended to `refs`. -/
def scanLoop (kv : KV) : List IndexKey → List Str → Except Err (List Str)
  | [], refs => .ok refs
  | ik :: rest, refs =>
    match IndexKeyRange ik with
    | .error e => .error e
    | .ok r => scanLoop kv rest (refs ++ kvAscend kv r.1 r.2)

/-- The second loop of `Tx.FindByIndex`: the scanned keys are grouped by the
object key they point at. -/
def dedupLoop : List Str → List (ObjectKey × List IndexKey) →
    Except Err (List (ObjectKey × List IndexKey))
  | [], refMap => .ok refMap
  | ref :: rest, refMap =>
    match ParseIndexKey ref with
    | .error e => .error e
    | .ok ik =>
      match GetObjectKey ik with
      | .error e => .error e
      | .ok ok => dedupLoop rest (mapSet refMap ok (mapGet refMap ok ++ [ik]))

/-- The value of the variable `refs` of `Tx.FindByIndex` after its first loop:
the keys scanned in the ranges of the index keys extracted from the exemplar
(empty when the call fails before the end of that loop). -/
def scannedRefs (g : Registry) (t : Tx) (part : Object) : List Str :=
  match GetDataType g part with
  | .error _ => []
  | .ok datatype =>
    match datatype.IndexKeyMap g part with
    | .error _ => []
    | .ok ikMap =>
      match scanLoop t.kv (ikMap.map Prod.snd) [] with
      | .error _ => []
      | .ok refs => refs

/-- The method `Tx.FindByIndex`: the iterator it fills in. (Go ranges over
`ikMap` and `refMap` in an unspecified order; here the entries come in the
order of their first insertion.) -/
def Tx.FindByIndex (g : Registry) (t : Tx) (part : Object) : Except Err Iter :=
  match GetDataType g part with
  | .error e => .error e
  | .ok datatype =>
    match datatype.IndexKeyMap g part with
    | .error e => .error e
    | .ok ikMap =>
      match scanLoop t.kv (ikMap.map Prod.snd) [] with
      | .error e => .error e
      | .ok refs =>
        match dedupLoop refs [] with
        | .error e => .error e
        | .ok refMap =>
          .ok { next := 0, keys := refMap.map Prod.fst, refs := refMap.map Prod.snd }

/-- The loop of `Iter.GetNext`; `fuel` is the number of candidates left. -/
def getNextLoop (c : Gob) (t : Tx) : Nat → Iter → Except Err (Str × Str) × Iter
  | 0, it => (.error .notExist, it)
  | fuel + 1, it =>
    match it.keys.get? it.next with
    | none => (.error .notExist, it)
    | some k =>
      match kvGet t.kv k with
      | none => getNextLoop c t fuel { it with next := it.next + 1 }
      | some s =>
        match ParseValue c s with
        | .error e => (.error e, it)
        | .ok v =>
          if v.ObjectKey ≠ k then getNextLoop c t fuel { it with next := it.next + 1 }
          else if it.refs.length > 0 ∧ !v.HasAllIndexKeys (it.refs.getD it.next []) then
            getNextLoop c t fuel { it with next := it.next + 1 }
          else (.ok (UserKey k, v.Data), { it with next := it.next + 1 })

/-- The method `Iter.GetNext`: the result and the iterator after the call.
(`it.refs[it.next]` is an element of `refs`: `FindByIndex` makes `keys` and
`refs` equally long.) -/
def Iter.GetNext (c : Gob) (t : Tx) (it : Iter) : Except Err (Str × Str) × Iter :=
  getNextLoop c t (it.keys.length - it.next) it

/-- The loop of `Iter.LoadNext`. -/
def loadNextLoop (c : Gob) (datatype : DataType) (t : Tx) (ob : Object) :
    Nat → Iter → Except Err (Str × Object) × Iter
  | 0, it => (.error .notExist, it)
  | fuel + 1, it =>
    match it.keys.get? it.next with
    | none => (.error .notExist, it)
    | some k =>
      match kvGet t.kv k with
      | none => loadNextLoop c datatype t ob fuel { it with next := it.next + 1 }
      | some s =>
        match ParseValue c s with
        | .error e => (.error e, it)
        | .ok v =>
          if v.ObjectKey ≠ k then
            loadNextLoop c datatype t ob fuel { it with next := it.next + 1 }
          else if it.refs.length > 0 ∧ !v.HasAllIndexKeys (it.refs.getD it.next []) then
            loadNextLoop c datatype t ob fuel { it with next := it.next + 1 }
          else
            match datatype.Unmarshal c v.Data ob with
            | .error e => (.error e, it)
            | .ok ob1 => (.ok (UserKey k, ob1), { it with next := it.next + 1 })

/-- The method `Iter.LoadNext`: the user key and the decoded object, and the
iterator after the call. -/
def Iter.LoadNext (c : Gob) (g : Registry) (t : Tx) (it : Iter) (ob : Object) :
    Except Err (Str × Object) × Iter :=
  match GetDataType g ob with
  | .error e => (.error e, it)
  | .ok datatype => loadNextLoop c datatype t ob (it.keys.length - it.next) it

/-! ## Iteration: repeated `GetNext` calls -/

/-- The results of `n` successive `GetNext` calls on an unchanging store, and
the iterator after them. -/
def getNextRun (c : Gob) (t : Tx) : Nat → Iter → List (Except Err (Str × Str)) × Iter
  | 0, it => ([], it)
  | n + 1, it =>
    let r := Iter.GetNext c t it
    let rest := getNextRun c t n r.2
    (r.1 :: rest.1, rest.2)

/-- The user keys that the successful calls among the results yielded. -/
def yieldedKeys : List (Except Err (Str × Str)) → List Str
  | [] => []
  | .ok (key, _) :: rest => key :: yieldedKeys rest
  | .error _ :: rest => yieldedKeys rest

/-- The iterator contract in the words of the specification, for one
candidate `k` with its expected references: the candidate is skipped (`none`)
when its envelope is absent, when the `objectKey` of the envelope differs from
`k`, or when some expected reference is not present in the `indexKeys` of the
envelope; otherwise it yields its user key and the data of the envelope. -/
def candidateYield (c : Gob) (t : Tx) (k : ObjectKey) (expected : List IndexKey) :
    Option (Str × Str) :=
  match kvGet t.kv k with
  | none => none
  | some s =>
    match ParseValue c s with
    | .error _ => none
    | .ok v =>
      if v.ObjectKey = k ∧ ∀ r ∈ expected, r ∈ v.IndexKeys then some (UserKey k, v.Data)
      else none

/-- The pairs the qualifying candidates of a list yield, in the order of the
list. -/
def qualifyingYields (c : Gob) (t : Tx) (candidates : List (ObjectKey × List IndexKey)) :
    List (Str × Str) :=
  candidates.filterMap (fun e => candidateYield c t e.1 e.2)

/-- The candidates of an iterator, each with its expected references. -/
def Iter.candidates (it : Iter) : List (ObjectKey × List IndexKey) := it.keys.zip it.refs

/-- Every value stored at one of the candidate object keys parses as an
envelope whose index keys are listed in ascending order. -/
def candidatesParse (c : Gob) (t : Tx) (keys : List ObjectKey) : Bool :=
  keys.all (fun k =>
    match kvGet t.kv k with
    | none => true
    | some s =>
      match ParseValue c s with
      | .error _ => false
      | .ok v => decide (v.IndexKeys.Sorted (· ≤ ·)))

/-! ## Predicates on the store -/

/-- The envelope currently stored at `okey`, if there is one, has every index
key it lists present in the store. -/
def envelopeLive (c : Gob) (kv : KV) (okey : ObjectKey) : Bool :=
  match kvGet kv okey with
  | none => true
  | some s =>
    match ParseValue c s with
    | .error _ => true
    | .ok v => v.IndexKeys.all (fun ik => (kvGet kv ik).isSome)

/-- A path element that `path.Clean` keeps as it is: not empty, not `.`, not
`..`, and without a slash. -/
def keptElement (c : Str) : Prop := c ≠ [] ∧ c ≠ lit "." ∧ c ≠ lit ".." ∧ slash ∉ c

/-- A Go identifier, as the name of a struct field is: letters, digits and
underscores (a byte from 128 on is part of a letter in UTF-8), not starting
with a digit, and not empty. -/
def isIdentifier (s : Str) : Bool :=
  match s with
  | [] => false
  | c :: cs =>
    !(decide (48 ≤ c.val ∧ c.val ≤ 57)) &&
    (c :: cs).all (fun b => decide ((97 ≤ b.val ∧ b.val ≤ 122) ∨ (65 ≤ b.val ∧ b.val ≤ 90) ∨
      (48 ≤ b.val ∧ b.val ≤ 57) ∨ b.val = 95 ∨ 128 ≤ b.val))

/-- The index fields of every registered data type are named by Go
identifiers, as the fields of a Go struct are. -/
def Registry.fieldNamesAreIdentifiers (g : Registry) : Prop :=
  ∀ e ∈ g.typeMap, ∀ f ∈ e.2.indexFields, isIdentifier f.name = true

/-- The envelope `v` is well formed: its index keys are distinct, each lies in
the index keyspace and each has `v.ObjectKey` as its owner. -/
def wellFormedEnvelope (v : Value) : Prop :=
  v.IndexKeys.Nodup ∧
  ∀ ik ∈ v.IndexKeys, (∃ rest, ik = slash :: 105 :: rest) ∧ GetObjectKey ik = .ok v.ObjectKey

/-- The empty transaction. -/
def emptyTx : Tx := { kv := [], log := [] }

/-- A call of one of the writing operations of a transaction. -/
inductive Call
  | set (key value : Str)
  | store (key : Str) (ob : Object)
  | delete (key : Str)

/-- The outcome of a call and the transaction after it. -/
def runCall (c : Gob) (g : Registry) (t : Tx) : Call → Outcome × Tx
  | .set key value => Tx.Set c t key value
  | .store key ob => Tx.Store c g t key ob
  | .delete key => Tx.Delete c t key

/-- The transactions reachable from the empty store by successful `Set`,
`Store` and `Delete` calls, each made under a registry whose index fields are
named by identifiers. (A call that returns `nil` had none of its mutating calls
answered with an error, so that its effect is the one defined without the
errors of the backend.) -/
inductive Reachable (c : Gob) : Tx → Prop
  | empty : Reachable c emptyTx
  | step (g : Registry) (t : Tx) (call : Call) :
      g.fieldNamesAreIdentifiers → Reachable c t →
      (runCall c g t call).1 = Outcome.ok → Reachable c (runCall c g t call).2

/-- The invariant of the reachable stores: a non-empty value is the encoding
of a well-formed envelope stored at its own object key, which begins with
`/o`; and every index key listed by a stored envelope is present with the
empty value. -/
def StoreInv (c : Gob) (kv : KV) : Prop :=
  (∀ k s, kvGet kv k = some s → s = [] ∨
    ∃ v, s = c.encode v ∧ v.ObjectKey = k ∧ (∃ rest, k = slash :: 111 :: rest) ∧
      wellFormedEnvelope v) ∧
  (∀ k v, kvGet kv k = some (c.encode v) → ∀ ik ∈ v.IndexKeys, kvGet kv ik = some [])

/-- Every value of the store is the empty value of a key that begins with
`/i`, or an envelope that `ParseValue` accepts. -/
def EnvelopeInv (c : Gob) (kv : KV) : Prop :=
  ∀ k s, kvGet kv k = some s →
    (s = [] ∧ ∃ rest, k = slash :: 105 :: rest) ∨ ∃ v, ParseValue c s = .ok v

/-- The call is not a `Set` on the user key of the object key `okey`. -/
def Call.notSetAt (okey : ObjectKey) : Call → Prop
  | .set key _ => NewObjectKey key ≠ .ok okey
  | .store _ _ => True
  | .delete _ => True

/-- The transactions reachable from the empty store by successful `Set`,
`Store` and `Delete` calls none of which is a `Set` on the user key of the
object key `okey`. -/
inductive ReachableWithoutSetAt (c : Gob) (okey : ObjectKey) : Tx → Prop
  | empty : ReachableWithoutSetAt c okey emptyTx
  | step (g : Registry) (t : Tx) (call : Call) :
      g.fieldNamesAreIdentifiers → call.notSetAt okey → ReachableWithoutSetAt c okey t →
      (runCall c g t call).1 = Outcome.ok → ReachableWithoutSetAt c okey (runCall c g t call).2

/-- No index key owned by `okey` is an orphan: every key of the index keyspace
that is present and whose owner is `okey` is listed by the envelope stored at
`okey`. -/
def NoOrphanAt (c : Gob) (kv : KV) (okey : ObjectKey) : Prop :=
  ∀ q, (∃ rest, q = slash :: 105 :: rest) → GetObjectKey q = .ok okey → kvGet kv q ≠ none →
    ∃ v, kvGet kv okey = some (c.encode v) ∧ q ∈ v.IndexKeys

/-! ## Fixtures: a concrete codec, the types and the objects of the tests -/

/-- One string of the fixture codec: every byte after a `1`, then a `0`. -/
def fixtureEncodeStr (s : Str) : Str := s.flatMap (fun b => [1, b]) ++ [0]

/-- The fixture codec's encoding of an envelope: its strings one after the
other, then a `2`. -/
def fixtureEncode (v : Value) : Str :=
  (v.Data :: v.TypeName :: v.ObjectKey :: v.IndexKeys).flatMap fixtureEncodeStr ++ [2]

/-- The reader of the fixture codec: `cur` is the string being read, `acc` the
strings read, both reversed. -/
def fixtureDecodeLoop : Str → Str → List Str → Option (List Str)
  | [], _, _ => none
  | [x], cur, acc =>
    if x = 0 then none
    else if x = 2 ∧ cur = [] then some acc.reverse
    else none
  | x :: y :: rest, cur, acc =>
    if x = 0 then fixtureDecodeLoop (y :: rest) [] (cur.reverse :: acc)
    else if x = 1 then fixtureDecodeLoop rest (y :: cur) acc
    else none

/-- The fixture codec's decoding of an envelope. -/
def fixtureDecode (s : Str) : Option Value :=
  match fixtureDecodeLoop s [] [] with
  | some (d :: t :: o :: iks) => some { Data := d, TypeName := t, ObjectKey := o, IndexKeys := iks }
  | _ => none

/-- The text the fixture codec marshals an object to: the text of its first
field. -/
def fixtureMarshal : Object → Except Err Str
  | .structVal v => .ok (toStringNative (v.field [0]))
  | .structPtr v => .ok (toStringNative (v.field [0]))
  | _ => .error .gob

/-- The fixture codec's decoding into a target: a pointer to a struct of the
target's type whose fields hold the payload. -/
def fixtureUnmarshal (s : Str) : Object → Except Err Object
  | .structPtr v => .ok (.structPtr { gotype := v.gotype, field := fun _ => .string s })
  | _ => .error .gob

/-- A concrete lossless codec, standing for `encoding/gob` in the examples. -/
def fixtureGob : Gob where
  encode := fixtureEncode
  decode := fixtureDecode
  marshal := fixtureMarshal
  unmarshal := fixtureUnmarshal
  decode_nil := rfl
  decode_encode := by
    have hstr : ∀ (s rest cur : Str) (acc : List Str), rest ≠ [] →
        fixtureDecodeLoop (s.flatMap (fun b => [1, b]) ++ rest) cur acc
          = fixtureDecodeLoop rest (s.reverse ++ cur) acc := by
      intro s
      induction s with
      | nil => intro rest cur acc _; simp
      | cons b s ih =>
        intro rest cur acc hr
        have h := ih rest (b :: cur) acc hr
        simp only [List.flatMap_cons, List.cons_append, List.nil_append, fixtureDecodeLoop]
        simpa using h
    have hone : ∀ (s rest : Str) (acc : List Str), rest ≠ [] →
        fixtureDecodeLoop (fixtureEncodeStr s ++ rest) [] acc
          = fixtureDecodeLoop rest [] (s :: acc) := by
      intro s rest acc hr
      unfold fixtureEncodeStr
      rw [List.append_assoc, hstr s _ [] acc (by simp)]
      cases rest with
      | nil => exact absurd rfl hr
      | cons y rest => simp [fixtureDecodeLoop]
    have hall : ∀ (l : List Str) (acc : List Str),
        fixtureDecodeLoop (l.flatMap fixtureEncodeStr ++ [2]) [] acc = some (acc.reverse ++ l) := by
      intro l
      induction l with
      | nil => intro acc; simp [fixtureDecodeLoop]
      | cons s l ih =>
        intro acc
        rw [List.flatMap_cons, List.append_assoc, hone s _ acc (by simp), ih]
        simp
    intro v
    have h := hall (v.Data :: v.TypeName :: v.ObjectKey :: v.IndexKeys) []
    simp only [fixtureDecode, fixtureEncode, h, List.reverse_nil, List.nil_append]

/-- The struct type of `TestIndexing`: a field `Name string` and an indexed
field `Age int`. -/
def exampleType : DataType :=
  { gotype := 1, name := lit "TestIndexing.ExampleType",
    indexFields := [{ name := lit "Age", position := [1], stringer := none }] }

/-- A struct type with one indexed string field: `Name string`. -/
def namedType : DataType :=
  { gotype := 2, name := lit "T",
    indexFields := [{ name := lit "Name", position := [0], stringer := none }] }

/-- A struct type with two indexed fields: `A int` and `B int`. -/
def pairType : DataType :=
  { gotype := 3, name := lit "P",
    indexFields := [{ name := lit "A", position := [0], stringer := none },
                    { name := lit "B", position := [1], stringer := none }] }

/-- The registry after the three types above are registered. -/
def fixtureRegistry : Registry :=
  { nameMap := [(exampleType.name, exampleType), (namedType.name, namedType),
                (pairType.name, pairType)],
    typeMap := [(1, exampleType), (2, namedType), (3, pairType)],
    userDefinedTypesMap := [] }

/-- The object `&ExampleType{Name: name, Age: age}`. -/
def user (name : Str) (age : Int) : Object :=
  .structPtr { gotype := 1, field := fun p => if p = [0] then .string name else .int .int age }

/-- The object `&T{Name: name}`. -/
def named (name : Str) : Object :=
  .structPtr { gotype := 2, field := fun _ => .string name }

/-- The object `&P{A: a, B: b}`. -/
def pair (a b : Int) : Object :=
  .structPtr { gotype := 3, field := fun p => if p = [0] then .int .int a else .int .int b }

/-- The transaction after the calls `Store(key, ob)` of a list, in order, each
on the state the one before left. -/
def storeAll (c : Gob) (g : Registry) (t : Tx) : List (Str × Object) → Tx
  | [] => t
  | (key, ob) :: rest => storeAll c g (Tx.Store c g t key ob).2 rest

/-- The user keys that `GetNext` yields until it fails, at most `fuel` of
them. -/
def drain (c : Gob) (t : Tx) : Nat → Iter → List Str
  | 0, _ => []
  | fuel + 1, it =>
    match Iter.GetNext c t it with
    | (.ok (key, _), it1) => key :: drain c t fuel it1
    | (.error _, _) => []

/-- The user keys a query yields: `FindByIndex` followed by `GetNext` until it
fails. -/
def findKeys (c : Gob) (g : Registry) (t : Tx) (part : Object) : Except Err (List Str) :=
  match Tx.FindByIndex g t part with
  | .error e => .error e
  | .ok it => .ok (drain c t it.keys.length it)


/-- The transaction after `Store("/", &ExampleType{Name: "root", Age: 10})` on
the empty store. -/
def rootTx : Tx := (Tx.Store fixtureGob fixtureRegistry emptyTx (lit "/") (user (lit "root") 10)).2

/-- The iterator `FindByIndex` fills in on `rootTx` for the exemplar
`ExampleType{Age: 10}`. -/
def rootIter : Iter :=
  { next := 0, keys := [lit "/ob"], refs := [[lit "/ix/TestIndexing.ExampleType/Age/10/ob"]] }

/-- The envelope of `&P{A: 1, B: 2}` stored at the user key `/k`. -/
def pairEnvelope : Value :=
  { Data := lit "1", TypeName := lit "P", ObjectKey := lit "/ob/k",
    IndexKeys := [lit "/ix/P/A/1/ob/k", lit "/ix/P/B/2/ob/k"] }

/-- The transaction after `Store("/k", &P{A: 1, B: 2})` on the empty store. -/
def pairTx : Tx := (Tx.Store fixtureGob fixtureRegistry emptyTx (lit "/k") (pair 1 2)).2

/-- The iterator `FindByIndex` fills in on `pairTx` for the exemplar
`P{A: 1, B: 3}`. -/
def pairIter : Iter :=
  { next := 0, keys := [lit "/ob/k"], refs := [[lit "/ix/P/A/1/ob/k"]] }

/-- An envelope like `pairEnvelope` whose index keys are in descending
order. -/
def unsortedEnvelope : Value :=
  { Data := lit "1", TypeName := lit "P", ObjectKey := lit "/ob/k",
    IndexKeys := [lit "/ix/P/B/2/ob/k", lit "/ix/P/A/1/ob/k"] }

/-- A transaction whose store holds `unsortedEnvelope` at `/ob/k` and the two
index keys it lists. -/
def unsortedTx : Tx :=
  { kv := [(lit "/ob/k", fixtureGob.encode unsortedEnvelope), (lit "/ix/P/B/2/ob/k", []),
           (lit "/ix/P/A/1/ob/k", [])],
    log := [] }

/-- The envelope of `&P{A: 1, B: 3}` stored at the user key `/k`. -/
def pairEnvelope3 : Value :=
  { Data := lit "1", TypeName := lit "P", ObjectKey := lit "/ob/k",
    IndexKeys := [lit "/ix/P/A/1/ob/k", lit "/ix/P/B/3/ob/k"] }


/-- The transaction after `Store("/k", &T{Name: "bob"})` and then
`Set("/k", "raw")` on the empty store. -/
def overwrittenTx : Tx :=
  (Tx.Set fixtureGob
    (Tx.Store fixtureGob fixtureRegistry emptyTx (lit "/k") (named (lit "bob"))).2
    (lit "/k") (lit "raw")).2

/-- The transaction after `Store("/k", &T{Name: "bob"})` on the empty
store. -/
def namedTx : Tx :=
  (Tx.Store fixtureGob fixtureRegistry emptyTx (lit "/k") (named (lit "bob"))).2

/-- The transaction of `TestIndexing` after its five users are stored. -/
def usersTx : Tx :=
  storeAll fixtureGob fixtureRegistry emptyTx
    [(lit "/users/alex", user (lit "alex") 10), (lit "/users/ben", user (lit "ben") 20),
     (lit "/users/carter", user (lit "carter") 30), (lit "/users/dave", user (lit "dave") 10),
     (lit "/users/ethan", user (lit "ethan") 20)]


/-- The registry of a process that has registered nothing. -/
def emptyRegistry : Registry := { nameMap := [], typeMap := [], userDefinedTypesMap := [] }

/-- A field `name string` with the tag `kodb:"index"` at position `i`. -/
def indexedString (name : Str) (i : Nat) : StructField :=
  { Name := name, kodbTag := some (lit "index"), kind := Kind.string, elemKind := none,
    Index := [i] }

/-- A field `name int` with the tag `kodb:"index"` at position `i`. -/
def indexedInt (name : Str) (i : Nat) : StructField :=
  { Name := name, kodbTag := some (lit "index"), kind := Kind.int IntKind.int, elemKind := none,
    Index := [i] }

/-- The struct types of the examples: `ExampleType{Name string; Age int
kodb:"index"}` (1), `T{Name string kodb:"index"}` (2), `P{A, B int
kodb:"index"}` (3), `Employee{Email string kodb:"index"}` of `TestDataTypeMap`
(5), `Nested{Inner struct{...} kodb:"index"}` (6), `S{Score float64
kodb:"index"}` (7), and `A{Age Age kodb:"index"}` with the defined type
`type Age int` (8). -/
def fixtureEnv : TypeEnv := fun stype =>
  if stype = 1 then
    [{ Name := lit "Name", kodbTag := none, kind := Kind.string, elemKind := none, Index := [0] },
     indexedInt (lit "Age") 1]
  else if stype = 2 then [indexedString (lit "Name") 0]
  else if stype = 3 then [indexedInt (lit "A") 0, indexedInt (lit "B") 1]
  else if stype = 5 then [indexedString (lit "Email") 0]
  else if stype = 6 then
    [{ Name := lit "Inner", kodbTag := some (lit "index"), kind := Kind.struct, elemKind := none,
       Index := [0] }]
  else if stype = 7 then
    [{ Name := lit "Score", kodbTag := some (lit "index"), kind := Kind.other, elemKind := none,
       Index := [0] }]
  else if stype = 8 then [indexedInt (lit "Age") 0]
  else []

/-- The object `Employee{Email: email}`. -/
def employee (email : Str) : Object :=
  .structVal { gotype := 5, field := fun _ => .string email }

/-- The object `new(Employee)`. -/
def newEmployee : Object :=
  .structPtr { gotype := 5, field := fun _ => .string [] }

/-- The data type `Register("Employee", ...)` creates. -/
def employeeType : DataType :=
  { gotype := 5, name := lit "Employee",
    indexFields := [{ name := lit "Email", position := [0], stringer := none }] }

/-- The registry after `Register("Employee", new(Employee))` in a process that
has registered nothing else. -/
def employeeRegistry : Registry :=
  { nameMap := [(lit "Employee", employeeType)], typeMap := [(5, employeeType)],
    userDefinedTypesMap := [] }

/-- The struct type `T` registered under the empty name. -/
def unnamedType : DataType :=
  { gotype := 2, name := [],
    indexFields := [{ name := lit "Name", position := [0], stringer := none }] }

/-- The registry after `Register("", T{})` in a process that has registered
nothing else. -/
def unnamedRegistry : Registry :=
  { nameMap := [([], unnamedType)], typeMap := [(2, unnamedType)], userDefinedTypesMap := [] }

/-- A store in which the value at the object key `/ob/k` is not an envelope,
and the index key of `A = 1` owned by `/ob/k` is present. -/
def garbageTx : Tx :=
  { kv := [(lit "/ob/k", lit "garbage"), (lit "/ix/P/A/1/ob/k", [])], log := [] }

/-- The iterator `FindByIndex` fills in on `pairTx` for the exemplar
`P{A: 1, B: 2}`: one candidate, reached by two scanned index keys. -/
def pairIter2 : Iter :=
  { next := 0, keys := [lit "/ob/k"],
    refs := [[lit "/ix/P/A/1/ob/k", lit "/ix/P/B/2/ob/k"]] }

/-- The iterator `FindByIndex` fills in on `usersTx` for the exemplar
`ExampleType{Age: 10}`. -/
def usersIter : Iter :=
  { next := 0, keys := [lit "/ob/users/alex", lit "/ob/users/dave"],
    refs := [[lit "/ix/TestIndexing.ExampleType/Age/10/ob/users/alex"],
             [lit "/ix/TestIndexing.ExampleType/Age/10/ob/users/dave"]] }

/-- The data type of `S{Score float64 kodb:"index"}` registered as `S`. -/
def scoreType : DataType :=
  { gotype := 7, name := lit "S",
    indexFields := [{ name := lit "Score", position := [0], stringer := none }] }

/-- The registry after `Register("S", S{})` in a process that has registered
nothing else, and no stringer for `float64`. -/
def scoreRegistry : Registry :=
  { nameMap := [(lit "S", scoreType)], typeMap := [(7, scoreType)], userDefinedTypesMap := [] }

/-- The object `&S{Score: 1.5}`: the field is a `float64` (type 100, of a
kind that is not among the supported ones). -/
def scored : Object :=
  .structPtr { gotype := 7, field := fun _ => .named 100 Kind.other (lit "1.5") }

/-- The data type of `A{Age Age kodb:"index"}` registered as `A`. -/
def ageType : DataType :=
  { gotype := 8, name := lit "A",
    indexFields := [{ name := lit "Age", position := [0], stringer := none }] }

/-- The registry after `Register("A", A{})` in a process that has registered
nothing else. -/
def ageRegistry : Registry :=
  { nameMap := [(lit "A", ageType)], typeMap := [(8, ageType)], userDefinedTypesMap := [] }

/-- The object `&A{Age: 7}`: the field has the defined type `type Age int`
(type 101, of kind `int`). -/
def aged : Object :=
  .structPtr { gotype := 8, field := fun _ => .named 101 (Kind.int IntKind.int) (lit "7") }

/-- The backend that answers the mutating call issued when `n` calls were
issued before with the error `e`, and no other call with an error. -/
def failAt (n : Nat) (e : Err) : Faults := fun i => if i = n then some e else none

/-- A store put together by hand: the envelope of `&P{A: 1, B: 2}` at `/ob/k`
and, of the two index keys it lists, only the one of `B`. -/
def danglingTx : Tx :=
  { kv := [(lit "/ob/k", fixtureGob.encode pairEnvelope), (lit "/ix/P/B/2/ob/k", [])],
    log := [] }

/-- The envelope of `&P{A: 3, B: 4}` stored at the user key `/k`. -/
def pairEnvelope34 : Value :=
  { Data := lit "3", TypeName := lit "P", ObjectKey := lit "/ob/k",
    IndexKeys := [lit "/ix/P/A/3/ob/k", lit "/ix/P/B/4/ob/k"] }
/-! # Theorems -/
/-! ## Lemmas: the key-value map -/

theorem kvGet_erase (kv : KV) (k q : Str) :
    kvGet (kvErase kv k) q = if q = k then none else kvGet kv q := by
  induction kv with
  | nil => simp [kvErase, kvGet]
  | cons e rest ih =>
    obtain ⟨k0, v0⟩ := e
    unfold kvErase at ih ⊢
    by_cases h0 : k0 = k
    · subst h0
      by_cases hq : q = k0
      · subst hq; simp [List.filter_cons, kvGet] at ih ⊢; exact ih
      · have hq2 : ¬ k0 = q := fun h => hq h.symm
        simp [List.filter_cons, kvGet, hq, hq2] at ih ⊢; exact ih
    · by_cases hq : q = k
      · subst hq
        have : ¬ k0 = q := h0
        simp [List.filter_cons, kvGet, h0] at ih ⊢; exact ih
      · by_cases h1 : k0 = q
        · simp [List.filter_cons, kvGet, h0, h1, hq]
        · simp [List.filter_cons, kvGet, h0, h1, hq] at ih ⊢; exact ih

theorem kvGet_set (kv : KV) (k v q : Str) :
    kvGet (kvSet kv k v) q = if q = k then some v else kvGet kv q := by
  unfold kvSet
  by_cases hq : q = k
  · subst hq; simp [kvGet]
  · have hq2 : ¬ k = q := fun h => hq h.symm
    simp [kvGet, hq, hq2, kvGet_erase]

theorem kvDelete_some {kv kv1 : KV} {k : Str} (h : kvDelete kv k = some kv1) :
    kvGet kv k ≠ none ∧ kv1 = kvErase kv k := by
  unfold kvDelete at h
  cases hg : kvGet kv k with
  | none => simp [hg] at h
  | some s => simp [hg] at h; exact ⟨by simp, h.symm⟩

theorem kvDelete_none {kv : KV} {k : Str} (h : kvDelete kv k = none) : kvGet kv k = none := by
  unfold kvDelete at h
  cases hg : kvGet kv k with
  | none => rfl
  | some s => simp [hg] at h

theorem kvDelete_of_get {kv : KV} {k s : Str} (h : kvGet kv k = some s) :
    kvDelete kv k = some (kvErase kv k) := by
  simp [kvDelete, h]

theorem kvGet_applyOp_delete (kv : KV) (k q : Str) :
    kvGet (applyOp kv (Op.delete k)) q = if q = k then none else kvGet kv q := by
  simp only [applyOp]
  cases hd : kvDelete kv k with
  | none =>
    have := kvDelete_none hd
    simp only [Option.getD_none]
    by_cases hq : q = k
    · subst hq; simp [this]
    · simp [hq]
  | some kv1 =>
    obtain ⟨_, h2⟩ := kvDelete_some hd
    simp only [Option.getD_some]
    simp [h2, kvGet_erase]

theorem kvGet_applyOp_set (kv : KV) (k v q : Str) :
    kvGet (applyOp kv (Op.set k v)) q = if q = k then some v else kvGet kv q := by
  simp [applyOp, kvGet_set]

theorem replay_append (kv : KV) (a b : List Op) : replay kv (a ++ b) = replay (replay kv a) b := by
  simp [replay, List.foldl_append]

/-! ## Lemmas: binary search -/

theorem searchLoop_range (f : Nat → Bool) :
    ∀ fuel i j, i ≤ j → j - i ≤ fuel →
      i ≤ searchLoop f fuel i j ∧ searchLoop f fuel i j ≤ j ∧
      (searchLoop f fuel i j = j ∨ f (searchLoop f fuel i j) = true) := by
  intro fuel
  induction fuel with
  | zero =>
    intro i j hij hf
    have : i = j := by omega
    subst this
    simp [searchLoop]
  | succ fuel ih =>
    intro i j hij hf
    unfold searchLoop
    by_cases hlt : i < j
    · simp only [hlt, if_true]
      have hh1 : i ≤ (i + j) / 2 := by omega
      have hh2 : (i + j) / 2 < j := by omega
      by_cases hfh : f ((i + j) / 2) = true
      · simp only [hfh, Bool.not_true, Bool.false_eq_true, if_false]
        obtain ⟨h1, h2, h3⟩ := ih i ((i + j) / 2) hh1 (by omega)
        refine ⟨h1, by omega, ?_⟩
        rcases h3 with h3 | h3
        · right; rw [h3]; exact hfh
        · right; exact h3
      · have hfh2 : f ((i + j) / 2) = false := by simpa using hfh
        simp only [hfh2, Bool.not_false, if_true]
        obtain ⟨h1, h2, h3⟩ := ih ((i + j) / 2 + 1) j (by omega) (by omega)
        exact ⟨by omega, h2, h3⟩
    · have : i = j := by omega
      subst this
      simp

/-- With enough fuel the loop of `sort.Search` ends because the interval is
empty: below the result `f` fails everywhere, when `f` is monotone on the
indices below `n`. -/
theorem searchLoop_fuel (f : Nat → Bool) (n : Nat)
    (hmono : ∀ a b, a ≤ b → b < n → f a = true → f b = true) :
    ∀ fuel i j, i ≤ j → j ≤ n → j - i ≤ fuel → (∀ k, k < i → f k = false) →
      ∀ k, k < searchLoop f fuel i j → f k = false := by
  intro fuel
  induction fuel with
  | zero =>
    intro i j _ _ _ hlow k hk
    simp [searchLoop] at hk
    exact hlow k hk
  | succ fuel ih =>
    intro i j hij hjn hf hlow k hk
    unfold searchLoop at hk
    by_cases hlt : i < j
    · simp only [hlt, if_true] at hk
      by_cases hfh : f ((i + j) / 2) = true
      · simp only [hfh, Bool.not_true, Bool.false_eq_true, if_false] at hk
        exact ih i ((i + j) / 2) (by omega) (by omega) (by omega) hlow k hk
      · have hfh2 : f ((i + j) / 2) = false := by simpa using hfh
        simp only [hfh2, Bool.not_false, if_true] at hk
        refine ih ((i + j) / 2 + 1) j (by omega) hjn (by omega) ?_ k hk
        intro k2 hk2
        cases hfk : f k2 with
        | false => rfl
        | true =>
          have := hmono k2 ((i + j) / 2) (by omega) (by omega) hfk
          rw [hfh2] at this
          exact absurd this (by simp)
    · simp only [hlt, if_false] at hk
      exact hlow k hk

theorem searchHit_mem {iks : List IndexKey} {k : IndexKey} (h : searchHit iks k = true) :
    k ∈ iks := by
  simp only [searchHit, Bool.and_eq_true, decide_eq_true_eq] at h
  exact List.get?_mem h.2

theorem searchHit_of_mem {iks : List IndexKey} {k : IndexKey}
    (hs : iks.Sorted (· ≤ ·)) (hk : k ∈ iks) : searchHit iks k = true := by
  obtain ⟨m, hm, hmk⟩ := List.getElem_of_mem hk
  have hget : ∀ i (h : i < iks.length), iks.get? i = some iks[i] := by
    intro i h; simp [List.get?_eq_getElem?, List.getElem?_eq_getElem h]
  have hle : ∀ a b (ha : a < iks.length) (hb : b < iks.length), a ≤ b → iks[a] ≤ iks[b] := by
    intro a b ha hb hab
    rcases Nat.lt_or_eq_of_le hab with h | h
    · exact List.Sorted.rel_get_of_lt hs (a := ⟨a, ha⟩) (b := ⟨b, hb⟩) h
    · subst h; exact le_refl _
  generalize hf : (fun i => match iks.get? i with
    | some x => decide (k ≤ x)
    | none => false) = f
  have hfval : ∀ i (h : i < iks.length), f i = decide (k ≤ iks[i]) := by
    intro i h; rw [← hf]; simp only [hget i h]
  have hmono : ∀ a b, a ≤ b → b < iks.length → f a = true → f b = true := by
    intro a b hab hb hfa
    have ha : a < iks.length := by omega
    rw [hfval a ha] at hfa
    rw [hfval b hb]
    have h1 : k ≤ iks[a] := by simpa using hfa
    simpa using le_trans h1 (hle a b ha hb hab)
  have hr := searchLoop_range f iks.length 0 iks.length (Nat.zero_le _) (by omega)
  have hlow := searchLoop_fuel f iks.length hmono iks.length 0 iks.length (Nat.zero_le _)
    (le_refl _) (by omega) (by intro k hk; omega)
  have hS : SearchIndexKeys iks k = searchLoop f iks.length 0 iks.length := by
    simp only [SearchIndexKeys, Search, hf]
  generalize hrr : searchLoop f iks.length 0 iks.length = r at hr hlow hS
  have hfm : f m = true := by rw [hfval m hm]; simp [hmk]
  have hrm : r ≤ m := by
    by_contra hcon
    have := hlow m (by omega)
    rw [hfm] at this; exact absurd this (by simp)
  have hrlt : r < iks.length := by omega
  have hfr : f r = true := by
    rcases hr.2.2 with h | h
    · omega
    · exact h
  rw [hfval r hrlt] at hfr
  have h1 : k ≤ iks[r] := by simpa using hfr
  have h2 : iks[r] ≤ k := by rw [← hmk]; exact hle r m hrlt hm hrm
  have heq : iks[r] = k := le_antisymm h2 h1
  simp only [searchHit, hS, Bool.and_eq_true, decide_eq_true_eq]
  exact ⟨hrlt, by rw [hget r hrlt, heq]⟩

theorem searchHit_iff {iks : List IndexKey} (k : IndexKey) (hs : iks.Sorted (· ≤ ·)) :
    searchHit iks k = true ↔ k ∈ iks :=
  ⟨searchHit_mem, searchHit_of_mem hs⟩

theorem SortIndexKeys_sorted (iks : List IndexKey) : (SortIndexKeys iks).Sorted (· ≤ ·) :=
  List.sorted_insertionSort _ iks

theorem mem_SortIndexKeys {iks : List IndexKey} {k : IndexKey} :
    k ∈ SortIndexKeys iks ↔ k ∈ iks :=
  (List.perm_insertionSort _ iks).mem_iff

/-! ## Lemmas: the write loops of `Store` and `Delete` -/

theorem setIndexKeys_log (t : Tx) (l : List IndexKey) :
    (setIndexKeys t l).log = t.log ++ l.map (fun i => Op.set i []) := by
  induction l generalizing t with
  | nil => simp [setIndexKeys]
  | cons i rest ih => simp [setIndexKeys, ih, Tx.set]

theorem setIndexKeys_kv (t : Tx) (l : List IndexKey) :
    (setIndexKeys t l).kv = replay t.kv (l.map (fun i => Op.set i [])) := by
  induction l generalizing t with
  | nil => simp [setIndexKeys, replay]
  | cons i rest ih => simp [setIndexKeys, ih, Tx.set, replay, applyOp]

/-- The deleting loop issues a beginning of the list of deletions, all of it
when it returns `nil`, and otherwise panics. -/
theorem deleteIndexKeys_run (t : Tx) (l : List IndexKey) :
    ∃ issued, (deleteIndexKeys t l).2.log = t.log ++ issued ∧
      issued <+: l.map Op.delete ∧
      (deleteIndexKeys t l).2.kv = replay t.kv issued ∧
      ((deleteIndexKeys t l).1 = Outcome.ok → issued = l.map Op.delete) ∧
      ((deleteIndexKeys t l).1 = Outcome.ok ∨ (deleteIndexKeys t l).1 = Outcome.panic) := by
  induction l generalizing t with
  | nil => exact ⟨[], by simp [deleteIndexKeys, replay]⟩
  | cons k rest ih =>
    cases hd : kvDelete t.kv k with
    | none =>
      refine ⟨[Op.delete k], ?_⟩
      simp [deleteIndexKeys, Tx.delete, hd, replay, applyOp]
    | some kv1 =>
      obtain ⟨issued, h1, h2, h3, h4, h5⟩ :=
        ih { kv := kv1, log := t.log ++ [Op.delete k] }
      refine ⟨Op.delete k :: issued, ?_⟩
      simp only [deleteIndexKeys, Tx.delete, hd]
      refine ⟨by simp [h1], ?_, ?_, ?_, h5⟩
      · simpa using h2
      · rw [h3]; simp [replay, applyOp, hd]
      · intro h; simp [h4 h]

theorem Store_run (c : Gob) (g : Registry) (t : Tx) (key : Str) (ob : Object)
    {okey : ObjectKey} {datatype : DataType} {old cur : Value}
    (hkey : NewObjectKey key = .ok okey) (htype : GetDataType g ob = .ok datatype)
    (hold : oldValue c t okey = .ok old) (hcur : NewValue c g okey ob datatype = .ok cur) :
    ∃ issued, (Tx.Store c g t key ob).2.log = t.log ++ issued ∧
      issued <+: storeOps c okey cur (DiffIndexKeys old.IndexKeys cur.IndexKeys).2
        (DiffIndexKeys old.IndexKeys cur.IndexKeys).1 ∧
      (DiffIndexKeys old.IndexKeys cur.IndexKeys).2.map (fun i => Op.set i [])
          ++ [Op.set okey (c.encode cur)] <+: issued ∧
      (Tx.Store c g t key ob).2.kv = replay t.kv issued ∧
      ((Tx.Store c g t key ob).1 = Outcome.ok →
        issued = storeOps c okey cur (DiffIndexKeys old.IndexKeys cur.IndexKeys).2
          (DiffIndexKeys old.IndexKeys cur.IndexKeys).1) ∧
      ((Tx.Store c g t key ob).1 = Outcome.ok ∨ (Tx.Store c g t key ob).1 = Outcome.panic) := by
  obtain ⟨issued, h1, h2, h3, h4, h5⟩ := deleteIndexKeys_run
    ((setIndexKeys t (DiffIndexKeys old.IndexKeys cur.IndexKeys).2).set okey (c.encode cur))
    (DiffIndexKeys old.IndexKeys cur.IndexKeys).1
  refine ⟨(DiffIndexKeys old.IndexKeys cur.IndexKeys).2.map (fun i => Op.set i [])
    ++ [Op.set okey (c.encode cur)] ++ issued, ?_⟩
  simp only [Tx.Store, hkey, htype, hold, hcur]
  refine ⟨?_, ?_, ?_, ?_, ?_, h5⟩
  · rw [h1]; simp [Tx.set, setIndexKeys_log]
  · unfold storeOps
    exact (List.prefix_append_right_inj _).mpr h2
  · exact List.prefix_append _ _
  · rw [h3]; simp [Tx.set, setIndexKeys_kv, replay_append, replay, applyOp]
  · intro h; rw [h4 h]; rfl

theorem DiffIndexKeys_additions (old cur : List IndexKey) (hs : old.Sorted (· ≤ ·)) :
    (DiffIndexKeys old cur).2 = cur.filter (fun k => decide (k ∉ old)) := by
  simp only [DiffIndexKeys]
  apply List.filter_congr
  intro k _
  by_cases h : k ∈ old
  · simp [h, searchHit_of_mem hs h]
  · have : searchHit old k = false := by
      cases hh : searchHit old k with
      | false => rfl
      | true => exact absurd (searchHit_mem hh) h
    simp [h, this]

theorem DiffIndexKeys_deletions (old cur : List IndexKey) (hs : cur.Sorted (· ≤ ·)) :
    (DiffIndexKeys old cur).1 = old.filter (fun k => decide (k ∉ cur)) := by
  simp only [DiffIndexKeys]
  apply List.filter_congr
  intro k _
  by_cases h : k ∈ cur
  · simp [h, searchHit_of_mem hs h]
  · have : searchHit cur k = false := by
      cases hh : searchHit cur k with
      | false => rfl
      | true => exact absurd (searchHit_mem hh) h
    simp [h, this]

theorem NewValue_sorted {c : Gob} {g : Registry} {okey : ObjectKey} {ob : Object}
    {datatype : DataType} {cur : Value} (h : NewValue c g okey ob datatype = .ok cur) :
    cur.IndexKeys.Sorted (· ≤ ·) ∧ cur.ObjectKey = okey := by
  unfold NewValue at h
  split at h
  · exact absurd h (by simp)
  · split at h
    · exact absurd h (by simp)
    · split at h
      · exact absurd h (by simp)
      · injection h with h
        subst h
        exact ⟨SortIndexKeys_sorted _, rfl⟩

theorem deleteIndexKeys_ok_get (t : Tx) (l : List IndexKey)
    (h : (deleteIndexKeys t l).1 = Outcome.ok) (q : Str) :
    kvGet (deleteIndexKeys t l).2.kv q = if q ∈ l then none else kvGet t.kv q := by
  induction l generalizing t with
  | nil => simp [deleteIndexKeys]
  | cons k rest ih =>
    cases hd : kvDelete t.kv k with
    | none => simp [deleteIndexKeys, Tx.delete, hd] at h
    | some kv1 =>
      simp only [deleteIndexKeys, Tx.delete, hd] at h ⊢
      rw [ih _ h]
      obtain ⟨_, h2⟩ := kvDelete_some hd
      by_cases hq : q ∈ rest
      · simp [hq]
      · by_cases hqk : q = k
        · simp [hq, hqk, h2, kvGet_erase]
        · simp [hq, hqk, h2, kvGet_erase]

theorem deleteIndexKeys_ok_of (t : Tx) (l : List IndexKey) (hnd : l.Nodup)
    (hp : ∀ k ∈ l, kvGet t.kv k ≠ none) : (deleteIndexKeys t l).1 = Outcome.ok := by
  induction l generalizing t with
  | nil => simp [deleteIndexKeys]
  | cons k rest ih =>
    have hk : kvGet t.kv k ≠ none := hp k (by simp)
    cases hg : kvGet t.kv k with
    | none => exact absurd hg hk
    | some s =>
      have hd := kvDelete_of_get hg
      simp only [deleteIndexKeys, Tx.delete, hd]
      have hnd2 := List.nodup_cons.mp hnd
      apply ih _ hnd2.2
      intro k2 hk2
      have hne : k2 ≠ k := fun h => hnd2.1 (h ▸ hk2)
      simp only [kvGet_erase, hne, if_false]
      exact hp k2 (by simp [hk2])

/-- `Delete(key)` with a valid key, on any store: when nothing is stored at the
object key it returns `os.ErrNotExist` and changes nothing; when an envelope is
stored there it returns `nil` or panics; when it returns `nil`, it has issued
the `Delete` of the object key and of every index key the envelope lists, the
envelope and these index keys are gone, every other entry is unchanged and a
following `Get(key)` returns `os.ErrNotExist`; and it does return `nil` when the
listed index keys are distinct, present and different from the object key. -/
theorem Delete_run (c : Gob) (t : Tx) (key : Str) (okey : ObjectKey)
    (hkey : NewObjectKey key = .ok okey) :
    (kvGet t.kv okey = none → Tx.Delete c t key = (Outcome.error Err.notExist, t)) ∧
    (∀ s v, kvGet t.kv okey = some s → ParseValue c s = .ok v →
      ((Tx.Delete c t key).1 = Outcome.ok ∨ (Tx.Delete c t key).1 = Outcome.panic) ∧
      ((Tx.Delete c t key).1 = Outcome.ok →
        (Tx.Delete c t key).2.log = t.log ++ Op.delete okey :: v.IndexKeys.map Op.delete ∧
        kvGet (Tx.Delete c t key).2.kv okey = none ∧
        (∀ ik ∈ v.IndexKeys, kvGet (Tx.Delete c t key).2.kv ik = none) ∧
        (∀ q, q ≠ okey → q ∉ v.IndexKeys →
          kvGet (Tx.Delete c t key).2.kv q = kvGet t.kv q) ∧
        Tx.Get c (Tx.Delete c t key).2 key = .error Err.notExist) ∧
      (v.IndexKeys.Nodup → okey ∉ v.IndexKeys → (∀ ik ∈ v.IndexKeys, kvGet t.kv ik ≠ none) →
        (Tx.Delete c t key).1 = Outcome.ok)) := by
  constructor
  · intro h
    simp [Tx.Delete, hkey, h]
  · intro s v hs hv
    have hd := kvDelete_of_get hs
    obtain ⟨t1, ht1⟩ : ∃ t1 : Tx, t1 = Tx.mk (kvErase t.kv okey) (t.log ++ [Op.delete okey]) :=
      ⟨_, rfl⟩
    have hkv1 : t1.kv = kvErase t.kv okey := by rw [ht1]
    have hlog1 : t1.log = t.log ++ [Op.delete okey] := by rw [ht1]
    have hrun : Tx.Delete c t key = deleteIndexKeys t1 v.IndexKeys := by
      simp [Tx.Delete, hkey, hs, hv, Tx.delete, hd, ht1]
    rw [hrun]
    refine ⟨?_, ?_, ?_⟩
    · obtain ⟨_, _, _, _, _, h5⟩ := deleteIndexKeys_run t1 v.IndexKeys
      exact h5
    · intro hok
      have hget := deleteIndexKeys_ok_get _ _ hok
      have h1 : kvGet (deleteIndexKeys t1 v.IndexKeys).2.kv okey = none := by
        rw [hget, hkv1]; simp [kvGet_erase]
      refine ⟨?_, h1, ?_, ?_, ?_⟩
      · obtain ⟨issued, g1, _, _, g4, _⟩ := deleteIndexKeys_run t1 v.IndexKeys
        rw [g1, g4 hok, hlog1]
        simp
      · intro ik hik; rw [hget]; simp [hik]
      · intro q hq1 hq2; rw [hget, hkv1]; simp [hq1, hq2, kvGet_erase]
      · simp [Tx.Get, hkey, h1]
    · intro hnd hno hp
      apply deleteIndexKeys_ok_of _ _ hnd
      intro ik hik
      have hne : ik ≠ okey := fun h => hno (h ▸ hik)
      rw [hkv1]
      simp only [kvGet_erase, hne, if_false]
      exact hp ik hik

/-! ## Lemmas: Go maps as entry lists -/

theorem mapGet_mapSet {β : Type} (m : List (Str × List β)) (k : Str) (v : List β) (q : Str) :
    mapGet (mapSet m k v) q = if q = k then v else mapGet m q := by
  induction m with
  | nil =>
    by_cases hq : q = k
    · subst hq; simp [mapSet, mapGet]
    · have : ¬ k = q := fun h => hq h.symm
      simp [mapSet, mapGet, hq, this]
  | cons e rest ih =>
    obtain ⟨k0, v0⟩ := e
    by_cases h0 : k0 = k
    · subst h0
      by_cases hq : q = k0
      · subst hq; simp [mapSet, mapGet]
      · have : ¬ k0 = q := fun h => hq h.symm
        simp [mapSet, mapGet, hq, this]
    · by_cases hq : q = k
      · subst hq
        simp [mapSet, mapGet, h0, ih]
      · by_cases h1 : k0 = q
        · simp [mapSet, mapGet, h0, h1, hq]
        · simp [mapSet, mapGet, h0, h1, hq, ih]

theorem keys_mapSet {β : Type} (m : List (Str × β)) (k : Str) (v : β) :
    (mapSet m k v).map Prod.fst
      = if k ∈ m.map Prod.fst then m.map Prod.fst else m.map Prod.fst ++ [k] := by
  induction m with
  | nil => simp [mapSet]
  | cons e rest ih =>
    obtain ⟨k0, v0⟩ := e
    by_cases h0 : k0 = k
    · subst h0; simp [mapSet]
    · have h0b : ¬ k = k0 := fun h => h0 h.symm
      simp only [mapSet, h0, if_false, List.map_cons, ih, List.mem_cons, h0b, false_or]
      split <;> simp

theorem keys_mapSet_nodup {β : Type} (m : List (Str × β)) (k : Str) (v : β)
    (h : (m.map Prod.fst).Nodup) : ((mapSet m k v).map Prod.fst).Nodup := by
  rw [keys_mapSet]
  split
  · exact h
  · rename_i hk
    exact List.Nodup.append h (by simp) (by simpa using hk)

theorem mapGet_of_index {β : Type} (m : List (Str × List β)) (i : Nat) (k : Str)
    (hnd : (m.map Prod.fst).Nodup) (hk : (m.map Prod.fst).get? i = some k) :
    (m.map Prod.snd).getD i [] = mapGet m k := by
  induction m generalizing i with
  | nil => simp at hk
  | cons e rest ih =>
    obtain ⟨k0, v0⟩ := e
    simp only [List.map_cons] at hnd
    have hnd2 := List.nodup_cons.mp hnd
    cases i with
    | zero =>
      simp at hk
      subst hk
      simp [mapGet]
    | succ i =>
      simp only [List.map_cons, List.get?_cons_succ] at hk
      have hmem : k ∈ rest.map Prod.fst := List.get?_mem hk
      have hne : ¬ k0 = k := fun h => hnd2.1 (h ▸ hmem)
      simp only [List.map_cons, List.getD_cons_succ, mapGet, hne, if_false]
      exact ih i hnd2.2 hk

/-! ## Lemmas: the scan and the grouping of `FindByIndex` -/

theorem ParseIndexKey_eq {s : Str} {ik : IndexKey} (h : ParseIndexKey s = .ok ik) : ik = s := by
  unfold ParseIndexKey at h
  split at h
  · split at h
    · exact absurd h (by simp)
    · dsimp only at h
      split at h
      · exact absurd h (by simp)
      · split at h
        · exact absurd h (by simp)
        · split at h
          · exact absurd h (by simp)
          · split at h
            · exact absurd h (by simp)
            · split at h
              · exact absurd h (by simp)
              · injection h with h; exact h.symm
  · exact absurd h (by simp)

theorem mem_keys_iff_kvGet (kv : KV) (x : Str) : x ∈ kv.map Prod.fst ↔ kvGet kv x ≠ none := by
  induction kv with
  | nil => simp [kvGet]
  | cons e rest ih =>
    obtain ⟨k0, v0⟩ := e
    by_cases h : k0 = x
    · subst h; simp [kvGet]
    · have h2 : ¬ x = k0 := fun hh => h hh.symm
      simp [kvGet, h, h2, ih]

theorem mem_kvAscend (kv : KV) (b e x : Str) :
    x ∈ kvAscend kv b e ↔ kvGet kv x ≠ none ∧ b ≤ x ∧ x < e := by
  unfold kvAscend
  rw [(List.perm_insertionSort _ _).mem_iff, List.mem_dedup, List.mem_filter,
    mem_keys_iff_kvGet]
  simp

theorem scanLoop_mem (kv : KV) (iks : List IndexKey) (acc refs : List Str)
    (h : scanLoop kv iks acc = .ok refs) (r : Str) (hr : r ∈ refs) :
    r ∈ acc ∨ ∃ ik ∈ iks, ∃ rg, IndexKeyRange ik = .ok rg ∧ r ∈ kvAscend kv rg.1 rg.2 := by
  induction iks generalizing acc with
  | nil =>
    simp [scanLoop] at h
    subst h
    exact Or.inl hr
  | cons ik rest ih =>
    unfold scanLoop at h
    cases hrg : IndexKeyRange ik with
    | error e => simp [hrg] at h
    | ok rg =>
      simp only [hrg] at h
      rcases ih _ h with h1 | ⟨ik2, hik2, rg2, h2, h3⟩
      · rcases List.mem_append.mp h1 with h1 | h1
        · exact Or.inl h1
        · exact Or.inr ⟨ik, by simp, rg, hrg, h1⟩
      · exact Or.inr ⟨ik2, by simp [hik2], rg2, h2, h3⟩

/-- What the grouping loop of `FindByIndex` builds: the object keys are
distinct, each is the owner of a scanned key, and the list kept for an object
key is the list of the scanned keys it owns. -/
theorem dedupLoop_spec (refs : List Str) (m0 m : List (ObjectKey × List IndexKey))
    (h : dedupLoop refs m0 = .ok m) :
    (∀ k, mapGet m k
      = mapGet m0 k ++ refs.filter (fun r => decide (GetObjectKey r = .ok k))) ∧
    ((m0.map Prod.fst).Nodup → (m.map Prod.fst).Nodup) ∧
    (∀ k ∈ m.map Prod.fst, k ∈ m0.map Prod.fst ∨ ∃ r ∈ refs, GetObjectKey r = .ok k) := by
  induction refs generalizing m0 with
  | nil =>
    simp [dedupLoop] at h
    subst h
    simp
  | cons ref rest ih =>
    unfold dedupLoop at h
    cases hp : ParseIndexKey ref with
    | error e => simp [hp] at h
    | ok ik =>
      have hik := ParseIndexKey_eq hp
      subst hik
      simp only [hp] at h
      cases ho : GetObjectKey ik with
      | error e => simp [ho] at h
      | ok okey =>
        simp only [ho] at h
        obtain ⟨h1, h2, h3⟩ := ih _ h
        refine ⟨?_, ?_, ?_⟩
        · intro k
          rw [h1 k, mapGet_mapSet]
          by_cases hk : k = okey
          · subst hk; simp [List.filter_cons, ho]
          · have hk2 : ¬ okey = k := fun hh => hk hh.symm
            simp [List.filter_cons, hk, hk2, ho]
        · intro hnd
          exact h2 (keys_mapSet_nodup _ _ _ hnd)
        · intro k hk
          rcases h3 k hk with h4 | ⟨r, hr, hro⟩
          · rw [keys_mapSet] at h4
            split at h4
            · exact Or.inl h4
            · rcases List.mem_append.mp h4 with h4 | h4
              · exact Or.inl h4
              · simp at h4
                subst h4
                exact Or.inr ⟨ik, by simp, ho⟩
          · exact Or.inr ⟨r, by simp [hr], hro⟩

/-- The iterator `FindByIndex` fills in: it starts at the first candidate, the
candidates are distinct, there is one list of references per candidate, and
the list of a candidate is the non-empty list of the scanned keys that point
at it; every scanned key is present in the store and lies in the range of an
index key extracted from the exemplar. -/
theorem FindByIndex_spec (g : Registry) (t : Tx) (part : Object) (it0 : Iter)
    (h : Tx.FindByIndex g t part = .ok it0) :
    ∃ (datatype : DataType) (ikMap : IndexKeyMapping) (refs : List Str),
      GetDataType g part = .ok datatype ∧
      datatype.IndexKeyMap g part = .ok ikMap ∧ refs = scannedRefs g t part ∧
      (∀ r ∈ refs, ∃ e ∈ ikMap, ∃ rg, IndexKeyRange e.2 = .ok rg ∧
        kvGet t.kv r ≠ none ∧ rg.1 ≤ r ∧ r < rg.2) ∧
      it0.next = 0 ∧ it0.keys.Nodup ∧ it0.keys.length = it0.refs.length ∧
      (∀ i k, it0.keys.get? i = some k →
        it0.refs.getD i [] = refs.filter (fun r => decide (GetObjectKey r = .ok k)) ∧
        refs.filter (fun r => decide (GetObjectKey r = .ok k)) ≠ []) := by
  unfold Tx.FindByIndex at h
  cases hd : GetDataType g part with
  | error e => simp [hd] at h
  | ok datatype =>
    simp only [hd] at h
    cases hm : datatype.IndexKeyMap g part with
    | error e => simp [hm] at h
    | ok ikMap =>
      simp only [hm] at h
      cases hs : scanLoop t.kv (ikMap.map Prod.snd) [] with
      | error e => simp [hs] at h
      | ok refs =>
        simp only [hs] at h
        cases hdd : dedupLoop refs [] with
        | error e => simp [hdd] at h
        | ok refMap =>
          simp only [hdd] at h
          injection h with h
          subst h
          obtain ⟨h1, h2, h3⟩ := dedupLoop_spec refs [] refMap hdd
          refine ⟨datatype, ikMap, refs, rfl, hm, by simp [scannedRefs, hd, hm, hs], ?_, rfl,
            h2 (by simp), by simp, ?_⟩
          · intro r hr
            rcases scanLoop_mem _ _ _ _ hs r hr with h4 | ⟨ik, hik, rg, hrg, hin⟩
            · simp at h4
            · obtain ⟨e, he, hee⟩ := List.mem_map.mp hik
              subst hee
              have := (mem_kvAscend _ _ _ _).mp hin
              exact ⟨e, he, rg, hrg, this.1, this.2.1, this.2.2⟩
          · intro i k hk
            have hlink := mapGet_of_index refMap i k (h2 (by simp)) hk
            have hval := h1 k
            simp only [mapGet, List.nil_append] at hval
            constructor
            · show (refMap.map Prod.snd).getD i [] = _
              rw [hlink, hval]
            · have hmem : k ∈ refMap.map Prod.fst := List.get?_mem hk
              rcases h3 k hmem with h4 | ⟨r, hr, hro⟩
              · simp at h4
              · intro hnil
                have : r ∈ refs.filter (fun r => decide (GetObjectKey r = .ok k)) := by
                  simp [List.mem_filter, hr, hro]
                rw [hnil] at this
                simp at this

/-! ## Lemmas: the iterator -/

theorem HasAllIndexKeys_mem (v : Value) (l : List IndexKey) (h : v.HasAllIndexKeys l = true) :
    ∀ ik ∈ l, ik ∈ v.IndexKeys := by
  induction l with
  | nil => simp
  | cons a rest ih =>
    unfold Value.HasAllIndexKeys at h
    cases hh : searchHit v.IndexKeys a with
    | false => simp [hh] at h
    | true =>
      simp only [hh, if_true] at h
      intro ik hik
      rcases List.mem_cons.mp hik with h1 | h1
      · subst h1; exact searchHit_mem hh
      · exact ih h ik h1

/-- What a successful `GetNext` returns: the user key and the payload of the
envelope stored at a candidate at or after the cursor, whose own object key is
the candidate and which lists every reference expected of it; the cursor moves
past that candidate. -/
theorem getNextLoop_yield (c : Gob) (t : Tx) (fuel : Nat) (it it1 : Iter) (userKey data : Str)
    (h : getNextLoop c t fuel it = (.ok (userKey, data), it1)) :
    ∃ i k s v, it.next ≤ i ∧ it.keys.get? i = some k ∧ userKey = UserKey k ∧
      kvGet t.kv k = some s ∧ ParseValue c s = .ok v ∧ v.ObjectKey = k ∧ data = v.Data ∧
      (it.refs.length > 0 → ∀ ik ∈ it.refs.getD i [], ik ∈ v.IndexKeys) ∧
      it1 = { it with next := i + 1 } := by
  induction fuel generalizing it with
  | zero => simp [getNextLoop] at h
  | succ fuel ih =>
    unfold getNextLoop at h
    have hskip : ∀ (hh : getNextLoop c t fuel { it with next := it.next + 1 }
        = (.ok (userKey, data), it1)),
        ∃ i k s v, it.next ≤ i ∧ it.keys.get? i = some k ∧ userKey = UserKey k ∧
          kvGet t.kv k = some s ∧ ParseValue c s = .ok v ∧ v.ObjectKey = k ∧ data = v.Data ∧
          (it.refs.length > 0 → ∀ ik ∈ it.refs.getD i [], ik ∈ v.IndexKeys) ∧
          it1 = { it with next := i + 1 } := by
      intro hh
      obtain ⟨i, k, s, v, h1, h2, h3, h4, h5, h6, h7, h8, h9⟩ := ih _ hh
      exact ⟨i, k, s, v, by simp at h1; omega, h2, h3, h4, h5, h6, h7, h8, h9⟩
    cases hk : it.keys.get? it.next with
    | none => rw [hk] at h; simp at h
    | some k =>
      rw [hk] at h
      dsimp only at h
      cases hg : kvGet t.kv k with
      | none => rw [hg] at h; exact hskip h
      | some s =>
        rw [hg] at h
        dsimp only at h
        cases hp : ParseValue c s with
        | error e => rw [hp] at h; simp at h
        | ok v =>
          rw [hp] at h
          dsimp only at h
          by_cases ho : v.ObjectKey ≠ k
          · rw [if_pos ho] at h; exact hskip h
          · rw [if_neg ho] at h
            by_cases hr : it.refs.length > 0 ∧
                (!v.HasAllIndexKeys (it.refs.getD it.next [])) = true
            · rw [if_pos hr] at h; exact hskip h
            · rw [if_neg hr] at h
              injection h with ha hb
              injection ha with ha
              injection ha with ha1 ha2
              refine ⟨it.next, k, s, v, le_refl _, hk, ha1.symm, hg, hp, by simpa using ho,
                ha2.symm, ?_, hb.symm⟩
              intro hlen
              have : v.HasAllIndexKeys (it.refs.getD it.next []) = true := by
                by_contra hcon
                exact hr ⟨hlen, by simpa using hcon⟩
              exact HasAllIndexKeys_mem v _ this

theorem loadNextLoop_yield (c : Gob) (datatype : DataType) (t : Tx) (ob : Object) (fuel : Nat)
    (it it1 : Iter) (userKey : Str) (ob1 : Object)
    (h : loadNextLoop c datatype t ob fuel it = (.ok (userKey, ob1), it1)) :
    ∃ i k s v, it.next ≤ i ∧ it.keys.get? i = some k ∧ userKey = UserKey k ∧
      kvGet t.kv k = some s ∧ ParseValue c s = .ok v ∧ v.ObjectKey = k ∧
      datatype.Unmarshal c v.Data ob = .ok ob1 ∧
      (it.refs.length > 0 → ∀ ik ∈ it.refs.getD i [], ik ∈ v.IndexKeys) ∧
      it1 = { it with next := i + 1 } := by
  induction fuel generalizing it with
  | zero => simp [loadNextLoop] at h
  | succ fuel ih =>
    unfold loadNextLoop at h
    have hskip : ∀ (hh : loadNextLoop c datatype t ob fuel { it with next := it.next + 1 }
        = (.ok (userKey, ob1), it1)),
        ∃ i k s v, it.next ≤ i ∧ it.keys.get? i = some k ∧ userKey = UserKey k ∧
          kvGet t.kv k = some s ∧ ParseValue c s = .ok v ∧ v.ObjectKey = k ∧
          datatype.Unmarshal c v.Data ob = .ok ob1 ∧
          (it.refs.length > 0 → ∀ ik ∈ it.refs.getD i [], ik ∈ v.IndexKeys) ∧
          it1 = { it with next := i + 1 } := by
      intro hh
      obtain ⟨i, k, s, v, h1, h2, h3, h4, h5, h6, h7, h8, h9⟩ := ih _ hh
      exact ⟨i, k, s, v, by simp at h1; omega, h2, h3, h4, h5, h6, h7, h8, h9⟩
    cases hk : it.keys.get? it.next with
    | none => rw [hk] at h; simp at h
    | some k =>
      rw [hk] at h
      dsimp only at h
      cases hg : kvGet t.kv k with
      | none => rw [hg] at h; exact hskip h
      | some s =>
        rw [hg] at h
        dsimp only at h
        cases hp : ParseValue c s with
        | error e => rw [hp] at h; simp at h
        | ok v =>
          rw [hp] at h
          dsimp only at h
          by_cases ho : v.ObjectKey ≠ k
          · rw [if_pos ho] at h; exact hskip h
          · rw [if_neg ho] at h
            by_cases hr : it.refs.length > 0 ∧
                (!v.HasAllIndexKeys (it.refs.getD it.next [])) = true
            · rw [if_pos hr] at h; exact hskip h
            · rw [if_neg hr] at h
              cases hu : datatype.Unmarshal c v.Data ob with
              | error e => rw [hu] at h; simp at h
              | ok ob2 =>
                rw [hu] at h
                dsimp only at h
                injection h with ha hb
                injection ha with ha
                injection ha with ha1 ha2
                subst ha2
                refine ⟨it.next, k, s, v, le_refl _, hk, ha1.symm, hg, hp, by simpa using ho,
                  hu, ?_, hb.symm⟩
                intro hlen
                have : v.HasAllIndexKeys (it.refs.getD it.next []) = true := by
                  by_contra hcon
                  exact hr ⟨hlen, by simpa using hcon⟩
                exact HasAllIndexKeys_mem v _ this

/-- What `FindByIndex` guarantees about a candidate of its iterator whose
envelope passed the reference test of the iterator. -/
theorem candidate_facts (g : Registry) (t : Tx) (part : Object) (it0 it : Iter)
    (hfind : Tx.FindByIndex g t part = .ok it0)
    (hkeys : it.keys = it0.keys) (hrefs : it.refs = it0.refs)
    (i : Nat) (k : ObjectKey) (hk : it.keys.get? i = some k) (v : Value)
    (hall : it.refs.length > 0 → ∀ ik ∈ it.refs.getD i [], ik ∈ v.IndexKeys) :
    k ∈ it0.keys ∧
    (∀ r ∈ scannedRefs g t part, GetObjectKey r = .ok k → r ∈ v.IndexKeys) ∧
    (∃ r ∈ scannedRefs g t part, GetObjectKey r = .ok k ∧ r ∈ v.IndexKeys) := by
  obtain ⟨datatype, ikMap, refs, _, _, hrf, _, _, _, hlen, hcand⟩ :=
    FindByIndex_spec g t part it0 hfind
  rw [hkeys] at hk
  rw [hrefs] at hall
  obtain ⟨h1, h2⟩ := hcand i k hk
  have hmem : k ∈ it0.keys := List.get?_mem hk
  have hpos : it0.refs.length > 0 := by
    rw [← hlen]
    exact List.length_pos_of_mem hmem
  have hall2 := hall hpos
  rw [h1] at hall2
  subst hrf
  refine ⟨hmem, ?_, ?_⟩
  · intro r hr hro
    exact hall2 r (by simp [List.mem_filter, hr, hro])
  · obtain ⟨r, hr⟩ := List.exists_mem_of_ne_nil _ h2
    have hr2 := List.mem_filter.mp hr
    exact ⟨r, hr2.1, by simpa using hr2.2, hall2 r hr⟩

/-- Orphan filtering. Every pair that `GetNext` or `LoadNext` yields after
`FindByIndex`, whatever the store holds then, comes from an envelope currently
stored at a candidate object key `k` of the iterator: the user key yielded is
`k.UserKey()`, the envelope's own object key is `k`, the payload is the
envelope's, and the envelope lists every index key the scan returned that
points at `k`. So an object that the scan reached only through index keys its
envelope does not list is not yielded. -/
theorem candidates_are_listing_envelopes (c : Gob) (g : Registry) (t t1 : Tx)
    (part : Object) (it0 it : Iter)
    (hfind : Tx.FindByIndex g t part = .ok it0)
    (hkeys : it.keys = it0.keys) (hrefs : it.refs = it0.refs) :
    (∀ userKey data it2, Iter.GetNext c t1 it = (.ok (userKey, data), it2) →
      ∃ k s v, k ∈ it0.keys ∧ userKey = UserKey k ∧ kvGet t1.kv k = some s ∧
        ParseValue c s = .ok v ∧ v.ObjectKey = k ∧ data = v.Data ∧
        ∀ r ∈ scannedRefs g t part, GetObjectKey r = .ok k → r ∈ v.IndexKeys) ∧
    (∀ ob userKey ob1 it2, Iter.LoadNext c g t1 it ob = (.ok (userKey, ob1), it2) →
      ∃ k s v datatype, k ∈ it0.keys ∧ userKey = UserKey k ∧ kvGet t1.kv k = some s ∧
        ParseValue c s = .ok v ∧ v.ObjectKey = k ∧ GetDataType g ob = .ok datatype ∧
        datatype.Unmarshal c v.Data ob = .ok ob1 ∧
        ∀ r ∈ scannedRefs g t part, GetObjectKey r = .ok k → r ∈ v.IndexKeys) := by
  constructor
  · intro userKey data it2 h
    obtain ⟨i, k, s, v, _, h2, h3, h4, h5, h6, h7, h8, _⟩ :=
      getNextLoop_yield c t1 _ it it2 userKey data h
    obtain ⟨f1, f2, _⟩ := candidate_facts g t part it0 it hfind hkeys hrefs i k h2 v h8
    exact ⟨k, s, v, f1, h3, h4, h5, h6, h7, f2⟩
  · intro ob userKey ob1 it2 h
    unfold Iter.LoadNext at h
    cases hd : GetDataType g ob with
    | error e => rw [hd] at h; simp at h
    | ok datatype =>
      rw [hd] at h
      obtain ⟨i, k, s, v, _, h2, h3, h4, h5, h6, h7, h8, _⟩ :=
        loadNextLoop_yield c datatype t1 ob _ it it2 userKey ob1 h
      obtain ⟨f1, f2, _⟩ := candidate_facts g t part it0 it hfind hkeys hrefs i k h2 v h8
      exact ⟨k, s, v, datatype, f1, h3, h4, h5, h6, rfl, h7, f2⟩

/-- `FindByIndex` followed by iteration yields an object only if
its stored envelope lists, for at least one queried field, an index key that
points at the object and lies in the scan range of the index key extracted
from the exemplar for that field. (It is not required to do so for every
queried field.) -/
theorem yielded_object_lists_a_scanned_key (c : Gob) (g : Registry) (t t1 : Tx)
    (part : Object) (it0 it : Iter) (datatype : DataType) (ikMap : IndexKeyMapping)
    (hfind : Tx.FindByIndex g t part = .ok it0)
    (hkeys : it.keys = it0.keys) (hrefs : it.refs = it0.refs)
    (htype : GetDataType g part = .ok datatype)
    (hmap : datatype.IndexKeyMap g part = .ok ikMap) :
    (∀ userKey data it2, Iter.GetNext c t1 it = (.ok (userKey, data), it2) →
      ∃ k s v, userKey = UserKey k ∧ kvGet t1.kv k = some s ∧ ParseValue c s = .ok v ∧
        ∃ e ∈ ikMap, ∃ rg r, IndexKeyRange e.2 = .ok rg ∧ r ∈ v.IndexKeys ∧
          GetObjectKey r = .ok k ∧ rg.1 ≤ r ∧ r < rg.2) ∧
    (∀ ob userKey ob1 it2, Iter.LoadNext c g t1 it ob = (.ok (userKey, ob1), it2) →
      ∃ k s v, userKey = UserKey k ∧ kvGet t1.kv k = some s ∧ ParseValue c s = .ok v ∧
        ∃ e ∈ ikMap, ∃ rg r, IndexKeyRange e.2 = .ok rg ∧ r ∈ v.IndexKeys ∧
          GetObjectKey r = .ok k ∧ rg.1 ≤ r ∧ r < rg.2) := by
  obtain ⟨datatype2, ikMap2, refs, hd2, hm2, hrf, hscan, _⟩ := FindByIndex_spec g t part it0 hfind
  rw [htype] at hd2
  injection hd2 with hd2
  subst hd2
  rw [hmap] at hm2
  injection hm2 with hm2
  subst hm2
  subst hrf
  constructor
  · intro userKey data it2 h
    obtain ⟨i, k, s, v, _, h2, h3, h4, h5, _, _, h8, _⟩ :=
      getNextLoop_yield c t1 _ it it2 userKey data h
    obtain ⟨_, _, r, hr, hro, hrv⟩ :=
      candidate_facts g t part it0 it hfind hkeys hrefs i k h2 v h8
    obtain ⟨e, he, rg, hrg, _, hlo, hhi⟩ := hscan r hr
    exact ⟨k, s, v, h3, h4, h5, e, he, rg, r, hrg, hrv, hro, hlo, hhi⟩
  · intro ob userKey ob1 it2 h
    unfold Iter.LoadNext at h
    cases hd : GetDataType g ob with
    | error e => rw [hd] at h; simp at h
    | ok datatype3 =>
      rw [hd] at h
      obtain ⟨i, k, s, v, _, h2, h3, h4, h5, _, _, h8, _⟩ :=
        loadNextLoop_yield c datatype3 t1 ob _ it it2 userKey ob1 h
      obtain ⟨_, _, r, hr, hro, hrv⟩ :=
        candidate_facts g t part it0 it hfind hkeys hrefs i k h2 v h8
      obtain ⟨e, he, rg, hrg, _, hlo, hhi⟩ := hscan r hr
      exact ⟨k, s, v, h3, h4, h5, e, he, rg, r, hrg, hrv, hro, hlo, hhi⟩

set_option maxRecDepth 100000 in
/-- C4 fails on the code at the root key: after `Store("/", ...)`, whose
envelope is stored at `/ob`, the query yields the user key `""`, and
`NewObjectKey("")` is an error, so the pair does not come from an envelope
stored at `ObjectKey(userKey)`. -/
theorem GetNext_root_yields_empty_user_key :
    NewObjectKey (lit "/") = .ok (lit "/ob") ∧
    kvGet rootTx.kv (lit "/ob") ≠ none ∧
    Tx.FindByIndex fixtureRegistry rootTx (user [] 10) = .ok rootIter ∧
    (Iter.GetNext fixtureGob rootTx rootIter).1 = .ok ([], lit "root") ∧
    NewObjectKey [] = .error Err.invalid ∧
    kvGet rootTx.kv [] = none := by
  decide

set_option maxRecDepth 100000 in
/-- C5 fails on the code: after `Store("/k", &P{A: 1, B: 2})` the query with
the exemplar `P{A: 1, B: 3}` yields `/k`, although the envelope of `/k` does
not list the index key of the exemplar's value of `B`; and after
`Store("/k2", &P{A: 2, B: 0})` the query with the exemplar `P{A: 1}`, whose
field `B` is left at zero, yields `/k2`, which matches on no field that was
set. -/
theorem FindByIndex_yields_object_matching_one_field :
    kvGet pairTx.kv (lit "/ob/k") = some (fixtureGob.encode pairEnvelope) ∧
    NewIndexKey (lit "/ob/k") (lit "P") (lit "B") (lit "3") = .ok (lit "/ix/P/B/3/ob/k") ∧
    lit "/ix/P/B/3/ob/k" ∉ pairEnvelope.IndexKeys ∧
    findKeys fixtureGob fixtureRegistry pairTx (pair 1 3) = .ok [lit "/k"] ∧
    (Tx.Store fixtureGob fixtureRegistry emptyTx (lit "/k2") (pair 2 0)).1 = Outcome.ok ∧
    findKeys fixtureGob fixtureRegistry
      (Tx.Store fixtureGob fixtureRegistry emptyTx (lit "/k2") (pair 2 0)).2 (pair 1 0)
        = .ok [lit "/k2"] := by
  decide

set_option maxRecDepth 100000 in
/-- An instance of `candidates_are_listing_envelopes`: the query
`P{A: 1, B: 3}` on the store that holds `P{A: 1, B: 2}` at `/k`. -/
theorem candidates_are_listing_envelopes_pair :
    Tx.FindByIndex fixtureRegistry pairTx (pair 1 3) = .ok pairIter ∧
    ((∀ userKey data it2, Iter.GetNext fixtureGob pairTx pairIter = (.ok (userKey, data), it2) →
      ∃ k s v, k ∈ pairIter.keys ∧ userKey = UserKey k ∧ kvGet pairTx.kv k = some s ∧
        ParseValue fixtureGob s = .ok v ∧ v.ObjectKey = k ∧ data = v.Data ∧
        ∀ r ∈ scannedRefs fixtureRegistry pairTx (pair 1 3),
          GetObjectKey r = .ok k → r ∈ v.IndexKeys) ∧
    (∀ ob userKey ob1 it2,
      Iter.LoadNext fixtureGob fixtureRegistry pairTx pairIter ob = (.ok (userKey, ob1), it2) →
      ∃ k s v datatype, k ∈ pairIter.keys ∧ userKey = UserKey k ∧ kvGet pairTx.kv k = some s ∧
        ParseValue fixtureGob s = .ok v ∧ v.ObjectKey = k ∧
        GetDataType fixtureRegistry ob = .ok datatype ∧
        datatype.Unmarshal fixtureGob v.Data ob = .ok ob1 ∧
        ∀ r ∈ scannedRefs fixtureRegistry pairTx (pair 1 3),
          GetObjectKey r = .ok k → r ∈ v.IndexKeys)) :=
  ⟨by decide,
   candidates_are_listing_envelopes fixtureGob fixtureRegistry pairTx pairTx (pair 1 3)
    pairIter pairIter (by decide) rfl rfl⟩

set_option maxRecDepth 100000 in
/-- An instance of `yielded_object_lists_a_scanned_key`: the query
`P{A: 1, B: 3}` on the store that holds `P{A: 1, B: 2}` at `/k`. -/
theorem yielded_object_lists_a_scanned_key_pair :
    Tx.FindByIndex fixtureRegistry pairTx (pair 1 3) = .ok pairIter ∧
    pairType.IndexKeyMap fixtureRegistry (pair 1 3)
      = .ok [(lit "A", lit "/ix/P/A/1/ob/x"), (lit "B", lit "/ix/P/B/3/ob/x")] ∧
    ∀ userKey data it2, Iter.GetNext fixtureGob pairTx pairIter = (.ok (userKey, data), it2) →
      ∃ k s v, userKey = UserKey k ∧ kvGet pairTx.kv k = some s ∧
        ParseValue fixtureGob s = .ok v ∧
        ∃ e ∈ [(lit "A", lit "/ix/P/A/1/ob/x"), (lit "B", lit "/ix/P/B/3/ob/x")],
          ∃ rg r, IndexKeyRange e.2 = .ok rg ∧ r ∈ v.IndexKeys ∧
            GetObjectKey r = .ok k ∧ rg.1 ≤ r ∧ r < rg.2 :=
  ⟨by decide, by decide,
   (yielded_object_lists_a_scanned_key fixtureGob fixtureRegistry pairTx pairTx (pair 1 3)
    pairIter pairIter pairType
    [(lit "A", lit "/ix/P/A/1/ob/x"), (lit "B", lit "/ix/P/B/3/ob/x")]
    (by decide) rfl rfl rfl (by decide)).1⟩

set_option maxRecDepth 100000 in
/-- C10 fails on the code at the field value `..`: `path.Join` cleans the key
that `NewIndexKey` builds, so the value and the field name are lost,
`ParseIndexKey` rejects the key, and the getters return other strings. -/
theorem NewIndexKey_dotdot_value :
    NewObjectKey (lit "/a/b/c") = .ok (lit "/ob/a/b/c") ∧
    NewIndexKey (lit "/ob/a/b/c") (lit "T") (lit "F") (lit "..") = .ok (lit "/ix/T/ob/a/b/c") ∧
    ParseIndexKey (lit "/ix/T/ob/a/b/c") = .error Err.invalid ∧
    GetFieldName (lit "/ix/T/ob/a/b/c") = .ok (lit "ob") ∧
    GetFieldValue (lit "/ix/T/ob/a/b/c") = .ok (lit "a") ∧
    GetObjectKey (lit "/ix/T/ob/a/b/c") = .ok (lit "/b/c") := by
  decide

set_option maxRecDepth 100000 in
/-- C7 fails on the code at the field value `.`: after the successful
`Store("/users/alex", &T{Name: "."})` on the empty store, the key
`NewIndexKey(ObjectKey(k), "T", "Name", ".")` is absent; the key that was
written has the field value `ob`. -/
theorem Store_dot_value_index_key_absent :
    (Tx.Store fixtureGob fixtureRegistry emptyTx (lit "/users/alex") (named (lit "."))).1
      = Outcome.ok ∧
    NewObjectKey (lit "/users/alex") = .ok (lit "/ob/users/alex") ∧
    NewIndexKey (lit "/ob/users/alex") (lit "T") (lit "Name") (lit ".")
      = .ok (lit "/ix/T/Name/ob/users/alex") ∧
    kvGet (Tx.Store fixtureGob fixtureRegistry emptyTx (lit "/users/alex") (named (lit "."))).2.kv
      (lit "/ix/T/Name/ob/users/alex") = none ∧
    kvGet (Tx.Store fixtureGob fixtureRegistry emptyTx (lit "/users/alex") (named (lit "."))).2.kv
      (lit "/ix/T/Name/ob/ob/users/alex") = some [] ∧
    GetFieldValue (lit "/ix/T/Name/ob/ob/users/alex") = .ok (lit "ob") := by
  decide

set_option maxRecDepth 100000 in
/-- C6 fails on the code: after `Store("/users/bob", &T{Name: "ob"})` on the
empty store, the query with the exemplar `T{Name: "."}` yields `/users/bob`,
whose indexed field is `ob`; and after `Store("/", ...)` the query yields the
user key `""` for the object stored at `/`. -/
theorem FindByIndex_dot_value_yields_other_object :
    (Tx.Store fixtureGob fixtureRegistry emptyTx (lit "/users/bob") (named (lit "ob"))).1
      = Outcome.ok ∧
    findKeys fixtureGob fixtureRegistry
      (Tx.Store fixtureGob fixtureRegistry emptyTx (lit "/users/bob") (named (lit "ob"))).2
      (named (lit ".")) = .ok [lit "/users/bob"] ∧
    (Tx.Store fixtureGob fixtureRegistry emptyTx (lit "/") (user (lit "root") 10)).1
      = Outcome.ok ∧
    findKeys fixtureGob fixtureRegistry rootTx (user [] 10) = .ok [[]] := by
  decide

/-! ## Lemmas: positions of slashes -/

theorem indexRune_lt {s : Str} {r : Byte} {p : Nat} (h : indexRune s r = some p) :
    p < s.length := by
  induction s generalizing p with
  | nil => simp [indexRune] at h
  | cons c cs ih =>
    unfold indexRune at h
    by_cases hc : c = r
    · simp [hc] at h; subst h; simp
    · simp only [hc, if_false] at h
      cases hi : indexRune cs r with
      | none => simp [hi] at h
      | some q =>
        simp [hi] at h
        subst h
        have := ih hi
        simp; omega

theorem indexRuneNLoop_bound (s : Str) (r : Byte) (n o p : Nat) (ho : o ≤ s.length)
    (h : indexRuneNLoop s r n o = some p) : o + n ≤ p + 1 ∧ p < s.length ∧ (n = 0 → 0 < o) := by
  induction n generalizing o with
  | zero =>
    unfold indexRuneNLoop at h
    by_cases h0 : o = 0
    · simp [h0] at h
    · simp only [h0, if_false] at h
      injection h with h
      omega
  | succ n ih =>
    unfold indexRuneNLoop at h
    cases hi : indexRune (s.drop o) r with
    | none => simp [hi] at h
    | some q =>
      simp only [hi] at h
      have hq := indexRune_lt hi
      simp at hq
      obtain ⟨h1, h2, _⟩ := ih (o + q + 1) (by omega) h
      exact ⟨by omega, h2, by omega⟩

theorem indexRuneN_bound {s : Str} {r : Byte} {n p : Nat} (h : indexRuneN s r n = some p) :
    n ≤ p + 1 ∧ p < s.length := by
  obtain ⟨h1, h2, _⟩ := indexRuneNLoop_bound s r n 0 p (Nat.zero_le _) h
  exact ⟨by omega, h2⟩

theorem WithObjectKey_ne {ik : IndexKey} {okey : ObjectKey} {x : IndexKey}
    (h : WithObjectKey ik okey = .ok x) : x ≠ okey := by
  unfold WithObjectKey at h
  cases hp : indexRuneN ik slash 5 with
  | none => simp [hp] at h
  | some p =>
    simp only [hp] at h
    injection h with h
    obtain ⟨h1, h2⟩ := indexRuneN_bound hp
    intro heq
    have hlen : x.length = okey.length := by rw [heq]
    have hlen2 : x.length = p + okey.length := by
      rw [← h, List.length_append, List.length_take]
      omega
    omega

theorem withObjectKeyAll_ne {okey : ObjectKey} {iks xs : List IndexKey}
    (h : withObjectKeyAll okey iks = .ok xs) : ∀ x ∈ xs, x ≠ okey := by
  induction iks generalizing xs with
  | nil => simp [withObjectKeyAll] at h; subst h; simp
  | cons ik rest ih =>
    unfold withObjectKeyAll at h
    cases hw : WithObjectKey ik okey with
    | error e => simp [hw] at h
    | ok x =>
      simp only [hw] at h
      cases hr : withObjectKeyAll okey rest with
      | error e => simp [hr] at h
      | ok ys =>
        simp only [hr] at h
        injection h with h
        subst h
        intro y hy
        rcases List.mem_cons.mp hy with h1 | h1
        · subst h1; exact WithObjectKey_ne hw
        · exact ih hr y h1

theorem NewValue_keys_ne {c : Gob} {g : Registry} {okey : ObjectKey} {ob : Object}
    {datatype : DataType} {cur : Value} (h : NewValue c g okey ob datatype = .ok cur) :
    ∀ ik ∈ cur.IndexKeys, ik ≠ okey := by
  unfold NewValue at h
  cases hm : datatype.Marshal c ob with
  | error e => simp [hm] at h
  | ok s =>
    simp only [hm] at h
    cases hi : datatype.IndexKeyMap g ob with
    | error e => simp [hi] at h
    | ok ikMap =>
      simp only [hi] at h
      cases hw : withObjectKeyAll okey (ikMap.map Prod.snd) with
      | error e => simp [hw] at h
      | ok iks =>
        simp only [hw] at h
        injection h with h
        subst h
        intro ik hik
        exact withObjectKeyAll_ne hw ik (mem_SortIndexKeys.mp hik)

/-! ## Lemmas: the store along the writes of `Store` -/

theorem envelopeLive_iff (c : Gob) (kv : KV) (okey : ObjectKey) :
    envelopeLive c kv okey = true ↔
      ∀ s v, kvGet kv okey = some s → ParseValue c s = .ok v →
        ∀ ik ∈ v.IndexKeys, kvGet kv ik ≠ none := by
  unfold envelopeLive
  cases hg : kvGet kv okey with
  | none => simp
  | some s =>
    dsimp only
    cases hp : ParseValue c s with
    | error e =>
      simp only [true_iff]
      intro s2 v2 hs2 hv2
      injection hs2 with hs2
      subst hs2
      rw [hp] at hv2
      exact absurd hv2 (by simp)
    | ok v =>
      simp only [List.all_eq_true, Option.isSome_iff_ne_none]
      constructor
      · intro h s2 v2 hs2 hv2
        injection hs2 with hs2
        subst hs2
        rw [hp] at hv2
        injection hv2 with hv2
        subst hv2
        exact h
      · intro h
        exact h s v rfl hp

theorem ParseValue_encode {c : Gob} {v w : Value} (h : ParseValue c (c.encode v) = .ok w) :
    w = v := by
  unfold ParseValue at h
  rw [c.decode_encode] at h
  dsimp only at h
  split at h
  · exact absurd h (by simp)
  · split at h
    · exact absurd h (by simp)
    · injection h with h; exact h.symm

theorem oldValue_keys_present {c : Gob} {t : Tx} {okey : ObjectKey} {old : Value}
    (hlive : envelopeLive c t.kv okey = true) (hold : oldValue c t okey = .ok old) :
    ∀ ik ∈ old.IndexKeys, kvGet t.kv ik ≠ none := by
  unfold oldValue at hold
  cases hg : kvGet t.kv okey with
  | none =>
    simp [hg] at hold
    subst hold
    simp
  | some s =>
    simp only [hg, Option.getD_some] at hold
    by_cases hs : s.length > 0
    · simp only [hs, if_true] at hold
      exact (envelopeLive_iff c t.kv okey).mp hlive s old hg hold
    · simp only [hs, if_false] at hold
      injection hold with hold
      subst hold
      simp

theorem kvGet_replay_sets (kv : KV) (l : List IndexKey) (q : Str) :
    kvGet (replay kv (l.map (fun i => Op.set i []))) q
      = if q ∈ l then some [] else kvGet kv q := by
  induction l generalizing kv with
  | nil => simp [replay]
  | cons a rest ih =>
    have : replay kv ((a :: rest).map (fun i => Op.set i []))
        = replay (applyOp kv (Op.set a [])) (rest.map (fun i => Op.set i [])) := by
      simp [replay]
    rw [this, ih, kvGet_applyOp_set]
    by_cases h1 : q ∈ rest
    · simp [h1]
    · by_cases h2 : q = a
      · simp [h1, h2]
      · simp [h1, h2]

theorem kvGet_replay_deletes (kv : KV) (l : List IndexKey) (q : Str) :
    kvGet (replay kv (l.map Op.delete)) q = if q ∈ l then none else kvGet kv q := by
  induction l generalizing kv with
  | nil => simp [replay]
  | cons a rest ih =>
    have : replay kv ((a :: rest).map Op.delete)
        = replay (applyOp kv (Op.delete a)) (rest.map Op.delete) := by
      simp [replay]
    rw [this, ih, kvGet_applyOp_delete]
    by_cases h1 : q ∈ rest
    · simp [h1]
    · by_cases h2 : q = a
      · simp [h1, h2]
      · simp [h1, h2]

theorem prefix_map_take {α β : Type} (f : α → β) (l : List α) (p : List β)
    (h : p <+: l.map f) : ∃ n, p = (l.take n).map f := by
  refine ⟨p.length, ?_⟩
  rw [List.map_take]
  exact List.prefix_iff_eq_take.mp h

theorem prefix_append_cases {α : Type} (p a b : List α) (h : p <+: a ++ b) :
    p <+: a ∨ ∃ q, p = a ++ q ∧ q <+: b := by
  rcases List.prefix_or_prefix_of_prefix h (List.prefix_append a b) with h1 | h1
  · exact Or.inl h1
  · obtain ⟨q, hq⟩ := h1
    subst hq
    exact Or.inr ⟨q, rfl, (List.prefix_append_right_inj a).mp h⟩

/-- The invariant of the writes of `Store`, for any additions that differ from
the object key and cover the index keys of the new envelope that are not
present, and any deletions outside the new envelope. -/
theorem storeOps_live (c : Gob) (kv : KV) (okey : ObjectKey) (cur : Value)
    (adds dels : List IndexKey)
    (hlive : envelopeLive c kv okey = true)
    (hadds : ∀ a ∈ adds, a ≠ okey)
    (hcur : ∀ ik ∈ cur.IndexKeys, ik ≠ okey ∧ (ik ∈ adds ∨ kvGet kv ik ≠ none))
    (hdels : ∀ d ∈ dels, d ∉ cur.IndexKeys)
    (p : List Op) (hp : p <+: storeOps c okey cur adds dels) :
    envelopeLive c (replay kv p) okey = true := by
  unfold storeOps at hp
  rw [List.append_assoc] at hp
  rw [envelopeLive_iff] at hlive ⊢
  rcases prefix_append_cases _ _ _ hp with h1 | ⟨q, hq, hq2⟩
  · obtain ⟨n, hn⟩ := prefix_map_take _ _ _ h1
    subst hn
    have hsub : ∀ a ∈ adds.take n, a ∈ adds := fun a ha => List.mem_of_mem_take ha
    have hok : okey ∉ adds.take n := fun h => hadds okey (hsub _ h) rfl
    intro s v hs hv ik hik
    rw [kvGet_replay_sets] at hs ⊢
    simp only [hok, if_false] at hs
    by_cases hm : ik ∈ adds.take n
    · simp [hm]
    · simp only [hm, if_false]
      exact hlive s v hs hv ik hik
  · rcases prefix_append_cases _ _ _ hq2 with h2 | ⟨q2, hq3, hq4⟩
    · -- the envelope is not written yet
      have hqnil : q = [] ∨ q = [Op.set okey (c.encode cur)] := by
        rcases q with _ | ⟨x, xs⟩
        · exact Or.inl rfl
        · right
          have := List.prefix_iff_eq_take.mp h2
          simp at this
          obtain ⟨h3, h4⟩ := this
          rw [h3, h4]
      rcases hqnil with hq0 | hq0
      · subst hq0
        subst hq
        have hok : okey ∉ adds := fun h => hadds okey h rfl
        intro s v hs hv ik hik
        simp only [List.append_nil] at hs ⊢
        rw [kvGet_replay_sets] at hs ⊢
        simp only [hok, if_false] at hs
        by_cases hm : ik ∈ adds
        · simp [hm]
        · simp only [hm, if_false]
          exact hlive s v hs hv ik hik
      · subst hq0
        subst hq
        intro s v hs hv ik hik
        rw [replay_append] at hs ⊢
        simp only [replay, List.foldl_cons, List.foldl_nil] at hs ⊢
        rw [kvGet_applyOp_set] at hs ⊢
        simp only [if_true] at hs
        injection hs with hs
        subst hs
        have hv2 := ParseValue_encode hv
        subst hv2
        obtain ⟨hne, hor⟩ := hcur ik hik
        simp only [hne, if_false]
        have := kvGet_replay_sets kv adds ik
        simp only [replay] at this
        rw [this]
        rcases hor with h5 | h5
        · simp [h5]
        · by_cases hm : ik ∈ adds
          · simp [hm]
          · simp [hm, h5]
    · subst hq3
      subst hq
      obtain ⟨n, hn⟩ := prefix_map_take _ _ _ hq4
      subst hn
      intro s v hs hv ik hik
      rw [← List.append_assoc, replay_append, kvGet_replay_deletes] at hs ⊢
      by_cases hod : okey ∈ dels.take n
      · simp [hod] at hs
      · simp only [hod, if_false] at hs
        rw [replay_append] at hs
        simp only [replay, List.foldl_cons, List.foldl_nil] at hs
        rw [kvGet_applyOp_set] at hs
        simp only [if_true] at hs
        injection hs with hs
        subst hs
        have hv2 := ParseValue_encode hv
        subst hv2
        have hnd : ik ∉ dels.take n := fun h => hdels ik (List.mem_of_mem_take h) hik
        simp only [hnd, if_false]
        rw [replay_append]
        simp only [replay, List.foldl_cons, List.foldl_nil]
        rw [kvGet_applyOp_set]
        obtain ⟨hne, hor⟩ := hcur ik hik
        simp only [hne, if_false]
        have := kvGet_replay_sets kv adds ik
        simp only [replay] at this
        rw [this]
        rcases hor with h5 | h5
        · simp [h5]
        · by_cases hm : ik ∈ adds
          · simp [hm]
          · simp [hm, h5]

/-- C2. Write-ahead-of-remove: if the envelope stored at the object key (if
any) has all of its listed index keys present, then after every beginning of
the sequence of writes that `Store` issues (none, some additions, all
additions, the envelope, some deletions, all deletions) the envelope then
stored at the object key has every index key it lists present in the store.
The store `Store` leaves is the one reached by replaying the writes it
issued. -/
theorem write_ahead_of_remove (c : Gob) (g : Registry) (t : Tx) (key : Str) (ob : Object)
    (okey : ObjectKey) (hkey : NewObjectKey key = .ok okey)
    (hlive : envelopeLive c t.kv okey = true) :
    (Tx.Store c g t key ob).2.kv
      = replay t.kv ((Tx.Store c g t key ob).2.log.drop t.log.length) ∧
    ∀ p, t.log ++ p <+: (Tx.Store c g t key ob).2.log →
      envelopeLive c (replay t.kv p) okey = true := by
  have hfail : (Tx.Store c g t key ob).2 = t →
      (Tx.Store c g t key ob).2.kv
        = replay t.kv ((Tx.Store c g t key ob).2.log.drop t.log.length) ∧
      ∀ p, t.log ++ p <+: (Tx.Store c g t key ob).2.log →
        envelopeLive c (replay t.kv p) okey = true := by
    intro h
    rw [h]
    refine ⟨by simp [replay], ?_⟩
    intro p hp
    have hlen := List.IsPrefix.length_le hp
    simp at hlen
    subst hlen
    simpa [replay] using hlive
  cases hd : GetDataType g ob with
  | error e => exact hfail (by simp [Tx.Store, hkey, hd])
  | ok datatype =>
    cases ho : oldValue c t okey with
    | error e => exact hfail (by simp [Tx.Store, hkey, hd, ho])
    | ok old =>
      cases hn : NewValue c g okey ob datatype with
      | error e => exact hfail (by simp [Tx.Store, hkey, hd, ho, hn])
      | ok cur =>
        obtain ⟨issued, h1, h2, _, h4, _, _⟩ := Store_run c g t key ob hkey hd ho hn
        rw [h1]
        refine ⟨by simpa using h4, ?_⟩
        intro p hp
        have hp2 : p <+: issued := (List.prefix_append_right_inj t.log).mp hp
        have hp3 := List.IsPrefix.trans hp2 h2
        have hpres := oldValue_keys_present hlive ho
        have hne := NewValue_keys_ne hn
        have hsorted := (NewValue_sorted hn).1
        apply storeOps_live c t.kv okey cur _ _ hlive ?_ ?_ ?_ p hp3
        · intro a ha
          simp only [DiffIndexKeys, List.mem_filter] at ha
          exact hne a ha.1
        · intro ik hik
          refine ⟨hne ik hik, ?_⟩
          cases hh : searchHit old.IndexKeys ik with
          | true => exact Or.inr (hpres ik (searchHit_mem hh))
          | false =>
            left
            simp only [DiffIndexKeys, List.mem_filter]
            exact ⟨hik, by simp [hh]⟩
        · intro d hd2 hdc
          simp only [DiffIndexKeys, List.mem_filter] at hd2
          have := searchHit_of_mem hsorted hdc
          rw [this] at hd2
          simp at hd2

set_option maxRecDepth 100000 in
/-- Witness of `write_ahead_of_remove`: `Store("/k", &P{A: 1, B: 3})` over the
stored `P{A: 1, B: 2}`. -/
theorem write_ahead_of_remove_witness :
    (NewObjectKey (lit "/k") = .ok (lit "/ob/k") ∧
      envelopeLive fixtureGob pairTx.kv (lit "/ob/k") = true) ∧
    ((Tx.Store fixtureGob fixtureRegistry pairTx (lit "/k") (pair 1 3)).2.kv
      = replay pairTx.kv
          ((Tx.Store fixtureGob fixtureRegistry pairTx (lit "/k") (pair 1 3)).2.log.drop
            pairTx.log.length) ∧
    ∀ p, pairTx.log ++ p
        <+: (Tx.Store fixtureGob fixtureRegistry pairTx (lit "/k") (pair 1 3)).2.log →
      envelopeLive fixtureGob (replay pairTx.kv p) (lit "/ob/k") = true) :=
  ⟨by decide,
   write_ahead_of_remove fixtureGob fixtureRegistry pairTx (lit "/k") (pair 1 3) (lit "/ob/k")
    (by decide) (by decide)⟩

/-! ## Lemmas: `url.PathEscape` -/

theorem upperhex_inj {m n : Nat} (hm : m < 16) (hn : n < 16) (h : upperhex m = upperhex n) :
    m = n := by
  unfold upperhex at h
  simp only [Fin.ofNat] at h
  split_ifs at h <;> simp only [Fin.mk.injEq] at h <;> omega

theorem upperhex_ne_slash {n : Nat} (hn : n < 16) : upperhex n ≠ slash := by
  unfold upperhex
  simp only [Fin.ofNat]
  intro h
  have h2 := congrArg Fin.val h
  have h3 : (slash : Byte).val = 47 := rfl
  rw [h3] at h2
  split_ifs at h2 <;> simp at h2 <;> omega

theorem shouldEscape_slash : shouldEscape slash = true := by decide

theorem shouldEscape_percent : shouldEscape 37 = true := by decide

theorem slash_not_mem_escapeByte (c : Byte) : slash ∉ escapeByte c := by
  unfold escapeByte
  by_cases h : shouldEscape c = true
  · simp only [h, if_true, List.mem_cons, List.mem_singleton, List.not_mem_nil, or_false,
      not_or]
    refine ⟨by decide, ?_, ?_⟩
    · exact fun hh => upperhex_ne_slash (by have := c.isLt; omega) hh.symm
    · exact fun hh => upperhex_ne_slash (by omega) hh.symm
  · have h2 : shouldEscape c = false := by simpa using h
    simp only [h2, Bool.false_eq_true, if_false, List.mem_singleton]
    intro hh
    rw [← hh] at h
    exact h shouldEscape_slash

theorem slash_not_mem_PathEscape (s : Str) : slash ∉ PathEscape s := by
  unfold PathEscape
  simp only [List.mem_flatMap, not_exists, not_and]
  intro c _
  exact slash_not_mem_escapeByte c

theorem PathEscape_cons (c : Byte) (s : Str) :
    PathEscape (c :: s) = escapeByte c ++ PathEscape s := by
  simp [PathEscape]

theorem PathEscape_eq_nil {s : Str} (h : PathEscape s = []) : s = [] := by
  cases s with
  | nil => rfl
  | cons c cs =>
    rw [PathEscape_cons] at h
    have : escapeByte c = [] := (List.append_eq_nil.mp h).1
    unfold escapeByte at this
    split_ifs at this

theorem escapeByte_append_inj {c d : Byte} {r1 r2 : Str}
    (h : escapeByte c ++ r1 = escapeByte d ++ r2) : c = d ∧ r1 = r2 := by
  unfold escapeByte at h
  by_cases hc : shouldEscape c = true
  · by_cases hd : shouldEscape d = true
    · simp only [hc, hd, if_true, List.cons_append, List.nil_append, List.cons.injEq,
        true_and] at h
      obtain ⟨h1, h2, h3⟩ := h
      have hcl := c.isLt
      have hdl := d.isLt
      have e1 := upperhex_inj (by omega) (by omega) h1
      have e2 := upperhex_inj (Nat.mod_lt _ (by omega)) (Nat.mod_lt _ (by omega)) h2
      exact ⟨Fin.ext (by omega), h3⟩
    · have hd2 : shouldEscape d = false := by simpa using hd
      simp only [hc, hd2, Bool.false_eq_true, if_true, if_false, List.cons_append,
        List.nil_append, List.cons.injEq] at h
      exfalso
      rw [← h.1] at hd
      exact hd shouldEscape_percent
  · have hc2 : shouldEscape c = false := by simpa using hc
    by_cases hd : shouldEscape d = true
    · simp only [hc2, hd, Bool.false_eq_true, if_true, if_false, List.cons_append,
        List.nil_append, List.cons.injEq] at h
      exfalso
      rw [h.1] at hc
      exact hc shouldEscape_percent
    · have hd2 : shouldEscape d = false := by simpa using hd
      simp only [hc2, hd2, Bool.false_eq_true, if_false, List.cons_append, List.nil_append,
        List.cons.injEq] at h
      exact h

theorem PathEscape_inj {s t : Str} (h : PathEscape s = PathEscape t) : s = t := by
  induction s generalizing t with
  | nil =>
    simp only [PathEscape, List.flatMap_nil] at h
    exact (PathEscape_eq_nil h.symm).symm
  | cons c cs ih =>
    cases t with
    | nil => exact PathEscape_eq_nil h
    | cons d ds =>
      rw [PathEscape_cons, PathEscape_cons] at h
      obtain ⟨h1, h2⟩ := escapeByte_append_inj h
      rw [h1, ih h2]

theorem PathEscape_dot : PathEscape (lit ".") = lit "." := by decide

theorem PathEscape_dotdot : PathEscape (lit "..") = lit ".." := by decide

/-! ## Lemmas: the `n`-th slash -/

theorem indexRune_append {u : Str} {r : Byte} (w : Str) (h : r ∉ u) :
    indexRune (u ++ r :: w) r = some u.length := by
  induction u with
  | nil => simp [indexRune]
  | cons c cs ih =>
    have hc : c ≠ r := fun hh => h (by simp [hh])
    have hcs : r ∉ cs := fun hh => h (by simp [hh])
    simp [indexRune, hc, ih hcs]

theorem indexRune_split {l : Str} {r : Byte} {q : Nat} (h : indexRune l r = some q) :
    ∃ u w, l = u ++ r :: w ∧ r ∉ u ∧ u.length = q := by
  induction l generalizing q with
  | nil => simp [indexRune] at h
  | cons c cs ih =>
    unfold indexRune at h
    by_cases hc : c = r
    · simp only [hc, if_true] at h
      injection h with h
      exact ⟨[], cs, by simp [hc], by simp, by simpa using h⟩
    · simp only [hc, if_false] at h
      cases hi : indexRune cs r with
      | none => simp [hi] at h
      | some q2 =>
        simp only [hi, Option.map_some'] at h
        injection h with h
        obtain ⟨u, w, h1, h2, h3⟩ := ih hi
        refine ⟨c :: u, w, by simp [h1], ?_, by simp [h3, h]⟩
        intro hh
        rcases List.mem_cons.mp hh with h4 | h4
        · exact hc h4.symm
        · exact h2 h4

theorem count_split {u : Str} {r : Byte} {n : Nat} (h : u.count r = n + 1) :
    ∃ u1 u2, u = u1 ++ r :: u2 ∧ r ∉ u1 ∧ u2.count r = n := by
  induction u with
  | nil => simp at h
  | cons c cs ih =>
    by_cases hc : c = r
    · subst hc
      refine ⟨[], cs, by simp, by simp, ?_⟩
      simpa using h
    · have hc2 : (c == r) = false := by simpa using hc
      rw [List.count_cons, hc2] at h
      simp only [Bool.false_eq_true, if_false, Nat.add_zero] at h
      obtain ⟨u1, u2, h1, h2, h3⟩ := ih h
      refine ⟨c :: u1, u2, by simp [h1], ?_, h3⟩
      intro hh
      rcases List.mem_cons.mp hh with h4 | h4
      · exact hc h4.symm
      · exact h2 h4

theorem indexRuneNLoop_find (s : Str) (r : Byte) (n : Nat) :
    ∀ (o : Nat) (u w : Str), s.drop o = u ++ r :: w → u.count r = n →
      indexRuneNLoop s r (n + 1) o = some (o + u.length) := by
  induction n with
  | zero =>
    intro o u w hs hu
    have hfree : r ∉ u := List.count_eq_zero.mp hu
    unfold indexRuneNLoop
    rw [hs, indexRune_append w hfree]
    simp [indexRuneNLoop]
  | succ n ih =>
    intro o u w hs hu
    obtain ⟨u1, u2, h1, h2, h3⟩ := count_split hu
    unfold indexRuneNLoop
    have hs2 : s.drop o = u1 ++ r :: (u2 ++ r :: w) := by rw [hs, h1]; simp
    rw [hs2, indexRune_append _ h2]
    dsimp only
    have hs3 : s.drop (o + u1.length + 1) = u2 ++ r :: w := by
      have : s.drop (o + u1.length + 1) = (s.drop o).drop (u1.length + 1) := by
        rw [List.drop_drop, Nat.add_assoc]
      rw [this, hs2]
      simp
    rw [ih (o + u1.length + 1) u2 w hs3 h3, h1]
    simp
    omega

theorem indexRuneN_find {u : Str} {r : Byte} {n : Nat} (w : Str) (h : u.count r = n) :
    indexRuneN (u ++ r :: w) r (n + 1) = some u.length := by
  have := indexRuneNLoop_find (u ++ r :: w) r n 0 u w (by simp) h
  simpa [indexRuneN] using this

theorem indexRuneNLoop_count (s : Str) (r : Byte) (n : Nat) :
    ∀ (o p : Nat), indexRuneNLoop s r n o = some p → n ≤ (s.drop o).count r := by
  induction n with
  | zero => intro o p _; exact Nat.zero_le _
  | succ n ih =>
    intro o p h
    unfold indexRuneNLoop at h
    cases hi : indexRune (s.drop o) r with
    | none => simp [hi] at h
    | some q =>
      simp only [hi] at h
      obtain ⟨u, w, h1, _, h3⟩ := indexRune_split hi
      have hle := ih _ _ h
      have hs3 : s.drop (o + q + 1) = w := by
        have : s.drop (o + q + 1) = (s.drop o).drop (q + 1) := by
          rw [List.drop_drop, Nat.add_assoc]
        rw [this, h1, ← h3]
        simp
      rw [hs3] at hle
      rw [h1, List.count_append, List.count_cons]
      simp
      omega

theorem indexRuneN_none_of_count {s : Str} {r : Byte} {n : Nat} (h : s.count r < n) :
    indexRuneN s r n = none := by
  cases hi : indexRuneN s r n with
  | none => rfl
  | some p =>
    have := indexRuneNLoop_count s r n 0 p hi
    simp at this
    omega

theorem append_slash_inj {p1 p2 t1 t2 : Str} (h1 : slash ∉ p1) (h2 : slash ∉ p2)
    (h : p1 ++ slash :: t1 = p2 ++ slash :: t2) : p1 = p2 ∧ t1 = t2 := by
  induction p1 generalizing p2 with
  | nil =>
    cases p2 with
    | nil => simpa using h
    | cons d ds =>
      simp at h
      exact absurd h.1 (fun hh => h2 (by simp [hh]))
  | cons c cs ih =>
    cases p2 with
    | nil =>
      simp at h
      exact absurd h.1 (fun hh => h1 (by simp [hh]))
    | cons d ds =>
      simp only [List.cons_append, List.cons.injEq] at h
      have hcs : slash ∉ cs := fun hh => h1 (by simp [hh])
      have hds : slash ∉ ds := fun hh => h2 (by simp [hh])
      obtain ⟨e1, e2⟩ := ih hcs hds h.2
      exact ⟨by rw [h.1, e1], e2⟩

/-! ## Lemmas: `path.Join` in `NewIndexKey` and `NewObjectKey` -/

theorem lit_slash : lit "/" = [slash] := by decide

theorem lit_ix : lit "ix" = [105, 120] := by decide

theorem lit_ob : lit "ob" = [111, 98] := by decide

theorem lit_x : lit "x" = [120] := by decide

theorem lit_dot : lit "." = [46] := by decide

theorem lit_dotdot : lit ".." = [46, 46] := by decide

theorem lit_placeholder : lit "/ob/x" = [slash, 111, 98, slash, 120] := by decide

theorem Clean_rooted {p : Str} (h : IsAbs p = true) :
    Clean p = slash :: [slash].intercalate
      ((p.splitOn slash).foldl (cleanStep true) []).reverse := by
  unfold Clean
  have hne : p ≠ [] := by
    intro hp
    rw [hp] at h
    simp [IsAbs] at h
  simp [hne, h]

/-- The key `NewIndexKey` builds for the placeholder owner, before cleaning:
the elements that `path.Clean` goes through. -/
theorem Join_index_key (a b c : Str) (ha : slash ∉ a) (hb : slash ∉ b) (hc : slash ∉ c) :
    Join [lit "/", lit "ix", a, b, c, lit "/ob/x"]
      = slash :: [slash].intercalate
          (([[], [], [105, 120], a, b, c, [], [111, 98], [120]] : List Str).foldl
            (cleanStep true) []).reverse := by
  have hJ : [slash].intercalate [lit "/", lit "ix", a, b, c, lit "/ob/x"]
      = [slash].intercalate ([[], [], [105, 120], a, b, c, [], [111, 98], [120]] : List Str) := by
    simp [List.intercalate, List.intersperse, List.flatten, lit_slash, lit_ix, lit_placeholder]
  have hsplit : ([slash].intercalate
      ([[], [], [105, 120], a, b, c, [], [111, 98], [120]] : List Str)).splitOn slash
      = [[], [], [105, 120], a, b, c, [], [111, 98], [120]] := by
    apply List.splitOn_intercalate
    · intro l hl
      simp only [List.mem_cons, List.mem_singleton, List.not_mem_nil, or_false] at hl
      rcases hl with h | h | h | h | h | h | h | h | h <;> subst h <;>
        first | exact ha | exact hb | exact hc | decide
    · simp
  have habs : IsAbs ([slash].intercalate [lit "/", lit "ix", a, b, c, lit "/ob/x"]) = true := by
    simp [List.intercalate, List.intersperse, List.flatten, lit_slash, IsAbs]
  have hdw : List.dropWhile (fun e => decide (e = []))
      [lit "/", lit "ix", a, b, c, lit "/ob/x"] = [lit "/", lit "ix", a, b, c, lit "/ob/x"] := by
    simp [List.dropWhile, lit_slash]
  unfold Join
  rw [hdw]
  dsimp only
  rw [Clean_rooted habs, hJ, hsplit]

theorem WithObjectKey_of_split (u w : Str) (okey : ObjectKey) (hu : u.count slash = 4) :
    WithObjectKey (u ++ slash :: w) okey = .ok (u ++ okey) := by
  unfold WithObjectKey
  rw [indexRuneN_find w hu]
  simp

theorem WithObjectKey_of_few (s : Str) (okey : ObjectKey) (h : s.count slash < 5) :
    WithObjectKey s okey = .error Err.invalid := by
  unfold WithObjectKey
  rw [indexRuneN_none_of_count h]

theorem GetObjectKey_of_split (u w : Str) (hu : u.count slash = 4) (hw : w ≠ []) :
    GetObjectKey (u ++ slash :: w) = .ok (slash :: w) := by
  unfold GetObjectKey
  rw [indexRuneN_find w hu]
  have hlen : 0 < w.length := List.length_pos.mpr hw
  have hlt : u.length + 1 < (u ++ slash :: w).length := by
    simp only [List.length_append, List.length_cons]
    omega
  simp only [hlt, if_true]
  simp

/-- The shape of an index key of an envelope: the key `NewIndexKey` builds for
the placeholder owner from the escaped type name `a`, field name `b` and field
value `c`, with its owner rewritten to `okey`, is `/ix/p/q/r` followed by
`okey`; the escaped field name is the first segment after `ix` when the type
name is `.`, the second otherwise. -/
theorem rekey_shape (a b c : Str) (okey x : Str)
    (ha : slash ∉ a) (hb : slash ∉ b) (hc : slash ∉ c)
    (ha0 : a ≠ []) (hb0 : b ≠ []) (hc0 : c ≠ [])
    (hb1 : b ≠ lit ".") (hb2 : b ≠ lit "..")
    (h : WithObjectKey (Join [lit "/", lit "ix", a, b, c, lit "/ob/x"]) okey = .ok x) :
    ∃ p q r, slash ∉ p ∧ slash ∉ q ∧ slash ∉ r ∧
      x = (slash :: ([105, 120] ++ slash :: p ++ slash :: q ++ slash :: r)) ++ okey ∧
      ((a = lit "." ∧ p = b) ∨ (a ≠ lit "." ∧ q = b)) := by
  rw [lit_dot] at hb1
  rw [lit_dotdot] at hb2
  rw [Join_index_key a b c ha hb hc] at h
  have za := List.count_eq_zero_of_not_mem ha
  have zb := List.count_eq_zero_of_not_mem hb
  have zc := List.count_eq_zero_of_not_mem hc
  by_cases hA1 : a = [46]
  · by_cases hC1 : c = [46]
    · exfalso
      have hF : (slash :: [slash].intercalate
          (([[], [], [105, 120], a, b, c, [], [111, 98], [120]] : List Str).foldl
            (cleanStep true) []).reverse)
          = slash :: ([105, 120] ++ slash :: b ++ slash :: [111, 98] ++ slash :: [120]) := by
        simp [List.foldl, cleanStep, lit_dot, lit_dotdot, hA1, hC1, hb0, hb1, hb2,
          List.intercalate, List.intersperse, List.flatten]
      rw [hF, WithObjectKey_of_few _ _ (by simp [List.count_cons, List.count_append, zb]; decide)] at h
      exact absurd h (by simp)
    · by_cases hC2 : c = [46, 46]
      · exfalso
        have hF : (slash :: [slash].intercalate
            (([[], [], [105, 120], a, b, c, [], [111, 98], [120]] : List Str).foldl
              (cleanStep true) []).reverse)
            = slash :: ([105, 120] ++ slash :: [111, 98] ++ slash :: [120]) := by
          simp [List.foldl, cleanStep, lit_dot, lit_dotdot, hA1, hC2, hb0, hb1, hb2,
            List.intercalate, List.intersperse, List.flatten]
        rw [hF, WithObjectKey_of_few _ _ (by decide)] at h
        exact absurd h (by simp)
      · have hF : (slash :: [slash].intercalate
            (([[], [], [105, 120], a, b, c, [], [111, 98], [120]] : List Str).foldl
              (cleanStep true) []).reverse)
            = (slash :: ([105, 120] ++ slash :: b ++ slash :: c ++ slash :: [111, 98]))
                ++ slash :: [120] := by
          simp [List.foldl, cleanStep, lit_dot, lit_dotdot, hA1, hC1, hC2, hc0, hb0, hb1, hb2,
            List.intercalate, List.intersperse, List.flatten]
        rw [hF, WithObjectKey_of_split _ _ _
          (by simp [List.count_cons, List.count_append, zb, zc]; decide)] at h
        injection h with h
        exact ⟨b, c, [111, 98], hb, hc, by decide, h.symm, Or.inl ⟨by rw [lit_dot]; exact hA1, rfl⟩⟩
  · have hA1b : a ≠ lit "." := by rw [lit_dot]; exact hA1
    by_cases hA2 : a = [46, 46]
    · exfalso
      by_cases hC1 : c = [46]
      · have hF : (slash :: [slash].intercalate
            (([[], [], [105, 120], a, b, c, [], [111, 98], [120]] : List Str).foldl
              (cleanStep true) []).reverse)
            = slash :: (b ++ slash :: [111, 98] ++ slash :: [120]) := by
          simp [List.foldl, cleanStep, lit_dot, lit_dotdot, hA2, hC1, hb0, hb1, hb2,
            List.intercalate, List.intersperse, List.flatten]
        rw [hF, WithObjectKey_of_few _ _ (by simp [List.count_cons, List.count_append, zb]; decide)] at h
        exact absurd h (by simp)
      · by_cases hC2 : c = [46, 46]
        · have hF : (slash :: [slash].intercalate
              (([[], [], [105, 120], a, b, c, [], [111, 98], [120]] : List Str).foldl
                (cleanStep true) []).reverse)
              = slash :: ([111, 98] ++ slash :: [120]) := by
            simp [List.foldl, cleanStep, lit_dot, lit_dotdot, hA2, hC2, hb0, hb1, hb2,
              List.intercalate, List.intersperse, List.flatten]
          rw [hF, WithObjectKey_of_few _ _ (by decide)] at h
          exact absurd h (by simp)
        · have hF : (slash :: [slash].intercalate
              (([[], [], [105, 120], a, b, c, [], [111, 98], [120]] : List Str).foldl
                (cleanStep true) []).reverse)
              = slash :: (b ++ slash :: c ++ slash :: [111, 98] ++ slash :: [120]) := by
            simp [List.foldl, cleanStep, lit_dot, lit_dotdot, hA2, hC1, hC2, hc0, hb0, hb1, hb2,
              List.intercalate, List.intersperse, List.flatten]
          rw [hF, WithObjectKey_of_few _ _
            (by simp [List.count_cons, List.count_append, zb, zc]; decide)] at h
          exact absurd h (by simp)
    · by_cases hC1 : c = [46]
      · have hF : (slash :: [slash].intercalate
            (([[], [], [105, 120], a, b, c, [], [111, 98], [120]] : List Str).foldl
              (cleanStep true) []).reverse)
            = (slash :: ([105, 120] ++ slash :: a ++ slash :: b ++ slash :: [111, 98]))
                ++ slash :: [120] := by
          simp [List.foldl, cleanStep, lit_dot, lit_dotdot, hA1, hA2, ha0, hC1, hb0, hb1, hb2,
            List.intercalate, List.intersperse, List.flatten]
        rw [hF, WithObjectKey_of_split _ _ _
          (by simp [List.count_cons, List.count_append, za, zb]; decide)] at h
        injection h with h
        exact ⟨a, b, [111, 98], ha, hb, by decide, h.symm, Or.inr ⟨hA1b, rfl⟩⟩
      · by_cases hC2 : c = [46, 46]
        · exfalso
          have hF : (slash :: [slash].intercalate
              (([[], [], [105, 120], a, b, c, [], [111, 98], [120]] : List Str).foldl
                (cleanStep true) []).reverse)
              = slash :: ([105, 120] ++ slash :: a ++ slash :: [111, 98] ++ slash :: [120]) := by
            simp [List.foldl, cleanStep, lit_dot, lit_dotdot, hA1, hA2, ha0, hC2, hb0, hb1, hb2,
              List.intercalate, List.intersperse, List.flatten]
          rw [hF, WithObjectKey_of_few _ _
            (by simp [List.count_cons, List.count_append, za]; decide)] at h
          exact absurd h (by simp)
        · have hF : (slash :: [slash].intercalate
              (([[], [], [105, 120], a, b, c, [], [111, 98], [120]] : List Str).foldl
                (cleanStep true) []).reverse)
              = (slash :: ([105, 120] ++ slash :: a ++ slash :: b ++ slash :: c))
                  ++ slash :: ([111, 98] ++ slash :: [120]) := by
            simp [List.foldl, cleanStep, lit_dot, lit_dotdot, hA1, hA2, ha0, hC1, hC2, hc0, hb0,
              hb1, hb2, List.intercalate, List.intersperse, List.flatten]
          rw [hF, WithObjectKey_of_split _ _ _
            (by simp [List.count_cons, List.count_append, za, zb, zc]; decide)] at h
          injection h with h
          exact ⟨a, b, c, ha, hb, hc, h.symm, Or.inr ⟨hA1b, rfl⟩⟩

theorem splitOn_free (xs : Str) : ∀ l ∈ xs.splitOn slash, slash ∉ l := by
  unfold List.splitOn
  induction xs with
  | nil => simp
  | cons y ys ih =>
    rw [List.splitOnP_cons]
    by_cases hy : (y == slash) = true
    · simp only [hy, if_true]
      intro l hl
      rcases List.mem_cons.mp hl with h | h
      · subst h; simp
      · exact ih l h
    · simp only [hy, Bool.false_eq_true, if_false]
      have hys : y ≠ slash := by simpa using hy
      cases hsp : List.splitOnP (fun x => x == slash) ys with
      | nil => simp [List.modifyHead]
      | cons hd tl =>
        rw [hsp] at ih
        simp only [List.modifyHead]
        intro l hl
        rcases List.mem_cons.mp hl with h | h
        · subst h
          intro hh
          rcases List.mem_cons.mp hh with h2 | h2
          · exact hys h2.symm
          · exact ih hd (by simp) h2
        · exact ih l (by simp [h])

theorem cleanStep_kept (S : List Str) (c : Str) (hc : slash ∉ c)
    (hS : ∀ e ∈ S, keptElement e) : ∀ e ∈ cleanStep true S c, keptElement e := by
  unfold cleanStep
  by_cases h1 : c = [] ∨ c = lit "."
  · simp only [h1, if_true]; exact hS
  · simp only [h1, if_false]
    by_cases h2 : c = lit ".."
    · simp only [h2, if_true]
      cases S with
      | nil => simp
      | cons top rest =>
        have htop : top ≠ lit ".." := (hS top (by simp)).2.2.1
        simp only [htop, if_false]
        intro e he
        exact hS e (by simp [he])
    · simp only [h2, if_false]
      intro e he
      rcases List.mem_cons.mp he with h | h
      · subst h
        exact ⟨fun hh => h1 (Or.inl hh), fun hh => h1 (Or.inr hh), h2, hc⟩
      · exact hS e h

theorem foldl_cleanStep_kept (cs : List Str) (S : List Str) (hcs : ∀ c ∈ cs, slash ∉ c)
    (hS : ∀ e ∈ S, keptElement e) : ∀ e ∈ cs.foldl (cleanStep true) S, keptElement e := by
  induction cs generalizing S with
  | nil => simpa using hS
  | cons c rest ih =>
    simp only [List.foldl_cons]
    apply ih
    · intro c2 hc2; exact hcs c2 (by simp [hc2])
    · exact cleanStep_kept S c (hcs c (by simp)) hS

theorem foldl_cleanStep_push (cs : List Str) (S : List Str) (hcs : ∀ c ∈ cs, keptElement c) :
    cs.foldl (cleanStep true) S = cs.reverse ++ S := by
  induction cs generalizing S with
  | nil => simp
  | cons c rest ih =>
    obtain ⟨h1, h2, h3, _⟩ := hcs c (by simp)
    simp only [List.foldl_cons]
    rw [ih _ (fun c2 hc2 => hcs c2 (by simp [hc2]))]
    simp [cleanStep, h1, h2, h3]

theorem intercalate_cons_cons (sep a b : Str) (l : List Str) :
    sep.intercalate (a :: b :: l) = a ++ sep ++ sep.intercalate (b :: l) := by
  simp [List.intercalate, List.intersperse, List.flatten]

/-- The object key of a valid user key: `/ob` for the root, `/ob` followed by
the user key otherwise. -/
theorem NewObjectKey_shape {key : Str} {okey : ObjectKey} (h : NewObjectKey key = .ok okey) :
    (key = [slash] ∧ okey = lit "/ob") ∨ (key ≠ [slash] ∧ okey = lit "/ob" ++ key) := by
  unfold NewObjectKey at h
  by_cases habs : IsAbs key = true
  · simp only [habs, Bool.not_true, Bool.false_eq_true, if_false] at h
    by_cases hclean : Clean key = key
    · simp only [hclean, ne_eq, not_true_eq_false, if_false] at h
      injection h with h
      rw [Clean_rooted habs] at hclean
      have hkept := foldl_cleanStep_kept (key.splitOn slash) [] (splitOn_free key) (by simp)
      generalize hS : (key.splitOn slash).foldl (cleanStep true) [] = S at hclean hkept
      have hR : ∀ e ∈ S.reverse, keptElement e := fun e he => hkept e (List.mem_reverse.mp he)
      generalize S.reverse = R at hclean hR
      cases R with
      | nil =>
        left
        simp [List.intercalate] at hclean
        subst hclean
        refine ⟨rfl, ?_⟩
        rw [← h]
        decide
      | cons r0 rs =>
        right
        have hne : key ≠ [slash] := by
          intro hk
          rw [hk] at hclean
          simp only [List.cons.injEq, true_and] at hclean
          have hr0 := (hR r0 (by simp)).1
          cases rs with
          | nil => simp [List.intercalate] at hclean; exact hr0 hclean
          | cons r1 rs2 =>
            rw [intercalate_cons_cons] at hclean
            simp at hclean
        refine ⟨hne, ?_⟩
        rw [← h]
        have hJ : [slash].intercalate [lit "/", ObjectKeyspace, key]
            = [slash].intercalate ([[], [], [111, 98], []] ++ (r0 :: rs)) := by
          rw [← hclean]
          simp [List.intercalate, List.intersperse, List.flatten, lit_slash, ObjectKeyspace,
            lit_ob]
        have hfree : ∀ l ∈ ([[], [], [111, 98], []] : List Str) ++ (r0 :: rs), slash ∉ l := by
          intro l hl
          rcases List.mem_append.mp hl with h1 | h1
          · simp only [List.mem_cons, List.mem_singleton, List.not_mem_nil, or_false] at h1
            rcases h1 with h2 | h2 | h2 | h2 <;> subst h2 <;> decide
          · exact (hR l h1).2.2.2
        have hsplit := List.splitOn_intercalate _ slash hfree (by simp)
        have habs2 : IsAbs ([slash].intercalate [lit "/", ObjectKeyspace, key]) = true := by
          simp [List.intercalate, List.intersperse, List.flatten, lit_slash, IsAbs]
        have hdw : List.dropWhile (fun e => decide (e = [])) [lit "/", ObjectKeyspace, key]
            = [lit "/", ObjectKeyspace, key] := by
          simp [List.dropWhile, lit_slash]
        unfold Join
        rw [hdw]
        dsimp only
        rw [Clean_rooted habs2, hJ, hsplit, List.foldl_append]
        have hfirst : ([[], [], [111, 98], []] : List Str).foldl (cleanStep true) []
            = [[111, 98]] := by
          simp [List.foldl, cleanStep, lit_dot, lit_dotdot]
        rw [hfirst, foldl_cleanStep_push _ _ hR]
        rw [← hclean]
        have hob : lit "/ob" = [slash, 111, 98] := by decide
        simp [List.intercalate, List.intersperse, List.flatten, hob]
    · simp [hclean] at h
  · simp [habs] at h

/-! ## Lemmas: the index keys of a new envelope -/

theorem isIdentifier_ne_dots {s : Str} (h : isIdentifier s = true) :
    s ≠ lit "." ∧ s ≠ lit ".." := by
  constructor
  · intro hs; rw [hs] at h; exact absurd h (by decide)
  · intro hs; rw [hs] at h; exact absurd h (by decide)

theorem mem_mapSet {β : Type} (m : List (Str × β)) (k : Str) (v : β) (e : Str × β)
    (h : e ∈ mapSet m k v) : e = (k, v) ∨ e ∈ m := by
  induction m with
  | nil => simp [mapSet] at h; exact Or.inl h
  | cons e0 rest ih =>
    obtain ⟨k0, v0⟩ := e0
    unfold mapSet at h
    by_cases hk : k0 = k
    · simp only [hk, if_true] at h
      rcases List.mem_cons.mp h with h1 | h1
      · exact Or.inl h1
      · exact Or.inr (by simp [h1])
    · simp only [hk, if_false] at h
      rcases List.mem_cons.mp h with h1 | h1
      · exact Or.inr (by simp [h1])
      · rcases ih h1 with h2 | h2
        · exact Or.inl h2
        · exact Or.inr (by simp [h2])

/-- What the loop of `IndexKeyMap` keeps in the map: under distinct names, for
each entry, the key `NewIndexKey` builds for the placeholder owner from the
name of the type, the name of an index field and a non-empty value. -/
theorem indexKeyMapLoop_spec (g : Registry) (t : DataType) (ovalue : StructValue)
    (okey : ObjectKey) (fields : List IndexField) (m0 m : IndexKeyMapping)
    (h : indexKeyMapLoop g t ovalue okey fields m0 = .ok m)
    (hP : ∀ e ∈ m0, ∃ f ∈ t.indexFields, f.name = e.1 ∧
      ∃ v, NewIndexKey okey t.name e.1 v = .ok e.2)
    (hsub : ∀ f ∈ fields, f ∈ t.indexFields)
    (hnd : (m0.map Prod.fst).Nodup) :
    (∀ e ∈ m, ∃ f ∈ t.indexFields, f.name = e.1 ∧
      ∃ v, NewIndexKey okey t.name e.1 v = .ok e.2) ∧
    (m.map Prod.fst).Nodup := by
  induction fields generalizing m0 with
  | nil =>
    simp only [indexKeyMapLoop] at h
    injection h with h
    subst h
    exact ⟨hP, hnd⟩
  | cons f rest ih =>
    unfold indexKeyMapLoop at h
    cases hs : f.ToString g ovalue with
    | error e => rw [hs] at h; simp at h
    | ok fstring =>
      rw [hs] at h
      dsimp only at h
      by_cases hlen : fstring.length = 0
      · simp only [hlen, if_true] at h
        injection h with h
        subst h
        simp
      · simp only [hlen, if_false] at h
        cases hn : NewIndexKey okey t.name f.name fstring with
        | error e => rw [hn] at h; simp at h
        | ok ik =>
          rw [hn] at h
          dsimp only at h
          apply ih _ h
          · intro e he
            rcases mem_mapSet _ _ _ _ he with h1 | h1
            · subst h1
              exact ⟨f, hsub f (by simp), rfl, fstring, hn⟩
            · exact hP e h1
          · intro f2 hf2
            exact hsub f2 (by simp [hf2])
          · exact keys_mapSet_nodup _ _ _ hnd

theorem NewIndexKey_ok {okey : ObjectKey} {t f v : Str} {ik : IndexKey}
    (h : NewIndexKey okey t f v = .ok ik) :
    t ≠ [] ∧ f ≠ [] ∧ v ≠ [] ∧
    ik = Join [lit "/", IndexKeyspace, PathEscape t, PathEscape f, PathEscape v, okey] := by
  unfold NewIndexKey at h
  by_cases h1 : okey.length = 0
  · simp [h1] at h
  · simp only [h1, if_false] at h
    by_cases h2 : t.length = 0 ∨ f.length = 0 ∨ v.length = 0
    · rw [if_pos h2] at h
      exact absurd h (by simp)
    · rw [if_neg h2] at h
      injection h with h
      simp only [not_or, List.length_eq_zero] at h2
      exact ⟨h2.1, h2.2.1, h2.2.2, h.symm⟩

/-- The shape of the key an entry of the extracted map becomes in the
envelope. -/
theorem entry_rekey_shape {t name v : Str} {ik0 x : IndexKey} {okey : ObjectKey}
    (hname : name ≠ lit "." ∧ name ≠ lit "..")
    (hnew : NewIndexKey (lit "/ob/x") t name v = .ok ik0)
    (hw : WithObjectKey ik0 okey = .ok x) :
    ∃ p q r, slash ∉ p ∧ slash ∉ q ∧ slash ∉ r ∧
      x = (slash :: ([105, 120] ++ slash :: p ++ slash :: q ++ slash :: r)) ++ okey ∧
      ((PathEscape t = lit "." ∧ p = PathEscape name) ∨
        (PathEscape t ≠ lit "." ∧ q = PathEscape name)) := by
  obtain ⟨ht, hf, hv, hik⟩ := NewIndexKey_ok hnew
  subst hik
  have hix : IndexKeyspace = lit "ix" := rfl
  rw [hix] at hw
  apply rekey_shape (PathEscape t) (PathEscape name) (PathEscape v) okey x
    (slash_not_mem_PathEscape _) (slash_not_mem_PathEscape _) (slash_not_mem_PathEscape _)
    (fun h => ht (PathEscape_eq_nil h)) (fun h => hf (PathEscape_eq_nil h))
    (fun h => hv (PathEscape_eq_nil h)) ?_ ?_ hw
  · intro h
    rw [← PathEscape_dot] at h
    exact hname.1 (PathEscape_inj h)
  · intro h
    rw [← PathEscape_dotdot] at h
    exact hname.2 (PathEscape_inj h)

theorem shape_owner {p q r okey : Str} (o1 : Str) (hp : slash ∉ p) (hq : slash ∉ q)
    (hr : slash ∉ r) (hokey : okey = slash :: o1) (ho1 : o1 ≠ []) :
    (∃ rest, (slash :: ([105, 120] ++ slash :: p ++ slash :: q ++ slash :: r)) ++ okey
      = slash :: 105 :: rest) ∧
    GetObjectKey ((slash :: ([105, 120] ++ slash :: p ++ slash :: q ++ slash :: r)) ++ okey)
      = .ok okey := by
  constructor
  · exact ⟨120 :: slash :: (p ++ slash :: (q ++ slash :: (r ++ okey))), by simp⟩
  · subst hokey
    apply GetObjectKey_of_split _ _ _ ho1
    have zp := List.count_eq_zero_of_not_mem hp
    have zq := List.count_eq_zero_of_not_mem hq
    have zr := List.count_eq_zero_of_not_mem hr
    simp [List.count_cons, List.count_append, zp, zq, zr]
    decide

theorem shape_name_inj {a : Str} {p1 q1 r1 p2 q2 r2 n1 n2 okey : Str}
    (hp1 : slash ∉ p1) (hq1 : slash ∉ q1) (hp2 : slash ∉ p2) (hq2 : slash ∉ q2)
    (h1 : (a = lit "." ∧ p1 = PathEscape n1) ∨ (a ≠ lit "." ∧ q1 = PathEscape n1))
    (h2 : (a = lit "." ∧ p2 = PathEscape n2) ∨ (a ≠ lit "." ∧ q2 = PathEscape n2))
    (h : (slash :: ([105, 120] ++ slash :: p1 ++ slash :: q1 ++ slash :: r1)) ++ okey
      = (slash :: ([105, 120] ++ slash :: p2 ++ slash :: q2 ++ slash :: r2)) ++ okey) :
    n1 = n2 := by
  have h3 := List.append_cancel_right h
  simp only [List.cons_append, List.nil_append, List.append_assoc, List.cons.injEq,
    true_and] at h3
  obtain ⟨e1, e2⟩ := append_slash_inj hp1 hp2 h3
  obtain ⟨e3, _⟩ := append_slash_inj hq1 hq2 e2
  rcases h1 with ⟨ha, hb⟩ | ⟨ha, hb⟩
  · rcases h2 with ⟨ha2, hb2⟩ | ⟨ha2, _⟩
    · exact PathEscape_inj (by rw [← hb, ← hb2, e1])
    · exact absurd ha ha2
  · rcases h2 with ⟨ha2, _⟩ | ⟨_, hb2⟩
    · exact absurd ha2 ha
    · exact PathEscape_inj (by rw [← hb, ← hb2, e3])

theorem withObjectKeyAll_spec (t : DataType) (okey o1 : Str) (m : IndexKeyMapping)
    (xs : List IndexKey)
    (hnames : ∀ f ∈ t.indexFields, f.name ≠ lit "." ∧ f.name ≠ lit "..")
    (hokey : okey = slash :: o1) (ho1 : o1 ≠ [])
    (hP : ∀ e ∈ m, ∃ f ∈ t.indexFields, f.name = e.1 ∧
      ∃ v, NewIndexKey (lit "/ob/x") t.name e.1 v = .ok e.2)
    (hnd : (m.map Prod.fst).Nodup)
    (h : withObjectKeyAll okey (m.map Prod.snd) = .ok xs) :
    xs.Nodup ∧ (∀ x ∈ xs, ∃ e ∈ m, WithObjectKey e.2 okey = .ok x) ∧
    ∀ x ∈ xs, (∃ rest, x = slash :: 105 :: rest) ∧ GetObjectKey x = .ok okey := by
  induction m generalizing xs with
  | nil =>
    simp [withObjectKeyAll] at h
    subst h
    simp
  | cons e0 rest ih =>
    simp only [List.map_cons] at h hnd
    unfold withObjectKeyAll at h
    cases hw : WithObjectKey e0.2 okey with
    | error e => rw [hw] at h; simp at h
    | ok x0 =>
      rw [hw] at h
      dsimp only at h
      cases hr : withObjectKeyAll okey (rest.map Prod.snd) with
      | error e => rw [hr] at h; simp at h
      | ok ys =>
        rw [hr] at h
        dsimp only at h
        injection h with h
        subst h
        have hnd2 := List.nodup_cons.mp hnd
        obtain ⟨i1, i2, i3⟩ := ih ys (fun e he => hP e (by simp [he])) hnd2.2 hr
        obtain ⟨f0, hf0, hf0n, v0, hv0⟩ := hP e0 (by simp)
        have hn0 := hnames f0 hf0
        rw [hf0n] at hn0
        obtain ⟨p, q, r, hp, hq, hr2, hx, hcase⟩ := entry_rekey_shape hn0 hv0 hw
        refine ⟨?_, ?_, ?_⟩
        · apply List.nodup_cons.mpr
          refine ⟨?_, i1⟩
          intro hmem
          obtain ⟨e1, he1, hw1⟩ := i2 x0 hmem
          obtain ⟨f1, hf1, hf1n, v1, hv1⟩ := hP e1 (by simp [he1])
          have hn1 := hnames f1 hf1
          rw [hf1n] at hn1
          obtain ⟨p1, q1, r1, hp1, hq1, _, hx1, hcase1⟩ := entry_rekey_shape hn1 hv1 hw1
          have heq := shape_name_inj hp hq hp1 hq1 hcase hcase1 (by rw [← hx, ← hx1])
          apply hnd2.1
          rw [heq]
          exact List.mem_map_of_mem Prod.fst he1
        · intro x hx2
          rcases List.mem_cons.mp hx2 with h1 | h1
          · subst h1; exact ⟨e0, by simp, hw⟩
          · obtain ⟨e1, he1, hw1⟩ := i2 x h1
            exact ⟨e1, by simp [he1], hw1⟩
        · intro x hx2
          rcases List.mem_cons.mp hx2 with h1 | h1
          · subst h1
            rw [hx]
            exact shape_owner o1 hp hq hr2 hokey ho1
          · exact i3 x h1

/-- The envelope `NewValue` builds for an object key from `NewObjectKey`, when
the index fields of the data type are named by identifiers, is well formed. -/
theorem NewValue_wellFormed {c : Gob} {g : Registry} {key : Str} {okey : ObjectKey}
    {ob : Object} {datatype : DataType} {cur : Value}
    (hkey : NewObjectKey key = .ok okey)
    (hnames : ∀ f ∈ datatype.indexFields, isIdentifier f.name = true)
    (h : NewValue c g okey ob datatype = .ok cur) : wellFormedEnvelope cur := by
  have hoshape : ∃ o1, okey = slash :: o1 ∧ o1 ≠ [] := by
    have hob : lit "/ob" = [slash, 111, 98] := by decide
    rcases NewObjectKey_shape hkey with ⟨_, h2⟩ | ⟨_, h2⟩
    · exact ⟨[111, 98], by rw [h2, hob], by simp⟩
    · exact ⟨[111, 98] ++ key, by rw [h2, hob]; rfl, by simp⟩
  obtain ⟨o1, hokey, ho1⟩ := hoshape
  have hobj := (NewValue_sorted h).2
  unfold NewValue at h
  cases hm : datatype.Marshal c ob with
  | error e => rw [hm] at h; simp at h
  | ok s =>
    rw [hm] at h
    dsimp only at h
    cases hi : datatype.IndexKeyMap g ob with
    | error e => rw [hi] at h; simp at h
    | ok ikMap =>
      rw [hi] at h
      dsimp only at h
      cases hw : withObjectKeyAll okey (ikMap.map Prod.snd) with
      | error e => rw [hw] at h; simp at h
      | ok iks =>
        rw [hw] at h
        dsimp only at h
        injection h with h
        have hmap : (∀ e ∈ ikMap, ∃ f ∈ datatype.indexFields, f.name = e.1 ∧
            ∃ v, NewIndexKey (lit "/ob/x") datatype.name e.1 v = .ok e.2) ∧
            (ikMap.map Prod.fst).Nodup := by
          unfold DataType.IndexKeyMap at hi
          cases hg : datatype.goodValue ob with
          | none => rw [hg] at hi; simp at hi
          | some ovalue =>
            rw [hg] at hi
            dsimp only at hi
            have hx : NewObjectKey (lit "/x") = .ok (lit "/ob/x") := by decide
            rw [hx] at hi
            dsimp only at hi
            exact indexKeyMapLoop_spec g datatype ovalue _ _ [] ikMap hi (by simp)
              (fun f hf => hf) (by simp)
        obtain ⟨j1, _, j3⟩ := withObjectKeyAll_spec datatype okey o1 ikMap iks
          (fun f hf => isIdentifier_ne_dots (hnames f hf)) hokey ho1 hmap.1 hmap.2 hw
        unfold wellFormedEnvelope
        rw [hobj, ← h]
        refine ⟨?_, ?_⟩
        · exact (List.perm_insertionSort _ iks).nodup_iff.mpr j1
        · intro ik hik
          exact j3 ik (mem_SortIndexKeys.mp hik)

/-! ## Lemmas: the invariant of the reachable stores -/

theorem encode_ne_nil (c : Gob) (v : Value) : c.encode v ≠ [] := by
  intro h
  have h1 := c.decode_encode v
  rw [h, c.decode_nil] at h1
  exact absurd h1 (by simp)

theorem encode_inj (c : Gob) {v w : Value} (h : c.encode v = c.encode w) : v = w := by
  have h1 := c.decode_encode v
  rw [h, c.decode_encode w] at h1
  injection h1 with h1
  exact h1.symm

theorem ParseValue_decode {c : Gob} {s : Str} {v : Value} (h : ParseValue c s = .ok v) :
    c.decode s = some v := by
  unfold ParseValue at h
  cases hd : c.decode s with
  | none => rw [hd] at h; simp at h
  | some w =>
    rw [hd] at h
    dsimp only at h
    split at h
    · exact absurd h (by simp)
    · split at h
      · exact absurd h (by simp)
      · injection h with h; rw [h]

theorem ix_ne_ob {a b : Str} (ha : ∃ rest, a = slash :: 105 :: rest)
    (hb : ∃ rest, b = slash :: 111 :: rest) : a ≠ b := by
  obtain ⟨r1, h1⟩ := ha
  obtain ⟨r2, h2⟩ := hb
  rw [h1, h2]
  intro h
  simp at h

theorem NewObjectKey_ob {key : Str} {okey : ObjectKey} (h : NewObjectKey key = .ok okey) :
    ∃ rest, okey = slash :: 111 :: rest := by
  have hob : lit "/ob" = [slash, 111, 98] := by decide
  rcases NewObjectKey_shape h with ⟨_, h2⟩ | ⟨_, h2⟩
  · exact ⟨[98], by rw [h2, hob]⟩
  · exact ⟨98 :: key, by rw [h2, hob]; rfl⟩

/-- The envelope stored at a key of a store that satisfies the invariant. -/
theorem StoreInv_envelope {c : Gob} {kv : KV} (hinv : StoreInv c kv) {k s : Str} {v : Value}
    (hs : kvGet kv k = some s) (hd : c.decode s = some v) :
    s = c.encode v ∧ v.ObjectKey = k ∧ (∃ rest, k = slash :: 111 :: rest) ∧
      wellFormedEnvelope v ∧ ∀ ik ∈ v.IndexKeys, kvGet kv ik = some [] := by
  rcases hinv.1 k s hs with h1 | ⟨w, h1, h2, h3, h4⟩
  · rw [h1, c.decode_nil] at hd
    exact absurd hd (by simp)
  · rw [h1, c.decode_encode] at hd
    injection hd with hd
    subst hd
    refine ⟨h1, h2, h3, h4, ?_⟩
    rw [h1] at hs
    exact hinv.2 k w hs

theorem StoreInv_empty (c : Gob) : StoreInv c [] := by
  constructor
  · intro k s h; simp [kvGet] at h
  · intro k v h; simp [kvGet] at h

theorem StoreInv_set {c : Gob} {kv : KV} (hinv : StoreInv c kv) {key : Str} {okey : ObjectKey}
    (hkey : NewObjectKey key = .ok okey) (value : Str) :
    StoreInv c (kvSet kv okey (c.encode (NewStringValue okey value))) := by
  have hob := NewObjectKey_ob hkey
  constructor
  · intro k s hs
    rw [kvGet_set] at hs
    by_cases hk : k = okey
    · simp only [hk, if_true] at hs
      injection hs with hs
      right
      refine ⟨NewStringValue okey value, hs.symm, by rw [hk]; rfl, by rw [hk]; exact hob, ?_⟩
      simp [wellFormedEnvelope, NewStringValue]
    · simp only [hk, if_false] at hs
      exact hinv.1 k s hs
  · intro k v hs ik hik
    rw [kvGet_set] at hs
    by_cases hk : k = okey
    · simp only [hk, if_true] at hs
      injection hs with hs
      have := encode_inj c hs
      rw [← this] at hik
      simp [NewStringValue] at hik
    · simp only [hk, if_false] at hs
      obtain ⟨_, _, _, h4, h5⟩ := StoreInv_envelope hinv hs (c.decode_encode v)
      have hne : ik ≠ okey := ix_ne_ob (h4.2 ik hik).1 hob
      rw [kvGet_set]
      simp only [hne, if_false]
      exact h5 ik hik

/-- On a store that satisfies the invariant, `Delete` does not panic, and
when it returns `nil` the store it leaves satisfies the invariant. -/
theorem StoreInv_Delete {c : Gob} {t : Tx} (hinv : StoreInv c t.kv) (key : Str) :
    (Tx.Delete c t key).1 ≠ Outcome.panic ∧
    ((Tx.Delete c t key).1 = Outcome.ok → StoreInv c (Tx.Delete c t key).2.kv) := by
  unfold Tx.Delete
  cases hkey : NewObjectKey key with
  | error e => simp
  | ok okey =>
    dsimp only
    cases hg : kvGet t.kv okey with
    | none => simp
    | some s =>
      dsimp only
      cases hp : ParseValue c s with
      | error e => simp
      | ok v =>
        dsimp only
        have hd := kvDelete_of_get hg
        obtain ⟨t1, ht1⟩ : ∃ t1 : Tx,
            t1 = Tx.mk (kvErase t.kv okey) (t.log ++ [Op.delete okey]) := ⟨_, rfl⟩
        have hkv1 : t1.kv = kvErase t.kv okey := by rw [ht1]
        have hrun : t.delete okey = (true, t1) := by simp [Tx.delete, hd, ht1]
        rw [hrun]
        dsimp only
        obtain ⟨henc, hvk, hob, hwf, hpres⟩ := StoreInv_envelope hinv hg (ParseValue_decode hp)
        have hne : ∀ ik ∈ v.IndexKeys, ik ≠ okey := fun ik hik => ix_ne_ob (hwf.2 ik hik).1 hob
        have hok : (deleteIndexKeys t1 v.IndexKeys).1 = Outcome.ok := by
          apply deleteIndexKeys_ok_of _ _ hwf.1
          intro ik hik
          rw [hkv1, kvGet_erase]
          simp only [hne ik hik, if_false]
          rw [hpres ik hik]
          simp
        refine ⟨by rw [hok]; simp, ?_⟩
        intro _
        have hget := deleteIndexKeys_ok_get t1 v.IndexKeys hok
        have hsub : ∀ q s2, kvGet (deleteIndexKeys t1 v.IndexKeys).2.kv q = some s2 →
            q ∉ v.IndexKeys ∧ q ≠ okey ∧ kvGet t.kv q = some s2 := by
          intro q s2 hq
          rw [hget, hkv1, kvGet_erase] at hq
          by_cases h1 : q ∈ v.IndexKeys
          · simp [h1] at hq
          · by_cases h2 : q = okey
            · simp [h1, h2] at hq
            · simp only [h1, h2, if_false] at hq
              exact ⟨h1, h2, hq⟩
        constructor
        · intro k s2 hs2
          exact hinv.1 k s2 (hsub k s2 hs2).2.2
        · intro k w hs2 ik hik
          obtain ⟨_, hk2, hk3⟩ := hsub k _ hs2
          obtain ⟨_, hwk, _, hwwf, hwpres⟩ := StoreInv_envelope hinv hk3 (c.decode_encode w)
          have hown := (hwwf.2 ik hik).2
          have h1 : ik ∉ v.IndexKeys := by
            intro hmem
            have h2 := (hwf.2 ik hmem).2
            rw [hown] at h2
            injection h2 with h2
            rw [hwk, hvk] at h2
            exact hk2 h2
          have h2 : ik ≠ okey := ix_ne_ob (hwwf.2 ik hik).1 hob
          rw [hget, hkv1, kvGet_erase]
          simp only [h1, h2, if_false]
          exact hwpres ik hik

theorem oldValue_cases {c : Gob} {t : Tx} {okey : ObjectKey} {old : Value}
    (hinv : StoreInv c t.kv) (hold : oldValue c t okey = .ok old) :
    old.IndexKeys = [] ∨
    (kvGet t.kv okey = some (c.encode old) ∧ old.ObjectKey = okey ∧ wellFormedEnvelope old ∧
      ∀ ik ∈ old.IndexKeys, kvGet t.kv ik = some []) := by
  unfold oldValue at hold
  cases hg : kvGet t.kv okey with
  | none =>
    simp [hg] at hold
    subst hold
    exact Or.inl rfl
  | some s =>
    simp only [hg, Option.getD_some] at hold
    by_cases hs : s.length > 0
    · simp only [hs, if_true] at hold
      obtain ⟨h1, h2, _, h4, h5⟩ := StoreInv_envelope hinv hg (ParseValue_decode hold)
      right
      exact ⟨by rw [h1], h2, h4, h5⟩
    · simp only [hs, if_false] at hold
      injection hold with hold
      subst hold
      exact Or.inl rfl

theorem kvGet_storeOps (c : Gob) (kv : KV) (okey : ObjectKey) (cur : Value)
    (adds dels : List IndexKey) (q : Str) :
    kvGet (replay kv (storeOps c okey cur adds dels)) q
      = if q ∈ dels then none
        else if q = okey then some (c.encode cur)
        else if q ∈ adds then some [] else kvGet kv q := by
  unfold storeOps
  rw [replay_append, kvGet_replay_deletes, replay_append]
  have h1 : ∀ kv2 : KV, replay kv2 [Op.set okey (c.encode cur)]
      = applyOp kv2 (Op.set okey (c.encode cur)) := by
    intro kv2; simp [replay]
  rw [h1, kvGet_applyOp_set, kvGet_replay_sets]

theorem GetDataType_mem {g : Registry} {ob : Object} {datatype : DataType}
    (h : GetDataType g ob = .ok datatype) : ∃ e ∈ g.typeMap, e.2 = datatype := by
  unfold GetDataType at h
  cases hs : getStructType ob with
  | none => rw [hs] at h; simp at h
  | some stype =>
    rw [hs] at h
    dsimp only at h
    cases hf : g.typeMap.find? (fun e => decide (e.1 = stype)) with
    | none => rw [hf] at h; simp at h
    | some e =>
      rw [hf] at h
      dsimp only at h
      injection h with h
      exact ⟨e, List.mem_of_find?_eq_some hf, h⟩

/-- On a store that satisfies the invariant, `Store` does not panic, and when
it returns `nil` the store it leaves satisfies the invariant. -/
theorem StoreInv_Store {c : Gob} {g : Registry} {t : Tx} (hinv : StoreInv c t.kv)
    (hg : g.fieldNamesAreIdentifiers) (key : Str) (ob : Object) :
    (Tx.Store c g t key ob).1 ≠ Outcome.panic ∧
    ((Tx.Store c g t key ob).1 = Outcome.ok → StoreInv c (Tx.Store c g t key ob).2.kv) := by
  cases hkey : NewObjectKey key with
  | error e => simp [Tx.Store, hkey]
  | ok okey =>
    cases hd : GetDataType g ob with
    | error e => simp [Tx.Store, hkey, hd]
    | ok datatype =>
      cases ho : oldValue c t okey with
      | error e => simp [Tx.Store, hkey, hd, ho]
      | ok old =>
        cases hn : NewValue c g okey ob datatype with
        | error e => simp [Tx.Store, hkey, hd, ho, hn]
        | ok cur =>
          obtain ⟨e, he, hed⟩ := GetDataType_mem hd
          have hnames : ∀ f ∈ datatype.indexFields, isIdentifier f.name = true := by
            intro f hf
            rw [← hed] at hf
            exact hg e he f hf
          have hwf := NewValue_wellFormed hkey hnames hn
          have hcurkey := (NewValue_sorted hn).2
          have hsorted := (NewValue_sorted hn).1
          have hob := NewObjectKey_ob hkey
          have hcases := oldValue_cases hinv ho
          -- facts about the old index keys
          have hold : ∀ d ∈ old.IndexKeys, (∃ rest, d = slash :: 105 :: rest) ∧
              GetObjectKey d = .ok okey ∧ kvGet t.kv d = some [] := by
            intro d hdm
            rcases hcases with h1 | ⟨_, h2, h3, h4⟩
            · rw [h1] at hdm; simp at hdm
            · have := h3.2 d hdm
              rw [h2] at this
              exact ⟨this.1, this.2, h4 d hdm⟩
          have holdnd : old.IndexKeys.Nodup := by
            rcases hcases with h1 | ⟨_, _, h3, _⟩
            · rw [h1]; simp
            · exact h3.1
          obtain ⟨adds, hadds⟩ : ∃ adds, adds = (DiffIndexKeys old.IndexKeys cur.IndexKeys).2 :=
            ⟨_, rfl⟩
          obtain ⟨dels, hdels⟩ : ∃ dels, dels = (DiffIndexKeys old.IndexKeys cur.IndexKeys).1 :=
            ⟨_, rfl⟩
          have hdels2 : dels = old.IndexKeys.filter (fun k => decide (k ∉ cur.IndexKeys)) := by
            rw [hdels, DiffIndexKeys_deletions _ _ hsorted]
          have hdel_old : ∀ d ∈ dels, d ∈ old.IndexKeys ∧ d ∉ cur.IndexKeys := by
            intro d hdm
            rw [hdels2] at hdm
            simpa using List.mem_filter.mp hdm
          have hadd_cur : ∀ a ∈ adds, a ∈ cur.IndexKeys := by
            intro a ha
            rw [hadds] at ha
            simp only [DiffIndexKeys, List.mem_filter] at ha
            exact ha.1
          have hcur_cover : ∀ ik ∈ cur.IndexKeys, ik ∈ adds ∨ ik ∈ old.IndexKeys := by
            intro ik hik
            cases hh : searchHit old.IndexKeys ik with
            | true => exact Or.inr (searchHit_mem hh)
            | false =>
              left
              rw [hadds]
              simp only [DiffIndexKeys, List.mem_filter]
              exact ⟨hik, by simp [hh]⟩
          have hcur_ix : ∀ ik ∈ cur.IndexKeys, (∃ rest, ik = slash :: 105 :: rest) ∧
              GetObjectKey ik = .ok okey := by
            intro ik hik
            have := hwf.2 ik hik
            rw [hcurkey] at this
            exact this
          have hokey_adds : okey ∉ adds := fun h =>
            ix_ne_ob (hcur_ix okey (hadd_cur okey h)).1 hob rfl
          have hokey_dels : okey ∉ dels := fun h =>
            ix_ne_ob (hold okey (hdel_old okey h).1).1 hob rfl
          -- the run
          obtain ⟨t2, ht2⟩ : ∃ t2 : Tx,
              t2 = (setIndexKeys t adds).set okey (c.encode cur) := ⟨_, rfl⟩
          have hrun : Tx.Store c g t key ob = deleteIndexKeys t2 dels := by
            simp only [Tx.Store, hkey, hd, ho, hn]
            rw [ht2, hadds, hdels]
          have ht2kv : ∀ q, kvGet t2.kv q
              = if q = okey then some (c.encode cur)
                else if q ∈ adds then some [] else kvGet t.kv q := by
            intro q
            rw [ht2]
            simp only [Tx.set]
            rw [kvGet_set, setIndexKeys_kv, kvGet_replay_sets]
          have hok : (deleteIndexKeys t2 dels).1 = Outcome.ok := by
            apply deleteIndexKeys_ok_of
            · rw [hdels2]
              exact List.Nodup.filter _ holdnd
            · intro d hdm
              have hdo := hold d (hdel_old d hdm).1
              have hne : d ≠ okey := ix_ne_ob hdo.1 hob
              rw [ht2kv]
              simp only [hne, if_false]
              by_cases hda : d ∈ adds
              · simp [hda]
              · simp [hda, hdo.2.2]
          rw [hrun]
          refine ⟨by rw [hok]; simp, ?_⟩
          intro _
          have hget : ∀ q, kvGet (deleteIndexKeys t2 dels).2.kv q
              = if q ∈ dels then none
                else if q = okey then some (c.encode cur)
                else if q ∈ adds then some [] else kvGet t.kv q := by
            intro q
            rw [deleteIndexKeys_ok_get t2 dels hok, ht2kv]
          constructor
          · intro k s hs
            rw [hget] at hs
            by_cases h1 : k ∈ dels
            · simp [h1] at hs
            · by_cases h2 : k = okey
              · rw [h2] at hs
                simp only [hokey_dels, if_true, if_false] at hs
                injection hs with hs
                right
                exact ⟨cur, hs.symm, by rw [h2]; exact hcurkey, by rw [h2]; exact hob, hwf⟩
              · by_cases h3 : k ∈ adds
                · simp only [h1, h2, h3, if_true, if_false] at hs
                  injection hs with hs
                  exact Or.inl hs.symm
                · simp only [h1, h2, h3, if_false] at hs
                  exact hinv.1 k s hs
          · intro k v hs ik hik
            rw [hget] at hs
            have hfin : ∀ ik2, ik2 ∉ dels → ik2 ≠ okey →
                (ik2 ∈ adds ∨ kvGet t.kv ik2 = some []) →
                kvGet (deleteIndexKeys t2 dels).2.kv ik2 = some [] := by
              intro ik2 g1 g2 g3
              rw [hget]
              simp only [g1, g2, if_false]
              by_cases g4 : ik2 ∈ adds
              · simp [g4]
              · simp only [g4, if_false]
                rcases g3 with g5 | g5
                · exact absurd g5 g4
                · exact g5
            by_cases h1 : k ∈ dels
            · simp [h1] at hs
            · by_cases h2 : k = okey
              · rw [h2] at hs
                simp only [hokey_dels, if_true, if_false] at hs
                injection hs with hs
                have hv := encode_inj c hs
                rw [← hv] at hik
                apply hfin ik
                · intro hmem; exact (hdel_old ik hmem).2 hik
                · exact ix_ne_ob (hcur_ix ik hik).1 hob
                · rcases hcur_cover ik hik with g | g
                  · exact Or.inl g
                  · exact Or.inr (hold ik g).2.2
              · by_cases h3 : k ∈ adds
                · simp only [h1, h2, h3, if_true, if_false] at hs
                  injection hs with hs
                  exact absurd hs.symm (encode_ne_nil c v)
                · simp only [h1, h2, h3, if_false] at hs
                  obtain ⟨_, hvk, _, hvwf, hvpres⟩ :=
                    StoreInv_envelope hinv hs (c.decode_encode v)
                  apply hfin ik
                  · intro hmem
                    have g1 := (hold ik (hdel_old ik hmem).1).2.1
                    have g2 := (hvwf.2 ik hik).2
                    rw [g1] at g2
                    injection g2 with g2
                    rw [hvk] at g2
                    exact h2 g2.symm
                  · exact ix_ne_ob (hvwf.2 ik hik).1 hob
                  · exact Or.inr (hvpres ik hik)

/-- Every reachable store satisfies the invariant. -/
theorem Reachable_StoreInv {c : Gob} {t : Tx} (h : Reachable c t) : StoreInv c t.kv := by
  induction h with
  | empty => exact StoreInv_empty c
  | step g t call hg _ hok ih =>
    cases call with
    | set key value =>
      simp only [runCall] at hok ⊢
      unfold Tx.Set at hok ⊢
      cases hkey : NewObjectKey key with
      | error e => rw [hkey] at hok; simp at hok
      | ok okey =>
        simp only [Tx.set]
        exact StoreInv_set ih hkey value
    | store key ob =>
      simp only [runCall] at hok ⊢
      exact (StoreInv_Store ih hg key ob).2 hok
    | delete key =>
      simp only [runCall] at hok ⊢
      exact (StoreInv_Delete ih key).2 hok

/-- C3. In every store reachable from the empty store by successful `Set`,
`Store` and `Delete` calls (under registries whose index fields are named by
identifiers, as the fields of Go structs are), every index key listed in a
stored envelope is present with the empty value; and no `Set`, `Store` or
`Delete` call made on such a store panics. -/
theorem reachable_index_consistency (c : Gob) (t : Tx) (h : Reachable c t) :
    (∀ k s v, kvGet t.kv k = some s → c.decode s = some v →
      ∀ ik ∈ v.IndexKeys, kvGet t.kv ik = some []) ∧
    (∀ g call, Registry.fieldNamesAreIdentifiers g →
      (runCall c g t call).1 ≠ Outcome.panic) := by
  have hinv := Reachable_StoreInv h
  constructor
  · intro k s v hs hd
    exact (StoreInv_envelope hinv hs hd).2.2.2.2
  · intro g call hg
    cases call with
    | set key value =>
      simp only [runCall, Tx.Set]
      cases NewObjectKey key <;> simp
    | store key ob =>
      simp only [runCall]
      exact (StoreInv_Store hinv hg key ob).1
    | delete key =>
      simp only [runCall]
      exact (StoreInv_Delete hinv key).1

/-! ## Lemmas: orphans -/

theorem ReachableWithoutSetAt_Reachable {c : Gob} {okey : ObjectKey} {t : Tx}
    (h : ReachableWithoutSetAt c okey t) : Reachable c t := by
  induction h with
  | empty => exact Reachable.empty
  | step g t call hg _ _ hok ih => exact Reachable.step g t call hg ih hok

theorem NoOrphanAt_empty (c : Gob) (okey : ObjectKey) : NoOrphanAt c [] okey := by
  intro q _ _ h
  simp [kvGet] at h

theorem NoOrphanAt_set {c : Gob} {kv : KV} {okey0 : ObjectKey}
    (hno : NoOrphanAt c kv okey0) {key : Str} {okey : ObjectKey}
    (hkey : NewObjectKey key = .ok okey) (hne : okey ≠ okey0) (value : Str) :
    NoOrphanAt c (kvSet kv okey (c.encode (NewStringValue okey value))) okey0 := by
  intro q hq1 hq2 hq3
  have hob := NewObjectKey_ob hkey
  have hqne : q ≠ okey := ix_ne_ob hq1 hob
  rw [kvGet_set] at hq3
  simp only [hqne, if_false] at hq3
  obtain ⟨v, hv1, hv2⟩ := hno q hq1 hq2 hq3
  refine ⟨v, ?_, hv2⟩
  rw [kvGet_set]
  have : okey0 ≠ okey := fun h => hne h.symm
  simp only [this, if_false]
  exact hv1

theorem NoOrphanAt_Delete {c : Gob} {t : Tx} {okey0 : ObjectKey} (hinv : StoreInv c t.kv)
    (hno : NoOrphanAt c t.kv okey0) (key : Str)
    (hok : (Tx.Delete c t key).1 = Outcome.ok) :
    NoOrphanAt c (Tx.Delete c t key).2.kv okey0 := by
  unfold Tx.Delete at hok ⊢
  cases hkey : NewObjectKey key with
  | error e => rw [hkey] at hok; simp at hok
  | ok okey =>
    rw [hkey] at hok
    dsimp only at hok ⊢
    cases hg : kvGet t.kv okey with
    | none => rw [hg] at hok; simp at hok
    | some s =>
      rw [hg] at hok
      dsimp only at hok ⊢
      cases hp : ParseValue c s with
      | error e => rw [hp] at hok; simp at hok
      | ok v =>
        rw [hp] at hok
        dsimp only at hok ⊢
        have hd := kvDelete_of_get hg
        obtain ⟨t1, ht1⟩ : ∃ t1 : Tx,
            t1 = Tx.mk (kvErase t.kv okey) (t.log ++ [Op.delete okey]) := ⟨_, rfl⟩
        have hkv1 : t1.kv = kvErase t.kv okey := by rw [ht1]
        have hrun : t.delete okey = (true, t1) := by simp [Tx.delete, hd, ht1]
        rw [hrun] at hok ⊢
        dsimp only at hok ⊢
        obtain ⟨henc, hvk, hob, hwf, hpres⟩ := StoreInv_envelope hinv hg (ParseValue_decode hp)
        have hget := deleteIndexKeys_ok_get t1 v.IndexKeys hok
        intro q hq1 hq2 hq3
        rw [hget, hkv1, kvGet_erase] at hq3
        by_cases h1 : q ∈ v.IndexKeys
        · simp [h1] at hq3
        · by_cases h2 : q = okey
          · simp [h1, h2] at hq3
          · simp only [h1, h2, if_false] at hq3
            obtain ⟨w, hw1, hw2⟩ := hno q hq1 hq2 hq3
            by_cases h3 : okey0 = okey
            · exfalso
              rw [h3, hg] at hw1
              injection hw1 with hw1
              rw [henc] at hw1
              have := encode_inj c hw1
              rw [← this] at hw2
              exact h1 hw2
            · refine ⟨w, ?_, hw2⟩
              obtain ⟨_, _, hob0, _, _⟩ := StoreInv_envelope hinv hw1 (c.decode_encode w)
              have h4 : okey0 ∉ v.IndexKeys := fun hm => ix_ne_ob (hwf.2 okey0 hm).1 hob0 rfl
              rw [hget, hkv1, kvGet_erase]
              simp only [h4, h3, if_false]
              exact hw1

/-- After a successful `Store` on a store that satisfies the invariant and
has no orphan owned by `okey0`, there is still no orphan owned by `okey0`. -/
theorem NoOrphanAt_Store {c : Gob} {g : Registry} {t : Tx} {okey0 : ObjectKey}
    (hinv : StoreInv c t.kv) (hno : NoOrphanAt c t.kv okey0)
    (hg : g.fieldNamesAreIdentifiers) (key : Str) (ob : Object)
    (hok : (Tx.Store c g t key ob).1 = Outcome.ok) :
    NoOrphanAt c (Tx.Store c g t key ob).2.kv okey0 := by
  cases hkey : NewObjectKey key with
  | error e => simp [Tx.Store, hkey] at hok
  | ok okey =>
    cases hd : GetDataType g ob with
    | error e => simp [Tx.Store, hkey, hd] at hok
    | ok datatype =>
      cases ho : oldValue c t okey with
      | error e => simp [Tx.Store, hkey, hd, ho] at hok
      | ok old =>
        cases hn : NewValue c g okey ob datatype with
        | error e => simp [Tx.Store, hkey, hd, ho, hn] at hok
        | ok cur =>
          obtain ⟨e, he, hed⟩ := GetDataType_mem hd
          have hnames : ∀ f ∈ datatype.indexFields, isIdentifier f.name = true := by
            intro f hf
            rw [← hed] at hf
            exact hg e he f hf
          have hwf := NewValue_wellFormed hkey hnames hn
          have hcurkey := (NewValue_sorted hn).2
          have hsorted := (NewValue_sorted hn).1
          have hob := NewObjectKey_ob hkey
          have hcases := oldValue_cases hinv ho
          obtain ⟨issued, _, _, _, hkv, hfull, _⟩ := Store_run c g t key ob hkey hd ho hn
          rw [hkv, hfull hok]
          rw [DiffIndexKeys_deletions _ _ hsorted]
          have hadd_cur : ∀ a ∈ (DiffIndexKeys old.IndexKeys cur.IndexKeys).2,
              a ∈ cur.IndexKeys := by
            intro a ha
            simp only [DiffIndexKeys, List.mem_filter] at ha
            exact ha.1
          intro q hq1 hq2 hq3
          rw [kvGet_storeOps] at hq3
          have hqne : q ≠ okey := ix_ne_ob hq1 hob
          by_cases h1 : q ∈ old.IndexKeys.filter (fun k => decide (k ∉ cur.IndexKeys))
          · rw [if_pos h1] at hq3
            exact absurd rfl hq3
          · rw [if_neg h1, if_neg hqne] at hq3
            by_cases h3 : okey0 = okey
            · -- the key stored to: the new envelope lists every present key it owns
              refine ⟨cur, ?_, ?_⟩
              · rw [kvGet_storeOps, h3]
                have h4 : okey ∉ old.IndexKeys.filter (fun k => decide (k ∉ cur.IndexKeys)) := by
                  intro hm
                  have hm2 := (List.mem_filter.mp hm).1
                  rcases hcases with g1 | ⟨_, g2, g3, _⟩
                  · rw [g1] at hm2; simp at hm2
                  · exact ix_ne_ob (g3.2 okey hm2).1 hob rfl
                simp only [h4, if_false, if_true]
              · by_cases h5 : q ∈ (DiffIndexKeys old.IndexKeys cur.IndexKeys).2
                · exact hadd_cur q h5
                · simp only [h5, if_false] at hq3
                  obtain ⟨w, hw1, hw2⟩ := hno q hq1 hq2 hq3
                  rw [h3] at hw1
                  have hwold : w = old := by
                    rcases hcases with g1 | ⟨g2, _, _, _⟩
                    · exfalso
                      -- the old envelope is the one stored: it cannot be empty
                      unfold oldValue at ho
                      rw [hw1] at ho
                      simp only [Option.getD_some] at ho
                      have hlen : (c.encode w).length > 0 :=
                        List.length_pos.mpr (encode_ne_nil c w)
                      simp only [hlen, if_true] at ho
                      have := ParseValue_encode ho
                      rw [this] at g1
                      rw [g1] at hw2
                      simp at hw2
                    · rw [hw1] at g2
                      injection g2 with g2
                      exact encode_inj c g2
                  rw [hwold] at hw2
                  by_contra hcon
                  exact h1 (List.mem_filter.mpr ⟨hw2, by simpa using hcon⟩)
            · -- another key: its envelope and the keys it owns are untouched
              have h5 : q ∉ (DiffIndexKeys old.IndexKeys cur.IndexKeys).2 := by
                intro hm
                have g1 := (hwf.2 q (hadd_cur q hm)).2
                rw [hcurkey, hq2] at g1
                injection g1 with g1
                exact h3 g1
              simp only [h5, if_false] at hq3
              obtain ⟨w, hw1, hw2⟩ := hno q hq1 hq2 hq3
              refine ⟨w, ?_, hw2⟩
              obtain ⟨_, _, hob0, _, _⟩ := StoreInv_envelope hinv hw1 (c.decode_encode w)
              rw [kvGet_storeOps]
              have h6 : okey0 ∉ old.IndexKeys.filter (fun k => decide (k ∉ cur.IndexKeys)) := by
                intro hm
                have hm2 := (List.mem_filter.mp hm).1
                rcases hcases with g1 | ⟨_, g2, g3, _⟩
                · rw [g1] at hm2; simp at hm2
                · exact ix_ne_ob (g3.2 okey0 hm2).1 hob0 rfl
              have h7 : okey0 ∉ (DiffIndexKeys old.IndexKeys cur.IndexKeys).2 := by
                intro hm
                exact ix_ne_ob (hwf.2 okey0 (hadd_cur okey0 hm)).1 hob0 rfl
              simp only [h6, h3, h7, if_false]
              exact hw1

theorem ReachableWithoutSetAt_NoOrphanAt {c : Gob} {okey0 : ObjectKey} {t : Tx}
    (h : ReachableWithoutSetAt c okey0 t) : NoOrphanAt c t.kv okey0 := by
  induction h with
  | empty => exact NoOrphanAt_empty c okey0
  | step g t call hg hcall hreach hok ih =>
    have hinv := Reachable_StoreInv (ReachableWithoutSetAt_Reachable hreach)
    cases call with
    | set key value =>
      simp only [runCall] at hok ⊢
      simp only [Call.notSetAt] at hcall
      unfold Tx.Set at hok ⊢
      cases hkey : NewObjectKey key with
      | error e => rw [hkey] at hok; simp at hok
      | ok okey =>
        simp only [Tx.set]
        apply NoOrphanAt_set ih hkey
        intro heq
        rw [heq] at hkey
        exact hcall hkey
    | store key ob =>
      simp only [runCall] at hok ⊢
      exact NoOrphanAt_Store hinv ih hg key ob hok
    | delete key =>
      simp only [runCall] at hok ⊢
      exact NoOrphanAt_Delete hinv ih key hok

/-- The loop of `IndexKeyMap` returns the empty map when an index field
stringifies to the empty string and the loop does not fail. -/
theorem indexKeyMapLoop_suppressed (g : Registry) (t : DataType) (ovalue : StructValue)
    (okey : ObjectKey) (fields : List IndexField) (m0 m : IndexKeyMapping)
    (h : indexKeyMapLoop g t ovalue okey fields m0 = .ok m)
    (hempty : ∃ f ∈ fields, f.ToString g ovalue = .ok []) : m = [] := by
  induction fields generalizing m0 with
  | nil => simp at hempty
  | cons f rest ih =>
    unfold indexKeyMapLoop at h
    cases hs : f.ToString g ovalue with
    | error e => rw [hs] at h; simp at h
    | ok fstring =>
      rw [hs] at h
      dsimp only at h
      by_cases hlen : fstring.length = 0
      · simp only [hlen, if_true] at h
        injection h with h
        exact h.symm
      · simp only [hlen, if_false] at h
        cases hn : NewIndexKey okey t.name f.name fstring with
        | error e => rw [hn] at h; simp at h
        | ok ik =>
          rw [hn] at h
          dsimp only at h
          apply ih _ h
          obtain ⟨f2, hf2, hf2s⟩ := hempty
          rcases List.mem_cons.mp hf2 with h1 | h1
          · exfalso
            rw [h1, hs] at hf2s
            injection hf2s with hf2s
            rw [hf2s] at hlen
            simp at hlen
          · exact ⟨f2, h1, hf2s⟩

theorem NewValue_suppressed {c : Gob} {g : Registry} {okey : ObjectKey} {ob : Object}
    {datatype : DataType} {cur : Value} {ovalue : StructValue}
    (h : NewValue c g okey ob datatype = .ok cur)
    (hgood : datatype.goodValue ob = some ovalue)
    (hempty : ∃ f ∈ datatype.indexFields, f.ToString g ovalue = .ok []) :
    cur.IndexKeys = [] := by
  unfold NewValue at h
  cases hm : datatype.Marshal c ob with
  | error e => rw [hm] at h; simp at h
  | ok s =>
    rw [hm] at h
    dsimp only at h
    cases hi : datatype.IndexKeyMap g ob with
    | error e => rw [hi] at h; simp at h
    | ok ikMap =>
      rw [hi] at h
      dsimp only at h
      have hnil : ikMap = [] := by
        unfold DataType.IndexKeyMap at hi
        rw [hgood] at hi
        dsimp only at hi
        have hx : NewObjectKey (lit "/x") = .ok (lit "/ob/x") := by decide
        rw [hx] at hi
        dsimp only at hi
        exact indexKeyMapLoop_suppressed g datatype ovalue _ _ [] ikMap hi hempty
      rw [hnil] at h
      simp only [List.map_nil, withObjectKeyAll] at h
      injection h with h
      rw [← h]
      rfl

/-- C8 (amended). After a successful `Store(k, o)` in which some indexed field
of `o` stringifies to the empty string, on a store reached from the empty
store by successful calls none of which is a `Set` on `k`, the store contains
no key of the index keyspace whose owner is `ObjectKey(k)`. -/
theorem suppressed_Store_leaves_no_index_key (c : Gob) (g : Registry) (t : Tx) (key : Str)
    (ob : Object) (okey : ObjectKey) (datatype : DataType) (ovalue : StructValue)
    (hkey : NewObjectKey key = .ok okey)
    (hreach : ReachableWithoutSetAt c okey t)
    (hg : g.fieldNamesAreIdentifiers)
    (htype : GetDataType g ob = .ok datatype)
    (hgood : datatype.goodValue ob = some ovalue)
    (hempty : ∃ f ∈ datatype.indexFields, f.ToString g ovalue = .ok [])
    (hok : (Tx.Store c g t key ob).1 = Outcome.ok) :
    ∀ q, (∃ rest, q = slash :: 105 :: rest) → GetObjectKey q = .ok okey →
      kvGet (Tx.Store c g t key ob).2.kv q = none := by
  have hinv := Reachable_StoreInv (ReachableWithoutSetAt_Reachable hreach)
  have hno := ReachableWithoutSetAt_NoOrphanAt hreach
  have hno2 := NoOrphanAt_Store hinv hno hg key ob hok
  have hinv2 := (StoreInv_Store hinv hg key ob).2 hok
  intro q hq1 hq2
  by_contra hcon
  obtain ⟨v, hv1, hv2⟩ := hno2 q hq1 hq2 hcon
  -- the envelope stored at the key is the new one, which lists nothing
  cases ho : oldValue c t okey with
  | error e => simp [Tx.Store, hkey, htype, ho] at hok
  | ok old =>
    cases hn : NewValue c g okey ob datatype with
    | error e => simp [Tx.Store, hkey, htype, ho, hn] at hok
    | ok cur =>
      have hnil := NewValue_suppressed hn hgood hempty
      obtain ⟨issued, _, _, _, hkv, hfull, _⟩ := Store_run c g t key ob hkey htype ho hn
      rw [hkv, hfull hok, kvGet_storeOps] at hv1
      rw [hnil] at hv1
      have hob := NewObjectKey_ob hkey
      have hcases := oldValue_cases hinv ho
      have h4 : okey ∉ (DiffIndexKeys old.IndexKeys []).1 := by
        intro hm
        simp only [DiffIndexKeys, List.mem_filter] at hm
        rcases hcases with g1 | ⟨_, _, g3, _⟩
        · rw [g1] at hm; simp at hm
        · exact ix_ne_ob (g3.2 okey hm.1).1 hob rfl
      simp only [h4, if_false, if_true] at hv1
      injection hv1 with hv1
      have := encode_inj c hv1
      rw [← this, hnil] at hv2
      simp at hv2

/-! ## The fixtures are reachable -/

theorem fixtureRegistry_identifiers : fixtureRegistry.fieldNamesAreIdentifiers := by
  unfold Registry.fieldNamesAreIdentifiers
  decide

set_option maxRecDepth 100000 in
theorem pairTx_reachable : Reachable fixtureGob pairTx :=
  Reachable.step fixtureRegistry emptyTx (Call.store (lit "/k") (pair 1 2))
    fixtureRegistry_identifiers Reachable.empty (by decide)

set_option maxRecDepth 100000 in
theorem namedTx_reachable : ReachableWithoutSetAt fixtureGob (lit "/ob/k") namedTx :=
  ReachableWithoutSetAt.step fixtureRegistry emptyTx (Call.store (lit "/k") (named (lit "bob")))
    fixtureRegistry_identifiers trivial ReachableWithoutSetAt.empty (by decide)

/-- Witness of `reachable_index_consistency`: the store after
`Store("/k", &P{A: 1, B: 2})`. -/
theorem reachable_index_consistency_witness :
    Reachable fixtureGob pairTx ∧
    ((∀ k s v, kvGet pairTx.kv k = some s → fixtureGob.decode s = some v →
      ∀ ik ∈ v.IndexKeys, kvGet pairTx.kv ik = some []) ∧
    (∀ g call, Registry.fieldNamesAreIdentifiers g →
      (runCall fixtureGob g pairTx call).1 ≠ Outcome.panic)) :=
  ⟨pairTx_reachable, reachable_index_consistency fixtureGob pairTx pairTx_reachable⟩

set_option maxRecDepth 100000 in
/-- Witness of `suppressed_Store_leaves_no_index_key`: `Store("/k", &T{Name: ""})`
over the stored `T{Name: "bob"}`. -/
theorem suppressed_Store_leaves_no_index_key_witness :
    (NewObjectKey (lit "/k") = .ok (lit "/ob/k") ∧
      (Tx.Store fixtureGob fixtureRegistry namedTx (lit "/k") (named [])).1 = Outcome.ok ∧
      kvGet namedTx.kv (lit "/ix/T/Name/bob/ob/k") = some []) ∧
    ∀ q, (∃ rest, q = slash :: 105 :: rest) → GetObjectKey q = .ok (lit "/ob/k") →
      kvGet (Tx.Store fixtureGob fixtureRegistry namedTx (lit "/k") (named [])).2.kv q = none :=
  ⟨by decide,
   suppressed_Store_leaves_no_index_key fixtureGob fixtureRegistry namedTx (lit "/k") (named [])
    (lit "/ob/k") namedType (StructValue.mk 2 (fun _ => FieldValue.string []))
    (by decide) namedTx_reachable fixtureRegistry_identifiers rfl rfl
    ⟨IndexField.mk (lit "Name") [0] none, by simp [namedType], rfl⟩ (by decide)⟩

set_option maxRecDepth 100000 in
/-- C8, as stated, fails when a `Set` came before on the key: after
`Store("/k", &T{Name: "bob"})`, `Set("/k", "raw")` and the successful
`Store("/k", &T{Name: ""})`, the index key of `bob` owned by `/ob/k` is still
in the store. -/
theorem suppressed_Store_after_Set_counterexample :
    IndexField.ToString fixtureRegistry (IndexField.mk (lit "Name") [0] none)
      (StructValue.mk 2 (fun _ => FieldValue.string [])) = .ok [] ∧
    NewObjectKey (lit "/k") = .ok (lit "/ob/k") ∧
    (Tx.Store fixtureGob fixtureRegistry overwrittenTx (lit "/k") (named [])).1 = Outcome.ok ∧
    GetObjectKey (lit "/ix/T/Name/bob/ob/k") = .ok (lit "/ob/k") ∧
    kvGet (Tx.Store fixtureGob fixtureRegistry overwrittenTx (lit "/k") (named [])).2.kv
      (lit "/ix/T/Name/bob/ob/k") = some [] := by
  decide

/-! ## The scenario of `TestIndexing` -/

set_option maxRecDepth 1000000 in
/-- The model reproduces `TestIndexing`: after the five users are stored, age
10 finds alex and dave, age 20 finds ben and ethan, age 99 nobody; after alex
is stored again with age 20, age 10 finds dave and age 20 finds alex, ben and
ethan. -/
theorem TestIndexing_scenario :
    findKeys fixtureGob fixtureRegistry usersTx (user [] 10)
      = .ok [lit "/users/alex", lit "/users/dave"] ∧
    findKeys fixtureGob fixtureRegistry usersTx (user [] 20)
      = .ok [lit "/users/ben", lit "/users/ethan"] ∧
    findKeys fixtureGob fixtureRegistry usersTx (user [] 99) = .ok [] ∧
    findKeys fixtureGob fixtureRegistry
      (Tx.Store fixtureGob fixtureRegistry usersTx (lit "/users/alex") (user (lit "alex") 20)).2
      (user [] 10) = .ok [lit "/users/dave"] ∧
    findKeys fixtureGob fixtureRegistry
      (Tx.Store fixtureGob fixtureRegistry usersTx (lit "/users/alex") (user (lit "alex") 20)).2
      (user [] 20) = .ok [lit "/users/alex", lit "/users/ben", lit "/users/ethan"] := by
  decide

/-! ## Object keys: `NewObjectKey`, `ParseObjectKey`, `UserKey` -/

theorem NewObjectKey_total {u : Str} (habs : IsAbs u = true) (hclean : Clean u = u) :
    ∃ okey, NewObjectKey u = .ok okey := by
  simp [NewObjectKey, habs, hclean]

theorem ParseObjectKey_NewObjectKey {u : Str} {okey : ObjectKey}
    (h : NewObjectKey u = .ok okey) : ParseObjectKey okey = .ok okey := by
  have hob : lit "/ob" = [slash, 111, 98] := by decide
  have hpre : lit "/" ++ ObjectKeyspace = [slash, 111, 98] := by decide
  rcases NewObjectKey_shape h with ⟨_, h2⟩ | ⟨_, h2⟩ <;>
    simp [ParseObjectKey, HasPrefix, hpre, h2, hob]

/-- For every absolute, cleaned user key other than the root, the object key
is `/ob` followed by the user key, it is accepted by `ParseObjectKey`, and
`UserKey` gives the user key back. -/
theorem NewObjectKey_UserKey {u : Str} (habs : IsAbs u = true) (hclean : Clean u = u)
    (hroot : u ≠ lit "/") :
    NewObjectKey u = .ok (lit "/ob" ++ u) ∧
    ParseObjectKey (lit "/ob" ++ u) = .ok (lit "/ob" ++ u) ∧
    UserKey (lit "/ob" ++ u) = u := by
  obtain ⟨okey, h⟩ := NewObjectKey_total habs hclean
  have hob : lit "/ob" = [slash, 111, 98] := by decide
  rcases NewObjectKey_shape h with ⟨h1, _⟩ | ⟨_, h2⟩
  · exact absurd (by rw [h1]; decide) hroot
  · subst h2
    refine ⟨h, ParseObjectKey_NewObjectKey h, ?_⟩
    have hlen : ObjectKeyspace.length + 1 = 3 := by decide
    simp [UserKey, hlen, hob]

/-- The test `TestObjectKey`: `/foo` gives `/ob/foo` and back `/foo`. -/
theorem TestObjectKey_scenario :
    NewObjectKey (lit "/foo") = .ok (lit "/ob/foo") ∧
    UserKey (lit "/ob/foo") = lit "/foo" ∧
    ParseObjectKey (lit "/ob/foo") = .ok (lit "/ob/foo") := by
  decide

/-- Claim C11, at the root user key. `NewObjectKey("/")` succeeds with the
object key `/ob` (`path.Join` cleans the trailing slash away), `ParseObjectKey`
accepts it, and `UserKey` of it is the empty string, not the root `/`: the
round trip holds for every absolute, cleaned user key except the root
(`NewObjectKey_UserKey`). -/
theorem NewObjectKey_root_user_key :
    IsAbs (lit "/") = true ∧ Clean (lit "/") = lit "/" ∧
    NewObjectKey (lit "/") = .ok (lit "/ob") ∧
    ParseObjectKey (lit "/ob") = .ok (lit "/ob") ∧
    UserKey (lit "/ob") = [] ∧ UserKey (lit "/ob") ≠ lit "/" := by
  decide

/-! ## The scan range of an index key -/

theorem cons_lt_cons_iff (a b : Byte) (l1 l2 : Str) :
    a :: l1 < b :: l2 ↔ a < b ∨ (a = b ∧ l1 < l2) := by
  constructor
  · intro h
    cases h with
    | cons h1 => exact Or.inr ⟨rfl, h1⟩
    | rel h1 => exact Or.inl h1
  · rintro (h | ⟨h1, h2⟩)
    · exact List.Lex.rel h
    · subst h1; exact List.Lex.cons h2

theorem not_lt_nil (l : Str) : ¬ l < [] := by
  intro h; cases h

theorem nil_lt_cons (a : Byte) (l : Str) : ([] : Str) < a :: l := List.Lex.nil

/-- The strings between `P/` (included) and `P0` (excluded) in the bytewise
order are the strings that begin with `P/`. -/
theorem range_iff_prefix (P : Str) :
    ∀ s : Str, (P ++ [slash] ≤ s ∧ s < P ++ [48]) ↔ (P ++ [slash]) <+: s := by
  induction P with
  | nil =>
    intro s
    cases s with
    | nil =>
      simp only [List.nil_append]
      constructor
      · rintro ⟨h1, _⟩
        exact absurd (nil_lt_cons slash []) (not_lt.mpr h1)
      · intro h; simp at h
    | cons c t =>
      simp only [List.nil_append, ← not_lt, cons_lt_cons_iff]
      constructor
      · rintro ⟨h1, h2⟩
        have hc : c = slash := by
          rcases h2 with h2 | ⟨_, h2⟩
          · have h3 : ¬ c < slash := fun h => h1 (Or.inl h)
            have h4 : c.val < 48 := h2
            have h5 : ¬ c.val < 47 := h3
            exact Fin.ext (by show c.val = 47; omega)
          · exact absurd h2 (not_lt_nil t)
        subst hc
        simp
      · intro h
        have hc : c = slash := by
          obtain ⟨r, hr⟩ := h
          simp at hr
          exact hr.1.symm
        subst hc
        refine ⟨?_, Or.inl (by decide)⟩
        rintro (h | ⟨_, h⟩)
        · exact absurd h (lt_irrefl _)
        · exact absurd h (not_lt_nil t)
  | cons a P ih =>
    intro s
    cases s with
    | nil =>
      simp only [List.cons_append]
      constructor
      · rintro ⟨h1, _⟩
        exact absurd (nil_lt_cons a _) (not_lt.mpr h1)
      · intro h; simp at h
    | cons c t =>
      simp only [List.cons_append, ← not_lt, cons_lt_cons_iff]
      constructor
      · rintro ⟨h1, h2⟩
        have hc : c = a := by
          rcases h2 with h2 | ⟨h2, _⟩
          · exact absurd (Or.inl h2) h1
          · exact h2
        subst hc
        have h3 : P ++ [slash] ≤ t := by
          rw [← not_lt]; intro h; exact h1 (Or.inr ⟨rfl, h⟩)
        have h4 : t < P ++ [48] := by
          rcases h2 with h2 | ⟨_, h2⟩
          · exact absurd h2 (lt_irrefl _)
          · exact h2
        have := (ih t).mp ⟨h3, h4⟩
        obtain ⟨r, hr⟩ := this
        exact ⟨r, by simp [← hr]⟩
      · intro h
        obtain ⟨r, hr⟩ := h
        simp only [List.cons_append, List.cons.injEq] at hr
        obtain ⟨hc, hr⟩ := hr
        subst hc
        obtain ⟨h3, h4⟩ := (ih t).mpr ⟨r, hr⟩
        refine ⟨?_, Or.inr ⟨rfl, h4⟩⟩
        rintro (h | ⟨_, h⟩)
        · exact absurd h (lt_irrefl _)
        · exact absurd h (not_lt.mpr h3)

theorem indexRuneNLoop_split (s : Str) (r : Byte) (n : Nat) :
    ∀ (o p : Nat), indexRuneNLoop s r (n + 1) o = some p →
      ∃ u w, s.drop o = u ++ r :: w ∧ u.count r = n ∧ p = o + u.length := by
  induction n with
  | zero =>
    intro o p h
    unfold indexRuneNLoop at h
    cases hq : indexRune (s.drop o) r with
    | none => simp [hq] at h
    | some q =>
      simp only [hq, indexRuneNLoop] at h
      obtain ⟨u, w, h1, h2, h3⟩ := indexRune_split hq
      refine ⟨u, w, h1, List.count_eq_zero_of_not_mem h2, ?_⟩
      simp at h
      omega
  | succ n ih =>
    intro o p h
    unfold indexRuneNLoop at h
    cases hq : indexRune (s.drop o) r with
    | none => simp [hq] at h
    | some q =>
      simp only [hq] at h
      obtain ⟨u, w, h1, h2, h3⟩ := indexRune_split hq
      obtain ⟨u1, w1, h4, h5, h6⟩ := ih (o + q + 1) p h
      have hw : s.drop (o + q + 1) = w := by
        have : s.drop (o + q + 1) = (s.drop o).drop (q + 1) := by
          rw [List.drop_drop]; congr 1
        rw [this, h1, ← h3]
        simp
      rw [hw] at h4
      refine ⟨u ++ r :: u1, w1, ?_, ?_, ?_⟩
      · rw [h1, h4]; simp
      · simp [List.count_append, List.count_cons, List.count_eq_zero_of_not_mem h2, h5]
      · simp; omega

theorem indexRuneN_split {s : Str} {r : Byte} {n p : Nat}
    (h : indexRuneN s r (n + 1) = some p) :
    ∃ u w, s = u ++ r :: w ∧ u.count r = n ∧ u.length = p := by
  obtain ⟨u, w, h1, h2, h3⟩ := indexRuneNLoop_split s r n 0 p h
  exact ⟨u, w, by simpa using h1, h2, by omega⟩

theorem ParseIndexKey_fifth {K : Str} {ik : IndexKey} (h : ParseIndexKey K = .ok ik) :
    ∃ p, indexRuneN K slash 5 = some p := by
  unfold ParseIndexKey at h
  cases h5 : indexRuneN K slash 5 with
  | some p => exact ⟨p, rfl⟩
  | none =>
    rw [h5] at h
    split at h <;> simp_all

theorem lit_zero : lit "0" = [48] := by decide

/-- The scan range of a key with five slashes, `P` being the key up to its
fifth slash. -/
theorem IndexKeyRange_of_fifth {K : Str} {p : Nat} (h : indexRuneN K slash 5 = some p) :
    K.get? p = some slash ∧ (K.take p).count slash = 4 ∧
    IndexKeyRange K = .ok (K.take p ++ lit "/", K.take p ++ lit "0") ∧
    (∀ s : Str, (K.take p ++ lit "/" ≤ s ∧ s < K.take p ++ lit "0") ↔
      (K.take p ++ lit "/") <+: s) ∧
    (∀ (K2 : Str) (p2 : Nat), indexRuneN K2 slash 5 = some p2 →
      ((K.take p ++ lit "/") <+: K2 ↔ K2.take p2 = K.take p)) := by
  obtain ⟨u, w, h1, h2, h3⟩ := indexRuneN_split h
  subst h1
  subst h3
  have htake : (u ++ slash :: w).take u.length = u := by simp
  have htake1 : (u ++ slash :: w).take (u.length + 1) = u ++ [slash] := by
    rw [List.take_append_eq_append_take]; simp
  have h48 : (slash + 1 : Byte) = 48 := by decide
  rw [htake, lit_slash, lit_zero]
  have hget : (u ++ slash :: w).get? u.length = some slash := by
    rw [List.get?_eq_getElem?, List.getElem?_append_right (le_refl _)]; simp
  refine ⟨hget, h2, ?_, range_iff_prefix u, ?_⟩
  · simp only [IndexKeyRange, h, htake, htake1, h48]
  · intro K2 p2 hK2
    obtain ⟨u2, w2, g1, g2, g3⟩ := indexRuneN_split hK2
    subst g1
    subst g3
    have htake2 : (u2 ++ slash :: w2).take u2.length = u2 := by simp
    rw [htake2]
    constructor
    · rintro ⟨r, hr⟩
      have hfind := indexRuneN_find (r := slash) r h2
      have heq : u ++ slash :: r = u2 ++ slash :: w2 := by rw [← hr]; simp
      rw [heq, hK2] at hfind
      have hlen : u2.length = u.length := by simpa using hfind
      have h6 := congrArg (List.take u.length) heq
      rw [hlen] at htake2
      rw [htake2] at h6
      rw [← h6]; simp
    · intro hu
      subst hu
      exact ⟨w2, by simp⟩

/-- Claim C12. For every index key `K` accepted by `ParseIndexKey`,
`IndexKeyRange` returns the pair `(P + "/", P + "0")`, where `P` is `K` up to
(excluding) its fifth slash; a string `s` satisfies `P/ ≤ s < P0` in the
bytewise order exactly when it starts with `P/`; hence a key with five slashes
is in the range exactly when it agrees with `K` up to the fifth slash, and the
scan `Ascend(begin, end)` returns exactly the stored keys that start with
`P/`. -/
theorem IndexKeyRange_scan_range (K : Str) (ik : IndexKey) (h : ParseIndexKey K = .ok ik) :
    ∃ p, indexRuneN K slash 5 = some p ∧ K.get? p = some slash ∧
      (K.take p).count slash = 4 ∧
      IndexKeyRange K = .ok (K.take p ++ lit "/", K.take p ++ lit "0") ∧
      (∀ s : Str, (K.take p ++ lit "/" ≤ s ∧ s < K.take p ++ lit "0") ↔
        (K.take p ++ lit "/") <+: s) ∧
      (∀ (K2 : Str) (p2 : Nat), indexRuneN K2 slash 5 = some p2 →
        ((K.take p ++ lit "/" ≤ K2 ∧ K2 < K.take p ++ lit "0") ↔ K2.take p2 = K.take p)) ∧
      (∀ (kv : KV) (x : Str),
        x ∈ kvAscend kv (K.take p ++ lit "/") (K.take p ++ lit "0") ↔
          kvGet kv x ≠ none ∧ (K.take p ++ lit "/") <+: x) := by
  obtain ⟨p, hp⟩ := ParseIndexKey_fifth h
  obtain ⟨h1, h2, h3, h4, h5⟩ := IndexKeyRange_of_fifth hp
  refine ⟨p, hp, h1, h2, h3, h4, ?_, ?_⟩
  · intro K2 p2 hK2
    rw [h4 K2]
    exact h5 K2 p2 hK2
  · intro kv x
    rw [mem_kvAscend, h4 x]

/-- Witness of `IndexKeyRange_scan_range`: the key of `TestIndexKey`. -/
theorem IndexKeyRange_scan_range_witness :
    ParseIndexKey (lit "/ix/X/Field/Value/ob/y") = .ok (lit "/ix/X/Field/Value/ob/y") ∧
    ∃ p, indexRuneN (lit "/ix/X/Field/Value/ob/y") slash 5 = some p ∧
      (lit "/ix/X/Field/Value/ob/y").get? p = some slash ∧
      ((lit "/ix/X/Field/Value/ob/y").take p).count slash = 4 ∧
      IndexKeyRange (lit "/ix/X/Field/Value/ob/y")
        = .ok ((lit "/ix/X/Field/Value/ob/y").take p ++ lit "/",
               (lit "/ix/X/Field/Value/ob/y").take p ++ lit "0") ∧
      (∀ s : Str, ((lit "/ix/X/Field/Value/ob/y").take p ++ lit "/" ≤ s ∧
          s < (lit "/ix/X/Field/Value/ob/y").take p ++ lit "0") ↔
        ((lit "/ix/X/Field/Value/ob/y").take p ++ lit "/") <+: s) ∧
      (∀ (K2 : Str) (p2 : Nat), indexRuneN K2 slash 5 = some p2 →
        (((lit "/ix/X/Field/Value/ob/y").take p ++ lit "/" ≤ K2 ∧
          K2 < (lit "/ix/X/Field/Value/ob/y").take p ++ lit "0") ↔
          K2.take p2 = (lit "/ix/X/Field/Value/ob/y").take p)) ∧
      (∀ (kv : KV) (x : Str),
        x ∈ kvAscend kv ((lit "/ix/X/Field/Value/ob/y").take p ++ lit "/")
            ((lit "/ix/X/Field/Value/ob/y").take p ++ lit "0") ↔
          kvGet kv x ≠ none ∧ ((lit "/ix/X/Field/Value/ob/y").take p ++ lit "/") <+: x) :=
  ⟨by decide,
   IndexKeyRange_scan_range (lit "/ix/X/Field/Value/ob/y") (lit "/ix/X/Field/Value/ob/y")
    (by decide)⟩

/-- The test `TestIndexKey`: the range of `/ix/X/Field/Value/ob/y`. -/
theorem TestIndexKey_range :
    IndexKeyRange (lit "/ix/X/Field/Value/ob/y")
      = .ok (lit "/ix/X/Field/Value/", lit "/ix/X/Field/Value0") := by
  decide

/-! ## The diff of two sorted key lists and the membership test -/

/-- Claim C13. For lexicographically sorted lists `old` and `cur`,
`DiffIndexKeys(old, cur)` returns `(deletions, additions)` where `additions` is
the elements of `cur` that are not in `old` and `deletions` is the elements of
`old` that are not in `cur` (each in the order of its list); hence
`additions ∪ (old ∩ cur) = cur`, `deletions ∪ (old ∩ cur) = old`, `additions`
is disjoint from `old` and `deletions` is disjoint from `cur`. -/
theorem DiffIndexKeys_correct (old cur : List IndexKey)
    (hold : old.Sorted (· ≤ ·)) (hcur : cur.Sorted (· ≤ ·)) :
    (DiffIndexKeys old cur).2 = cur.filter (fun k => decide (k ∉ old)) ∧
    (DiffIndexKeys old cur).1 = old.filter (fun k => decide (k ∉ cur)) ∧
    (∀ k, k ∈ (DiffIndexKeys old cur).2 ↔ k ∈ cur ∧ k ∉ old) ∧
    (∀ k, k ∈ (DiffIndexKeys old cur).1 ↔ k ∈ old ∧ k ∉ cur) ∧
    (∀ k, k ∈ cur ↔ k ∈ (DiffIndexKeys old cur).2 ∨ (k ∈ old ∧ k ∈ cur)) ∧
    (∀ k, k ∈ old ↔ k ∈ (DiffIndexKeys old cur).1 ∨ (k ∈ old ∧ k ∈ cur)) ∧
    (∀ k ∈ (DiffIndexKeys old cur).2, k ∉ old) ∧
    (∀ k ∈ (DiffIndexKeys old cur).1, k ∉ cur) := by
  have ha := DiffIndexKeys_additions old cur hold
  have hd := DiffIndexKeys_deletions old cur hcur
  have hmemA : ∀ k, k ∈ (DiffIndexKeys old cur).2 ↔ k ∈ cur ∧ k ∉ old := by
    intro k; rw [ha]; simp
  have hmemD : ∀ k, k ∈ (DiffIndexKeys old cur).1 ↔ k ∈ old ∧ k ∉ cur := by
    intro k; rw [hd]; simp
  refine ⟨ha, hd, hmemA, hmemD, ?_, ?_, ?_, ?_⟩
  · intro k
    rw [hmemA]
    by_cases h : k ∈ old <;> simp [h]
  · intro k
    rw [hmemD]
    by_cases h : k ∈ cur <;> simp [h]
  · intro k hk; exact ((hmemA k).mp hk).2
  · intro k hk; exact ((hmemD k).mp hk).2

/-- Witness of `DiffIndexKeys_correct`: the index keys of `P{A: 1, B: 2}` and
of `P{A: 1, B: 3}` at `/k`. -/
theorem DiffIndexKeys_correct_witness :
    (pairEnvelope.IndexKeys.Sorted (· ≤ ·) ∧ pairEnvelope3.IndexKeys.Sorted (· ≤ ·)) ∧
    (DiffIndexKeys pairEnvelope.IndexKeys pairEnvelope3.IndexKeys).2
      = [lit "/ix/P/B/3/ob/k"] ∧
    (DiffIndexKeys pairEnvelope.IndexKeys pairEnvelope3.IndexKeys).1
      = [lit "/ix/P/B/2/ob/k"] :=
  ⟨⟨by decide, by decide⟩,
   (DiffIndexKeys_correct pairEnvelope.IndexKeys pairEnvelope3.IndexKeys
      (by decide) (by decide)).1.trans (by decide),
   (DiffIndexKeys_correct pairEnvelope.IndexKeys pairEnvelope3.IndexKeys
      (by decide) (by decide)).2.1.trans (by decide)⟩

theorem HasAllIndexKeys_of_mem (v : Value) (hs : v.IndexKeys.Sorted (· ≤ ·)) :
    ∀ l : List IndexKey, (∀ ik ∈ l, ik ∈ v.IndexKeys) → v.HasAllIndexKeys l = true := by
  intro l
  induction l with
  | nil => intro _; rfl
  | cons ik rest ih =>
    intro h
    have h1 := searchHit_of_mem hs (h ik (List.mem_cons_self _ _))
    simp only [Value.HasAllIndexKeys, h1, if_true]
    exact ih (fun x hx => h x (List.mem_cons_of_mem _ hx))

/-- Claim C15. For an envelope whose `IndexKeys` list is lexicographically
sorted, `HasAllIndexKeys(iks)` is true if and only if every element of `iks`
occurs in `IndexKeys`; for any `IndexKeys` list, sorted or not, a true result
implies that every element of `iks` occurs in `IndexKeys`; and the result is
true for the empty `iks`. -/
theorem HasAllIndexKeys_membership (v : Value) (iks : List IndexKey) :
    (v.IndexKeys.Sorted (· ≤ ·) →
      (v.HasAllIndexKeys iks = true ↔ ∀ ik ∈ iks, ik ∈ v.IndexKeys)) ∧
    (v.HasAllIndexKeys iks = true → ∀ ik ∈ iks, ik ∈ v.IndexKeys) ∧
    v.HasAllIndexKeys [] = true :=
  ⟨fun hs => ⟨HasAllIndexKeys_mem v iks, HasAllIndexKeys_of_mem v hs iks⟩,
   HasAllIndexKeys_mem v iks, rfl⟩

/-- Witness of `HasAllIndexKeys_membership`: the envelope of `P{A: 1, B: 2}`
lists its key for `A`, and does not list the key of `B = 3`. -/
theorem HasAllIndexKeys_membership_witness :
    pairEnvelope.IndexKeys.Sorted (· ≤ ·) ∧
    (pairEnvelope.HasAllIndexKeys [lit "/ix/P/A/1/ob/k"] = true ↔
      ∀ ik ∈ [lit "/ix/P/A/1/ob/k"], ik ∈ pairEnvelope.IndexKeys) ∧
    pairEnvelope.HasAllIndexKeys [lit "/ix/P/A/1/ob/k"] = true ∧
    pairEnvelope.HasAllIndexKeys [lit "/ix/P/A/1/ob/k", lit "/ix/P/B/3/ob/k"] = false :=
  ⟨by decide,
   (HasAllIndexKeys_membership pairEnvelope [lit "/ix/P/A/1/ob/k"]).1 (by decide),
   by decide, by decide⟩

/-! ## The extraction of the index keys of an object -/

theorem mem_mapSet_self {β : Type} (m : List (Str × β)) (k : Str) (v : β) :
    (k, v) ∈ mapSet m k v := by
  induction m with
  | nil => simp [mapSet]
  | cons e rest ih =>
    obtain ⟨k0, v0⟩ := e
    unfold mapSet
    by_cases h : k0 = k
    · simp [h]
    · simp only [h, if_false]
      exact List.mem_cons_of_mem _ ih

theorem mem_mapSet_of_ne {β : Type} (m : List (Str × β)) (k : Str) (v : β) (e : Str × β)
    (he : e ∈ m) (hne : e.1 ≠ k) : e ∈ mapSet m k v := by
  induction m with
  | nil => simp at he
  | cons e0 rest ih =>
    obtain ⟨k0, v0⟩ := e0
    unfold mapSet
    rcases List.mem_cons.mp he with h | h
    · subst h
      have h2 : ¬ k0 = k := hne
      simp only [h2, if_false]
      exact List.mem_cons_self _ _
    · by_cases h2 : k0 = k
      · simp only [h2, if_true]
        exact List.mem_cons_of_mem _ h
      · simp only [h2, if_false]
        exact List.mem_cons_of_mem _ (ih h)

/-- The loop of `IndexKeyMap` returns a mapping when every field it visits
has a name and stringifies without error, the type has a name and the
placeholder owner is not empty. -/
theorem indexKeyMapLoop_total (g : Registry) (t : DataType) (ovalue : StructValue)
    (okey : ObjectKey) (hokey : okey ≠ []) (ht : t.name ≠ []) :
    ∀ (fields : List IndexField) (m0 : IndexKeyMapping),
      (∀ f ∈ fields, f.name ≠ [] ∧ ∃ s, f.ToString g ovalue = .ok s) →
      ∃ m, indexKeyMapLoop g t ovalue okey fields m0 = .ok m := by
  intro fields
  induction fields with
  | nil => intro m0 _; exact ⟨m0, rfl⟩
  | cons f rest ih =>
    intro m0 h
    obtain ⟨hname, s, hs⟩ := h f (List.mem_cons_self _ _)
    unfold indexKeyMapLoop
    rw [hs]
    dsimp only
    by_cases hlen : s.length = 0
    · exact ⟨[], by simp [hlen]⟩
    · rw [if_neg hlen]
      have hnew : ∃ ik, NewIndexKey okey t.name f.name s = .ok ik := by
        unfold NewIndexKey
        have h1 : ¬ okey.length = 0 := by simpa using hokey
        have h2 : ¬ (t.name.length = 0 ∨ f.name.length = 0 ∨ s.length = 0) := by
          simp only [List.length_eq_zero]
          rintro (h | h | h)
          · exact ht h
          · exact hname h
          · exact hlen (by simp [h])
        rw [if_neg h1, if_neg h2]
        exact ⟨_, rfl⟩
      obtain ⟨ik, hik⟩ := hnew
      rw [hik]
      dsimp only
      exact ih _ (fun f2 hf2 => h f2 (List.mem_cons_of_mem _ hf2))

/-- The entries of the mapping the loop of `IndexKeyMap` returns when no field
it visits stringifies to the empty string. -/
theorem indexKeyMapLoop_entries (g : Registry) (t : DataType) (ovalue : StructValue)
    (okey : ObjectKey) :
    ∀ (fields : List IndexField) (m0 m : IndexKeyMapping),
      indexKeyMapLoop g t ovalue okey fields m0 = .ok m →
      (∀ f ∈ fields, f.ToString g ovalue ≠ .ok []) →
      (∀ e ∈ m0, e.1 ∉ fields.map IndexField.name → e ∈ m) ∧
      ((fields.map IndexField.name).Nodup → ∀ f ∈ fields, ∃ s ik,
        f.ToString g ovalue = .ok s ∧ NewIndexKey okey t.name f.name s = .ok ik ∧
        (f.name, ik) ∈ m) ∧
      (∀ name, name ∈ m.map Prod.fst ↔
        name ∈ m0.map Prod.fst ∨ name ∈ fields.map IndexField.name) ∧
      ((m0.map Prod.fst ++ fields.map IndexField.name).Nodup →
        m.map Prod.fst = m0.map Prod.fst ++ fields.map IndexField.name) := by
  intro fields
  induction fields with
  | nil =>
    intro m0 m h _
    simp only [indexKeyMapLoop] at h
    injection h with h
    subst h
    simp
  | cons f rest ih =>
    intro m0 m h hne
    unfold indexKeyMapLoop at h
    cases hs : f.ToString g ovalue with
    | error e => rw [hs] at h; simp at h
    | ok s =>
      rw [hs] at h
      dsimp only at h
      have hlen : ¬ s.length = 0 := by
        intro h0
        have : s = [] := by simpa using h0
        exact hne f (List.mem_cons_self _ _) (by rw [hs, this])
      rw [if_neg hlen] at h
      cases hn : NewIndexKey okey t.name f.name s with
      | error e => rw [hn] at h; simp at h
      | ok ik =>
        rw [hn] at h
        dsimp only at h
        obtain ⟨i1, i2, i3, i4⟩ := ih _ m h (fun f2 hf2 => hne f2 (List.mem_cons_of_mem _ hf2))
        refine ⟨?_, ?_, ?_, ?_⟩
        · intro e he hnot
          simp only [List.map_cons, List.mem_cons, not_or] at hnot
          exact i1 e (mem_mapSet_of_ne m0 f.name ik e he hnot.1) hnot.2
        · intro hnd f2 hf2
          simp only [List.map_cons, List.nodup_cons] at hnd
          rcases List.mem_cons.mp hf2 with h2 | h2
          · subst h2
            exact ⟨s, ik, hs, hn, i1 _ (mem_mapSet_self m0 f2.name ik) hnd.1⟩
          · exact i2 hnd.2 f2 h2
        · intro name
          rw [i3 name, keys_mapSet]
          by_cases hk : f.name ∈ m0.map Prod.fst
          · simp only [hk, if_true, List.map_cons, List.mem_cons]
            constructor
            · rintro (h1 | h1)
              · exact Or.inl h1
              · exact Or.inr (Or.inr h1)
            · rintro (h1 | h1 | h1)
              · exact Or.inl h1
              · exact Or.inl (h1 ▸ hk)
              · exact Or.inr h1
          · simp only [hk, if_false, List.map_cons, List.mem_cons, List.mem_append,
              List.not_mem_nil, or_false]
            constructor
            · rintro ((h1 | h1) | h1)
              · exact Or.inl h1
              · exact Or.inr (Or.inl h1)
              · exact Or.inr (Or.inr h1)
            · rintro (h1 | h1 | h1)
              · exact Or.inl (Or.inl h1)
              · exact Or.inl (Or.inr h1)
              · exact Or.inr h1
        · intro hnd
          have hk : f.name ∉ m0.map Prod.fst := by
            intro hk
            have := List.nodup_append.mp hnd
            exact this.2.2 hk (by simp)
          have hkeys : (mapSet m0 f.name ik).map Prod.fst = m0.map Prod.fst ++ [f.name] := by
            rw [keys_mapSet]; simp [hk]
          have hnd2 : ((mapSet m0 f.name ik).map Prod.fst ++ rest.map IndexField.name).Nodup := by
            rw [hkeys]; simpa using hnd
          rw [i4 hnd2, hkeys]
          simp

theorem NewObjectKey_placeholder : NewObjectKey (lit "/x") = .ok (lit "/ob/x") := by decide

theorem IndexKeyMap_eq_loop (g : Registry) (t : DataType) (ob : Object) (ovalue : StructValue)
    (hgood : t.goodValue ob = some ovalue) :
    t.IndexKeyMap g ob = indexKeyMapLoop g t ovalue (lit "/ob/x") t.indexFields [] := by
  simp only [DataType.IndexKeyMap, hgood, NewObjectKey_placeholder]

/-- Claim C14 (amended). For a struct, or a non-nil pointer to a struct, of a
data type with a non-empty name whose indexed fields (named, as Go fields are)
all stringify without error: `IndexKeyMap` returns the empty mapping if some
indexed field stringifies to the empty string, and the envelope `NewValue`
builds then lists no index key; otherwise it returns a mapping whose keys are
the names of the indexed fields, each entry holding the index key
`NewIndexKey` builds for the type, that field and its string with the
placeholder owner; with pairwise distinct field names the mapping has exactly
one entry per indexed field. -/
theorem IndexKeyMap_all_or_nothing (g : Registry) (t : DataType) (ob : Object)
    (ovalue : StructValue)
    (hgood : t.goodValue ob = some ovalue)
    (hname : t.name ≠ [])
    (hfields : ∀ f ∈ t.indexFields, f.name ≠ [])
    (hstr : ∀ f ∈ t.indexFields, ∃ s, f.ToString g ovalue = .ok s) :
    ((∃ f ∈ t.indexFields, f.ToString g ovalue = .ok []) →
      t.IndexKeyMap g ob = .ok [] ∧
      ∀ (c : Gob) (okey : ObjectKey) (v : Value),
        NewValue c g okey ob t = .ok v → v.IndexKeys = []) ∧
    ((∀ f ∈ t.indexFields, f.ToString g ovalue ≠ .ok []) →
      ∃ m, t.IndexKeyMap g ob = .ok m ∧
        (∀ name, name ∈ m.map Prod.fst ↔ ∃ f ∈ t.indexFields, f.name = name) ∧
        (m.map Prod.fst).Nodup ∧
        (∀ e ∈ m, ∃ f ∈ t.indexFields, f.name = e.1 ∧
          ∃ s, NewIndexKey (lit "/ob/x") t.name e.1 s = .ok e.2) ∧
        ((t.indexFields.map IndexField.name).Nodup →
          m.length = t.indexFields.length ∧
          m.map Prod.fst = t.indexFields.map IndexField.name ∧
          ∀ f ∈ t.indexFields, ∃ s ik, f.ToString g ovalue = .ok s ∧
            NewIndexKey (lit "/ob/x") t.name f.name s = .ok ik ∧ (f.name, ik) ∈ m)) := by
  have hloop := IndexKeyMap_eq_loop g t ob ovalue hgood
  obtain ⟨m, hm⟩ := indexKeyMapLoop_total g t ovalue (lit "/ob/x") (by decide) hname
    t.indexFields [] (fun f hf => ⟨hfields f hf, hstr f hf⟩)
  constructor
  · intro hempty
    have hnil := indexKeyMapLoop_suppressed g t ovalue _ _ [] m hm hempty
    subst hnil
    exact ⟨hloop.trans hm, fun c okey v hv => NewValue_suppressed hv hgood hempty⟩
  · intro hne
    obtain ⟨_, e2, e3, e4⟩ := indexKeyMapLoop_entries g t ovalue (lit "/ob/x") t.indexFields
      [] m hm hne
    obtain ⟨s1, s2⟩ := indexKeyMapLoop_spec g t ovalue (lit "/ob/x") t.indexFields [] m hm
      (by simp) (fun f hf => hf) (by simp)
    refine ⟨m, hloop.trans hm, ?_, s2, s1, ?_⟩
    · intro name
      rw [e3 name]
      simp
    · intro hnd
      have hkeys := e4 (by simpa using hnd)
      simp only [List.map_nil, List.nil_append] at hkeys
      refine ⟨?_, hkeys, e2 hnd⟩
      have := congrArg List.length hkeys
      simpa using this

set_option maxRecDepth 100000 in
/-- Witness of `IndexKeyMap_all_or_nothing`: the object `&P{A: 1, B: 2}` has one
entry per indexed field, and `&T{Name: ""}` has none. -/
theorem IndexKeyMap_all_or_nothing_witness :
    (pairType.IndexKeyMap fixtureRegistry (pair 1 2)
      = .ok [(lit "A", lit "/ix/P/A/1/ob/x"), (lit "B", lit "/ix/P/B/2/ob/x")] ∧
     namedType.IndexKeyMap fixtureRegistry (named []) = .ok []) ∧
    ∃ m, pairType.IndexKeyMap fixtureRegistry (pair 1 2) = .ok m ∧
      (∀ name, name ∈ m.map Prod.fst ↔ ∃ f ∈ pairType.indexFields, f.name = name) ∧
      (m.map Prod.fst).Nodup ∧
      (∀ e ∈ m, ∃ f ∈ pairType.indexFields, f.name = e.1 ∧
        ∃ s, NewIndexKey (lit "/ob/x") pairType.name e.1 s = .ok e.2) ∧
      ((pairType.indexFields.map IndexField.name).Nodup →
        m.length = pairType.indexFields.length ∧
        m.map Prod.fst = pairType.indexFields.map IndexField.name ∧
        ∀ f ∈ pairType.indexFields, ∃ s ik,
          f.ToString fixtureRegistry
            (StructValue.mk 3 (fun p => if p = [0] then .int .int 1 else .int .int 2)) = .ok s ∧
          NewIndexKey (lit "/ob/x") pairType.name f.name s = .ok ik ∧ (f.name, ik) ∈ m) :=
  ⟨by decide,
   (IndexKeyMap_all_or_nothing fixtureRegistry pairType (pair 1 2)
      (StructValue.mk 3 (fun p => if p = [0] then .int .int 1 else .int .int 2)) rfl
      (by decide)
      (by
        intro f hf
        simp only [pairType, List.mem_cons, List.mem_singleton, List.not_mem_nil, or_false] at hf
        rcases hf with h | h <;> subst h <;> decide)
      (by
        intro f hf
        simp only [pairType, List.mem_cons, List.mem_singleton, List.not_mem_nil, or_false] at hf
        rcases hf with h | h <;> subst h <;> exact ⟨_, rfl⟩)).2
    (by
      intro f hf
      simp only [pairType, List.mem_cons, List.mem_singleton, List.not_mem_nil, or_false] at hf
      rcases hf with h | h <;> subst h <;> decide)⟩

set_option maxRecDepth 100000 in
/-- C14, as stated, fails for a type registered under the empty name:
`Register("", T{})` succeeds, the indexed field `Name` of `&T{Name: "bob"}`
stringifies to `bob` without error, and `IndexKeyMap` returns an error instead
of a mapping, because `NewIndexKey` rejects the empty type name. -/
theorem IndexKeyMap_unnamed_type_counterexample :
    Register fixtureEnv emptyRegistry [] (named (lit "bob")) = .ok unnamedRegistry ∧
    GetDataType unnamedRegistry (named (lit "bob")) = .ok unnamedType ∧
    unnamedType.goodValue (named (lit "bob"))
      = some (StructValue.mk 2 (fun _ => FieldValue.string (lit "bob"))) ∧
    (unnamedType.indexFields.map (fun f => f.ToString unnamedRegistry
      (StructValue.mk 2 (fun _ => FieldValue.string (lit "bob"))))) = [.ok (lit "bob")] ∧
    unnamedType.IndexKeyMap unnamedRegistry (named (lit "bob")) = .error Err.invalid :=
  ⟨rfl, rfl, rfl, by decide, by decide⟩

/-! ## Registration -/

theorem Register_employee :
    Register fixtureEnv emptyRegistry (lit "Employee") newEmployee = .ok employeeRegistry := by
  rfl

theorem Register_unnamed :
    Register fixtureEnv emptyRegistry [] (named (lit "bob")) = .ok unnamedRegistry := by
  rfl

theorem Register_fixtures :
    (Register fixtureEnv emptyRegistry (lit "TestIndexing.ExampleType") (user [] 0)).bind
      (fun g1 => (Register fixtureEnv g1 (lit "T") (named [])).bind
        (fun g2 => Register fixtureEnv g2 (lit "P") (pair 0 0))) = .ok fixtureRegistry := by
  rfl

theorem find_typeMapSet_self (m : List (Nat × DataType)) (k : Nat) (v : DataType) :
    (typeMapSet m k v).find? (fun e => decide (e.1 = k)) = some (k, v) := by
  induction m with
  | nil => simp [typeMapSet]
  | cons e rest ih =>
    obtain ⟨k0, v0⟩ := e
    unfold typeMapSet
    by_cases h : k0 = k
    · simp [h]
    · simp [h, ih]

theorem find_typeMapSet_of_ne (m : List (Nat × DataType)) (k q : Nat) (v : DataType)
    (hq : q ≠ k) :
    (typeMapSet m k v).find? (fun e => decide (e.1 = q))
      = m.find? (fun e => decide (e.1 = q)) := by
  induction m with
  | nil =>
    have : ¬ k = q := fun h => hq h.symm
    simp [typeMapSet, this]
  | cons e rest ih =>
    obtain ⟨k0, v0⟩ := e
    unfold typeMapSet
    by_cases h : k0 = k
    · have h2 : ¬ k0 = q := by rw [h]; exact fun h3 => hq h3.symm
      have h3 : ¬ k = q := fun h3 => hq h3.symm
      simp [h, h2, h3]
    · by_cases h2 : k0 = q
      · subst h2; simp [h]
      · simp [h, h2, ih]

theorem find_name_isSome (m : List (Str × DataType)) (name : Str) :
    (m.find? (fun e => decide (e.1 = name))).isSome = true ↔ ∃ e ∈ m, e.1 = name := by
  rw [List.find?_isSome]
  simp

theorem find_type_isSome (m : List (Nat × DataType)) (stype : Nat) :
    (m.find? (fun e => decide (e.1 = stype))).isSome = true ↔ ∃ e ∈ m, e.1 = stype := by
  rw [List.find?_isSome]
  simp

/-- The function `NewIndexFields` fails only with `InvalidArgument`, and only on
a field whose type is a struct or a pointer to a struct. -/
theorem NewIndexFields_error {sfield : StructField} {e : Err}
    (h : NewIndexFields sfield = .error e) : e = Err.invalid ∧ sfield.isStructOrPtr = true := by
  unfold NewIndexFields at h
  cases htag : sfield.kodbTag with
  | none => rw [htag] at h; simp at h
  | some tag =>
    rw [htag] at h
    dsimp only at h
    split at h
    · simp at h
    · split at h
      · rename_i hs
        injection h with h
        exact ⟨h.symm, hs⟩
      · simp at h

theorem newDataTypeLoop_error :
    ∀ (fields : List StructField) (acc : List IndexField) (e : Err),
      newDataTypeLoop fields acc = .error e →
      e = Err.invalid ∧ ∃ sfield ∈ fields, sfield.isStructOrPtr = true := by
  intro fields
  induction fields with
  | nil => intro acc e h; simp [newDataTypeLoop] at h
  | cons sf rest ih =>
    intro acc e h
    unfold newDataTypeLoop at h
    cases hn : NewIndexFields sf with
    | error e2 =>
      rw [hn] at h
      injection h with h
      subst h
      obtain ⟨h1, h2⟩ := NewIndexFields_error hn
      exact ⟨h1, sf, List.mem_cons_self _ _, h2⟩
    | ok l =>
      rw [hn] at h
      dsimp only at h
      obtain ⟨h1, sf2, h2, h3⟩ := ih _ e h
      exact ⟨h1, sf2, List.mem_cons_of_mem _ h2, h3⟩

theorem NewDataType_error {env : TypeEnv} {name : Str} {sample : Object} {stype : Nat}
    {e : Err} (hs : getStructType sample = some stype)
    (h : NewDataType env name sample = .error e) :
    e = Err.invalid ∧ ∃ sfield ∈ env stype, sfield.isStructOrPtr = true := by
  unfold NewDataType at h
  rw [hs] at h
  dsimp only at h
  cases hl : newDataTypeLoop (env stype) [] with
  | error e2 =>
    rw [hl] at h
    injection h with h
    subst h
    exact newDataTypeLoop_error _ _ _ hl
  | ok l => rw [hl] at h; simp at h

/-- `Register(name, sample)`, for a sample that is not the nil interface, fails
with `AlreadyExists` when `name`
is already registered; otherwise it fails with `InvalidArgument` when `sample`
is neither a struct nor a pointer to a struct, or when its struct type is
already registered (a struct value and a pointer to that struct have the same
struct type); otherwise it returns what `NewDataType` returns: an
`InvalidArgument` error, only when a field of the struct is itself a struct or
a pointer to one, or the data type, which is then registered, and `GetDataType`
resolves every object of that struct type (struct value, pointer to struct) to
it, the other types resolving as before. -/
theorem Register_cases (env : TypeEnv) (g : Registry) (name : Str) (sample : Object) :
    ((∃ e ∈ g.nameMap, e.1 = name) → Register env g name sample = .error .exist) ∧
    ((∀ e ∈ g.nameMap, e.1 ≠ name) →
      (getStructType sample = none → Register env g name sample = .error .invalid) ∧
      ∀ stype, getStructType sample = some stype →
        ((∃ e ∈ g.typeMap, e.1 = stype) → Register env g name sample = .error .invalid) ∧
        ((∀ e ∈ g.typeMap, e.1 ≠ stype) →
          (∀ e, NewDataType env name sample = .error e →
            Register env g name sample = .error .invalid ∧ e = Err.invalid ∧
            ∃ sfield ∈ env stype, sfield.isStructOrPtr = true) ∧
          (∀ t, NewDataType env name sample = .ok t →
            t.name = name ∧ t.gotype = stype ∧
            ∃ g1, Register env g name sample = .ok g1 ∧
              (∃ e ∈ g1.nameMap, e.1 = name) ∧
              (∀ ob, getStructType ob = some stype → GetDataType g1 ob = .ok t) ∧
              (∀ ob, getStructType ob ≠ some stype →
                GetDataType g1 ob = GetDataType g ob)))) := by
  constructor
  · intro h
    have := (find_name_isSome g.nameMap name).mpr h
    simp [Register, this]
  · intro hname
    have hn : ¬ (g.nameMap.find? (fun e => decide (e.1 = name))).isSome = true := by
      rw [find_name_isSome]
      rintro ⟨e, he, h⟩
      exact hname e he h
    constructor
    · intro hs
      simp [Register, hn, hs]
    · intro stype hs
      constructor
      · intro h
        have := (find_type_isSome g.typeMap stype).mpr h
        simp [Register, hn, hs, this]
      · intro htype
        have ht : ¬ (g.typeMap.find? (fun e => decide (e.1 = stype))).isSome = true := by
          rw [find_type_isSome]
          rintro ⟨e, he, h⟩
          exact htype e he h
        constructor
        · intro e he
          obtain ⟨h1, h2⟩ := NewDataType_error hs he
          subst h1
          refine ⟨?_, rfl, h2⟩
          unfold Register
          rw [if_neg hn, hs]
          dsimp only
          rw [if_neg ht, he]
        · intro t hok
          have hshape : t.name = name ∧ t.gotype = stype := by
            unfold NewDataType at hok
            rw [hs] at hok
            dsimp only at hok
            cases hl : newDataTypeLoop (env stype) [] with
            | error e => rw [hl] at hok; simp at hok
            | ok l =>
              rw [hl] at hok
              injection hok with hok
              rw [← hok]
              exact ⟨rfl, rfl⟩
          refine ⟨hshape.1, hshape.2, Registry.mk (mapSet g.nameMap name t)
            (typeMapSet g.typeMap stype t) g.userDefinedTypesMap, ?_, ?_, ?_, ?_⟩
          · unfold Register
            rw [if_neg hn, hs]
            dsimp only
            rw [if_neg ht, hok]
          · exact ⟨(name, t), mem_mapSet_self _ _ _, rfl⟩
          · intro ob hob
            unfold GetDataType
            rw [hob]
            dsimp only
            rw [find_typeMapSet_self]
          · intro ob hob
            unfold GetDataType
            cases hg : getStructType ob with
            | none => rfl
            | some q =>
              dsimp only
              have hq : q ≠ stype := by
                intro h
                rw [hg, h] at hob
                exact hob rfl
              rw [find_typeMapSet_of_ne _ _ _ _ hq]

/-- The test `TestDataTypeMap`. `Employee` is
registered once with `new(Employee)`; registering the name `Employee` again
fails with `AlreadyExists`; registering `EmployeeV2` with `Employee{}` and with
`new(Employee)` fails with `InvalidArgument`; `GetDataType` resolves
`Employee{}` and `new(Employee)`. A struct with an indexed field of struct type
is rejected with `InvalidArgument`. -/
theorem TestDataTypeMap_scenario :
    Register fixtureEnv emptyRegistry (lit "Employee") newEmployee = .ok employeeRegistry ∧
    Register fixtureEnv employeeRegistry (lit "Employee") (employee []) = .error .exist ∧
    Register fixtureEnv employeeRegistry (lit "EmployeeV2") (employee []) = .error .invalid ∧
    Register fixtureEnv employeeRegistry (lit "EmployeeV2") newEmployee = .error .invalid ∧
    GetDataType employeeRegistry (employee []) = .ok employeeType ∧
    GetDataType employeeRegistry newEmployee = .ok employeeType ∧
    Register fixtureEnv employeeRegistry (lit "Nested")
      (.structVal (StructValue.mk 6 (fun _ => .string []))) = .error .invalid ∧
    Register fixtureEnv employeeRegistry (lit "Number") Object.other = .error .invalid :=
  ⟨rfl,
   (Register_cases fixtureEnv employeeRegistry (lit "Employee") (employee [])).1
    ⟨(lit "Employee", employeeType), by simp [employeeRegistry], rfl⟩,
   rfl, rfl, rfl, rfl, rfl, rfl⟩

/-! ## The index keys of a new envelope -/

theorem NewObjectKey_slash {key : Str} {okey : ObjectKey} (hkey : NewObjectKey key = .ok okey) :
    ∃ o1, okey = slash :: o1 ∧ o1 ≠ [] := by
  have hob : lit "/ob" = [slash, 111, 98] := by decide
  rcases NewObjectKey_shape hkey with ⟨_, h2⟩ | ⟨_, h2⟩
  · exact ⟨[111, 98], by rw [h2, hob], by simp⟩
  · exact ⟨[111, 98] ++ key, by rw [h2, hob]; rfl, by simp⟩

/-- Claim C16 (I5). For an object key from `NewObjectKey` and an object of a
data type whose indexed fields are named by Go identifiers, the `IndexKeys`
list of the envelope `NewValue` returns is sorted in ascending bytewise order
and has no duplicates (so it is strictly ascending); the envelope of
`NewStringValue` has an empty list. -/
theorem NewValue_index_keys_sorted_nodup (c : Gob) (g : Registry) (key : Str)
    (okey : ObjectKey) (ob : Object) (datatype : DataType) (cur : Value)
    (hkey : NewObjectKey key = .ok okey)
    (hnames : ∀ f ∈ datatype.indexFields, isIdentifier f.name = true)
    (h : NewValue c g okey ob datatype = .ok cur) :
    cur.IndexKeys.Sorted (· ≤ ·) ∧ cur.IndexKeys.Nodup ∧ cur.IndexKeys.Sorted (· < ·) ∧
    ∀ value, (NewStringValue okey value).IndexKeys = [] := by
  have hs := (NewValue_sorted h).1
  have hn := (NewValue_wellFormed hkey hnames h).1
  exact ⟨hs, hn, hs.lt_of_le hn, fun _ => rfl⟩

set_option maxRecDepth 100000 in
/-- Witness of `NewValue_index_keys_sorted_nodup`: the envelope of
`&P{A: 1, B: 2}` at `/k`. -/
theorem NewValue_index_keys_sorted_nodup_witness :
    (NewObjectKey (lit "/k") = .ok (lit "/ob/k") ∧
      NewValue fixtureGob fixtureRegistry (lit "/ob/k") (pair 1 2) pairType = .ok pairEnvelope) ∧
    pairEnvelope.IndexKeys.Sorted (· ≤ ·) ∧ pairEnvelope.IndexKeys.Nodup ∧
    pairEnvelope.IndexKeys.Sorted (· < ·) ∧
    ∀ value, (NewStringValue (lit "/ob/k") value).IndexKeys = [] :=
  ⟨by decide,
   NewValue_index_keys_sorted_nodup fixtureGob fixtureRegistry (lit "/k") (lit "/ob/k")
    (pair 1 2) pairType pairEnvelope (by decide)
    (by
      intro f hf
      simp only [pairType, List.mem_cons, List.mem_singleton, List.not_mem_nil, or_false] at hf
      rcases hf with h | h <;> subst h <;> decide)
    (by decide)⟩

theorem withObjectKeyAll_owner {okey o1 : Str} (hokey : okey = slash :: o1) (ho1 : o1 ≠ []) :
    ∀ (iks xs : List IndexKey), withObjectKeyAll okey iks = .ok xs →
      ∀ x ∈ xs, GetObjectKey x = .ok okey := by
  intro iks
  induction iks with
  | nil =>
    intro xs h x hx
    simp only [withObjectKeyAll] at h
    injection h with h
    subst h
    simp at hx
  | cons ik rest ih =>
    intro xs h x hx
    unfold withObjectKeyAll at h
    cases hw : WithObjectKey ik okey with
    | error e => rw [hw] at h; simp at h
    | ok y =>
      rw [hw] at h
      dsimp only at h
      cases hr : withObjectKeyAll okey rest with
      | error e => rw [hr] at h; simp at h
      | ok ys =>
        rw [hr] at h
        dsimp only at h
        injection h with h
        subst h
        rcases List.mem_cons.mp hx with h1 | h1
        · subst h1
          unfold WithObjectKey at hw
          cases hp : indexRuneN ik slash 5 with
          | none => rw [hp] at hw; simp at hw
          | some p =>
            rw [hp] at hw
            dsimp only at hw
            injection hw with hw
            obtain ⟨u, w, g1, g2, g3⟩ := indexRuneN_split hp
            subst g1
            subst g3
            rw [← hw, hokey]
            simp only [List.take_left']
            exact GetObjectKey_of_split u o1 g2 ho1
        · exact ih ys hr x h1

/-- Claim C17 (I2). For an object key `okey` from `NewObjectKey` and an object
for which `NewValue(okey, object, datatype)` succeeds, every index key `K` of
the envelope has `K.GetObjectKey() = okey = envelope.ObjectKey`; hence the
index keys of two envelopes built for different object keys are disjoint. -/
theorem NewValue_index_keys_owner (c : Gob) (g : Registry) (key : Str) (okey : ObjectKey)
    (ob : Object) (datatype : DataType) (cur : Value)
    (hkey : NewObjectKey key = .ok okey)
    (h : NewValue c g okey ob datatype = .ok cur) :
    cur.ObjectKey = okey ∧
    (∀ K ∈ cur.IndexKeys, GetObjectKey K = .ok okey ∧ GetObjectKey K = .ok cur.ObjectKey) ∧
    (∀ (c2 : Gob) (g2 : Registry) (key2 : Str) (okey2 : ObjectKey) (ob2 : Object)
        (datatype2 : DataType) (cur2 : Value),
      NewObjectKey key2 = .ok okey2 → NewValue c2 g2 okey2 ob2 datatype2 = .ok cur2 →
      okey ≠ okey2 → ∀ K ∈ cur.IndexKeys, K ∉ cur2.IndexKeys) := by
  have howner : ∀ (c : Gob) (g : Registry) (key : Str) (okey : ObjectKey) (ob : Object)
      (datatype : DataType) (cur : Value), NewObjectKey key = .ok okey →
      NewValue c g okey ob datatype = .ok cur →
      ∀ K ∈ cur.IndexKeys, GetObjectKey K = .ok okey := by
    intro c g key okey ob datatype cur hkey h
    obtain ⟨o1, hokey, ho1⟩ := NewObjectKey_slash hkey
    unfold NewValue at h
    cases hm : datatype.Marshal c ob with
    | error e => rw [hm] at h; simp at h
    | ok s =>
      rw [hm] at h
      dsimp only at h
      cases hi : datatype.IndexKeyMap g ob with
      | error e => rw [hi] at h; simp at h
      | ok ikMap =>
        rw [hi] at h
        dsimp only at h
        cases hw : withObjectKeyAll okey (ikMap.map Prod.snd) with
        | error e => rw [hw] at h; simp at h
        | ok iks =>
          rw [hw] at h
          dsimp only at h
          injection h with h
          subst h
          intro K hK
          exact withObjectKeyAll_owner hokey ho1 _ iks hw K (mem_SortIndexKeys.mp hK)
  have hobj := (NewValue_sorted h).2
  refine ⟨hobj, ?_, ?_⟩
  · intro K hK
    have := howner c g key okey ob datatype cur hkey h K hK
    exact ⟨this, by rw [hobj]; exact this⟩
  · intro c2 g2 key2 okey2 ob2 datatype2 cur2 hkey2 h2 hne K hK hK2
    have e1 := howner c g key okey ob datatype cur hkey h K hK
    have e2 := howner c2 g2 key2 okey2 ob2 datatype2 cur2 hkey2 h2 K hK2
    rw [e1] at e2
    injection e2 with e2
    exact hne e2

set_option maxRecDepth 100000 in
/-- Witness of `NewValue_index_keys_owner`: the envelope of `&P{A: 1, B: 2}` at
`/k`. -/
theorem NewValue_index_keys_owner_witness :
    (NewObjectKey (lit "/k") = .ok (lit "/ob/k") ∧
      NewValue fixtureGob fixtureRegistry (lit "/ob/k") (pair 1 2) pairType = .ok pairEnvelope) ∧
    ∀ K ∈ pairEnvelope.IndexKeys,
      GetObjectKey K = .ok (lit "/ob/k") ∧ GetObjectKey K = .ok pairEnvelope.ObjectKey :=
  ⟨by decide,
   (NewValue_index_keys_owner fixtureGob fixtureRegistry (lit "/k") (lit "/ob/k")
    (pair 1 2) pairType pairEnvelope (by decide) (by decide)).2.1⟩

/-! ## The candidates of `FindByIndex` and the iteration over them -/

theorem getNextLoop_state (c : Gob) (t : Tx) :
    ∀ (fuel : Nat) (it : Iter),
      (getNextLoop c t fuel it).2.keys = it.keys ∧ (getNextLoop c t fuel it).2.refs = it.refs ∧
      it.next ≤ (getNextLoop c t fuel it).2.next := by
  intro fuel
  induction fuel with
  | zero => intro it; simp [getNextLoop]
  | succ fuel ih =>
    intro it
    unfold getNextLoop
    cases hk : it.keys.get? it.next with
    | none => simp
    | some k =>
      dsimp only
      have hstep := ih { it with next := it.next + 1 }
      have hstep2 : (getNextLoop c t fuel { it with next := it.next + 1 }).2.keys = it.keys ∧
          (getNextLoop c t fuel { it with next := it.next + 1 }).2.refs = it.refs ∧
          it.next ≤ (getNextLoop c t fuel { it with next := it.next + 1 }).2.next :=
        ⟨hstep.1, hstep.2.1, Nat.le_of_succ_le hstep.2.2⟩
      cases hg : kvGet t.kv k with
      | none => exact hstep2
      | some s =>
        dsimp only
        cases hp : ParseValue c s with
        | error e => simp
        | ok v =>
          dsimp only
          by_cases h1 : v.ObjectKey ≠ k
          · rw [if_pos h1]; exact hstep2
          · rw [if_neg h1]
            by_cases h2 : it.refs.length > 0 ∧ (!v.HasAllIndexKeys (it.refs.getD it.next [])) = true
            · rw [if_pos h2]; exact hstep2
            · rw [if_neg h2]; simp

theorem ParseIndexKey_owner {s : Str} {ik : IndexKey} (h : ParseIndexKey s = .ok ik) :
    ∃ p, indexRuneN s slash 5 = some p ∧ ∃ rest, s.drop p = slash :: 111 :: 98 :: rest := by
  obtain ⟨p, hp⟩ := ParseIndexKey_fifth h
  refine ⟨p, hp, ?_⟩
  have hpo : ∃ o, ParseObjectKey (s.drop p) = .ok o := by
    cases hpo : ParseObjectKey (s.drop p) with
    | ok o => exact ⟨o, rfl⟩
    | error e =>
      exfalso
      unfold ParseIndexKey at h
      rw [hp] at h
      split at h
      · rename_i h5
        injection h5 with h5
        subst h5
        dsimp only at h
        rw [hpo] at h
        repeat (split at h <;> try simp at h)
      · simp at h
  obtain ⟨o, ho⟩ := hpo
  unfold ParseObjectKey at ho
  have hpre : lit "/" ++ ObjectKeyspace = [slash, 111, 98] := by decide
  rw [hpre] at ho
  by_cases hh : HasPrefix (s.drop p) [slash, 111, 98] = true
  · unfold HasPrefix at hh
    obtain ⟨rest, hrest⟩ := List.isPrefixOf_iff_prefix.mp hh
    exact ⟨rest, by rw [← hrest]; rfl⟩
  · simp [hh] at ho

theorem dedupLoop_parsed (refs : List Str) (m0 m : List (ObjectKey × List IndexKey))
    (h : dedupLoop refs m0 = .ok m) : ∀ r ∈ refs, ParseIndexKey r = .ok r := by
  induction refs generalizing m0 with
  | nil => intro r hr; simp at hr
  | cons ref rest ih =>
    unfold dedupLoop at h
    cases hp : ParseIndexKey ref with
    | error e => simp [hp] at h
    | ok ik =>
      have hik := ParseIndexKey_eq hp
      subst hik
      simp only [hp] at h
      cases ho : GetObjectKey ik with
      | error e => simp [ho] at h
      | ok okey =>
        simp only [ho] at h
        intro r hr
        rcases List.mem_cons.mp hr with h1 | h1
        · rw [h1]; exact hp
        · exact ih _ h r h1

/-- Every candidate `FindByIndex` installs begins with `/ob`. -/
theorem FindByIndex_keys_ob (g : Registry) (t : Tx) (part : Object) (it : Iter)
    (h : Tx.FindByIndex g t part = .ok it) :
    ∀ k ∈ it.keys, ∃ rest, k = slash :: 111 :: 98 :: rest := by
  unfold Tx.FindByIndex at h
  cases h1 : GetDataType g part with
  | error e => rw [h1] at h; simp at h
  | ok datatype =>
    rw [h1] at h
    dsimp only at h
    cases h2 : datatype.IndexKeyMap g part with
    | error e => rw [h2] at h; simp at h
    | ok ikMap =>
      rw [h2] at h
      dsimp only at h
      cases h3 : scanLoop t.kv (ikMap.map Prod.snd) [] with
      | error e => rw [h3] at h; simp at h
      | ok refs =>
        rw [h3] at h
        dsimp only at h
        cases h4 : dedupLoop refs [] with
        | error e => rw [h4] at h; simp at h
        | ok refMap =>
          rw [h4] at h
          dsimp only at h
          injection h with h
          subst h
          intro k hk
          obtain ⟨_, _, s3⟩ := dedupLoop_spec refs [] refMap h4
          rcases s3 k hk with h5 | ⟨r, hr, hro⟩
          · simp at h5
          · have hparsed := dedupLoop_parsed refs [] refMap h4 r hr
            obtain ⟨p, hp, rest, hrest⟩ := ParseIndexKey_owner hparsed
            unfold GetObjectKey at hro
            rw [hp] at hro
            dsimp only at hro
            split at hro
            · injection hro with hro
              exact ⟨rest, by rw [← hro, hrest]⟩
            · simp at hro

/-- The user keys yielded by successive `GetNext` calls are those of a
subsequence of the candidates not yet visited. -/
theorem yieldedKeys_sublist (c : Gob) (t : Tx) :
    ∀ (n : Nat) (it : Iter),
      (yieldedKeys (getNextRun c t n it).1).Sublist ((it.keys.drop it.next).map UserKey) := by
  intro n
  induction n with
  | zero => intro it; simp [getNextRun, yieldedKeys]
  | succ n ih =>
    intro it
    have hst := getNextLoop_state c t (it.keys.length - it.next) it
    have hih := ih (Iter.GetNext c t it).2
    unfold Iter.GetNext at hih
    rw [hst.1] at hih
    simp only [getNextRun, Iter.GetNext]
    generalize hr : getNextLoop c t (it.keys.length - it.next) it = r at hst hih
    obtain ⟨res, it1⟩ := r
    cases res with
    | error e =>
      simp only [yieldedKeys]
      exact hih.trans ((List.drop_sublist_drop_left it.keys hst.2.2).map UserKey)
    | ok pr =>
      obtain ⟨uk, data⟩ := pr
      simp only [yieldedKeys]
      obtain ⟨i, k, s, v, hi, hk, huk, _, _, _, _, _, hit1⟩ :=
        getNextLoop_yield c t _ it it1 uk data hr
      have hnext : it1.next = i + 1 := by rw [hit1]
      simp only [hnext] at hih
      have hilt : i < it.keys.length := by
        rw [List.get?_eq_getElem?] at hk
        exact (List.getElem?_eq_some_iff.mp hk).1
      have hki : it.keys[i] = k := by
        rw [List.get?_eq_getElem?] at hk
        exact (List.getElem?_eq_some_iff.mp hk).2
      have hdrop : it.keys.drop i = k :: it.keys.drop (i + 1) := by
        rw [← hki]; exact List.drop_eq_getElem_cons hilt
      have h1 : (uk :: yieldedKeys (getNextRun c t n it1).1).Sublist
          ((it.keys.drop i).map UserKey) := by
        rw [hdrop, List.map_cons, huk]
        exact List.Sublist.cons₂ _ hih
      exact h1.trans ((List.drop_sublist_drop_left it.keys hi).map UserKey)

/-- Claim C18. The iterator `FindByIndex` installs starts at the first
candidate, lists each owning object key at most once, and has one list of
expected references per candidate (`keys` and `refs` are equally long): the
list of a candidate is the non-empty list of all the scanned index keys that
point at it. Every candidate begins with `/ob`, so distinct candidates have
distinct user keys, and the user keys yielded by any number of `GetNext` calls
are pairwise distinct. -/
theorem FindByIndex_candidates_unique (c : Gob) (g : Registry) (t : Tx) (part : Object)
    (it : Iter) (h : Tx.FindByIndex g t part = .ok it) :
    it.next = 0 ∧ it.keys.Nodup ∧ it.keys.length = it.refs.length ∧
    (∀ i k, it.keys.get? i = some k →
      it.refs.getD i [] = (scannedRefs g t part).filter (fun r => decide (GetObjectKey r = .ok k)) ∧
      it.refs.getD i [] ≠ []) ∧
    (it.keys.map UserKey).Nodup ∧
    ∀ n, (yieldedKeys (getNextRun c t n it).1).Nodup := by
  obtain ⟨datatype, ikMap, refs, _, _, hrefs, _, hnext, hnd, hlen, hlists⟩ :=
    FindByIndex_spec g t part it h
  have hob := FindByIndex_keys_ob g t part it h
  have huser : (it.keys.map UserKey).Nodup := by
    apply List.Nodup.map_on _ hnd
    intro x hx y hy hxy
    obtain ⟨rx, hrx⟩ := hob x hx
    obtain ⟨ry, hry⟩ := hob y hy
    have hlen3 : ObjectKeyspace.length + 1 = 3 := by decide
    rw [hrx, hry] at hxy
    simp only [UserKey, hlen3, List.drop_succ_cons, List.drop_zero] at hxy
    rw [hrx, hry, hxy]
  refine ⟨hnext, hnd, hlen, ?_, huser, ?_⟩
  · intro i k hk
    obtain ⟨h1, h2⟩ := hlists i k hk
    rw [hrefs] at h1 h2
    exact ⟨h1, by rw [h1]; exact h2⟩
  · intro n
    have hsub := yieldedKeys_sublist c t n it
    rw [hnext, List.drop_zero] at hsub
    exact hsub.nodup huser

set_option maxRecDepth 100000 in
/-- Witness of `FindByIndex_candidates_unique`: on the store that holds
`P{A: 1, B: 2}` at `/k`, the exemplar `P{A: 1, B: 2}` scans two index keys that
point at the one candidate `/ob/k`. -/
theorem FindByIndex_candidates_unique_witness :
    (Tx.FindByIndex fixtureRegistry pairTx (pair 1 2) = .ok pairIter2 ∧
      scannedRefs fixtureRegistry pairTx (pair 1 2)
        = [lit "/ix/P/A/1/ob/k", lit "/ix/P/B/2/ob/k"]) ∧
    pairIter2.keys.Nodup ∧ pairIter2.keys.length = pairIter2.refs.length ∧
    (pairIter2.keys.map UserKey).Nodup ∧
    ∀ n, (yieldedKeys (getNextRun fixtureGob pairTx n pairIter2).1).Nodup :=
  ⟨by decide,
   (FindByIndex_candidates_unique fixtureGob fixtureRegistry pairTx (pair 1 2) pairIter2
      (by decide)).2.1,
   (FindByIndex_candidates_unique fixtureGob fixtureRegistry pairTx (pair 1 2) pairIter2
      (by decide)).2.2.1,
   (FindByIndex_candidates_unique fixtureGob fixtureRegistry pairTx (pair 1 2) pairIter2
      (by decide)).2.2.2.2.1,
   (FindByIndex_candidates_unique fixtureGob fixtureRegistry pairTx (pair 1 2) pairIter2
      (by decide)).2.2.2.2.2⟩

/-! ## The iterator contract -/

theorem getNextLoop_succ (c : Gob) (t : Tx) (fuel : Nat) (it : Iter) :
    getNextLoop c t (fuel + 1) it =
      match it.keys.get? it.next with
      | none => (.error .notExist, it)
      | some k =>
        match kvGet t.kv k with
        | none => getNextLoop c t fuel { it with next := it.next + 1 }
        | some s =>
          match ParseValue c s with
          | .error e => (.error e, it)
          | .ok v =>
            if v.ObjectKey ≠ k then getNextLoop c t fuel { it with next := it.next + 1 }
            else if it.refs.length > 0 ∧ !v.HasAllIndexKeys (it.refs.getD it.next []) then
              getNextLoop c t fuel { it with next := it.next + 1 }
            else (.ok (UserKey k, v.Data), { it with next := it.next + 1 }) := by
  rw [getNextLoop]

/-- One candidate of the loop of `GetNext`, when the value stored at it, if
any, parses as an envelope with sorted index keys: the loop passes over the
candidate if the contract skips it, and returns what the contract yields
otherwise, leaving the cursor behind the candidate. -/
theorem getNextLoop_step (c : Gob) (t : Tx) (fuel : Nat) (it : Iter) (k : ObjectKey)
    (r : List IndexKey)
    (hk : it.keys.get? it.next = some k) (hr : it.refs.get? it.next = some r)
    (hparse : ∀ s, kvGet t.kv k = some s →
      ∃ v, ParseValue c s = .ok v ∧ v.IndexKeys.Sorted (· ≤ ·)) :
    (candidateYield c t k r = none ∧
      getNextLoop c t (fuel + 1) it = getNextLoop c t fuel { it with next := it.next + 1 }) ∨
    (∃ y, candidateYield c t k r = some y ∧
      getNextLoop c t (fuel + 1) it = (.ok y, { it with next := it.next + 1 })) := by
  have hpos : it.refs.length > 0 := by
    rw [List.get?_eq_getElem?] at hr
    have := (List.getElem?_eq_some_iff.mp hr).1
    omega
  have hgetD : it.refs.getD it.next [] = r := by
    rw [List.getD_eq_getElem?_getD, ← List.get?_eq_getElem?, hr]; rfl
  rw [getNextLoop_succ c t fuel it]
  unfold candidateYield
  rw [hk]
  dsimp only
  cases hg : kvGet t.kv k with
  | none => exact Or.inl ⟨rfl, rfl⟩
  | some s =>
    obtain ⟨v, hv, hsorted⟩ := hparse s hg
    dsimp only
    rw [hv]
    dsimp only
    by_cases h1 : v.ObjectKey ≠ k
    · rw [if_pos h1]
      left
      refine ⟨?_, rfl⟩
      rw [if_neg]
      exact fun h => h1 h.1
    · rw [if_neg h1]
      have h1e : v.ObjectKey = k := not_not.mp h1
      rw [hgetD]
      cases hall : v.HasAllIndexKeys r with
      | false =>
        have hcond : it.refs.length > 0 ∧ (!false) = true := ⟨hpos, rfl⟩
        rw [if_pos hcond]
        left
        refine ⟨?_, rfl⟩
        rw [if_neg]
        intro h
        have := HasAllIndexKeys_of_mem v hsorted r h.2
        rw [hall] at this
        exact absurd this (by simp)
      | true =>
        have hcond : ¬ (it.refs.length > 0 ∧ (!true) = true) := by simp
        rw [if_neg hcond]
        right
        refine ⟨(UserKey k, v.Data), ?_, rfl⟩
        rw [if_pos]
        exact ⟨h1e, HasAllIndexKeys_mem v r hall⟩

theorem candidates_drop (it : Iter) (hlt : it.next < it.keys.length)
    (hlen : it.keys.length = it.refs.length) :
    ∃ k r, it.keys.get? it.next = some k ∧ it.refs.get? it.next = some r ∧ k ∈ it.keys ∧
      it.candidates.drop it.next = (k, r) :: it.candidates.drop (it.next + 1) := by
  have hlt2 : it.next < it.refs.length := by omega
  have hz : it.next < (it.keys.zip it.refs).length := by
    rw [List.length_zip]; omega
  refine ⟨it.keys[it.next], it.refs[it.next], ?_, ?_, List.getElem_mem _, ?_⟩
  · rw [List.get?_eq_getElem?, List.getElem?_eq_getElem hlt]
  · rw [List.get?_eq_getElem?, List.getElem?_eq_getElem hlt2]
  · unfold Iter.candidates
    rw [List.drop_eq_getElem_cons hz, List.getElem_zip]

/-- The loop of `GetNext` from any position, when the values stored at the
candidates parse as envelopes with sorted index keys: it returns what the first
qualifying candidate from the cursor on yields and leaves the cursor behind
that candidate, or it returns `NotFound` and leaves the cursor at the end. -/
theorem getNextLoop_contract (c : Gob) (t : Tx) :
    ∀ (fuel : Nat) (it : Iter), it.keys.length - it.next = fuel →
      it.next ≤ it.keys.length → it.keys.length = it.refs.length →
      (∀ k ∈ it.keys, ∀ s, kvGet t.kv k = some s →
        ∃ v, ParseValue c s = .ok v ∧ v.IndexKeys.Sorted (· ≤ ·)) →
      (∃ skipped e rest y, it.candidates.drop it.next = skipped ++ e :: rest ∧
        qualifyingYields c t skipped = [] ∧ candidateYield c t e.1 e.2 = some y ∧
        getNextLoop c t fuel it
          = (.ok y, { it with next := it.next + skipped.length + 1 })) ∨
      (qualifyingYields c t (it.candidates.drop it.next) = [] ∧
        getNextLoop c t fuel it = (.error .notExist, { it with next := it.keys.length })) := by
  intro fuel
  induction fuel with
  | zero =>
    intro it hfuel hnext hlen _
    right
    have hn : it.next = it.keys.length := by omega
    constructor
    · unfold Iter.candidates
      rw [List.drop_of_length_le (by rw [List.length_zip]; omega)]
      rfl
    · rw [← hn]; rfl
  | succ fuel ih =>
    intro it hfuel hnext hlen hparse
    have hlt : it.next < it.keys.length := by omega
    obtain ⟨k, r, hk, hr, hkmem, hdrop⟩ := candidates_drop it hlt hlen
    have hih := ih { it with next := it.next + 1 } (by show it.keys.length - (it.next + 1) = fuel; omega)
      (by show it.next + 1 ≤ it.keys.length; omega) hlen hparse
    have hcand : ({ it with next := it.next + 1 } : Iter).candidates = it.candidates := rfl
    rw [hcand] at hih
    dsimp only at hih
    rcases getNextLoop_step c t fuel it k r hk hr (hparse k hkmem) with ⟨hnone, hloop⟩ | ⟨y, hy, hloop⟩
    · rw [hloop]
      rcases hih with ⟨skipped, e, rest, y, h1, h2, h3, h4⟩ | ⟨h1, h2⟩
      · left
        refine ⟨(k, r) :: skipped, e, rest, y, ?_, ?_, h3, ?_⟩
        · rw [hdrop]
          show (k, r) :: List.drop (it.next + 1) it.candidates = (k, r) :: (skipped ++ e :: rest)
          rw [← h1]
        · simp only [qualifyingYields, List.filterMap_cons, hnone]
          exact h2
        · rw [h4]
          simp only [List.length_cons, Prod.mk.injEq, Iter.mk.injEq, true_and, and_true]
          omega
      · right
        refine ⟨?_, h2⟩
        rw [hdrop]
        simp only [qualifyingYields, List.filterMap_cons, hnone]
        exact h1
    · left
      refine ⟨[], (k, r), it.candidates.drop (it.next + 1), y, ?_, rfl, hy, ?_⟩
      · rw [hdrop]; rfl
      · rw [hloop]; rfl

theorem take_append_replicate {α : Type} (e : α) :
    ∀ (n m : Nat) (A : List α), n ≤ m →
      (A ++ List.replicate m e).take n = (A ++ List.replicate n e).take n := by
  intro n
  induction n with
  | zero => intro m A _; simp
  | succ n ih =>
    intro m A hm
    cases A with
    | nil =>
      simp only [List.nil_append, List.take_replicate]
      congr 1
      omega
    | cons a A =>
      simp only [List.cons_append, List.take_succ_cons]
      rw [ih m A (by omega), ih (n + 1) A (by omega)]

theorem getNextRun_succ (c : Gob) (t : Tx) (n : Nat) (it : Iter) :
    getNextRun c t (n + 1) it
      = ((Iter.GetNext c t it).1 :: (getNextRun c t n (Iter.GetNext c t it).2).1,
         (getNextRun c t n (Iter.GetNext c t it).2).2) := by
  rw [getNextRun]

/-- Successive `GetNext` calls from any position, when the values stored at
the candidates parse as envelopes with sorted index keys: the calls return what
the qualifying candidates from the cursor on yield, in order, and `NotFound`
from then on. -/
theorem getNextRun_contract (c : Gob) (t : Tx) (keys : List ObjectKey)
    (refs : List (List IndexKey)) (hlen : keys.length = refs.length)
    (hparse : ∀ k ∈ keys, ∀ s, kvGet t.kv k = some s →
      ∃ v, ParseValue c s = .ok v ∧ v.IndexKeys.Sorted (· ≤ ·)) :
    ∀ (n : Nat) (st : Iter), st.keys = keys → st.refs = refs → st.next ≤ keys.length →
      (getNextRun c t n st).1
        = ((qualifyingYields c t ((keys.zip refs).drop st.next)).map Except.ok
            ++ List.replicate n (Except.error Err.notExist)).take n ∧
      (getNextRun c t n st).2.keys = keys ∧ (getNextRun c t n st).2.refs = refs ∧
      (getNextRun c t n st).2.next ≤ keys.length := by
  intro n
  induction n with
  | zero =>
    intro st hk hr hn
    simp [getNextRun, hk, hr, hn]
  | succ n ih =>
    intro st hk hr hn
    have hcand : st.candidates = keys.zip refs := by unfold Iter.candidates; rw [hk, hr]
    have hzip : (keys.zip refs).length = keys.length := by rw [List.length_zip]; omega
    have hcontract := getNextLoop_contract c t (st.keys.length - st.next) st rfl
      (by rw [hk]; exact hn) (by rw [hk, hr]; exact hlen) (by rw [hk]; exact hparse)
    rw [hcand] at hcontract
    rw [getNextRun_succ]
    unfold Iter.GetNext
    rcases hcontract with ⟨skipped, e, rest, y, h1, h2, h3, h4⟩ | ⟨h1, h2⟩
    · rw [h4]
      dsimp only
      have hlen1 := congrArg List.length h1
      simp only [List.length_drop, List.length_append, List.length_cons, hzip] at hlen1
      have hdrop : (keys.zip refs).drop (st.next + skipped.length + 1) = rest := by
        have : st.next + skipped.length + 1 = st.next + (skipped.length + 1) := by omega
        rw [this, ← List.drop_drop, h1]
        simp
      obtain ⟨i1, i2, i3, i4⟩ := ih (Iter.mk (st.next + skipped.length + 1) st.keys st.refs)
        hk hr (by show st.next + skipped.length + 1 ≤ keys.length; omega)
      refine ⟨?_, i2, i3, i4⟩
      rw [i1]
      dsimp only
      rw [hdrop, h1]
      have hq : qualifyingYields c t (skipped ++ e :: rest) = y :: qualifyingYields c t rest := by
        unfold qualifyingYields at h2 ⊢
        rw [List.filterMap_append, h2, List.filterMap_cons, h3]
        rfl
      rw [hq, List.map_cons, List.cons_append, List.take_succ_cons,
        take_append_replicate _ n (n + 1) _ (by omega)]
    · rw [h2]
      dsimp only
      have hdrop : (keys.zip refs).drop st.keys.length = [] := by
        rw [hk]; exact List.drop_of_length_le (by omega)
      obtain ⟨i1, i2, i3, i4⟩ := ih (Iter.mk st.keys.length st.keys st.refs)
        hk hr (by show st.keys.length ≤ keys.length; rw [hk])
      refine ⟨?_, i2, i3, i4⟩
      rw [i1]
      dsimp only
      rw [hdrop, h1]
      simp [qualifyingYields, List.take_replicate, List.replicate_succ]

theorem candidatesParse_spec {c : Gob} {t : Tx} {keys : List ObjectKey}
    (h : candidatesParse c t keys = true) :
    ∀ k ∈ keys, ∀ s, kvGet t.kv k = some s →
      ∃ v, ParseValue c s = .ok v ∧ v.IndexKeys.Sorted (· ≤ ·) := by
  intro k hk s hs
  unfold candidatesParse at h
  have hk2 := List.all_eq_true.mp h k hk
  rw [hs] at hk2
  dsimp only at hk2
  cases hp : ParseValue c s with
  | error e => rw [hp] at hk2; simp at hk2
  | ok v =>
    rw [hp] at hk2
    exact ⟨v, rfl, by simpa using hk2⟩

/-- Claim C19 (amended). From the state `FindByIndex` leaves, on an unchanging
store in which every value stored at a candidate's object key parses as an
envelope with sorted index keys: successive `GetNext` calls return what the
qualifying candidates yield, in the order of the candidate list and each once,
and `NotFound` from then on, so at most as many calls succeed as there are
candidates; and in the state after any number of calls the next call passes
over the candidates the contract skips (envelope absent, `objectKey`
different, an expected reference missing) and either returns what the first
qualifying candidate yields, leaving the cursor behind it, or returns
`NotFound`, leaving the cursor at the end. -/
theorem GetNext_skip_and_advance (c : Gob) (g : Registry) (t : Tx) (part : Object) (it : Iter)
    (h : Tx.FindByIndex g t part = .ok it)
    (hparse : candidatesParse c t it.keys = true) :
    (qualifyingYields c t it.candidates).length ≤ it.keys.length ∧
    ∀ n,
      (getNextRun c t n it).1
        = ((qualifyingYields c t it.candidates).map Except.ok
            ++ List.replicate n (Except.error Err.notExist)).take n ∧
      (getNextRun c t n it).2.keys = it.keys ∧ (getNextRun c t n it).2.refs = it.refs ∧
      (getNextRun c t n it).2.next ≤ it.keys.length ∧
      ((∃ skipped e rest y,
          it.candidates.drop (getNextRun c t n it).2.next = skipped ++ e :: rest ∧
          qualifyingYields c t skipped = [] ∧ candidateYield c t e.1 e.2 = some y ∧
          Iter.GetNext c t (getNextRun c t n it).2
            = (.ok y, Iter.mk ((getNextRun c t n it).2.next + skipped.length + 1)
                it.keys it.refs)) ∨
        (qualifyingYields c t (it.candidates.drop (getNextRun c t n it).2.next) = [] ∧
          Iter.GetNext c t (getNextRun c t n it).2
            = (.error .notExist, Iter.mk it.keys.length it.keys it.refs))) := by
  obtain ⟨_, _, _, _, _, _, _, hnext, _, hlen, _⟩ := FindByIndex_spec g t part it h
  have hp := candidatesParse_spec hparse
  constructor
  · unfold qualifyingYields Iter.candidates
    refine le_trans (List.length_filterMap_le _ _) ?_
    rw [List.length_zip]
    exact Nat.min_le_left _ _
  · intro n
    obtain ⟨r1, r2, r3, r4⟩ := getNextRun_contract c t it.keys it.refs hlen hp n it rfl rfl
      (by omega)
    rw [hnext, List.drop_zero] at r1
    refine ⟨r1, r2, r3, r4, ?_⟩
    generalize getNextRun c t n it = run at r2 r3 r4
    have hcand : run.2.candidates = it.candidates := by
      unfold Iter.candidates; rw [r2, r3]
    have hcontract := getNextLoop_contract c t (run.2.keys.length - run.2.next) run.2 rfl
      (by rw [r2]; exact r4) (by rw [r2, r3]; exact hlen) (by rw [r2]; exact hp)
    rw [hcand, r2, r3] at hcontract
    unfold Iter.GetNext
    rw [r2]
    exact hcontract

set_option maxRecDepth 100000 in
/-- Witness of `GetNext_skip_and_advance`: on the store of `TestIndexing` the
exemplar `ExampleType{Age: 10}` yields `/users/alex`, then `/users/dave`, then
`NotFound`; and on the store where `Set` has overwritten the object `T{Name:
"bob"}` the one candidate of the exemplar `T{Name: "bob"}` is skipped by
advancing past it. -/
theorem GetNext_skip_and_advance_witness :
    (Tx.FindByIndex fixtureRegistry usersTx (user [] 10) = .ok usersIter ∧
      candidatesParse fixtureGob usersTx usersIter.keys = true) ∧
    (getNextRun fixtureGob usersTx 3 usersIter).1
      = ((qualifyingYields fixtureGob usersTx usersIter.candidates).map Except.ok
          ++ List.replicate 3 (Except.error Err.notExist)).take 3 ∧
    (getNextRun fixtureGob usersTx 3 usersIter).1
      = [.ok (lit "/users/alex", lit "alex"), .ok (lit "/users/dave", lit "dave"),
         .error .notExist] ∧
    (Tx.FindByIndex fixtureRegistry overwrittenTx (named (lit "bob"))).toOption.map
        (fun it => ((getNextRun fixtureGob overwrittenTx 1 it).1,
          (getNextRun fixtureGob overwrittenTx 1 it).2.next))
      = some ([.error .notExist], 1) :=
  ⟨by decide,
   ((GetNext_skip_and_advance fixtureGob fixtureRegistry usersTx (user [] 10) usersIter
      (by decide) (by decide)).2 3).1,
   by decide, by decide⟩

set_option maxRecDepth 100000 in
/-- C19, as stated, fails on a store whose value at a candidate's object key
is not an envelope with sorted index keys. When the value at `/ob/k` does not
parse, `GetNext` returns the parse error, not `NotFound`, and stays on the
candidate, so every later call returns the same error. When the envelope at
`/ob/k` lists its two index keys in descending order, the candidate qualifies
(the envelope is present, its object key is the candidate and it lists both
expected references), and `GetNext` skips it and returns `NotFound`. -/
theorem GetNext_unparsed_candidate_counterexample :
    (Tx.FindByIndex fixtureRegistry garbageTx (pair 1 2) = .ok pairIter ∧
      getNextRun fixtureGob garbageTx 2 pairIter = ([.error .gob, .error .gob], pairIter)) ∧
    (Tx.FindByIndex fixtureRegistry unsortedTx (pair 1 2) = .ok pairIter2 ∧
      kvGet unsortedTx.kv (lit "/ob/k") = some (fixtureGob.encode unsortedEnvelope) ∧
      ParseValue fixtureGob (fixtureGob.encode unsortedEnvelope) = .ok unsortedEnvelope ∧
      unsortedEnvelope.ObjectKey = lit "/ob/k" ∧
      (∀ r ∈ [lit "/ix/P/A/1/ob/k", lit "/ix/P/B/2/ob/k"], r ∈ unsortedEnvelope.IndexKeys) ∧
      qualifyingYields fixtureGob unsortedTx pairIter2.candidates = [(lit "/k", lit "1")] ∧
      (getNextRun fixtureGob unsortedTx 1 pairIter2).1 = [.error .notExist]) := by
  decide

/-! ## The errors of `NewObjectKey` and `NewIndexKey` -/

theorem splitOn_slash_cons (ys : Str) :
    (slash :: ys).splitOn slash = [] :: ys.splitOn slash := by
  unfold List.splitOn
  rw [List.splitOnP_cons]
  simp

/-- An absolute path is its own cleaned form exactly when it is the root or
none of its components is empty, `.` or `..` (a trailing slash makes the last
component empty). -/
theorem Clean_eq_self_iff (ys : Str) :
    Clean (slash :: ys) = slash :: ys ↔
      ys = [] ∨ ∀ c ∈ ys.splitOn slash, c ≠ [] ∧ c ≠ lit "." ∧ c ≠ lit ".." := by
  have habs : IsAbs (slash :: ys) = true := by simp [IsAbs]
  have hstep : cleanStep true [] [] = [] := by simp [cleanStep]
  rw [Clean_rooted habs, splitOn_slash_cons, List.foldl_cons, hstep]
  constructor
  · intro hclean
    have hkept := foldl_cleanStep_kept (ys.splitOn slash) [] (splitOn_free ys) (by simp)
    generalize hS : (ys.splitOn slash).foldl (cleanStep true) [] = S at hclean hkept
    have hR : ∀ e ∈ S.reverse, keptElement e := fun e he => hkept e (List.mem_reverse.mp he)
    generalize S.reverse = R at hclean hR
    simp only [List.cons.injEq, true_and] at hclean
    cases R with
    | nil => left; rw [← hclean]; rfl
    | cons r0 rs =>
      right
      have hsplit := List.splitOn_intercalate (r0 :: rs) slash (fun l hl => (hR l hl).2.2.2)
        (by simp)
      rw [hclean] at hsplit
      rw [hsplit]
      intro c hc
      exact ⟨(hR c hc).1, (hR c hc).2.1, (hR c hc).2.2.1⟩
  · rintro (h | h)
    · subst h
      decide
    · have hk : ∀ c ∈ ys.splitOn slash, keptElement c :=
        fun c hc => ⟨(h c hc).1, (h c hc).2.1, (h c hc).2.2, splitOn_free ys c hc⟩
      rw [foldl_cleanStep_push _ _ hk, List.append_nil, List.reverse_reverse,
        List.intercalate_splitOn]

theorem IsAbs_iff (key : Str) : IsAbs key = true ↔ ∃ ys, key = slash :: ys := by
  cases key with
  | nil => simp [IsAbs]
  | cons c cs =>
    simp only [IsAbs, decide_eq_true_eq, List.cons.injEq]
    constructor
    · intro h; exact ⟨cs, h, rfl⟩
    · rintro ⟨ys, h, _⟩; exact h

/-- Claim C21. `NewObjectKey(key)` fails, with `InvalidArgument`, exactly when
`key` does not begin with a slash or differs from its cleaned form, and
succeeds for every other key; a key that begins with a slash is its own
cleaned form exactly when it is the root or none of its components is empty,
`.` or `..` (a trailing slash gives an empty last component). `NewIndexKey`
fails, with `InvalidArgument`, exactly when the object key or one of the type
name, the field name and the field value is empty, and succeeds otherwise. -/
theorem NewObjectKey_NewIndexKey_errors (key : Str) (okey : ObjectKey)
    (typeName fieldName fieldValue : Str) :
    (NewObjectKey key = .error .invalid ↔ (IsAbs key = false ∨ Clean key ≠ key)) ∧
    ((∃ ok, NewObjectKey key = .ok ok) ↔ (IsAbs key = true ∧ Clean key = key)) ∧
    (∀ e, NewObjectKey key = .error e → e = Err.invalid) ∧
    (IsAbs key = true ↔ ∃ ys, key = slash :: ys) ∧
    (∀ ys, key = slash :: ys →
      (Clean key = key ↔
        key = lit "/" ∨ ∀ c ∈ ys.splitOn slash, c ≠ [] ∧ c ≠ lit "." ∧ c ≠ lit "..")) ∧
    (NewIndexKey okey typeName fieldName fieldValue = .error .invalid ↔
      (okey = [] ∨ typeName = [] ∨ fieldName = [] ∨ fieldValue = [])) ∧
    ((∃ ik, NewIndexKey okey typeName fieldName fieldValue = .ok ik) ↔
      (okey ≠ [] ∧ typeName ≠ [] ∧ fieldName ≠ [] ∧ fieldValue ≠ [])) ∧
    (∀ e, NewIndexKey okey typeName fieldName fieldValue = .error e → e = Err.invalid) := by
  refine ⟨?_, ?_, ?_, IsAbs_iff key, ?_, ?_, ?_, ?_⟩
  · unfold NewObjectKey
    by_cases habs : IsAbs key = true
    · by_cases hclean : Clean key = key
      · simp [habs, hclean]
      · simp [habs, hclean]
    · simp [habs]
  · unfold NewObjectKey
    by_cases habs : IsAbs key = true
    · by_cases hclean : Clean key = key
      · simp [habs, hclean]
      · simp [habs, hclean]
    · simp [habs]
  · intro e h
    unfold NewObjectKey at h
    split at h
    · injection h with h; exact h.symm
    · split at h
      · injection h with h; exact h.symm
      · simp at h
  · intro ys hk
    subst hk
    rw [Clean_eq_self_iff, lit_slash]
    simp
  · unfold NewIndexKey
    by_cases h1 : okey = []
    · simp [h1]
    · by_cases h2 : typeName = [] ∨ fieldName = [] ∨ fieldValue = []
      · have h3 : typeName.length = 0 ∨ fieldName.length = 0 ∨ fieldValue.length = 0 := by
          simpa using h2
        simp [h1, h2, h3]
      · have h3 : ¬ (typeName.length = 0 ∨ fieldName.length = 0 ∨ fieldValue.length = 0) := by
          simpa using h2
        have h4 : ¬ okey.length = 0 := by simpa using h1
        rw [if_neg h4, if_neg h3]
        simp only [not_or] at h2
        simp [h1, h2.1, h2.2.1, h2.2.2]
  · unfold NewIndexKey
    by_cases h1 : okey = []
    · simp [h1]
    · by_cases h2 : typeName = [] ∨ fieldName = [] ∨ fieldValue = []
      · have h3 : typeName.length = 0 ∨ fieldName.length = 0 ∨ fieldValue.length = 0 := by
          simpa using h2
        have h4 : ¬ okey.length = 0 := by simpa using h1
        rw [if_neg h4, if_pos h3]
        simp only [false_iff, not_and, reduceCtorEq, exists_false]
        intro _ ht hf hv
        rcases h2 with h | h | h
        · exact ht h
        · exact hf h
        · exact hv h
      · have h3 : ¬ (typeName.length = 0 ∨ fieldName.length = 0 ∨ fieldValue.length = 0) := by
          simpa using h2
        have h4 : ¬ okey.length = 0 := by simpa using h1
        rw [if_neg h4, if_neg h3]
        simp only [not_or] at h2
        simp [h1, h2.1, h2.2.1, h2.2.2]
  · intro e h
    unfold NewIndexKey at h
    split at h
    · injection h with h; exact h.symm
    · split at h
      · injection h with h; exact h.symm
      · simp at h

/-- Examples for `NewObjectKey_NewIndexKey_errors`: keys that are rejected and
keys that are accepted. -/
theorem NewObjectKey_NewIndexKey_errors_witness :
    NewObjectKey (lit "foo") = .error .invalid ∧
    NewObjectKey (lit "/a//b") = .error .invalid ∧
    NewObjectKey (lit "/a/./b") = .error .invalid ∧
    NewObjectKey (lit "/a/../b") = .error .invalid ∧
    NewObjectKey (lit "/a/") = .error .invalid ∧
    NewObjectKey [] = .error .invalid ∧
    ((∃ ok, NewObjectKey (lit "/a/b") = .ok ok) ↔
      (IsAbs (lit "/a/b") = true ∧ Clean (lit "/a/b") = lit "/a/b")) ∧
    NewObjectKey (lit "/a/b") = .ok (lit "/ob/a/b") ∧
    NewIndexKey [] (lit "T") (lit "F") (lit "v") = .error .invalid ∧
    NewIndexKey (lit "/ob/x") (lit "T") [] (lit "v") = .error .invalid ∧
    NewIndexKey (lit "/ob/x") (lit "T") (lit "F") (lit "v") = .ok (lit "/ix/T/F/v/ob/x") :=
  ⟨by decide, by decide, by decide, by decide, by decide, by decide,
   (NewObjectKey_NewIndexKey_errors (lit "/a/b") [] [] [] []).2.1,
   by decide, by decide, by decide, by decide⟩

/-! ## The structure of the strings `ParseIndexKey` accepts -/

theorem slice_mid (x y z : Str) (a b : Nat) (ha : a = x.length) (hb : b = x.length + y.length) :
    slice (x ++ (y ++ z)) a b = y := by
  subst ha
  subst hb
  unfold slice
  rw [← List.append_assoc, List.take_left' (by simp), List.drop_left' rfl]

/-- The positions of the first five slashes of a string with five slash-free
stretches. -/
theorem indexRuneN_five (b0 b1 b2 b3 b4 w : Str)
    (h0 : slash ∉ b0) (h1 : slash ∉ b1) (h2 : slash ∉ b2) (h3 : slash ∉ b3) (h4 : slash ∉ b4) :
    indexRuneN (b0 ++ slash :: (b1 ++ slash :: (b2 ++ slash :: (b3 ++ slash :: (b4 ++ slash :: w)))))
        slash 1 = some b0.length ∧
    indexRuneN (b0 ++ slash :: (b1 ++ slash :: (b2 ++ slash :: (b3 ++ slash :: (b4 ++ slash :: w)))))
        slash 2 = some (b0.length + 1 + b1.length) ∧
    indexRuneN (b0 ++ slash :: (b1 ++ slash :: (b2 ++ slash :: (b3 ++ slash :: (b4 ++ slash :: w)))))
        slash 3 = some (b0.length + 1 + b1.length + 1 + b2.length) ∧
    indexRuneN (b0 ++ slash :: (b1 ++ slash :: (b2 ++ slash :: (b3 ++ slash :: (b4 ++ slash :: w)))))
        slash 4 = some (b0.length + 1 + b1.length + 1 + b2.length + 1 + b3.length) ∧
    indexRuneN (b0 ++ slash :: (b1 ++ slash :: (b2 ++ slash :: (b3 ++ slash :: (b4 ++ slash :: w)))))
        slash 5
      = some (b0.length + 1 + b1.length + 1 + b2.length + 1 + b3.length + 1 + b4.length) := by
  have z0 := List.count_eq_zero_of_not_mem h0
  have z1 := List.count_eq_zero_of_not_mem h1
  have z2 := List.count_eq_zero_of_not_mem h2
  have z3 := List.count_eq_zero_of_not_mem h3
  have z4 := List.count_eq_zero_of_not_mem h4
  refine ⟨?_, ?_, ?_, ?_, ?_⟩
  · exact indexRuneN_find _ z0
  · have h := indexRuneN_find (u := b0 ++ slash :: b1) (r := slash) (n := 1)
      (b2 ++ slash :: (b3 ++ slash :: (b4 ++ slash :: w)))
      (by simp [List.count_append, List.count_cons, z0, z1])
    simp only [List.append_assoc, List.cons_append] at h
    rw [h]
    simp only [List.length_append, List.length_cons, Option.some.injEq]
    omega
  · have h := indexRuneN_find (u := b0 ++ slash :: (b1 ++ slash :: b2)) (r := slash) (n := 2)
      (b3 ++ slash :: (b4 ++ slash :: w))
      (by simp [List.count_append, List.count_cons, z0, z1, z2])
    simp only [List.append_assoc, List.cons_append] at h
    rw [h]
    simp only [List.length_append, List.length_cons, Option.some.injEq]
    omega
  · have h := indexRuneN_find (u := b0 ++ slash :: (b1 ++ slash :: (b2 ++ slash :: b3)))
      (r := slash) (n := 3) (b4 ++ slash :: w)
      (by simp [List.count_append, List.count_cons, z0, z1, z2, z3])
    simp only [List.append_assoc, List.cons_append] at h
    rw [h]
    simp only [List.length_append, List.length_cons, Option.some.injEq]
    omega
  · have h := indexRuneN_find
      (u := b0 ++ slash :: (b1 ++ slash :: (b2 ++ slash :: (b3 ++ slash :: b4))))
      (r := slash) (n := 4) w
      (by simp [List.count_append, List.count_cons, z0, z1, z2, z3, z4])
    simp only [List.append_assoc, List.cons_append] at h
    rw [h]
    simp only [List.length_append, List.length_cons, Option.some.injEq]
    omega

/-- The segments of a string with five slash-free stretches, cut out at the
positions of its first five slashes. -/
theorem slice_five (b0 b1 b2 b3 b4 w : Str) :
    slice (b0 ++ slash :: (b1 ++ slash :: (b2 ++ slash :: (b3 ++ slash :: (b4 ++ slash :: w)))))
        (b0.length + 1) (b0.length + 1 + b1.length) = b1 ∧
    slice (b0 ++ slash :: (b1 ++ slash :: (b2 ++ slash :: (b3 ++ slash :: (b4 ++ slash :: w)))))
        (b0.length + 1 + b1.length + 1) (b0.length + 1 + b1.length + 1 + b2.length) = b2 ∧
    slice (b0 ++ slash :: (b1 ++ slash :: (b2 ++ slash :: (b3 ++ slash :: (b4 ++ slash :: w)))))
        (b0.length + 1 + b1.length + 1 + b2.length + 1)
        (b0.length + 1 + b1.length + 1 + b2.length + 1 + b3.length) = b3 ∧
    slice (b0 ++ slash :: (b1 ++ slash :: (b2 ++ slash :: (b3 ++ slash :: (b4 ++ slash :: w)))))
        (b0.length + 1 + b1.length + 1 + b2.length + 1 + b3.length + 1)
        (b0.length + 1 + b1.length + 1 + b2.length + 1 + b3.length + 1 + b4.length) = b4 ∧
    (b0 ++ slash :: (b1 ++ slash :: (b2 ++ slash :: (b3 ++ slash :: (b4 ++ slash :: w))))).drop
        (b0.length + 1 + b1.length + 1 + b2.length + 1 + b3.length + 1 + b4.length)
      = slash :: w := by
  refine ⟨?_, ?_, ?_, ?_, ?_⟩
  · have := slice_mid (b0 ++ [slash]) b1
      (slash :: (b2 ++ slash :: (b3 ++ slash :: (b4 ++ slash :: w))))
      (b0.length + 1) (b0.length + 1 + b1.length) (by simp) (by simp)
    simpa using this
  · have := slice_mid (b0 ++ slash :: (b1 ++ [slash])) b2
      (slash :: (b3 ++ slash :: (b4 ++ slash :: w)))
      (b0.length + 1 + b1.length + 1) (b0.length + 1 + b1.length + 1 + b2.length)
      (by simp; omega) (by simp; omega)
    simpa using this
  · have := slice_mid (b0 ++ slash :: (b1 ++ slash :: (b2 ++ [slash]))) b3
      (slash :: (b4 ++ slash :: w))
      (b0.length + 1 + b1.length + 1 + b2.length + 1)
      (b0.length + 1 + b1.length + 1 + b2.length + 1 + b3.length)
      (by simp; omega) (by simp; omega)
    simpa using this
  · have := slice_mid (b0 ++ slash :: (b1 ++ slash :: (b2 ++ slash :: (b3 ++ [slash])))) b4
      (slash :: w)
      (b0.length + 1 + b1.length + 1 + b2.length + 1 + b3.length + 1)
      (b0.length + 1 + b1.length + 1 + b2.length + 1 + b3.length + 1 + b4.length)
      (by simp; omega) (by simp; omega)
    simpa using this
  · have : b0 ++ slash :: (b1 ++ slash :: (b2 ++ slash :: (b3 ++ slash :: (b4 ++ slash :: w))))
        = (b0 ++ slash :: (b1 ++ slash :: (b2 ++ slash :: (b3 ++ slash :: b4))))
            ++ slash :: w := by simp
    rw [this, List.drop_left' (by simp; omega)]

/-- What `ParseIndexKey` computes on a string with five slash-free
stretches. -/
theorem ParseIndexKey_form (b0 b1 b2 b3 b4 w : Str)
    (h0 : slash ∉ b0) (h1 : slash ∉ b1) (h2 : slash ∉ b2) (h3 : slash ∉ b3) (h4 : slash ∉ b4) :
    ParseIndexKey
        (b0 ++ slash :: (b1 ++ slash :: (b2 ++ slash :: (b3 ++ slash :: (b4 ++ slash :: w)))))
      = if b0.length ≠ 0 then .error .invalid
        else if b1.length = 0 ∨ b2.length = 0 ∨ b3.length = 0 ∨ b4.length = 0 ∨
            (slash :: w).length = 0 then .error .invalid
        else
          match PathUnescape b2 with
          | .error e => .error e
          | .ok _ =>
            match PathUnescape b3 with
            | .error e => .error e
            | .ok _ =>
              match PathUnescape b4 with
              | .error e => .error e
              | .ok _ =>
                match ParseObjectKey (slash :: w) with
                | .error e => .error e
                | .ok _ =>
                  .ok (b0 ++ slash :: (b1 ++ slash :: (b2 ++ slash :: (b3 ++ slash ::
                    (b4 ++ slash :: w))))) := by
  obtain ⟨p1, p2, p3, p4, p5⟩ := indexRuneN_five b0 b1 b2 b3 b4 w h0 h1 h2 h3 h4
  obtain ⟨s1, s2, s3, s4, s5⟩ := slice_five b0 b1 b2 b3 b4 w
  generalize b0 ++ slash :: (b1 ++ slash :: (b2 ++ slash :: (b3 ++ slash ::
    (b4 ++ slash :: w)))) = s at p1 p2 p3 p4 p5 s1 s2 s3 s4 s5
  unfold ParseIndexKey
  rw [p1, p2, p3, p4, p5]
  dsimp only
  rw [s1, s2, s3, s4, s5]

/-- The getters of an index key with four non-empty slash-free segments: the
type name, the field name and the field value are the second, third and fourth
segment unescaped, whatever follows the fifth slash. -/
theorem getters_form (b1 b2 b3 b4 w : Str)
    (h1 : slash ∉ b1) (h2 : slash ∉ b2) (h3 : slash ∉ b3) (h4 : slash ∉ b4)
    (n2 : b2 ≠ []) (n3 : b3 ≠ []) (n4 : b4 ≠ []) :
    GetTypeName (slash :: (b1 ++ slash :: (b2 ++ slash :: (b3 ++ slash :: (b4 ++ slash :: w)))))
      = PathUnescape b2 ∧
    GetFieldName (slash :: (b1 ++ slash :: (b2 ++ slash :: (b3 ++ slash :: (b4 ++ slash :: w)))))
      = PathUnescape b3 ∧
    GetFieldValue (slash :: (b1 ++ slash :: (b2 ++ slash :: (b3 ++ slash :: (b4 ++ slash :: w)))))
      = PathUnescape b4 := by
  obtain ⟨_, p2, p3, p4, p5⟩ := indexRuneN_five [] b1 b2 b3 b4 w (by simp) h1 h2 h3 h4
  obtain ⟨_, s2, s3, s4, _⟩ := slice_five [] b1 b2 b3 b4 w
  simp only [List.nil_append, List.length_nil] at p2 p3 p4 p5 s2 s3 s4
  generalize slash :: (b1 ++ slash :: (b2 ++ slash :: (b3 ++ slash ::
    (b4 ++ slash :: w)))) = s at p2 p3 p4 p5 s2 s3 s4
  have l2 : 0 < b2.length := List.length_pos.mpr n2
  have l3 : 0 < b3.length := List.length_pos.mpr n3
  have l4 : 0 < b4.length := List.length_pos.mpr n4
  refine ⟨?_, ?_, ?_⟩
  · unfold GetTypeName getSegment
    rw [p2, p3]
    dsimp only
    rw [if_pos (by omega), s2]
  · unfold GetFieldName getSegment
    rw [p3, p4]
    dsimp only
    rw [if_pos (by omega), s3]
  · unfold GetFieldValue getSegment
    rw [p4, p5]
    dsimp only
    rw [if_pos (by omega), s4]

theorem ParseObjectKey_ok_iff (s : Str) :
    (∃ o, ParseObjectKey s = .ok o) ↔ ∃ rest, s = slash :: 111 :: 98 :: rest := by
  have hpre : lit "/" ++ ObjectKeyspace = [slash, 111, 98] := by decide
  unfold ParseObjectKey
  rw [hpre]
  by_cases hh : HasPrefix s [slash, 111, 98] = true
  · have h2 := hh
    unfold HasPrefix at h2
    obtain ⟨rest, hrest⟩ := List.isPrefixOf_iff_prefix.mp h2
    simp only [hh, Bool.not_true, Bool.false_eq_true, if_false]
    constructor
    · intro _; exact ⟨rest, by rw [← hrest]; rfl⟩
    · intro _; exact ⟨s, rfl⟩
  · simp only [hh, Bool.not_false, if_true]
    constructor
    · rintro ⟨o, ho⟩; simp at ho
    · rintro ⟨rest, hrest⟩
      exfalso
      apply hh
      unfold HasPrefix
      rw [hrest]
      exact List.isPrefixOf_iff_prefix.mpr ⟨rest, rfl⟩

/-- Every string `ParseIndexKey` accepts is a slash, four non-empty slash-free
segments separated by slashes, the last three of which unescape, and an owner
that begins with `/ob`. -/
theorem ParseIndexKey_accepts {s : Str} {ik : IndexKey} (h : ParseIndexKey s = .ok ik) :
    ∃ b1 b2 b3 b4 w,
      s = slash :: (b1 ++ slash :: (b2 ++ slash :: (b3 ++ slash :: (b4 ++ slash :: w)))) ∧
      slash ∉ b1 ∧ slash ∉ b2 ∧ slash ∉ b3 ∧ slash ∉ b4 ∧
      b1 ≠ [] ∧ b2 ≠ [] ∧ b3 ≠ [] ∧ b4 ≠ [] ∧
      (∃ x, PathUnescape b2 = .ok x) ∧ (∃ x, PathUnescape b3 = .ok x) ∧
      (∃ x, PathUnescape b4 = .ok x) ∧ ∃ rest, w = 111 :: 98 :: rest := by
  obtain ⟨p, hp⟩ := ParseIndexKey_fifth h
  obtain ⟨u, w, hs, hu, _⟩ := indexRuneN_split hp
  obtain ⟨b0, u1, e0, f0, c1⟩ := count_split hu
  obtain ⟨b1, u2, e1, f1, c2⟩ := count_split c1
  obtain ⟨b2, u3, e2, f2, c3⟩ := count_split c2
  obtain ⟨b3, b4, e3, f3, c4⟩ := count_split c3
  have f4 : slash ∉ b4 := List.count_eq_zero.mp c4
  have hform : s = b0 ++ slash :: (b1 ++ slash :: (b2 ++ slash :: (b3 ++ slash ::
      (b4 ++ slash :: w)))) := by
    rw [hs, e0, e1, e2, e3]; simp
  rw [hform, ParseIndexKey_form b0 b1 b2 b3 b4 w f0 f1 f2 f3 f4] at h
  by_cases hb0 : b0.length ≠ 0
  · rw [if_pos hb0] at h; simp at h
  · rw [if_neg hb0] at h
    have hb0e : b0 = [] := by simpa using hb0
    by_cases hseg : b1.length = 0 ∨ b2.length = 0 ∨ b3.length = 0 ∨ b4.length = 0 ∨
        (slash :: w).length = 0
    · rw [if_pos hseg] at h; simp at h
    · rw [if_neg hseg] at h
      simp only [not_or, List.length_eq_zero] at hseg
      obtain ⟨n1, n2, n3, n4, _⟩ := hseg
      cases q2 : PathUnescape b2 with
      | error e => rw [q2] at h; simp at h
      | ok x2 =>
        rw [q2] at h
        dsimp only at h
        cases q3 : PathUnescape b3 with
        | error e => rw [q3] at h; simp at h
        | ok x3 =>
          rw [q3] at h
          dsimp only at h
          cases q4 : PathUnescape b4 with
          | error e => rw [q4] at h; simp at h
          | ok x4 =>
            rw [q4] at h
            dsimp only at h
            cases q5 : ParseObjectKey (slash :: w) with
            | error e => rw [q5] at h; simp at h
            | ok o =>
              obtain ⟨rest, hrest⟩ := (ParseObjectKey_ok_iff (slash :: w)).mp ⟨o, q5⟩
              injection hrest with _ hrest
              refine ⟨b1, b2, b3, b4, w, ?_, f1, f2, f3, f4, n1, n2, n3, n4, ⟨x2, q2⟩,
                ⟨x3, q3⟩, ⟨x4, q4⟩, rest, hrest⟩
              rw [hform, hb0e]
              rfl

/-- A slash, four non-empty slash-free segments separated by slashes, the last
three of which unescape, and an owner that begins with `/ob` is accepted by
`ParseIndexKey`. -/
theorem ParseIndexKey_of_form (b1 b2 b3 b4 rest : Str)
    (f1 : slash ∉ b1) (f2 : slash ∉ b2) (f3 : slash ∉ b3) (f4 : slash ∉ b4)
    (n1 : b1 ≠ []) (n2 : b2 ≠ []) (n3 : b3 ≠ []) (n4 : b4 ≠ [])
    (q2 : ∃ x, PathUnescape b2 = .ok x) (q3 : ∃ x, PathUnescape b3 = .ok x)
    (q4 : ∃ x, PathUnescape b4 = .ok x) :
    ParseIndexKey
        (slash :: (b1 ++ slash :: (b2 ++ slash :: (b3 ++ slash ::
          (b4 ++ slash :: 111 :: 98 :: rest)))))
      = .ok (slash :: (b1 ++ slash :: (b2 ++ slash :: (b3 ++ slash ::
          (b4 ++ slash :: 111 :: 98 :: rest))))) := by
  have h := ParseIndexKey_form [] b1 b2 b3 b4 (111 :: 98 :: rest) (by simp) f1 f2 f3 f4
  simp only [List.nil_append] at h
  rw [h]
  obtain ⟨x2, q2⟩ := q2
  obtain ⟨x3, q3⟩ := q3
  obtain ⟨x4, q4⟩ := q4
  obtain ⟨o, q5⟩ := (ParseObjectKey_ok_iff (slash :: 111 :: 98 :: rest)).mpr ⟨rest, rfl⟩
  have hseg : ¬ (b1.length = 0 ∨ b2.length = 0 ∨ b3.length = 0 ∨ b4.length = 0 ∨
      (slash :: 111 :: 98 :: rest).length = 0) := by
    simp only [not_or, List.length_eq_zero]
    exact ⟨n1, n2, n3, n4, by simp⟩
  rw [if_neg (by simp), if_neg hseg, q2, q3, q4, q5]

theorem NewObjectKey_ob_rest {key : Str} {okey : ObjectKey} (h : NewObjectKey key = .ok okey) :
    ∃ rest, okey = slash :: 111 :: 98 :: rest := by
  have hob : lit "/ob" = [slash, 111, 98] := by decide
  rcases NewObjectKey_shape h with ⟨_, h2⟩ | ⟨_, h2⟩
  · exact ⟨[], by rw [h2, hob]⟩
  · exact ⟨key, by rw [h2, hob]; rfl⟩

/-- Claim C22. For every index key `ik` accepted by `ParseIndexKey` and every
object key `ok2` produced by `NewObjectKey`, `ik.WithObjectKey(ok2)` succeeds,
its result is accepted by `ParseIndexKey`, has the same type name, field name
and field value as `ik` (the getters succeed on both and agree), and its
`GetObjectKey()` is `ok2`. -/
theorem WithObjectKey_owner_rewrite (ik : Str) (ik0 : IndexKey) (key2 : Str) (ok2 : ObjectKey)
    (h : ParseIndexKey ik = .ok ik0) (h2 : NewObjectKey key2 = .ok ok2) :
    ∃ x, WithObjectKey ik ok2 = .ok x ∧ ParseIndexKey x = .ok x ∧
      (∃ t, GetTypeName ik = .ok t ∧ GetTypeName x = .ok t) ∧
      (∃ f, GetFieldName ik = .ok f ∧ GetFieldName x = .ok f) ∧
      (∃ v, GetFieldValue ik = .ok v ∧ GetFieldValue x = .ok v) ∧
      GetObjectKey x = .ok ok2 := by
  obtain ⟨b1, b2, b3, b4, w, hs, f1, f2, f3, f4, n1, n2, n3, n4, ⟨x2, q2⟩, ⟨x3, q3⟩,
    ⟨x4, q4⟩, rest, hw⟩ := ParseIndexKey_accepts h
  obtain ⟨rest2, hok2⟩ := NewObjectKey_ob_rest h2
  have z1 := List.count_eq_zero_of_not_mem f1
  have z2 := List.count_eq_zero_of_not_mem f2
  have z3 := List.count_eq_zero_of_not_mem f3
  have z4 := List.count_eq_zero_of_not_mem f4
  have hu : (slash :: (b1 ++ slash :: (b2 ++ slash :: (b3 ++ slash :: b4)))).count slash = 4 := by
    simp [List.count_cons, List.count_append, z1, z2, z3, z4]
  have hsplit : ik = (slash :: (b1 ++ slash :: (b2 ++ slash :: (b3 ++ slash :: b4))))
      ++ slash :: w := by
    rw [hs]; simp
  have hx : (slash :: (b1 ++ slash :: (b2 ++ slash :: (b3 ++ slash :: b4)))) ++ ok2
      = slash :: (b1 ++ slash :: (b2 ++ slash :: (b3 ++ slash ::
          (b4 ++ slash :: 111 :: 98 :: rest2)))) := by
    rw [hok2]; simp
  obtain ⟨g1, g2, g3⟩ := getters_form b1 b2 b3 b4 w f1 f2 f3 f4 n2 n3 n4
  obtain ⟨k1, k2, k3⟩ := getters_form b1 b2 b3 b4 (111 :: 98 :: rest2) f1 f2 f3 f4 n2 n3 n4
  refine ⟨(slash :: (b1 ++ slash :: (b2 ++ slash :: (b3 ++ slash :: b4)))) ++ ok2, ?_, ?_,
    ⟨x2, ?_, ?_⟩, ⟨x3, ?_, ?_⟩, ⟨x4, ?_, ?_⟩, ?_⟩
  · rw [hsplit]
    exact WithObjectKey_of_split _ w ok2 hu
  · rw [hx]
    exact ParseIndexKey_of_form b1 b2 b3 b4 rest2 f1 f2 f3 f4 n1 n2 n3 n4 ⟨x2, q2⟩ ⟨x3, q3⟩
      ⟨x4, q4⟩
  · rw [hs, g1, q2]
  · rw [hx, k1, q2]
  · rw [hs, g2, q3]
  · rw [hx, k2, q3]
  · rw [hs, g3, q4]
  · rw [hx, k3, q4]
  · rw [hok2]
    exact GetObjectKey_of_split _ (111 :: 98 :: rest2) hu (by simp)

/-- Witness of `WithObjectKey_owner_rewrite`: the test `TestIndexKey`, where
`/ix/X/Field/Value/ob/x` rewritten to `/ob/y` gives
`/ix/X/Field/Value/ob/y`. -/
theorem WithObjectKey_owner_rewrite_witness :
    (ParseIndexKey (lit "/ix/X/Field/Value/ob/x") = .ok (lit "/ix/X/Field/Value/ob/x") ∧
      NewObjectKey (lit "/y") = .ok (lit "/ob/y") ∧
      WithObjectKey (lit "/ix/X/Field/Value/ob/x") (lit "/ob/y")
        = .ok (lit "/ix/X/Field/Value/ob/y")) ∧
    ∃ x, WithObjectKey (lit "/ix/X/Field/Value/ob/x") (lit "/ob/y") = .ok x ∧
      ParseIndexKey x = .ok x ∧
      (∃ t, GetTypeName (lit "/ix/X/Field/Value/ob/x") = .ok t ∧ GetTypeName x = .ok t) ∧
      (∃ f, GetFieldName (lit "/ix/X/Field/Value/ob/x") = .ok f ∧ GetFieldName x = .ok f) ∧
      (∃ v, GetFieldValue (lit "/ix/X/Field/Value/ob/x") = .ok v ∧ GetFieldValue x = .ok v) ∧
      GetObjectKey x = .ok (lit "/ob/y") :=
  ⟨by decide,
   WithObjectKey_owner_rewrite (lit "/ix/X/Field/Value/ob/x") (lit "/ix/X/Field/Value/ob/x")
    (lit "/y") (lit "/ob/y") (by decide) (by decide)⟩

/-- Claim C27, at a key of another keyspace. `ParseIndexKey` accepts
`/zz/X/Field/Value/ob/x`, which does not begin with `/ix/`, and it accepts
`/ob/a/b/c/ob/x`, the object key of the user key `/a/b/c/ob/x`: the keyspace
segment is only required not to be empty. The rest of the claim holds for
every accepted string (`ParseIndexKey_accepts`). -/
theorem ParseIndexKey_accepts_other_keyspace :
    ParseIndexKey (lit "/zz/X/Field/Value/ob/x") = .ok (lit "/zz/X/Field/Value/ob/x") ∧
    HasPrefix (lit "/zz/X/Field/Value/ob/x") (lit "/ix/") = false ∧
    ParseIndexKey (lit "/ob/a/b/c/ob/x") = .ok (lit "/ob/a/b/c/ob/x") ∧
    HasPrefix (lit "/ob/a/b/c/ob/x") (lit "/ix/") = false ∧
    NewObjectKey (lit "/a/b/c/ob/x") = .ok (lit "/ob/a/b/c/ob/x") := by
  decide

/-! ## The envelope round trip -/

theorem hex_digit_facts :
    ∀ n, n < 16 → ishex (upperhex n) = true ∧ unhex (upperhex n) = n ∧ upperhex n ≠ 37 := by
  decide

theorem PathUnescape_cons_ne (c : Byte) (cs : Str) (h : c ≠ 37) :
    PathUnescape (c :: cs)
      = match PathUnescape cs with
        | .ok t => .ok (c :: t)
        | .error e => .error e := by
  conv_lhs => unfold PathUnescape
  simp only [h, if_false]

theorem PathUnescape_cons_escape (h1 h2 : Byte) (rest : Str)
    (i1 : ishex h1 = true) (i2 : ishex h2 = true) :
    PathUnescape (37 :: h1 :: h2 :: rest)
      = match PathUnescape rest with
        | .ok t => .ok (Fin.ofNat (unhex h1 * 16 + unhex h2) :: t)
        | .error e => .error e := by
  conv_lhs => unfold PathUnescape
  simp only [if_true, i1, i2, Bool.and_self]

/-- Unescaping undoes escaping. -/
theorem PathUnescape_PathEscape (s : Str) : PathUnescape (PathEscape s) = .ok s := by
  induction s with
  | nil => rfl
  | cons c s ih =>
    rw [PathEscape_cons]
    unfold escapeByte
    by_cases hesc : shouldEscape c = true
    · rw [if_pos hesc]
      have hhi : c.val / 16 < 16 := by have := c.isLt; omega
      have hlo : c.val % 16 < 16 := Nat.mod_lt _ (by decide)
      obtain ⟨i1, u1, _⟩ := hex_digit_facts _ hhi
      obtain ⟨i2, u2, _⟩ := hex_digit_facts _ hlo
      simp only [List.cons_append, List.nil_append]
      rw [PathUnescape_cons_escape _ _ _ i1 i2, ih, u1, u2]
      dsimp only
      have hc : (Fin.ofNat (c.val / 16 * 16 + c.val % 16) : Byte) = c := by
        apply Fin.ext
        have := Nat.div_add_mod' c.val 16
        show (c.val / 16 * 16 + c.val % 16) % 256 = c.val
        rw [this]
        exact Nat.mod_eq_of_lt c.isLt
      rw [hc]
    · rw [if_neg hesc]
      have hne : c ≠ 37 := by
        intro h
        rw [h] at hesc
        exact hesc shouldEscape_percent
      simp only [List.cons_append, List.nil_append]
      rw [PathUnescape_cons_ne _ _ hne, ih]

theorem cleanStep_mem (S : List Str) (c : Str) :
    ∀ e ∈ cleanStep true S c, e ∈ S ∨ e = c := by
  unfold cleanStep
  by_cases h1 : c = [] ∨ c = lit "."
  · rw [if_pos h1]; intro e he; exact Or.inl he
  · rw [if_neg h1]
    by_cases h2 : c = lit ".."
    · rw [if_pos h2]
      cases S with
      | nil => simp
      | cons top rest =>
        dsimp only
        by_cases h3 : top = lit ".."
        · rw [if_pos h3]
          intro e he
          rcases List.mem_cons.mp he with h | h
          · exact Or.inr (h.trans h2.symm)
          · exact Or.inl h
        · rw [if_neg h3]
          intro e he
          exact Or.inl (List.mem_cons_of_mem _ he)
    · rw [if_neg h2]
      intro e he
      rcases List.mem_cons.mp he with h | h
      · exact Or.inr h
      · exact Or.inl h

theorem foldl_cleanStep_mem (cs : List Str) (S : List Str) :
    ∀ e ∈ cs.foldl (cleanStep true) S, e ∈ S ∨ e ∈ cs := by
  induction cs generalizing S with
  | nil => intro e he; exact Or.inl he
  | cons c rest ih =>
    intro e he
    simp only [List.foldl_cons] at he
    rcases ih _ e he with h | h
    · rcases cleanStep_mem S c e h with h2 | h2
      · exact Or.inl h2
      · exact Or.inr (by rw [h2]; exact List.mem_cons_self _ _)
    · exact Or.inr (List.mem_cons_of_mem _ h)

/-- The key `NewIndexKey` builds for the placeholder owner from escaped
segments `a`, `b`, `c`, with its owner rewritten to an object key that begins
with `/ob`, is accepted by `ParseIndexKey` (also when `path.Join` has cleaned a
segment away). -/
theorem rekey_parses (a b c okey x rest : Str)
    (ha : slash ∉ a) (hb : slash ∉ b) (hc : slash ∉ c)
    (ua : ∃ y, PathUnescape a = .ok y) (ub : ∃ y, PathUnescape b = .ok y)
    (uc : ∃ y, PathUnescape c = .ok y)
    (hokey : okey = slash :: 111 :: 98 :: rest)
    (h : WithObjectKey (Join [lit "/", lit "ix", a, b, c, lit "/ob/x"]) okey = .ok x) :
    ParseIndexKey x = .ok x := by
  rw [Join_index_key a b c ha hb hc] at h
  have hfree : ∀ e ∈ ([[], [], [105, 120], a, b, c, [], [111, 98], [120]] : List Str),
      slash ∉ e := by
    intro e he
    simp only [List.mem_cons, List.mem_singleton, List.not_mem_nil, or_false] at he
    rcases he with h | h | h | h | h | h | h | h | h <;> subst h <;> first | assumption | decide
  have hun0 : ∀ e ∈ ([[], [], [105, 120], a, b, c, [], [111, 98], [120]] : List Str),
      ∃ y, PathUnescape e = .ok y := by
    intro e he
    simp only [List.mem_cons, List.mem_singleton, List.not_mem_nil, or_false] at he
    rcases he with h | h | h | h | h | h | h | h | h <;> subst h <;>
      first | assumption | exact ⟨_, rfl⟩
  have hkept := foldl_cleanStep_kept _ [] hfree (by simp)
  have hmem := foldl_cleanStep_mem
    ([[], [], [105, 120], a, b, c, [], [111, 98], [120]] : List Str) []
  generalize hS : (([[], [], [105, 120], a, b, c, [], [111, 98], [120]] : List Str).foldl
    (cleanStep true) []) = S at h hkept hmem
  have hR : ∀ e ∈ S.reverse, keptElement e ∧ ∃ y, PathUnescape e = .ok y := by
    intro e he
    have he2 := List.mem_reverse.mp he
    refine ⟨hkept e he2, ?_⟩
    rcases hmem e he2 with h1 | h1
    · simp at h1
    · exact hun0 e h1
  generalize S.reverse = R at h hR
  match R, h, hR with
  | [], h, _ =>
    rw [WithObjectKey_of_few _ _ (by decide)] at h
    exact absurd h (by simp)
  | [r1], h, hR =>
    have z1 := List.count_eq_zero_of_not_mem (hR r1 (by simp)).1.2.2.2
    rw [WithObjectKey_of_few _ _ (by
      simp [List.intercalate, List.intersperse, List.flatten, List.count_cons,
        List.count_append, z1])] at h
    exact absurd h (by simp)
  | [r1, r2], h, hR =>
    have z1 := List.count_eq_zero_of_not_mem (hR r1 (by simp)).1.2.2.2
    have z2 := List.count_eq_zero_of_not_mem (hR r2 (by simp)).1.2.2.2
    rw [WithObjectKey_of_few _ _ (by
      simp [List.intercalate, List.intersperse, List.flatten, List.count_cons,
        List.count_append, z1, z2])] at h
    exact absurd h (by simp)
  | [r1, r2, r3], h, hR =>
    have z1 := List.count_eq_zero_of_not_mem (hR r1 (by simp)).1.2.2.2
    have z2 := List.count_eq_zero_of_not_mem (hR r2 (by simp)).1.2.2.2
    have z3 := List.count_eq_zero_of_not_mem (hR r3 (by simp)).1.2.2.2
    rw [WithObjectKey_of_few _ _ (by
      simp [List.intercalate, List.intersperse, List.flatten, List.count_cons,
        List.count_append, z1, z2, z3])] at h
    exact absurd h (by simp)
  | [r1, r2, r3, r4], h, hR =>
    have z1 := List.count_eq_zero_of_not_mem (hR r1 (by simp)).1.2.2.2
    have z2 := List.count_eq_zero_of_not_mem (hR r2 (by simp)).1.2.2.2
    have z3 := List.count_eq_zero_of_not_mem (hR r3 (by simp)).1.2.2.2
    have z4 := List.count_eq_zero_of_not_mem (hR r4 (by simp)).1.2.2.2
    rw [WithObjectKey_of_few _ _ (by
      simp [List.intercalate, List.intersperse, List.flatten, List.count_cons,
        List.count_append, z1, z2, z3, z4])] at h
    exact absurd h (by simp)
  | r1 :: r2 :: r3 :: r4 :: r5 :: tl, h, hR =>
    obtain ⟨k1, _⟩ := hR r1 (by simp)
    obtain ⟨k2, v2⟩ := hR r2 (by simp)
    obtain ⟨k3, v3⟩ := hR r3 (by simp)
    obtain ⟨k4, v4⟩ := hR r4 (by simp)
    have z1 := List.count_eq_zero_of_not_mem k1.2.2.2
    have z2 := List.count_eq_zero_of_not_mem k2.2.2.2
    have z3 := List.count_eq_zero_of_not_mem k3.2.2.2
    have z4 := List.count_eq_zero_of_not_mem k4.2.2.2
    have hsplit : slash :: [slash].intercalate (r1 :: r2 :: r3 :: r4 :: r5 :: tl)
        = (slash :: (r1 ++ slash :: (r2 ++ slash :: (r3 ++ slash :: r4))))
            ++ slash :: [slash].intercalate (r5 :: tl) := by
      rw [intercalate_cons_cons, intercalate_cons_cons, intercalate_cons_cons,
        intercalate_cons_cons]
      simp
    rw [hsplit, WithObjectKey_of_split _ _ _ (by
      simp [List.count_cons, List.count_append, z1, z2, z3, z4])] at h
    injection h with h
    rw [← h, hokey]
    have hx : (slash :: (r1 ++ slash :: (r2 ++ slash :: (r3 ++ slash :: r4))))
        ++ slash :: 111 :: 98 :: rest
        = slash :: (r1 ++ slash :: (r2 ++ slash :: (r3 ++ slash ::
            (r4 ++ slash :: 111 :: 98 :: rest)))) := by simp
    rw [hx]
    exact ParseIndexKey_of_form r1 r2 r3 r4 rest k1.2.2.2 k2.2.2.2 k3.2.2.2 k4.2.2.2
      k1.1 k2.1 k3.1 k4.1 v2 v3 v4

theorem withObjectKeyAll_mem (okey : ObjectKey) :
    ∀ (iks xs : List IndexKey), withObjectKeyAll okey iks = .ok xs →
      ∀ x ∈ xs, ∃ ik ∈ iks, WithObjectKey ik okey = .ok x := by
  intro iks
  induction iks with
  | nil =>
    intro xs h x hx
    simp only [withObjectKeyAll] at h
    injection h with h
    subst h
    simp at hx
  | cons ik rest ih =>
    intro xs h x hx
    unfold withObjectKeyAll at h
    cases hw : WithObjectKey ik okey with
    | error e => rw [hw] at h; simp at h
    | ok y =>
      rw [hw] at h
      dsimp only at h
      cases hr : withObjectKeyAll okey rest with
      | error e => rw [hr] at h; simp at h
      | ok ys =>
        rw [hr] at h
        dsimp only at h
        injection h with h
        subst h
        rcases List.mem_cons.mp hx with h1 | h1
        · exact ⟨ik, List.mem_cons_self _ _, by rw [h1]; exact hw⟩
        · obtain ⟨ik2, hik2, hw2⟩ := ih ys hr x h1
          exact ⟨ik2, List.mem_cons_of_mem _ hik2, hw2⟩

/-- Every index key of an envelope `NewValue` builds for an object key from
`NewObjectKey` is accepted by `ParseIndexKey`. -/
theorem NewValue_keys_parse {c : Gob} {g : Registry} {key : Str} {okey : ObjectKey}
    {ob : Object} {datatype : DataType} {cur : Value}
    (hkey : NewObjectKey key = .ok okey)
    (h : NewValue c g okey ob datatype = .ok cur) :
    ∀ ik ∈ cur.IndexKeys, ParseIndexKey ik = .ok ik := by
  obtain ⟨rest, hokey⟩ := NewObjectKey_ob_rest hkey
  unfold NewValue at h
  cases hm : datatype.Marshal c ob with
  | error e => rw [hm] at h; simp at h
  | ok s =>
    rw [hm] at h
    dsimp only at h
    cases hi : datatype.IndexKeyMap g ob with
    | error e => rw [hi] at h; simp at h
    | ok ikMap =>
      rw [hi] at h
      dsimp only at h
      cases hw : withObjectKeyAll okey (ikMap.map Prod.snd) with
      | error e => rw [hw] at h; simp at h
      | ok iks =>
        rw [hw] at h
        dsimp only at h
        injection h with h
        subst h
        intro x hx
        obtain ⟨ik, hik, hwx⟩ := withObjectKeyAll_mem okey _ iks hw x (mem_SortIndexKeys.mp hx)
        obtain ⟨e, he, hesnd⟩ := List.mem_map.mp hik
        cases hg : datatype.goodValue ob with
        | none => simp [DataType.IndexKeyMap, hg] at hi
        | some ovalue =>
          rw [IndexKeyMap_eq_loop g datatype ob ovalue hg] at hi
          obtain ⟨hP, _⟩ := indexKeyMapLoop_spec g datatype ovalue (lit "/ob/x")
            datatype.indexFields [] ikMap hi (by simp) (fun f hf => hf) (by simp)
          obtain ⟨f, _, _, v, hnew⟩ := hP e he
          obtain ⟨_, _, _, hjoin⟩ := NewIndexKey_ok hnew
          rw [hesnd] at hjoin
          have hix : IndexKeyspace = lit "ix" := rfl
          rw [hjoin, hix] at hwx
          exact rekey_parses (PathEscape datatype.name) (PathEscape e.1) (PathEscape v)
            okey x rest (slash_not_mem_PathEscape _) (slash_not_mem_PathEscape _)
            (slash_not_mem_PathEscape _) ⟨_, PathUnescape_PathEscape _⟩
            ⟨_, PathUnescape_PathEscape _⟩ ⟨_, PathUnescape_PathEscape _⟩ hokey hwx

theorem parseIndexKeysAll_iff (l : List IndexKey) :
    parseIndexKeysAll l = .ok () ↔ ∀ ik ∈ l, ∃ k, ParseIndexKey ik = .ok k := by
  induction l with
  | nil => simp [parseIndexKeysAll]
  | cons x rest ih =>
    unfold parseIndexKeysAll
    cases hp : ParseIndexKey x with
    | error e =>
      simp only [List.mem_cons, forall_eq_or_imp, hp]
      constructor
      · intro h; simp at h
      · rintro ⟨⟨k, hk⟩, _⟩; simp at hk
    | ok k =>
      simp only [List.mem_cons, forall_eq_or_imp, hp]
      rw [ih]
      constructor
      · intro h; exact ⟨⟨k, rfl⟩, h⟩
      · intro h; exact h.2

theorem parseIndexKeysAll_error (l : List IndexKey)
    (h : ¬ ∀ ik ∈ l, ∃ k, ParseIndexKey ik = .ok k) : ∃ e, parseIndexKeysAll l = .error e := by
  cases hp : parseIndexKeysAll l with
  | error e => exact ⟨e, rfl⟩
  | ok u =>
    exfalso
    apply h
    exact (parseIndexKeysAll_iff l).mp hp

/-- Claim C23. With a lossless codec, for every envelope `e`,
`ParseValue(e.String())` returns `e` when `e.ObjectKey` is accepted by
`ParseObjectKey` and every entry of `e.IndexKeys` is accepted by
`ParseIndexKey`, and fails otherwise; it returns `e` for every envelope
`NewStringValue` or `NewValue` builds for an object key from `NewObjectKey`. -/
theorem ParseValue_round_trip (c : Gob) (e : Value) :
    (((∃ o, ParseObjectKey e.ObjectKey = .ok o) ∧
        ∀ ik ∈ e.IndexKeys, ∃ k, ParseIndexKey ik = .ok k) →
      ParseValue c (c.encode e) = .ok e) ∧
    (¬ ((∃ o, ParseObjectKey e.ObjectKey = .ok o) ∧
        ∀ ik ∈ e.IndexKeys, ∃ k, ParseIndexKey ik = .ok k) →
      ∃ err, ParseValue c (c.encode e) = .error err) ∧
    (∀ key okey value, NewObjectKey key = .ok okey → e = NewStringValue okey value →
      ParseValue c (c.encode e) = .ok e) ∧
    (∀ g key okey ob datatype, NewObjectKey key = .ok okey →
      NewValue c g okey ob datatype = .ok e → ParseValue c (c.encode e) = .ok e) := by
  have hgood : ((∃ o, ParseObjectKey e.ObjectKey = .ok o) ∧
      ∀ ik ∈ e.IndexKeys, ∃ k, ParseIndexKey ik = .ok k) →
      ParseValue c (c.encode e) = .ok e := by
    rintro ⟨⟨o, ho⟩, hall⟩
    unfold ParseValue
    rw [c.decode_encode]
    dsimp only
    rw [ho, (parseIndexKeysAll_iff _).mpr hall]
  refine ⟨hgood, ?_, ?_, ?_⟩
  · intro hbad
    unfold ParseValue
    rw [c.decode_encode]
    dsimp only
    cases ho : ParseObjectKey e.ObjectKey with
    | error err => exact ⟨err, rfl⟩
    | ok o =>
      dsimp only
      have hall : ¬ ∀ ik ∈ e.IndexKeys, ∃ k, ParseIndexKey ik = .ok k :=
        fun h => hbad ⟨⟨o, ho⟩, h⟩
      obtain ⟨err, herr⟩ := parseIndexKeysAll_error _ hall
      rw [herr]
      exact ⟨err, rfl⟩
  · intro key okey value hkey he
    apply hgood
    subst he
    exact ⟨⟨okey, ParseObjectKey_NewObjectKey hkey⟩, by simp [NewStringValue]⟩
  · intro g key okey ob datatype hkey hnew
    apply hgood
    have hobj := (NewValue_sorted hnew).2
    refine ⟨⟨okey, by rw [hobj]; exact ParseObjectKey_NewObjectKey hkey⟩, ?_⟩
    intro ik hik
    exact ⟨ik, NewValue_keys_parse hkey hnew ik hik⟩

set_option maxRecDepth 100000 in
/-- Examples for `ParseValue_round_trip`: the envelope of `&P{A: 1, B: 2}` at
`/k` parses back; an envelope whose object key is not in the object keyspace,
and one that lists a string that is no index key, are rejected. -/
theorem ParseValue_round_trip_witness :
    ((∃ o, ParseObjectKey pairEnvelope.ObjectKey = .ok o) ∧
      ∀ ik ∈ pairEnvelope.IndexKeys, ∃ k, ParseIndexKey ik = .ok k) ∧
    ParseValue fixtureGob (fixtureGob.encode pairEnvelope) = .ok pairEnvelope ∧
    ParseValue fixtureGob (fixtureGob.encode
      { Data := [], TypeName := lit "string", ObjectKey := lit "/k", IndexKeys := [] })
        = .error .invalid ∧
    ParseValue fixtureGob (fixtureGob.encode
      { Data := [], TypeName := lit "string", ObjectKey := lit "/ob/k",
        IndexKeys := [lit "/ix/P"] }) = .error .invalid := by
  have hh : (∃ o, ParseObjectKey pairEnvelope.ObjectKey = .ok o) ∧
      ∀ ik ∈ pairEnvelope.IndexKeys, ∃ k, ParseIndexKey ik = .ok k := by
    refine ⟨⟨lit "/ob/k", by decide⟩, ?_⟩
    intro ik hik
    simp only [pairEnvelope, List.mem_cons, List.mem_singleton, List.not_mem_nil,
      or_false] at hik
    rcases hik with h | h
    · exact ⟨lit "/ix/P/A/1/ob/k", by rw [h]; decide⟩
    · exact ⟨lit "/ix/P/B/2/ob/k", by rw [h]; decide⟩
  exact ⟨hh, (ParseValue_round_trip fixtureGob pairEnvelope).1 hh, by decide, by decide⟩

/-! ## Keyspaces, unsupported fields and native stringification -/

/-- The object key of a user key other than the root begins with `/ob/`. -/
theorem NewObjectKey_prefix {key : Str} {okey : ObjectKey} (h : NewObjectKey key = .ok okey)
    (hroot : key ≠ lit "/") : ∃ rest, okey = lit "/ob/" ++ rest := by
  have hob : lit "/ob" = [slash, 111, 98] := by decide
  have hobs : lit "/ob/" = [slash, 111, 98, slash] := by decide
  rcases NewObjectKey_shape h with ⟨h1, _⟩ | ⟨_, h2⟩
  · exact absurd (by rw [h1]; decide) hroot
  · have habs : IsAbs key = true := by
      unfold NewObjectKey at h
      by_cases habs : IsAbs key = true
      · exact habs
      · simp [habs] at h
    obtain ⟨ys, hys⟩ := (IsAbs_iff key).mp habs
    exact ⟨ys, by rw [h2, hob, hobs, hys]; rfl⟩

/-- The key `Set` writes for a user key other than the root begins with
`/ob/`. -/
theorem Set_key_prefix (c : Gob) (t : Tx) (key value : Str) (hroot : key ≠ lit "/")
    (hok : (Tx.Set c t key value).1 = Outcome.ok) :
    ∃ okey rest, okey = lit "/ob/" ++ rest ∧
      (Tx.Set c t key value).2.log = t.log ++ [Op.set okey (c.encode (NewStringValue okey value))] := by
  unfold Tx.Set at hok ⊢
  cases hk : NewObjectKey key with
  | error e => rw [hk] at hok; simp at hok
  | ok okey =>
    obtain ⟨rest, hrest⟩ := NewObjectKey_prefix hk hroot
    exact ⟨okey, rest, hrest, rfl⟩

set_option maxRecDepth 100000 in
/-- Claim C24, at the root user key. `Set("/", "v")` on the empty store returns
`nil` and writes the key `/ob`, and `Store("/", &ExampleType{Name: "root", Age:
10})` writes the keys `/ix/TestIndexing.ExampleType/Age/10/ob` and `/ob`: the
envelope key `/ob` begins neither with `/ob/` nor with `/ix/`. For every other
user key the envelope key begins with `/ob/` (`NewObjectKey_prefix`). -/
theorem Set_root_key_outside_keyspaces :
    NewObjectKey (lit "/") = .ok (lit "/ob") ∧
    (Tx.Set fixtureGob emptyTx (lit "/") (lit "v")).1 = Outcome.ok ∧
    (Tx.Set fixtureGob emptyTx (lit "/") (lit "v")).2.log.map Op.key = [lit "/ob"] ∧
    (Tx.Store fixtureGob fixtureRegistry emptyTx (lit "/") (user (lit "root") 10)).1
      = Outcome.ok ∧
    rootTx.log.map Op.key = [lit "/ix/TestIndexing.ExampleType/Age/10/ob", lit "/ob"] ∧
    HasPrefix (lit "/ob") (lit "/ob/") = false ∧ HasPrefix (lit "/ob") (lit "/ix/") = false := by
  decide

set_option maxRecDepth 100000 in
/-- Claim C25, at a field of an unsupported type. For the registered type
`S{Score float64 kodb:"index"}` and no stringer registered for `float64`, the
field has no applicable stringifier, and `ToString`, `IndexKeyMap`, `Store`
and `FindByIndex` fail with `os.ErrNotExist` (NotFound), the error
`FormatIndexFieldValue` returns, not with `InvalidArgument`. -/
theorem unsupported_field_error_is_NotFound :
    Register fixtureEnv emptyRegistry (lit "S") scored = .ok scoreRegistry ∧
    GetDataType scoreRegistry scored = .ok scoreType ∧
    (scoreType.indexFields.map (fun f => f.ToString scoreRegistry
      (StructValue.mk 7 (fun _ => FieldValue.named 100 Kind.other (lit "1.5")))))
      = [.error .notExist] ∧
    scoreType.IndexKeyMap scoreRegistry scored = .error .notExist ∧
    Tx.Store fixtureGob scoreRegistry emptyTx (lit "/k") scored
      = (Outcome.error .notExist, emptyTx) ∧
    Tx.FindByIndex scoreRegistry emptyTx scored = .error .notExist :=
  ⟨rfl, rfl, by decide, by decide, rfl, by decide⟩

/-- The native converter on a field of a predeclared type: `true`/`false` for
a `bool`, the decimal numeral for an integer (a `-` sign for a negative signed
value only), the string itself for a `string`. -/
theorem ToString_predeclared (g : Registry) (f : IndexField) (ovalue : StructValue)
    (hf : f.stringer = none) :
    (∀ b, ovalue.field f.position = .bool b →
      f.ToString g ovalue = .ok (if b then lit "true" else lit "false")) ∧
    (∀ k i, ovalue.field f.position = .int k i →
      f.ToString g ovalue = .ok (if i < 0 then 45 :: decimal i.natAbs else decimal i.natAbs)) ∧
    (∀ k n, ovalue.field f.position = .uint k n → f.ToString g ovalue = .ok (decimal n)) ∧
    (∀ s, ovalue.field f.position = .string s → f.ToString g ovalue = .ok s) := by
  refine ⟨?_, ?_, ?_, ?_⟩
  · intro b hb
    simp [IndexField.ToString, hf, hb, FieldValue.kind, SupportedKinds, toStringNative]
  · intro k i hi
    cases k <;>
      simp [IndexField.ToString, hf, hi, FieldValue.kind, SupportedKinds, toStringNative]
  · intro k n hn
    cases k <;>
      simp [IndexField.ToString, hf, hn, FieldValue.kind, SupportedKinds, toStringNative]
  · intro s hs
    simp [IndexField.ToString, hf, hs, FieldValue.kind, SupportedKinds, toStringNative]

set_option maxRecDepth 100000 in
/-- Claim C26, at a field of a defined type. For the registered type
`A{Age Age kodb:"index"}` with `type Age int`, the kind of the field is `int`,
one of `SupportedKinds`, and `ToString` of `&A{Age: 7}` succeeds with the
placeholder `unsupported-index-field-kind`, not with `7`: the type switch of
`toStringNative` has cases for the predeclared types only. `Store` then writes
the index key of that placeholder. On fields of the predeclared types the
converter is as claimed (`ToString_predeclared`). -/
theorem defined_type_field_gives_placeholder :
    Register fixtureEnv emptyRegistry (lit "A") aged = .ok ageRegistry ∧
    GetDataType ageRegistry aged = .ok ageType ∧
    (FieldValue.named 101 (Kind.int IntKind.int) (lit "7")).kind ∈ SupportedKinds ∧
    (ageType.indexFields.map (fun f => f.ToString ageRegistry
      (StructValue.mk 8 (fun _ => FieldValue.named 101 (Kind.int IntKind.int) (lit "7")))))
      = [.ok (lit "unsupported-index-field-kind")] ∧
    (Tx.Store fixtureGob ageRegistry emptyTx (lit "/k") aged).1 = Outcome.ok ∧
    (Tx.Store fixtureGob ageRegistry emptyTx (lit "/k") aged).2.log.map Op.key
      = [lit "/ix/A/Age/unsupported-index-field-kind/ob/k", lit "/ob/k"] ∧
    decimal 7 = lit "7" :=
  ⟨rfl, rfl, by decide, by decide, by decide, by decide, by decide⟩

/-! ## The validation failures of `Store` -/

theorem deleteIndexKeys_not_error (t : Tx) (l : List IndexKey) (e : Err) :
    (deleteIndexKeys t l).1 ≠ Outcome.error e := by
  obtain ⟨_, _, _, _, _, h⟩ := deleteIndexKeys_run t l
  rcases h with h | h <;> rw [h] <;> simp

/-- The errors of `NewValue` are those of its three steps: marshalling, field
extraction, and the rewrite of the owner. -/
theorem NewValue_error_iff (c : Gob) (g : Registry) (okey : ObjectKey) (ob : Object)
    (datatype : DataType) (e : Err) :
    NewValue c g okey ob datatype = .error e ↔
      (datatype.Marshal c ob = .error e ∨
        (∃ s, datatype.Marshal c ob = .ok s ∧
          (datatype.IndexKeyMap g ob = .error e ∨
            ∃ ikMap, datatype.IndexKeyMap g ob = .ok ikMap ∧
              withObjectKeyAll okey (ikMap.map Prod.snd) = .error e))) := by
  unfold NewValue
  cases hm : datatype.Marshal c ob with
  | error e1 => simp
  | ok s =>
    cases hi : datatype.IndexKeyMap g ob with
    | error e2 => simp
    | ok ikMap =>
      cases hw : withObjectKeyAll okey (ikMap.map Prod.snd) with
      | error e3 => simp [hw]
      | ok iks => simp [hw]

/-- Claim C28. `Store` returns an error exactly when the user key is invalid,
or the data type is not resolved, or the old envelope does not parse, or the
new envelope cannot be built (`NewValue_error_iff`: marshalling, field
extraction or the rewrite of the owner fails), and it returns that error; it
has then issued no call on the key-value transaction: the transaction, its
content and the list of issued calls are as before. -/
theorem Store_validation_failure_is_atomic (c : Gob) (g : Registry) (t : Tx) (key : Str)
    (ob : Object) (e : Err) :
    ((Tx.Store c g t key ob).1 = Outcome.error e ↔
      (NewObjectKey key = .error e ∨
        ∃ okey, NewObjectKey key = .ok okey ∧
          (GetDataType g ob = .error e ∨
            ∃ datatype, GetDataType g ob = .ok datatype ∧
              (oldValue c t okey = .error e ∨
                ((∃ old, oldValue c t okey = .ok old) ∧
                  NewValue c g okey ob datatype = .error e))))) ∧
    ((Tx.Store c g t key ob).1 = Outcome.error e →
      (Tx.Store c g t key ob).2 = t ∧ (Tx.Store c g t key ob).2.log = t.log ∧
      (Tx.Store c g t key ob).2.kv = t.kv) := by
  unfold Tx.Store
  cases hk : NewObjectKey key with
  | error e1 =>
    dsimp only
    refine ⟨?_, fun _ => ⟨rfl, rfl, rfl⟩⟩
    constructor
    · intro h; injection h with h; exact Or.inl (by rw [h])
    · rintro (h | ⟨okey, h, _⟩)
      · injection h with h; rw [h]
      · simp at h
  | ok okey =>
    dsimp only
    cases hd : GetDataType g ob with
    | error e1 =>
      dsimp only
      refine ⟨?_, fun _ => ⟨rfl, rfl, rfl⟩⟩
      constructor
      · intro h; injection h with h; exact Or.inr ⟨okey, rfl, Or.inl (by rw [h])⟩
      · rintro (h | ⟨okey2, _, h | ⟨dt, h, _⟩⟩)
        · simp at h
        · injection h with h; rw [h]
        · simp at h
    | ok datatype =>
      dsimp only
      cases ho : oldValue c t okey with
      | error e1 =>
        dsimp only
        refine ⟨?_, fun _ => ⟨rfl, rfl, rfl⟩⟩
        constructor
        · intro h
          injection h with h
          exact Or.inr ⟨okey, rfl, Or.inr ⟨datatype, rfl, Or.inl (by rw [ho, h])⟩⟩
        · rintro (h | ⟨okey2, hk2, h | ⟨dt, hdt, h | ⟨⟨old, h⟩, _⟩⟩⟩)
          · simp at h
          · simp at h
          · injection hk2 with hk2
            subst hk2
            rw [ho] at h
            injection h with h
            rw [h]
          · injection hk2 with hk2
            subst hk2
            rw [ho] at h
            simp at h
      | ok old =>
        dsimp only
        cases hn : NewValue c g okey ob datatype with
        | error e1 =>
          dsimp only
          refine ⟨?_, fun _ => ⟨rfl, rfl, rfl⟩⟩
          constructor
          · intro h
            injection h with h
            exact Or.inr ⟨okey, rfl, Or.inr ⟨datatype, rfl, Or.inr ⟨⟨old, ho⟩, by rw [hn, h]⟩⟩⟩
          · rintro (h | ⟨okey2, hk2, h | ⟨dt, hdt, h | ⟨_, h⟩⟩⟩)
            · simp at h
            · simp at h
            · injection hk2 with hk2
              subst hk2
              rw [ho] at h
              simp at h
            · injection hk2 with hk2
              injection hdt with hdt
              subst hk2
              subst hdt
              rw [hn] at h
              injection h with h
              rw [h]
        | ok cur =>
          dsimp only
          have hne := deleteIndexKeys_not_error
            ((setIndexKeys t (DiffIndexKeys old.IndexKeys cur.IndexKeys).2).set okey
              (c.encode cur)) (DiffIndexKeys old.IndexKeys cur.IndexKeys).1 e
          refine ⟨?_, fun h => absurd h hne⟩
          constructor
          · intro h; exact absurd h hne
          · rintro (h | ⟨okey2, hk2, h | ⟨dt, hdt, h | ⟨_, h⟩⟩⟩)
            · simp at h
            · simp at h
            · injection hk2 with hk2
              subst hk2
              rw [ho] at h
              simp at h
            · injection hk2 with hk2
              injection hdt with hdt
              subst hk2
              subst hdt
              rw [hn] at h
              simp at h

set_option maxRecDepth 100000 in
/-- Examples for `Store_validation_failure_is_atomic` on the store that holds
`P{A: 1, B: 2}` at `/k`: a user key that is not absolute, an object of no
registered type and an object with an unsupported field leave the transaction
as it was; so does an old value that does not parse. -/
theorem Store_validation_failure_is_atomic_witness :
    (Tx.Store fixtureGob fixtureRegistry pairTx (lit "k") (pair 1 3)).1
      = Outcome.error .invalid ∧
    (Tx.Store fixtureGob fixtureRegistry pairTx (lit "k") (pair 1 3)).2 = pairTx ∧
    Tx.Store fixtureGob fixtureRegistry pairTx (lit "/k") Object.other
      = (Outcome.error .invalid, pairTx) ∧
    Tx.Store fixtureGob scoreRegistry pairTx (lit "/k") scored
      = (Outcome.error .notExist, pairTx) ∧
    Tx.Store fixtureGob fixtureRegistry garbageTx (lit "/k") (pair 1 3)
      = (Outcome.error .gob, garbageTx) :=
  ⟨by decide,
   ((Store_validation_failure_is_atomic fixtureGob fixtureRegistry pairTx (lit "k") (pair 1 3)
      Err.invalid).2 (by decide)).1,
   rfl, rfl, rfl⟩

/-! ## The consistency of the registry -/

theorem mapSet_absent {β : Type} (m : List (Str × β)) (k : Str) (v : β)
    (h : k ∉ m.map Prod.fst) : mapSet m k v = m ++ [(k, v)] := by
  induction m with
  | nil => rfl
  | cons e rest ih =>
    obtain ⟨k0, v0⟩ := e
    simp only [List.map_cons, List.mem_cons, not_or] at h
    unfold mapSet
    have h0 : ¬ k0 = k := fun hh => h.1 hh.symm
    rw [if_neg h0, ih h.2]
    rfl

theorem typeMapSet_absent (m : List (Nat × DataType)) (k : Nat) (v : DataType)
    (h : k ∉ m.map Prod.fst) : typeMapSet m k v = m ++ [(k, v)] := by
  induction m with
  | nil => rfl
  | cons e rest ih =>
    obtain ⟨k0, v0⟩ := e
    simp only [List.map_cons, List.mem_cons, not_or] at h
    unfold typeMapSet
    have h0 : ¬ k0 = k := fun hh => h.1 hh.symm
    rw [if_neg h0, ih h.2]
    rfl

/-- A successful `Register` call adds one data type, under a name and a struct
type that were not registered, at the end of both maps. -/
theorem Register_ok_form {env : TypeEnv} {g g1 : Registry} {name : Str} {sample : Object}
    (h : Register env g name sample = .ok g1) :
    ∃ stype t, getStructType sample = some stype ∧ NewDataType env name sample = .ok t ∧
      name ∉ g.nameMap.map Prod.fst ∧ stype ∉ g.typeMap.map Prod.fst ∧
      t.name = name ∧ t.gotype = stype ∧
      g1.nameMap = g.nameMap ++ [(name, t)] ∧ g1.typeMap = g.typeMap ++ [(stype, t)] ∧
      g1.userDefinedTypesMap = g.userDefinedTypesMap := by
  obtain ⟨o1, o2⟩ := Register_cases env g name sample
  have hname : ∀ e ∈ g.nameMap, e.1 ≠ name := by
    intro e he hen
    rw [o1 ⟨e, he, hen⟩] at h
    simp at h
  obtain ⟨o3, o4⟩ := o2 hname
  cases hs : getStructType sample with
  | none => rw [o3 hs] at h; simp at h
  | some stype =>
    obtain ⟨o5, o6⟩ := o4 stype hs
    have htype : ∀ e ∈ g.typeMap, e.1 ≠ stype := by
      intro e he hen
      rw [o5 ⟨e, he, hen⟩] at h
      simp at h
    obtain ⟨o7, o8⟩ := o6 htype
    cases hn : NewDataType env name sample with
    | error e =>
      rw [(o7 e hn).1] at h
      simp at h
    | ok t =>
      obtain ⟨q1, q2, _⟩ := o8 t hn
      have hn1 : name ∉ g.nameMap.map Prod.fst := by
        intro hmem
        obtain ⟨e, he, hen⟩ := List.mem_map.mp hmem
        exact hname e he hen
      have hn2 : stype ∉ g.typeMap.map Prod.fst := by
        intro hmem
        obtain ⟨e, he, hen⟩ := List.mem_map.mp hmem
        exact htype e he hen
      have hn3 : ¬ (g.nameMap.find? (fun e => decide (e.1 = name))).isSome = true := by
        rw [find_name_isSome]
        rintro ⟨e, he, hen⟩
        exact hname e he hen
      have hn4 : ¬ (g.typeMap.find? (fun e => decide (e.1 = stype))).isSome = true := by
        rw [find_type_isSome]
        rintro ⟨e, he, hen⟩
        exact htype e he hen
      unfold Register at h
      rw [if_neg hn3, hs] at h
      dsimp only at h
      rw [if_neg hn4, hn] at h
      dsimp only at h
      injection h with h
      refine ⟨stype, t, rfl, rfl, hn1, hn2, q1, q2, ?_, ?_, ?_⟩
      · rw [← h, mapSet_absent _ _ _ hn1]
      · rw [← h, typeMapSet_absent _ _ _ hn2]
      · rw [← h]

theorem consistent_empty : emptyRegistry.consistent := by
  unfold Registry.consistent emptyRegistry
  simp

theorem consistent_Register {env : TypeEnv} {g g1 : Registry} {name : Str} {sample : Object}
    (hg : g.consistent) (h : Register env g name sample = .ok g1) : g1.consistent := by
  obtain ⟨stype, t, _, _, hn1, hn2, ht1, ht2, e1, e2, _⟩ := Register_ok_form h
  obtain ⟨c1, c2, c3, c4⟩ := hg
  unfold Registry.consistent
  rw [e1, e2]
  refine ⟨?_, ?_, ?_, ?_⟩
  · rw [List.map_append]
    exact List.Nodup.append c1 (by simp) (by simpa using hn1)
  · rw [List.map_append]
    exact List.Nodup.append c2 (by simp) (by simpa using hn2)
  · intro e he
    rcases List.mem_append.mp he with h1 | h1
    · exact ⟨(c3 e h1).1, List.mem_append_left _ (c3 e h1).2⟩
    · simp only [List.mem_singleton] at h1
      subst h1
      exact ⟨ht1, List.mem_append_right _ (by rw [ht2]; simp)⟩
  · intro e he
    rcases List.mem_append.mp he with h1 | h1
    · exact ⟨(c4 e h1).1, List.mem_append_left _ (c4 e h1).2⟩
    · simp only [List.mem_singleton] at h1
      subst h1
      exact ⟨ht2, List.mem_append_right _ (by rw [ht1]; simp)⟩

theorem registerCall_consistent (env : TypeEnv) (g : Registry) (call : Str × Object)
    (hg : g.consistent) : (registerCall env g call).2.consistent := by
  unfold registerCall
  cases h : Register env g call.1 call.2 with
  | error e => exact hg
  | ok g1 => exact consistent_Register hg h

theorem registerAll_consistent (env : TypeEnv) :
    ∀ (calls : List (Str × Object)) (g : Registry), g.consistent →
      (registerAll env g calls).consistent := by
  intro calls
  induction calls with
  | nil => intro g hg; exact hg
  | cons call rest ih =>
    intro g hg
    exact ih _ (registerCall_consistent env g call hg)

theorem registerAll_lengths (env : TypeEnv) :
    ∀ (calls : List (Str × Object)) (g : Registry), g.nameMap.length = g.typeMap.length →
      (registerAll env g calls).nameMap.length = (registerAll env g calls).typeMap.length := by
  intro calls
  induction calls with
  | nil => intro g hg; exact hg
  | cons call rest ih =>
    intro g hg
    apply ih
    unfold registerCall
    cases h : Register env g call.1 call.2 with
    | error e => exact hg
    | ok g1 =>
      obtain ⟨_, _, _, _, _, _, _, _, e1, e2, _⟩ := Register_ok_form h
      dsimp only
      rw [e1, e2]
      simp [hg]

theorem mem_of_nodup_keys {κ β : Type} (m : List (κ × β)) (hnd : (m.map Prod.fst).Nodup)
    (k : κ) (v1 v2 : β) (h1 : (k, v1) ∈ m) (h2 : (k, v2) ∈ m) : v1 = v2 := by
  induction m with
  | nil => simp at h1
  | cons e rest ih =>
    simp only [List.map_cons, List.nodup_cons] at hnd
    rcases List.mem_cons.mp h1 with a1 | a1
    · rcases List.mem_cons.mp h2 with a2 | a2
      · rw [← a1] at a2
        injection a2 with _ a2
        exact a2.symm
      · exfalso
        apply hnd.1
        rw [← a1]
        exact List.mem_map.mpr ⟨(k, v2), a2, rfl⟩
    · rcases List.mem_cons.mp h2 with a2 | a2
      · exfalso
        apply hnd.1
        rw [← a2]
        exact List.mem_map.mpr ⟨(k, v1), a1, rfl⟩
      · exact ih hnd.2 a1 a2

/-- Claim C29. After any sequence of `Register` calls from the empty registry,
the name map and the type map have the same number of entries and hold the
same data types: a data type is in the name map exactly when it is in the type
map; it is listed under exactly one name, which is the name it records, and
under exactly one struct type, which is the struct type it records; no name
and no struct type has two entries. A `Register` call that returns an error
leaves the maps as they were. -/
theorem Register_keeps_maps_consistent (env : TypeEnv) (calls : List (Str × Object)) :
    (registerAll env emptyRegistry calls).consistent ∧
    (registerAll env emptyRegistry calls).nameMap.length
      = (registerAll env emptyRegistry calls).typeMap.length ∧
    (∀ t, (∃ n, (n, t) ∈ (registerAll env emptyRegistry calls).nameMap) ↔
      (∃ s, (s, t) ∈ (registerAll env emptyRegistry calls).typeMap)) ∧
    (∀ n t, (n, t) ∈ (registerAll env emptyRegistry calls).nameMap → n = t.name) ∧
    (∀ s t, (s, t) ∈ (registerAll env emptyRegistry calls).typeMap → s = t.gotype) ∧
    (∀ n t1 t2, (n, t1) ∈ (registerAll env emptyRegistry calls).nameMap →
      (n, t2) ∈ (registerAll env emptyRegistry calls).nameMap → t1 = t2) ∧
    (∀ s t1 t2, (s, t1) ∈ (registerAll env emptyRegistry calls).typeMap →
      (s, t2) ∈ (registerAll env emptyRegistry calls).typeMap → t1 = t2) ∧
    (∀ (g : Registry) (call : Str × Object) (e : Err),
      (registerCall env g call).1 = some e →
        Register env g call.1 call.2 = .error e ∧ (registerCall env g call).2 = g) := by
  have hc := registerAll_consistent env calls emptyRegistry consistent_empty
  have hl := registerAll_lengths env calls emptyRegistry rfl
  generalize registerAll env emptyRegistry calls = g at hc hl
  obtain ⟨c1, c2, c3, c4⟩ := hc
  refine ⟨⟨c1, c2, c3, c4⟩, hl, ?_, ?_, ?_, ?_, ?_, ?_⟩
  · intro t
    constructor
    · rintro ⟨n, hn⟩
      exact ⟨t.gotype, (c3 (n, t) hn).2⟩
    · rintro ⟨s, hs⟩
      exact ⟨t.name, (c4 (s, t) hs).2⟩
  · intro n t hn
    exact ((c3 (n, t) hn).1).symm
  · intro s t hs
    exact ((c4 (s, t) hs).1).symm
  · intro n t1 t2 h1 h2
    exact mem_of_nodup_keys _ c1 n t1 t2 h1 h2
  · intro s t1 t2 h1 h2
    exact mem_of_nodup_keys _ c2 s t1 t2 h1 h2
  · intro g0 call e h
    unfold registerCall at h ⊢
    cases hr : Register env g0 call.1 call.2 with
    | error e1 =>
      rw [hr] at h
      dsimp only at h
      injection h with h
      exact ⟨by rw [h], rfl⟩
    | ok g1 =>
      rw [hr] at h
      simp at h

/-- Example for `Register_keeps_maps_consistent`: the calls of
`TestDataTypeMap`, of which the first succeeds and the following three fail,
leave the registry with the one data type `Employee`. -/
theorem Register_keeps_maps_consistent_witness :
    (registerAll fixtureEnv emptyRegistry
      [(lit "Employee", newEmployee), (lit "Employee", employee []),
       (lit "EmployeeV2", employee []), (lit "EmployeeV2", newEmployee)]).consistent ∧
    (registerAll fixtureEnv emptyRegistry
      [(lit "Employee", newEmployee), (lit "Employee", employee []),
       (lit "EmployeeV2", employee []), (lit "EmployeeV2", newEmployee)]).nameMap
      = [(lit "Employee", employeeType)] ∧
    (registerAll fixtureEnv emptyRegistry
      [(lit "Employee", newEmployee), (lit "Employee", employee []),
       (lit "EmployeeV2", employee []), (lit "EmployeeV2", newEmployee)]).typeMap
      = [(5, employeeType)] ∧
    (registerCall fixtureEnv employeeRegistry (lit "EmployeeV2", employee [])).1
      = some Err.invalid :=
  ⟨(Register_keeps_maps_consistent fixtureEnv
      [(lit "Employee", newEmployee), (lit "Employee", employee []),
       (lit "EmployeeV2", employee []), (lit "EmployeeV2", newEmployee)]).1,
   rfl, rfl, rfl⟩

/-! ## Lemmas: the write protocol over a backend that may fail -/

theorem setF_quiet {f : Faults} {t : Tx} (h : f t.log.length = none) (k v : Str) :
    t.setF f k v = (none, t.set k v) := by
  simp [Tx.setF, h]

theorem deleteF_quiet {f : Faults} {t : Tx} (h : f t.log.length = none) (k : Str) :
    t.deleteF f k = ((if (t.delete k).1 then none else some Err.notExist), (t.delete k).2) := by
  unfold Tx.deleteF
  rw [h]
  dsimp only
  unfold Tx.delete
  cases kvDelete t.kv k <;> rfl

theorem delete_log (t : Tx) (k : Str) : (t.delete k).2.log = t.log ++ [Op.delete k] := by
  unfold Tx.delete
  cases kvDelete t.kv k <;> rfl

theorem setIndexKeysF_quiet {f : Faults} (l : List IndexKey) (t : Tx)
    (h : ∀ i, i < l.length → f (t.log.length + i) = none) :
    setIndexKeysF f t l = (none, setIndexKeys t l) := by
  induction l generalizing t with
  | nil => rfl
  | cons a rest ih =>
    have h0 : f t.log.length = none := by simpa using h 0 (by simp)
    unfold setIndexKeysF setIndexKeys
    rw [setF_quiet h0]
    dsimp only
    apply ih
    intro i hi
    have := h (i + 1) (by simpa using hi)
    simpa [Tx.set, Nat.add_assoc, Nat.add_comm 1 i] using this

theorem deleteIndexKeysF_quiet {f : Faults} (l : List IndexKey) (t : Tx)
    (h : ∀ i, i < l.length → f (t.log.length + i) = none) :
    deleteIndexKeysF f t l = deleteIndexKeys t l := by
  induction l generalizing t with
  | nil => rfl
  | cons k rest ih =>
    have h0 : f t.log.length = none := by simpa using h 0 (by simp)
    have hrest : ∀ i, i < rest.length → f ((t.delete k).2.log.length + i) = none := by
      intro i hi
      have := h (i + 1) (by simpa using hi)
      rw [delete_log]
      simpa [Nat.add_assoc, Nat.add_comm 1 i] using this
    unfold deleteIndexKeysF deleteIndexKeys
    rw [deleteF_quiet h0]
    cases hd : t.delete k with
    | mk b t1 =>
      rw [hd] at hrest
      cases b with
      | false => simp
      | true => simpa using ih t1 hrest

/-- With a backend that answers the calls of `Store` with no error of its
own, `Tx.StoreF` is `Tx.Store`. -/
theorem StoreF_reliable (c : Gob) (g : Registry) (t : Tx) (key : Str) (ob : Object) :
    Tx.StoreF c g reliable t key ob = Tx.Store c g t key ob := by
  have hq : ∀ (t0 : Tx) (l : List IndexKey), ∀ i, i < l.length →
      reliable (t0.log.length + i) = none := fun _ _ _ _ => rfl
  unfold Tx.StoreF Tx.Store
  cases NewObjectKey key with
  | error e => rfl
  | ok okey =>
    dsimp only
    cases GetDataType g ob with
    | error e => rfl
    | ok datatype =>
      dsimp only
      cases oldValue c t okey with
      | error e => rfl
      | ok old =>
        dsimp only
        cases NewValue c g okey ob datatype with
        | error e => rfl
        | ok cur =>
          dsimp only
          rw [setIndexKeysF_quiet _ _ (hq t _)]
          dsimp only
          rw [setF_quiet rfl]
          dsimp only
          exact deleteIndexKeysF_quiet _ _ (hq _ _)

/-- `Tx.DeleteF` is `Tx.Delete` when the backend answers the `Delete` of the
object key and of the index keys the envelope lists with no error of its
own. -/
theorem DeleteF_quiet (c : Gob) (f : Faults) (t : Tx) (key : Str) {okey : ObjectKey} {s : Str}
    {v : Value} (hkey : NewObjectKey key = .ok okey) (hs : kvGet t.kv okey = some s)
    (hv : ParseValue c s = .ok v)
    (h : ∀ i, i ≤ v.IndexKeys.length → f (t.log.length + i) = none) :
    Tx.DeleteF c f t key = Tx.Delete c t key := by
  have h0 : f t.log.length = none := by simpa using h 0 (by simp)
  have hrest : ∀ i, i < v.IndexKeys.length → f ((t.delete okey).2.log.length + i) = none := by
    intro i hi
    have := h (i + 1) (by omega)
    rw [delete_log]
    simpa [Nat.add_assoc, Nat.add_comm 1 i] using this
  unfold Tx.DeleteF Tx.Delete
  rw [hkey]
  dsimp only
  rw [hs]
  dsimp only
  rw [hv]
  dsimp only
  rw [deleteF_quiet h0]
  cases hd : t.delete okey with
  | mk b t1 =>
    rw [hd] at hrest
    cases b with
    | false => simp
    | true => simpa using deleteIndexKeysF_quiet _ t1 hrest

theorem DeleteF_reliable (c : Gob) (t : Tx) (key : Str) :
    Tx.DeleteF c reliable t key = Tx.Delete c t key := by
  cases hkey : NewObjectKey key with
  | error e => simp [Tx.DeleteF, Tx.Delete, hkey]
  | ok okey =>
    cases hs : kvGet t.kv okey with
    | none => simp [Tx.DeleteF, Tx.Delete, hkey, hs]
    | some s =>
      cases hv : ParseValue c s with
      | error e => simp [Tx.DeleteF, Tx.Delete, hkey, hs, hv]
      | ok v => exact DeleteF_quiet c reliable t key hkey hs hv (fun _ _ => rfl)

theorem issue_log (f : Faults) (t : Tx) (op : Op) : (t.issue f op).2.log = t.log ++ [op] := by
  cases op with
  | set k v =>
    simp only [Tx.issue, Tx.setF]
    cases f t.log.length <;> rfl
  | delete k =>
    simp only [Tx.issue, Tx.deleteF]
    cases f t.log.length with
    | some e => rfl
    | none =>
      dsimp only
      have := delete_log t k
      cases hd : t.delete k with
      | mk b t1 =>
        rw [hd] at this
        cases b <;> exact this

/-- The calls issued are a beginning of the list, all of it when no call was
answered with an error. -/
theorem issueAll_log (f : Faults) (calls : List Op) (t : Tx) :
    ∃ n, n ≤ calls.length ∧ (issueAll f t calls).2.log = t.log ++ calls.take n ∧
      ((issueAll f t calls).1 = none → n = calls.length) := by
  induction calls generalizing t with
  | nil => exact ⟨0, by simp [issueAll]⟩
  | cons op rest ih =>
    have hl := issue_log f t op
    unfold issueAll
    cases hi : t.issue f op with
    | mk r t1 =>
      rw [hi] at hl
      cases r with
      | some e => exact ⟨1, by simp, by simpa using hl, by simp⟩
      | none =>
        obtain ⟨n, h1, h2, h3⟩ := ih t1
        refine ⟨n + 1, by simpa using h1, ?_, ?_⟩
        · dsimp only at hl ⊢
          rw [h2, hl]
          simp
        · intro h
          dsimp only at h
          simp [h3 h]

theorem storeEnd_ok {x : Option (Op × Err)} (h : storeEnd x = Outcome.ok) : x = none := by
  cases x with
  | none => rfl
  | some p =>
    obtain ⟨op, e⟩ := p
    cases op with
    | set k v => simp [storeEnd] at h
    | delete k =>
      simp only [storeEnd] at h
      split at h <;> simp at h

theorem deleteIndexKeysF_issueAll (f : Faults) (dels : List IndexKey) (t : Tx) :
    deleteIndexKeysF f t dels
      = (storeEnd (issueAll f t (dels.map Op.delete)).1, (issueAll f t (dels.map Op.delete)).2) := by
  induction dels generalizing t with
  | nil => rfl
  | cons k rest ih =>
    simp only [List.map_cons]
    unfold deleteIndexKeysF issueAll
    simp only [Tx.issue]
    cases hd : t.deleteF f k with
    | mk r t1 =>
      cases r with
      | some e =>
        dsimp only
        by_cases he : e = Err.notExist
        · simp [storeEnd, he]
        · simp [storeEnd, he]
      | none => exact ih t1

theorem store_tail_issueAll (f : Faults) (t : Tx) (okey env : Str) (dels : List IndexKey) :
    (match t.setF f okey env with
      | (some e, t2) => (Outcome.error e, t2)
      | (none, t2) => deleteIndexKeysF f t2 dels)
      = (storeEnd (issueAll f t (Op.set okey env :: dels.map Op.delete)).1,
         (issueAll f t (Op.set okey env :: dels.map Op.delete)).2) := by
  unfold issueAll
  simp only [Tx.issue]
  cases hd : t.setF f okey env with
  | mk r t1 =>
    cases r with
    | some e => rfl
    | none => exact deleteIndexKeysF_issueAll f dels t1

theorem store_calls_issueAll (f : Faults) (adds : List IndexKey) (t : Tx) (okey env : Str)
    (dels : List IndexKey) :
    (match setIndexKeysF f t adds with
      | (some e, t1) => (Outcome.error e, t1)
      | (none, t1) =>
        match t1.setF f okey env with
        | (some e, t2) => (Outcome.error e, t2)
        | (none, t2) => deleteIndexKeysF f t2 dels)
      = (storeEnd (issueAll f t
            (adds.map (fun i => Op.set i []) ++ Op.set okey env :: dels.map Op.delete)).1,
         (issueAll f t
            (adds.map (fun i => Op.set i []) ++ Op.set okey env :: dels.map Op.delete)).2) := by
  induction adds generalizing t with
  | nil => exact store_tail_issueAll f t okey env dels
  | cons a rest ih =>
    simp only [List.map_cons, List.cons_append]
    unfold setIndexKeysF issueAll
    simp only [Tx.issue]
    cases hd : t.setF f a [] with
    | mk r t1 =>
      cases r with
      | some e => rfl
      | none => exact ih t1

theorem storeOps_cons (c : Gob) (okey : ObjectKey) (cur : Value) (adds dels : List IndexKey) :
    storeOps c okey cur adds dels
      = adds.map (fun i => Op.set i []) ++ Op.set okey (c.encode cur) :: dels.map Op.delete := by
  simp [storeOps]

/-- A `Delete` occurs in a beginning of the calls of `Store` only after all
the additions and the envelope, and the envelope only after all the
additions. -/
theorem storeOps_take_order (c : Gob) (okey : ObjectKey) (cur : Value)
    (adds dels : List IndexKey) (n : Nat) :
    (∀ d, Op.delete d ∈ (storeOps c okey cur adds dels).take n →
      adds.map (fun i => Op.set i []) ++ [Op.set okey (c.encode cur)]
        <+: (storeOps c okey cur adds dels).take n) ∧
    (Op.set okey (c.encode cur) ∈ (storeOps c okey cur adds dels).take n →
      adds.map (fun i => Op.set i []) <+: (storeOps c okey cur adds dels).take n) := by
  constructor
  · intro d hd
    unfold storeOps at hd ⊢
    rw [List.take_append_eq_append_take] at hd ⊢
    rcases List.mem_append.mp hd with h | h
    · have := List.mem_of_mem_take h
      simp at this
    · have hpos : 0 < n - (adds.map (fun i => Op.set i []) ++
          [Op.set okey (c.encode cur)]).length := by
        by_contra hh
        have : n - (adds.map (fun i => Op.set i []) ++
          [Op.set okey (c.encode cur)]).length = 0 := by omega
        rw [this] at h
        simp at h
      rw [List.take_of_length_le (by omega)]
      exact List.prefix_append _ _
  · intro hd
    rw [storeOps_cons] at hd ⊢
    rw [List.take_append_eq_append_take] at hd ⊢
    rcases List.mem_append.mp hd with h | h
    · have := List.mem_of_mem_take h
      simp only [List.mem_map, Op.set.injEq] at this
      obtain ⟨i, _, _, h2⟩ := this
      exact absurd h2.symm (encode_ne_nil c cur)
    · have hpos : 0 < n - (adds.map (fun i => Op.set i [])).length := by
        by_contra hh
        have : n - (adds.map (fun i => Op.set i [])).length = 0 := by omega
        rw [this] at h
        simp at h
      rw [List.take_of_length_le (by omega)]
      exact List.prefix_append _ _

/-! ## The order of the writes of `Store` -/

/-- C1 (amended). Once validation has passed (valid key, registered type,
parseable old envelope, envelope built), and when the index keys of the old
envelope are in ascending order, `Store` issues these calls in this order: one
`Set` with the empty value for each index key of the new envelope that is not
in the old one, the `Set` of the object key to the new envelope, one `Delete`
for each index key of the old envelope that is not in the new one; it stops at
the first call the key-value transaction answers with an error, which it
returns, except that it panics when that call is a `Delete` answered with
`os.ErrNotExist`; when no call is answered with an error it issues them all and
returns `nil`. So the calls issued are the first `n` of the list, a `Delete`
is among them only after all the additions and the envelope, and the envelope
only after all the additions. -/
theorem Store_issues_calls_in_order (c : Gob) (g : Registry) (f : Faults) (t : Tx)
    (key : Str) (ob : Object) (okey : ObjectKey) (datatype : DataType) (old cur : Value)
    (hkey : NewObjectKey key = .ok okey) (htype : GetDataType g ob = .ok datatype)
    (hold : oldValue c t okey = .ok old) (hcur : NewValue c g okey ob datatype = .ok cur)
    (hsorted : old.IndexKeys.Sorted (· ≤ ·)) :
    Tx.StoreF c g f t key ob
      = (storeEnd (issueAll f t (storeOps c okey cur
            (cur.IndexKeys.filter (fun k => decide (k ∉ old.IndexKeys)))
            (old.IndexKeys.filter (fun k => decide (k ∉ cur.IndexKeys))))).1,
         (issueAll f t (storeOps c okey cur
            (cur.IndexKeys.filter (fun k => decide (k ∉ old.IndexKeys)))
            (old.IndexKeys.filter (fun k => decide (k ∉ cur.IndexKeys))))).2) ∧
    ∃ n, n ≤ (storeOps c okey cur
          (cur.IndexKeys.filter (fun k => decide (k ∉ old.IndexKeys)))
          (old.IndexKeys.filter (fun k => decide (k ∉ cur.IndexKeys)))).length ∧
      (Tx.StoreF c g f t key ob).2.log = t.log ++ (storeOps c okey cur
          (cur.IndexKeys.filter (fun k => decide (k ∉ old.IndexKeys)))
          (old.IndexKeys.filter (fun k => decide (k ∉ cur.IndexKeys)))).take n ∧
      ((Tx.StoreF c g f t key ob).1 = Outcome.ok →
        n = (storeOps c okey cur
          (cur.IndexKeys.filter (fun k => decide (k ∉ old.IndexKeys)))
          (old.IndexKeys.filter (fun k => decide (k ∉ cur.IndexKeys)))).length) ∧
      (∀ d, Op.delete d ∈ (storeOps c okey cur
          (cur.IndexKeys.filter (fun k => decide (k ∉ old.IndexKeys)))
          (old.IndexKeys.filter (fun k => decide (k ∉ cur.IndexKeys)))).take n →
        (cur.IndexKeys.filter (fun k => decide (k ∉ old.IndexKeys))).map (fun i => Op.set i [])
            ++ [Op.set okey (c.encode cur)]
          <+: (storeOps c okey cur
            (cur.IndexKeys.filter (fun k => decide (k ∉ old.IndexKeys)))
            (old.IndexKeys.filter (fun k => decide (k ∉ cur.IndexKeys)))).take n) ∧
      (Op.set okey (c.encode cur) ∈ (storeOps c okey cur
          (cur.IndexKeys.filter (fun k => decide (k ∉ old.IndexKeys)))
          (old.IndexKeys.filter (fun k => decide (k ∉ cur.IndexKeys)))).take n →
        (cur.IndexKeys.filter (fun k => decide (k ∉ old.IndexKeys))).map (fun i => Op.set i [])
          <+: (storeOps c okey cur
            (cur.IndexKeys.filter (fun k => decide (k ∉ old.IndexKeys)))
            (old.IndexKeys.filter (fun k => decide (k ∉ cur.IndexKeys)))).take n) := by
  have hrun : Tx.StoreF c g f t key ob
      = (storeEnd (issueAll f t (storeOps c okey cur
            (cur.IndexKeys.filter (fun k => decide (k ∉ old.IndexKeys)))
            (old.IndexKeys.filter (fun k => decide (k ∉ cur.IndexKeys))))).1,
         (issueAll f t (storeOps c okey cur
            (cur.IndexKeys.filter (fun k => decide (k ∉ old.IndexKeys)))
            (old.IndexKeys.filter (fun k => decide (k ∉ cur.IndexKeys))))).2) := by
    rw [storeOps_cons, ← store_calls_issueAll]
    simp only [Tx.StoreF, hkey, htype, hold, hcur]
    rw [DiffIndexKeys_additions _ _ hsorted,
      DiffIndexKeys_deletions _ _ (NewValue_sorted hcur).1]
  refine ⟨hrun, ?_⟩
  obtain ⟨n, h1, h2, h3⟩ := issueAll_log f (storeOps c okey cur
      (cur.IndexKeys.filter (fun k => decide (k ∉ old.IndexKeys)))
      (old.IndexKeys.filter (fun k => decide (k ∉ cur.IndexKeys)))) t
  have hord := storeOps_take_order c okey cur
      (cur.IndexKeys.filter (fun k => decide (k ∉ old.IndexKeys)))
      (old.IndexKeys.filter (fun k => decide (k ∉ cur.IndexKeys))) n
  refine ⟨n, h1, ?_, ?_, hord.1, hord.2⟩
  · rw [hrun]
    exact h2
  · intro hok
    rw [hrun] at hok
    exact h3 (storeEnd_ok hok)

set_option maxRecDepth 100000 in
/-- Witness of `Store_issues_calls_in_order`: `Store("/k", &P{A: 1, B: 3})` over
the stored `P{A: 1, B: 2}`, with a backend that answers the third call of
`Store`, the `Delete` of the index key of `B = 2`, with an error: `Store`
returns it after the three calls. -/
theorem Store_issues_calls_in_order_witness :
    (NewObjectKey (lit "/k") = .ok (lit "/ob/k") ∧
      oldValue fixtureGob pairTx (lit "/ob/k") = .ok pairEnvelope ∧
      NewValue fixtureGob fixtureRegistry (lit "/ob/k") (pair 1 3) pairType = .ok pairEnvelope3 ∧
      storeOps fixtureGob (lit "/ob/k") pairEnvelope3
          (pairEnvelope3.IndexKeys.filter (fun k => decide (k ∉ pairEnvelope.IndexKeys)))
          (pairEnvelope.IndexKeys.filter (fun k => decide (k ∉ pairEnvelope3.IndexKeys)))
        = [Op.set (lit "/ix/P/B/3/ob/k") [],
           Op.set (lit "/ob/k") (fixtureGob.encode pairEnvelope3),
           Op.delete (lit "/ix/P/B/2/ob/k")] ∧
      (Tx.StoreF fixtureGob fixtureRegistry (failAt 5 Err.invalid) pairTx (lit "/k")
        (pair 1 3)).1 = Outcome.error Err.invalid) ∧
    Tx.StoreF fixtureGob fixtureRegistry (failAt 5 Err.invalid) pairTx (lit "/k") (pair 1 3)
      = (storeEnd (issueAll (failAt 5 Err.invalid) pairTx (storeOps fixtureGob (lit "/ob/k")
            pairEnvelope3
            (pairEnvelope3.IndexKeys.filter (fun k => decide (k ∉ pairEnvelope.IndexKeys)))
            (pairEnvelope.IndexKeys.filter (fun k => decide (k ∉ pairEnvelope3.IndexKeys))))).1,
         (issueAll (failAt 5 Err.invalid) pairTx (storeOps fixtureGob (lit "/ob/k")
            pairEnvelope3
            (pairEnvelope3.IndexKeys.filter (fun k => decide (k ∉ pairEnvelope.IndexKeys)))
            (pairEnvelope.IndexKeys.filter (fun k => decide (k ∉ pairEnvelope3.IndexKeys))))).2) :=
  ⟨by decide,
   (Store_issues_calls_in_order fixtureGob fixtureRegistry (failAt 5 Err.invalid) pairTx
    (lit "/k") (pair 1 3) (lit "/ob/k") pairType pairEnvelope pairEnvelope3 (by decide) rfl
    (by decide) (by decide) (by decide)).1⟩

set_option maxRecDepth 100000 in
/-- C1, as stated, fails in two ways. When the old envelope lists its index
keys out of order, `Store` issues a `Set` for index keys that are in the old
envelope. And the calls are not all issued when one of them fails: on a store
whose envelope lists an index key that is absent, `Store` panics at the first
`Delete` and never issues the second; and when the backend answers the first
`Set` with an error, `Store` returns that error and issues nothing more. -/
theorem Store_call_sequence_counterexample :
    (oldValue fixtureGob unsortedTx (lit "/ob/k") = .ok unsortedEnvelope ∧
      NewValue fixtureGob fixtureRegistry (lit "/ob/k") (pair 1 2) pairType = .ok pairEnvelope ∧
      (Tx.StoreF fixtureGob fixtureRegistry reliable unsortedTx (lit "/k") (pair 1 2)).1
        = Outcome.ok ∧
      (Tx.StoreF fixtureGob fixtureRegistry reliable unsortedTx (lit "/k") (pair 1 2)).2.log
        = [Op.set (lit "/ix/P/A/1/ob/k") [], Op.set (lit "/ix/P/B/2/ob/k") [],
           Op.set (lit "/ob/k") (fixtureGob.encode pairEnvelope)] ∧
      lit "/ix/P/A/1/ob/k" ∈ unsortedEnvelope.IndexKeys ∧
      lit "/ix/P/B/2/ob/k" ∈ unsortedEnvelope.IndexKeys) ∧
    (oldValue fixtureGob danglingTx (lit "/ob/k") = .ok pairEnvelope ∧
      NewValue fixtureGob fixtureRegistry (lit "/ob/k") (pair 3 4) pairType
        = .ok pairEnvelope34 ∧
      (Tx.StoreF fixtureGob fixtureRegistry reliable danglingTx (lit "/k") (pair 3 4)).1
        = Outcome.panic ∧
      (Tx.StoreF fixtureGob fixtureRegistry reliable danglingTx (lit "/k") (pair 3 4)).2.log
        = [Op.set (lit "/ix/P/A/3/ob/k") [], Op.set (lit "/ix/P/B/4/ob/k") [],
           Op.set (lit "/ob/k") (fixtureGob.encode pairEnvelope34),
           Op.delete (lit "/ix/P/A/1/ob/k")] ∧
      lit "/ix/P/B/2/ob/k" ∈ pairEnvelope.IndexKeys ∧
      lit "/ix/P/B/2/ob/k" ∉ pairEnvelope34.IndexKeys) ∧
    (oldValue fixtureGob pairTx (lit "/ob/k") = .ok pairEnvelope ∧
      NewValue fixtureGob fixtureRegistry (lit "/ob/k") (pair 1 3) pairType = .ok pairEnvelope3 ∧
      pairTx.log.length = 3 ∧
      (Tx.StoreF fixtureGob fixtureRegistry (failAt 3 Err.invalid) pairTx (lit "/k")
        (pair 1 3)).1 = Outcome.error Err.invalid ∧
      (Tx.StoreF fixtureGob fixtureRegistry (failAt 3 Err.invalid) pairTx (lit "/k")
        (pair 1 3)).2.log = pairTx.log ++ [Op.set (lit "/ix/P/B/3/ob/k") []] ∧
      (Tx.StoreF fixtureGob fixtureRegistry (failAt 3 Err.invalid) pairTx (lit "/k")
        (pair 1 3)).2.kv = pairTx.kv) := by
  decide

/-! ## `Delete` on the reachable stores -/

theorem ParseValue_of_keys_parse (c : Gob) (e : Value)
    (ho : ∃ o, ParseObjectKey e.ObjectKey = .ok o)
    (hall : ∀ ik ∈ e.IndexKeys, ∃ k, ParseIndexKey ik = .ok k) :
    ParseValue c (c.encode e) = .ok e := by
  obtain ⟨o, ho⟩ := ho
  unfold ParseValue
  rw [c.decode_encode]
  dsimp only
  rw [ho, (parseIndexKeysAll_iff _).mpr hall]

theorem EnvelopeInv_empty (c : Gob) : EnvelopeInv c [] := by
  intro k s h
  simp [kvGet] at h

theorem EnvelopeInv_set {c : Gob} {kv : KV} (hinv : EnvelopeInv c kv) {key : Str}
    {okey : ObjectKey} (hkey : NewObjectKey key = .ok okey) (value : Str) :
    EnvelopeInv c (kvSet kv okey (c.encode (NewStringValue okey value))) := by
  intro k s hs
  rw [kvGet_set] at hs
  by_cases hk : k = okey
  · simp only [hk, if_true] at hs
    injection hs with hs
    right
    refine ⟨NewStringValue okey value, ?_⟩
    rw [← hs]
    exact ParseValue_of_keys_parse c _ ⟨okey, ParseObjectKey_NewObjectKey hkey⟩
      (by simp [NewStringValue])
  · simp only [hk, if_false] at hs
    exact hinv k s hs

theorem EnvelopeInv_Store {c : Gob} {g : Registry} {t : Tx} (hinv : EnvelopeInv c t.kv)
    (hg : g.fieldNamesAreIdentifiers) (key : Str) (ob : Object)
    (hok : (Tx.Store c g t key ob).1 = Outcome.ok) :
    EnvelopeInv c (Tx.Store c g t key ob).2.kv := by
  cases hkey : NewObjectKey key with
  | error e => simp [Tx.Store, hkey] at hok
  | ok okey =>
    cases hd : GetDataType g ob with
    | error e => simp [Tx.Store, hkey, hd] at hok
    | ok datatype =>
      cases ho : oldValue c t okey with
      | error e => simp [Tx.Store, hkey, hd, ho] at hok
      | ok old =>
        cases hn : NewValue c g okey ob datatype with
        | error e => simp [Tx.Store, hkey, hd, ho, hn] at hok
        | ok cur =>
          obtain ⟨e, he, hed⟩ := GetDataType_mem hd
          have hnames : ∀ f ∈ datatype.indexFields, isIdentifier f.name = true := by
            intro f hf
            rw [← hed] at hf
            exact hg e he f hf
          have hwf := NewValue_wellFormed hkey hnames hn
          have hcurkey := (NewValue_sorted hn).2
          obtain ⟨issued, _, _, _, hkv, hall, _⟩ := Store_run c g t key ob hkey hd ho hn
          have hiss := hall hok
          intro k s hs
          rw [hkv, hiss, kvGet_storeOps] at hs
          by_cases h1 : k ∈ (DiffIndexKeys old.IndexKeys cur.IndexKeys).1
          · simp [h1] at hs
          · by_cases h2 : k = okey
            · have h1o : okey ∉ (DiffIndexKeys old.IndexKeys cur.IndexKeys).1 := h2 ▸ h1
              simp only [h2, h1o, if_true, if_false] at hs
              injection hs with hs
              right
              refine ⟨cur, ?_⟩
              rw [← hs]
              apply ParseValue_of_keys_parse
              · exact ⟨okey, by rw [hcurkey]; exact ParseObjectKey_NewObjectKey hkey⟩
              · intro ik hik
                exact ⟨ik, NewValue_keys_parse hkey hn ik hik⟩
            · by_cases h3 : k ∈ (DiffIndexKeys old.IndexKeys cur.IndexKeys).2
              · simp only [h1, h2, h3, if_true, if_false] at hs
                injection hs with hs
                left
                refine ⟨hs.symm, ?_⟩
                have hmem : k ∈ cur.IndexKeys := by
                  simp only [DiffIndexKeys, List.mem_filter] at h3
                  exact h3.1
                exact (hwf.2 k hmem).1
              · simp only [h1, h2, h3, if_false] at hs
                exact hinv k s hs

theorem EnvelopeInv_Delete {c : Gob} {t : Tx} (hinv : EnvelopeInv c t.kv) (key : Str)
    (hok : (Tx.Delete c t key).1 = Outcome.ok) :
    EnvelopeInv c (Tx.Delete c t key).2.kv := by
  cases hkey : NewObjectKey key with
  | error e => simp [Tx.Delete, hkey] at hok
  | ok okey =>
    cases hs : kvGet t.kv okey with
    | none => simp [Tx.Delete, hkey, hs] at hok
    | some s =>
      cases hv : ParseValue c s with
      | error e => simp [Tx.Delete, hkey, hs, hv] at hok
      | ok v =>
        obtain ⟨_, h2, _⟩ := (Delete_run c t key okey hkey).2 s v hs hv
        obtain ⟨_, g1, g2, g3, _⟩ := h2 hok
        intro k s2 hs2
        by_cases h1 : k = okey
        · rw [h1, g1] at hs2
          exact absurd hs2 (by simp)
        · by_cases h3 : k ∈ v.IndexKeys
          · rw [g2 k h3] at hs2
            exact absurd hs2 (by simp)
          · rw [g3 k h1 h3] at hs2
            exact hinv k s2 hs2

/-- In every reachable store, a value is the empty value of a key of the index
keyspace or an envelope that `ParseValue` accepts. -/
theorem Reachable_EnvelopeInv {c : Gob} {t : Tx} (h : Reachable c t) : EnvelopeInv c t.kv := by
  induction h with
  | empty => exact EnvelopeInv_empty c
  | step g t call hg _ hok ih =>
    cases call with
    | set key value =>
      simp only [runCall] at hok ⊢
      unfold Tx.Set at hok ⊢
      cases hkey : NewObjectKey key with
      | error e => rw [hkey] at hok; simp at hok
      | ok okey =>
        simp only [Tx.set]
        exact EnvelopeInv_set ih hkey value
    | store key ob =>
      simp only [runCall] at hok ⊢
      exact EnvelopeInv_Store ih hg key ob hok
    | delete key =>
      simp only [runCall] at hok ⊢
      exact EnvelopeInv_Delete ih key hok

/-- C9 (amended). On a store reachable from the empty store by `Set`, `Store`
and `Delete` calls that returned `nil` (under registries whose index fields are
named by identifiers, as the fields of Go structs are): `Delete(key)` on a key
at which nothing
is stored returns `os.ErrNotExist` and changes nothing; what is stored at a key
is an envelope, and when the key-value transaction answers the `Delete` of the
object key and of the index keys the envelope lists with no error of its own,
`Delete(key)` returns `nil` after issuing these calls, the envelope and every
index key it lists are removed, every other entry is unchanged, and a
following `Get(key)` returns `os.ErrNotExist`. -/
theorem Delete_on_reachable_store (c : Gob) (f : Faults) (t : Tx) (key : Str)
    (okey : ObjectKey) (hreach : Reachable c t) (hkey : NewObjectKey key = .ok okey) :
    (kvGet t.kv okey = none → Tx.DeleteF c f t key = (Outcome.error Err.notExist, t)) ∧
    (∀ s, kvGet t.kv okey = some s → ∃ v, ParseValue c s = .ok v ∧
      ((∀ i, i ≤ v.IndexKeys.length → f (t.log.length + i) = none) →
        (Tx.DeleteF c f t key).1 = Outcome.ok ∧
        (Tx.DeleteF c f t key).2.log = t.log ++ Op.delete okey :: v.IndexKeys.map Op.delete ∧
        kvGet (Tx.DeleteF c f t key).2.kv okey = none ∧
        (∀ ik ∈ v.IndexKeys, kvGet (Tx.DeleteF c f t key).2.kv ik = none) ∧
        (∀ q, q ≠ okey → q ∉ v.IndexKeys →
          kvGet (Tx.DeleteF c f t key).2.kv q = kvGet t.kv q) ∧
        Tx.Get c (Tx.DeleteF c f t key).2 key = .error Err.notExist)) := by
  have hinv := Reachable_StoreInv hreach
  have henv := Reachable_EnvelopeInv hreach
  have hob := NewObjectKey_ob hkey
  constructor
  · intro h
    simp [Tx.DeleteF, hkey, h]
  · intro s hs
    rcases henv okey s hs with ⟨_, hix⟩ | ⟨v, hv⟩
    · exact absurd rfl (ix_ne_ob hix hob)
    · refine ⟨v, hv, ?_⟩
      intro hquiet
      rw [DeleteF_quiet c f t key hkey hs hv hquiet]
      obtain ⟨_, _, hobv, hwf, hpres⟩ := StoreInv_envelope hinv hs (ParseValue_decode hv)
      obtain ⟨_, h2, h3⟩ := (Delete_run c t key okey hkey).2 s v hs hv
      have hok : (Tx.Delete c t key).1 = Outcome.ok := by
        apply h3 hwf.1
        · intro hmem
          exact ix_ne_ob (hwf.2 okey hmem).1 hob rfl
        · intro ik hik
          rw [hpres ik hik]
          simp
      exact ⟨hok, h2 hok⟩

set_option maxRecDepth 100000 in
/-- Witness of `Delete_on_reachable_store`: `Delete("/k")` on the store that
holds `P{A: 1, B: 2}` at `/k` after one `Store`, with a backend that answers
the three calls of this `Delete` with no error and a later call with an
error. -/
theorem Delete_on_reachable_store_witness :
    Reachable fixtureGob pairTx ∧ NewObjectKey (lit "/k") = .ok (lit "/ob/k") ∧
    kvGet pairTx.kv (lit "/ob/k") = some (fixtureGob.encode pairEnvelope) ∧
    (Tx.DeleteF fixtureGob (failAt 6 Err.invalid) pairTx (lit "/k")).1 = Outcome.ok ∧
    (Tx.DeleteF fixtureGob (failAt 6 Err.invalid) pairTx (lit "/k")).2.log
      = pairTx.log ++ Op.delete (lit "/ob/k") :: pairEnvelope.IndexKeys.map Op.delete ∧
    kvGet (Tx.DeleteF fixtureGob (failAt 6 Err.invalid) pairTx (lit "/k")).2.kv (lit "/ob/k")
      = none ∧
    (∀ ik ∈ pairEnvelope.IndexKeys,
      kvGet (Tx.DeleteF fixtureGob (failAt 6 Err.invalid) pairTx (lit "/k")).2.kv ik = none) ∧
    Tx.Get fixtureGob (Tx.DeleteF fixtureGob (failAt 6 Err.invalid) pairTx (lit "/k")).2
      (lit "/k") = .error Err.notExist := by
  obtain ⟨v, hv, h⟩ := (Delete_on_reachable_store fixtureGob (failAt 6 Err.invalid) pairTx
    (lit "/k") (lit "/ob/k") pairTx_reachable (by decide)).2
    (fixtureGob.encode pairEnvelope) (by decide)
  have hv2 : ParseValue fixtureGob (fixtureGob.encode pairEnvelope) = .ok pairEnvelope := by
    decide
  rw [hv2] at hv
  injection hv with hv
  subst hv
  have hlen : pairTx.log.length = 3 := by decide
  have hquiet : ∀ i, i ≤ pairEnvelope.IndexKeys.length →
      failAt 6 Err.invalid (pairTx.log.length + i) = none := by
    intro i hi
    have hi2 : i ≤ 2 := hi
    rw [hlen]
    unfold failAt
    rw [if_neg (by omega)]
  obtain ⟨h1, h2, h3, h4, _, h6⟩ := h hquiet
  exact ⟨pairTx_reachable, by decide, by decide, h1, h2, h3, h4, h6⟩

set_option maxRecDepth 100000 in
/-- C9, as stated, fails in two ways. On a store put together by hand, whose
envelope at `/ob/k` lists an index key that is absent, `Delete("/k")` panics
after the `Delete` of the object key and of the absent index key, and the other
index key the envelope lists is still there. And on the store after
`Store("/k", &P{A: 1, B: 2})`, when the backend answers the second `Delete`
with an error, `Delete("/k")` returns that error: the envelope is gone and both
index keys it listed are still there. -/
theorem Delete_leaves_listed_index_key_counterexample :
    (NewObjectKey (lit "/k") = .ok (lit "/ob/k") ∧
      kvGet danglingTx.kv (lit "/ob/k") = some (fixtureGob.encode pairEnvelope) ∧
      ParseValue fixtureGob (fixtureGob.encode pairEnvelope) = .ok pairEnvelope ∧
      lit "/ix/P/B/2/ob/k" ∈ pairEnvelope.IndexKeys ∧
      (Tx.DeleteF fixtureGob reliable danglingTx (lit "/k")).1 = Outcome.panic ∧
      (Tx.DeleteF fixtureGob reliable danglingTx (lit "/k")).2.log
        = [Op.delete (lit "/ob/k"), Op.delete (lit "/ix/P/A/1/ob/k")] ∧
      kvGet (Tx.DeleteF fixtureGob reliable danglingTx (lit "/k")).2.kv (lit "/ix/P/B/2/ob/k")
        = some []) ∧
    (kvGet pairTx.kv (lit "/ob/k") = some (fixtureGob.encode pairEnvelope) ∧
      pairTx.log.length = 3 ∧
      (Tx.DeleteF fixtureGob (failAt 4 Err.invalid) pairTx (lit "/k")).1
        = Outcome.error Err.invalid ∧
      kvGet (Tx.DeleteF fixtureGob (failAt 4 Err.invalid) pairTx (lit "/k")).2.kv (lit "/ob/k")
        = none ∧
      kvGet (Tx.DeleteF fixtureGob (failAt 4 Err.invalid) pairTx (lit "/k")).2.kv
        (lit "/ix/P/A/1/ob/k") = some [] ∧
      kvGet (Tx.DeleteF fixtureGob (failAt 4 Err.invalid) pairTx (lit "/k")).2.kv
        (lit "/ix/P/B/2/ob/k") = some []) := by
  decide

/-! ## A call that returns `nil` met no error of the backend -/

theorem setF_none {f : Faults} {t t1 : Tx} {k v : Str} (h : t.setF f k v = (none, t1)) :
    t1 = t.set k v := by
  unfold Tx.setF at h
  cases hf : f t.log.length with
  | some e => rw [hf] at h; simp at h
  | none =>
    rw [hf] at h
    simp only [Prod.mk.injEq, true_and] at h
    exact h.symm

theorem setIndexKeysF_none {f : Faults} (l : List IndexKey) {t t1 : Tx}
    (h : setIndexKeysF f t l = (none, t1)) : t1 = setIndexKeys t l := by
  induction l generalizing t with
  | nil =>
    simp only [setIndexKeysF, Prod.mk.injEq, true_and] at h
    exact h.symm
  | cons a rest ih =>
    unfold setIndexKeysF at h
    unfold setIndexKeys
    cases hs : t.setF f a [] with
    | mk r t2 =>
      rw [hs] at h
      cases r with
      | some e => simp at h
      | none =>
        dsimp only at h
        rw [← setF_none hs]
        exact ih h

theorem deleteIndexKeysF_ok {f : Faults} (l : List IndexKey) (t : Tx)
    (h : (deleteIndexKeysF f t l).1 = Outcome.ok) :
    deleteIndexKeysF f t l = deleteIndexKeys t l := by
  induction l generalizing t with
  | nil => rfl
  | cons k rest ih =>
    unfold deleteIndexKeysF at h ⊢
    unfold deleteIndexKeys
    cases hf : f t.log.length with
    | some e =>
      simp only [Tx.deleteF, hf] at h
      split at h <;> simp at h
    | none =>
      rw [deleteF_quiet hf] at h ⊢
      cases hd : t.delete k with
      | mk b t2 =>
        rw [hd] at h
        cases b with
        | false => simp at h
        | true =>
          simp only [if_true] at h ⊢
          exact ih t2 h

/-- A `Set` that returns `nil` has the effect of `Tx.Set`. -/
theorem SetF_ok (c : Gob) (f : Faults) (t : Tx) (key value : Str)
    (h : (Tx.SetF c f t key value).1 = Outcome.ok) :
    Tx.SetF c f t key value = Tx.Set c t key value := by
  unfold Tx.SetF at h ⊢
  unfold Tx.Set
  cases hkey : NewObjectKey key with
  | error e => rfl
  | ok okey =>
    rw [hkey] at h
    dsimp only at h ⊢
    cases hs : t.setF f okey (c.encode (NewStringValue okey value)) with
    | mk r t1 =>
      rw [hs] at h
      cases r with
      | some e => simp at h
      | none =>
        dsimp only
        rw [setF_none hs]

/-- A `Store` that returns `nil` has the effect of `Tx.Store`. -/
theorem StoreF_ok (c : Gob) (g : Registry) (f : Faults) (t : Tx) (key : Str) (ob : Object)
    (h : (Tx.StoreF c g f t key ob).1 = Outcome.ok) :
    Tx.StoreF c g f t key ob = Tx.Store c g t key ob := by
  unfold Tx.StoreF at h ⊢
  unfold Tx.Store
  cases hkey : NewObjectKey key with
  | error e => rfl
  | ok okey =>
    rw [hkey] at h
    dsimp only at h ⊢
    cases hd : GetDataType g ob with
    | error e => rfl
    | ok datatype =>
      rw [hd] at h
      dsimp only at h ⊢
      cases ho : oldValue c t okey with
      | error e => rfl
      | ok old =>
        rw [ho] at h
        dsimp only at h ⊢
        cases hn : NewValue c g okey ob datatype with
        | error e => rfl
        | ok cur =>
          rw [hn] at h
          dsimp only at h ⊢
          cases h1 : setIndexKeysF f t (DiffIndexKeys old.IndexKeys cur.IndexKeys).2 with
          | mk r t1 =>
            rw [h1] at h
            cases r with
            | some e => simp at h
            | none =>
              dsimp only at h ⊢
              have e1 := setIndexKeysF_none _ h1
              cases h2 : t1.setF f okey (c.encode cur) with
              | mk r2 t2 =>
                rw [h2] at h
                cases r2 with
                | some e => simp at h
                | none =>
                  dsimp only at h ⊢
                  have e2 := setF_none h2
                  rw [deleteIndexKeysF_ok _ _ h, e2, e1]

/-- A `Delete` that returns `nil` has the effect of `Tx.Delete`. -/
theorem DeleteF_ok (c : Gob) (f : Faults) (t : Tx) (key : Str)
    (h : (Tx.DeleteF c f t key).1 = Outcome.ok) :
    Tx.DeleteF c f t key = Tx.Delete c t key := by
  unfold Tx.DeleteF at h ⊢
  unfold Tx.Delete
  cases hkey : NewObjectKey key with
  | error e => rfl
  | ok okey =>
    rw [hkey] at h
    dsimp only at h ⊢
    cases hs : kvGet t.kv okey with
    | none => rfl
    | some s =>
      rw [hs] at h
      dsimp only at h ⊢
      cases hv : ParseValue c s with
      | error e => rfl
      | ok v =>
        rw [hv] at h
        dsimp only at h ⊢
        cases hf : f t.log.length with
        | some e =>
          simp only [Tx.deleteF, hf] at h
          simp at h
        | none =>
          rw [deleteF_quiet hf] at h ⊢
          cases hd : t.delete okey with
          | mk b t1 =>
            rw [hd] at h
            cases b with
            | false => simp at h
            | true =>
              simp only [if_true] at h ⊢
              exact deleteIndexKeysF_ok _ _ h

/-! ## `Register` on the nil interface -/

/-- C20 fails on the code at the nil interface: `Register("Employee", nil)`
in a process that has registered nothing panics, although `nil` is neither a
struct nor a pointer to a struct, for which the claim promises
`InvalidArgument`, the error a sample of any other type gets. (When the name is
registered already, the call returns `AlreadyExists` before it looks at the
sample.) -/
theorem Register_nil_sample_panics :
    (RegisterAny fixtureEnv emptyRegistry (lit "Employee") none).1 = Outcome.panic ∧
    (RegisterAny fixtureEnv emptyRegistry (lit "Employee") (some Object.other)).1
      = Outcome.error Err.invalid ∧
    (RegisterAny fixtureEnv employeeRegistry (lit "Employee") none).1
      = Outcome.error Err.exist ∧
    (RegisterAny fixtureEnv employeeRegistry (lit "EmployeeV2") none).1 = Outcome.panic := by
  decide

end Kodb
